import Mathlib

/-!
# ICTSync: a shallow embedding of the vector state, the pending interest table and the engine

The C++ class `ict::ICTVectorState` (`ict-vector-state.{hpp,cpp}`) keeps a
vector of nodes `(dataPrefix_, sessionNo_, sequenceNo_, userDigest_)` sorted by
`(dataPrefix_, sessionNo_)` together with the string `vectorRoot_`. The class
`ict::InterestList` (`pending-interests.{hpp,cpp}`) keeps the interests that
could not be answered, and `ict::ICTSync::Impl` (`ictsync.{hpp,cpp}`) is the
engine that reacts to interests, data packets, timeouts and timer ticks.

Conventions of the embedding:

* a `std::string` is the list of its octets, one `Char` per octet (`Str`);
* a C++ `int` is an `Int`; callers pass values of the 32-bit range (`isInt`);
* a `uint32_t` is a `Nat`; the conversions `int → uint32_t` and `uint32_t → int`
  are `toUInt32` and `toInt32`, written out wherever the C++ code converts;
* a `uint8_t` element of `positiveLocalIndexes` is a `Nat` reduced `% 256`;
* a `shared_ptr<Node>` is the node value; the vector is a `List Node`;
* a member function that mutates the object returns the new object;
* the library functions the code calls (`std::to_string`, `std::string::compare`,
  `std::lower_bound`, `std::vector::insert`, the Boost.Spirit parsers `qi::int_`,
  `>>` and `%`, `std::stoi`, `std::map`, and of ndn-cxx `Name::get`,
  `Name::append`, `Name::isPrefixOf` and `Component::toUri`) are modelled by
  their documented behaviour;
* a `long` of milliseconds is an `Int`, a sum of two wraps at 2^63 (`toLong`);
  the clock is read once in each callback and passed as `now`;
* the engine records the calls it makes on the face, the scheduler and the
  application callbacks in the list `calls_`; a data packet carries the message
  it was serialized from, signing is left out, and `face.put` succeeds;
* a function whose C++ behaviour is undefined or that leaves by an exception
  (`Name::get` or `get(i)` past the end, `std::stoi` without a number,
  `content.Get(0)` on an empty message, `find(...)->second` at `end()`) returns
  `none`.
-/

namespace ict

/-- A `std::string`: the list of its octets. -/
abbrev Str := List Char

/-- Smallest value of a 32-bit C++ `int`. -/
def INT_MIN : Int := -2147483648

/-- Largest value of a 32-bit C++ `int`. -/
def INT_MAX : Int := 2147483647

/-- The value fits a 32-bit C++ `int`. -/
def isInt (x : Int) : Prop := INT_MIN ≤ x ∧ x ≤ INT_MAX

instance (x : Int) : Decidable (isInt x) :=
  inferInstanceAs (Decidable (INT_MIN ≤ x ∧ x ≤ INT_MAX))

/-- Conversion `int → uint32_t` (value modulo 2^32). -/
def toUInt32 (x : Int) : Nat := (x % 4294967296).toNat

/-- Conversion `uint32_t → int` (two's complement). -/
def toInt32 (u : Nat) : Int := if u < 2147483648 then (u : Int) else (u : Int) - 4294967296

/-! ## `std::to_string(int)` and `std::string::compare` -/

/-- Decimal rendering of an `int`, as `std::to_string(int)` does it. -/
def to_string (v : Int) : Str :=
  if v < 0 then '-' :: Nat.toDigits 10 v.natAbs else Nat.toDigits 10 v.natAbs

/-- Sign of `std::string::compare`: lexicographic by octet value, a proper
prefix being smaller. -/
def strCompare : Str → Str → Int
  | [], [] => 0
  | [], _ :: _ => -1
  | _ :: _, [] => 1
  | a :: as, b :: bs =>
    if a.toNat < b.toNat then -1
    else if b.toNat < a.toNat then 1
    else strCompare as bs

/-! ## `fromHexChar` and `unescape` -/

/-- `fromHexChar`: the value of a hex digit, or -1 for any other octet. -/
def fromHexChar (c : Char) : Int :=
  if '0'.toNat ≤ c.toNat ∧ c.toNat ≤ '9'.toNat then (c.toNat : Int) - ('0'.toNat : Int)
  else if 'A'.toNat ≤ c.toNat ∧ c.toNat ≤ 'F'.toNat then (c.toNat : Int) - ('A'.toNat : Int) + 10
  else if 'a'.toNat ≤ c.toNat ∧ c.toNat ≤ 'f'.toNat then (c.toNat : Int) - ('a'.toNat : Int) + 10
  else -1

/-- `unescape`: the loop over `str`, one step per position `i`; `'%'` with at
least two octets after it (`i + 2 < str.size()`) is decoded or kept. -/
def unescape : Str → Str
  | [] => []
  | [c] => [c]
  | [c, d] => [c, d]
  | c :: c1 :: c2 :: rest =>
    if c = '%' then
      let hi := fromHexChar c1
      let lo := fromHexChar c2
      if hi < 0 ∨ lo < 0 then
        -- Invalid hex characters, so just keep the escaped string.
        c :: c1 :: c2 :: unescape rest
      else Char.ofNat (16 * hi + lo).toNat :: unescape rest
    else c :: unescape (c1 :: c2 :: rest)

/-! ## The Boost.Spirit grammar of `getDiff`

`qi::int_ >> ',' >> qi::int_` parsed into `std::tuple<uint32_t, uint32_t>`, and
the list `parse_into_tuple % ';'` parsed into a vector, with `qi::parse` (no
skipper). -/

/-- Value of a run of decimal digits. -/
def digitsValue (ds : List Char) : Nat :=
  ds.foldl (fun acc c => 10 * acc + (c.toNat - 48)) 0

/-- `qi::int_`: an optional sign, then the longest non-empty run of decimal
digits; the parser fails when the value does not fit an `int`. Gives the value
and the unconsumed input. -/
def qi_int (s : Str) : Option (Int × Str) :=
  match s with
  | [] => none
  | c :: cs =>
    let body := if c = '-' ∨ c = '+' then cs else s
    let ds := body.takeWhile Char.isDigit
    let rest := body.dropWhile Char.isDigit
    if ds = [] then none
    else
      let v : Int := if c = '-' then -(digitsValue ds : Int) else (digitsValue ds : Int)
      if INT_MIN ≤ v ∧ v ≤ INT_MAX then some (v, rest) else none

/-- The rule `parse_into_tuple = int_ >> ',' >> int_` with attribute
`tuple<uint32_t, uint32_t>`: each `int` is converted to `uint32_t`. -/
def parse_into_tuple (s : Str) : Option ((Nat × Nat) × Str) :=
  match qi_int s with
  | none => none
  | some (a, r1) =>
    match r1 with
    | ',' :: r2 =>
      match qi_int r2 with
      | some (b, r3) => some ((toUInt32 a, toUInt32 b), r3)
      | none => none
    | _ => none

/-- The repetition of the list parser `a % ';'` after a first element: as long
as `';'` and a further element follow, take them; otherwise stop in front of
the `';'`. One unit of fuel per element. -/
def parse_more : Nat → Str → List (Nat × Nat)
  | 0, _ => []
  | fuel + 1, s =>
    match s with
    | ';' :: r =>
      match parse_into_tuple r with
      | some (t, r') => t :: parse_more fuel r'
      | none => []
    | _ => []

/-- The rule `parse_into_vec = parse_into_tuple % ';'` run by `qi::parse`: the
vector `remoteVector` after the call (empty when the first element fails).
Every further element consumes at least one octet, so `s.length` is enough
fuel. -/
def parse_into_vec (s : Str) : List (Nat × Nat) :=
  match parse_into_tuple s with
  | none => []
  | some (t, r) => t :: parse_more r.length r

/-! ## `ICTVectorState::Node` -/

/-- The class `ICTVectorState::Node`. -/
structure Node where
  dataPrefix_ : Str
  sessionNo_ : Int
  sequenceNo_ : Int
  userDigest_ : Str
  deriving DecidableEq, Repr

namespace Node

/-- `Node::recomputeUserDigest`: `userDigest_ = "<sessionNo_>,<sequenceNo_>;"`. -/
def recomputeUserDigest (n : Node) : Node :=
  { n with userDigest_ := to_string n.sessionNo_ ++ [','] ++ to_string n.sequenceNo_ ++ [';'] }

/-- The constructor `Node(dataPrefix, sessionNo, sequenceNo)`. -/
def new (dataPrefix : Str) (sessionNo sequenceNo : Int) : Node :=
  recomputeUserDigest
    { dataPrefix_ := dataPrefix, sessionNo_ := sessionNo, sequenceNo_ := sequenceNo,
      userDigest_ := [] }

def getDataPrefix (n : Node) : Str := n.dataPrefix_

def getSessionNo (n : Node) : Int := n.sessionNo_

def getSequenceNo (n : Node) : Int := n.sequenceNo_

def getUserDigest (n : Node) : Str := n.userDigest_

/-- `Node::setSequenceNo`: stores the sequence number and recomputes the digest. -/
def setSequenceNo (n : Node) (sequenceNo : Int) : Node :=
  recomputeUserDigest { n with sequenceNo_ := sequenceNo }

/-- `Node::Compare::operator()`: order by data prefix, then by session number. -/
def Compare (node1 node2 : Node) : Bool :=
  let nameComparison := strCompare node1.dataPrefix_ node2.dataPrefix_
  if nameComparison ≠ 0 then decide (nameComparison < 0)
  else decide (node1.sessionNo_ < node2.sessionNo_)

end Node

/-! ## `ICTVectorState` -/

/-- The class `ICTVectorState`: the node vector and the root string. -/
structure ICTVectorState where
  digestNode_ : List Node
  vectorRoot_ : Str
  deriving DecidableEq, Repr

/-- `std::lower_bound(first, last, value, comp)`: the furthest position such that
`comp(e, value)` holds for every element `e` before it. -/
def lower_bound (comp : Node → Node → Bool) : List Node → Node → Nat
  | [], _ => 0
  | e :: es, value => if comp e value then lower_bound comp es value + 1 else 0

/-- `std::vector::insert(begin() + pos, value)`. -/
def vector_insert (v : List Node) (pos : Nat) (value : Node) : List Node :=
  v.take pos ++ value :: v.drop pos

namespace ICTVectorState

/-- The constructor `ICTVectorState()`: no node, `vectorRoot_ = "00"`. -/
def new : ICTVectorState := { digestNode_ := [], vectorRoot_ := ['0', '0'] }

def size (st : ICTVectorState) : Nat := st.digestNode_.length

def getVectorRoot (st : ICTVectorState) : Str := st.vectorRoot_

/-- `ICTVectorState::recomputeVectorRoot`: append every node's digest, in order. -/
def recomputeVectorRoot (st : ICTVectorState) : ICTVectorState :=
  let tempRoot := st.digestNode_.foldl (fun acc n => acc ++ n.getUserDigest) []
  { st with vectorRoot_ := tempRoot }

/-- Loop of `find(dataPrefix, sessionNo)` from index `i` on. -/
def findFrom (dataPrefix : Str) (sessionNo : Int) : List Node → Nat → Int
  | [], _ => -1
  | n :: ns, i =>
    if n.getDataPrefix = dataPrefix ∧ n.getSessionNo = sessionNo then (i : Int)
    else findFrom dataPrefix sessionNo ns (i + 1)

/-- `ICTVectorState::find(dataPrefix, sessionNo)`: index of the first match or -1. -/
def find (st : ICTVectorState) (dataPrefix : Str) (sessionNo : Int) : Int :=
  findFrom dataPrefix sessionNo st.digestNode_ 0

/-- Loop of `find(sessionNo)` from index `i` on. -/
def findSessionFrom (sessionNo : Int) : List Node → Nat → Int
  | [], _ => -1
  | n :: ns, i =>
    if n.getSessionNo = sessionNo then (i : Int)
    else findSessionFrom sessionNo ns (i + 1)

/-- `ICTVectorState::find(sessionNo)`, the overload with one argument: index of
the first match or -1. -/
def findSession (st : ICTVectorState) (sessionNo : Int) : Int :=
  findSessionFrom sessionNo st.digestNode_ 0

/-- `ICTVectorState::getSessionName`: prefix of the first node of that session,
the empty string when there is none. -/
def getSessionName (st : ICTVectorState) (sessionNo : Int) : Str :=
  match st.digestNode_.find? (fun n => decide (n.getSessionNo = sessionNo)) with
  | some n => n.getDataPrefix
  | none => []

/-- `ICTVectorState::update`: the returned flag and the object after the call. -/
def update (st : ICTVectorState) (dataPrefix : Str) (sessionNo sequenceNo : Int) :
    Bool × ICTVectorState :=
  let index := st.find dataPrefix sessionNo
  if index ≥ 0 then
    match st.digestNode_.get? index.toNat with
    | some node =>
      -- only update the newer status
      if node.getSequenceNo < sequenceNo then
        (true, recomputeVectorRoot
          { st with digestNode_ := st.digestNode_.set index.toNat (node.setSequenceNo sequenceNo) })
      else (false, st)
    | none => (false, st)
  else
    let temp := Node.new dataPrefix sessionNo sequenceNo
    (true, recomputeVectorRoot
      { st with digestNode_ :=
          vector_insert st.digestNode_ (lower_bound Node.Compare st.digestNode_ temp) temp })

/-- The out-parameters of `getDiff` after the call, and its return value. -/
structure DiffResult where
  ret : Int
  positiveLocalIndexes : List Nat
  negativeInLocal : List (Nat × Nat)
  unknownSessions : List (Nat × Nat)
  deriving DecidableEq, Repr

/-- The inner loop of `getDiff` for the local node `node` at index `i`: walks
`remoteVector` up to the first pair of the node's session (`break`), pushing to
the two lists. Gives `foundInLocal` and the lists. The comparisons are between
an `int` and a `uint32_t`, so the `int` is converted; `push_back(i)` stores a
`uint8_t`. -/
def scanRemote (node : Node) (i : Nat) :
    List (Nat × Nat) → List Nat → List (Nat × Nat) → Bool × List Nat × List (Nat × Nat)
  | [], pos, neg => (false, pos, neg)
  | r :: rs, pos, neg =>
    if toUInt32 node.getSessionNo = r.1 then
      -- only add to positiveLocalIndexes if local is newer than received
      let pos1 := if toUInt32 node.getSequenceNo > r.2 then pos ++ [i % 256] else pos
      -- if remote seq is greater add to negativeInLocal
      let neg1 := if toUInt32 node.getSequenceNo < r.2 then neg ++ [(r.1, r.2)] else neg
      (true, pos1, neg1)
    else scanRemote node i rs pos neg

/-- The outer loop of `getDiff` over the local nodes from index `i` on. -/
def localLoop (remoteVector : List (Nat × Nat)) :
    List Node → Nat → List Nat → List (Nat × Nat) → List Nat × List (Nat × Nat)
  | [], _, pos, neg => (pos, neg)
  | node :: nodes, i, pos, neg =>
    match scanRemote node i remoteVector pos neg with
    | (foundInLocal, pos1, neg1) =>
      let pos2 := if !foundInLocal then pos1 ++ [i % 256] else pos1
      localLoop remoteVector nodes (i + 1) pos2 neg1

/-- The last loop of `getDiff`: the remote pairs whose session `find` does not
know; `find(int)` receives the `uint32_t` session converted to `int`. -/
def unknownLoop (st : ICTVectorState) : List (Nat × Nat) → List (Nat × Nat) → List (Nat × Nat)
  | [], unknown => unknown
  | r :: rs, unknown =>
    if st.findSession (toInt32 r.1) = -1 then unknownLoop st rs (unknown ++ [(r.1, r.2)])
    else unknownLoop st rs unknown

/-- `ICTVectorState::getDiff`. The flag `pushLocalSessions` is a by-value
parameter, so it is no output of the call. -/
def getDiff (st : ICTVectorState) (rState : Str) : DiffResult :=
  let tmpRState := unescape rState
  let remoteVector := parse_into_vec tmpRState
  match localLoop remoteVector st.digestNode_ 0 [] [] with
  | (positiveLocalIndexes, negativeInLocal) =>
    let unknownSessions := unknownLoop st remoteVector []
    { ret := if positiveLocalIndexes.length > 0 then (positiveLocalIndexes.length : Int) else -1,
      positiveLocalIndexes := positiveLocalIndexes,
      negativeInLocal := negativeInLocal,
      unknownSessions := unknownSessions }

end ICTVectorState

open ICTVectorState

/-! ## Notions the properties are stated with -/

/-- The states an `ICTVectorState` object can be in: the freshly constructed
object, and what `update` makes of such a state; the arguments of `update` are
C++ `int`s. -/
inductive Reachable : ICTVectorState → Prop
  | init : Reachable ICTVectorState.new
  | update {st : ICTVectorState} (dataPrefix : Str) (sessionNo sequenceNo : Int) :
      Reachable st → isInt sessionNo → isInt sequenceNo →
      Reachable (st.update dataPrefix sessionNo sequenceNo).2

/-- The state after a list of `update` calls, in order. -/
def applyUpdates (st : ICTVectorState) : List (Str × Int × Int) → ICTVectorState
  | [] => st
  | c :: cs => applyUpdates (st.update c.1 c.2.1 c.2.2).2 cs

/-- The digest string of one entry: `"<session_id>,<sequence_no>;"`, both
numbers in decimal. -/
def entryDigest (sessionNo sequenceNo : Int) : Str :=
  to_string sessionNo ++ [','] ++ to_string sequenceNo ++ [';']

/-- The concatenation, in entry order, of the digest strings of the entries. -/
def encodeEntries : List Node → Str
  | [] => []
  | n :: ns => entryDigest n.sessionNo_ n.sequenceNo_ ++ encodeEntries ns

/-- An entry before a call and the same entry after it: same data prefix, same
session, and a sequence that did not decrease. -/
def SameKeyLe (e e' : Node) : Prop :=
  e'.dataPrefix_ = e.dataPrefix_ ∧ e'.sessionNo_ = e.sessionNo_ ∧ e.sequenceNo_ ≤ e'.sequenceNo_

/-- The key `(data_prefix, session_id)` of an entry. -/
def Node.key (n : Node) : Str × Int := (n.dataPrefix_, n.sessionNo_)

/-- The strict order on keys: string order on the prefix, then integer order
on the session. -/
def keyLt (a b : Str × Int) : Prop :=
  strCompare a.1 b.1 < 0 ∨ (a.1 = b.1 ∧ a.2 < b.2)

/-- The entry list is strictly ascending by `(data_prefix, session_id)`. -/
def StrictlyAscending (l : List Node) : Prop :=
  l.Pairwise (fun a b => keyLt a.key b.key)

/-- Every node's stored digest is the digest string of its session and sequence. -/
def DigestOk (l : List Node) : Prop :=
  ∀ n ∈ l, n.userDigest_ = entryDigest n.sessionNo_ n.sequenceNo_

/-- The fields of every node hold C++ `int`s. -/
def WellTyped (st : ICTVectorState) : Prop :=
  ∀ n ∈ st.digestNode_, isInt n.sessionNo_ ∧ isInt n.sequenceNo_

/-- The pair `(session_id, sequence_no)` of an entry as the `uint32_t` pair the
parser of `getDiff` produces. -/
def entryPair (n : Node) : Nat × Nat := (toUInt32 n.sessionNo_, toUInt32 n.sequenceNo_)

/-- The remote pair the search of `getDiff` finds for a local entry: the first
pair of the remote list that carries the entry's session. -/
def matchingPair (remoteVector : List (Nat × Nat)) (L : Node) : Option (Nat × Nat) :=
  remoteVector.find? (fun r => decide (toUInt32 L.sessionNo_ = r.1))

/-- The local entry is to be advertised: no remote pair carries its session, or
the matching remote pair has a smaller sequence. -/
def isPositive (remoteVector : List (Nat × Nat)) (L : Node) : Bool :=
  match matchingPair remoteVector L with
  | none => true
  | some r => decide (r.2 < toUInt32 L.sequenceNo_)

/-- The remote pair a local entry is behind of: the matching remote pair when
its sequence is greater than the entry's. -/
def negativeOf (remoteVector : List (Nat × Nat)) (L : Node) : Option (Nat × Nat) :=
  match matchingPair remoteVector L with
  | none => none
  | some r => if toUInt32 L.sequenceNo_ < r.2 then some r else none

/-- The calls `update("/a", k, 1)` for `k = 0, ..., n - 1`. -/
def sessionCalls (n : Nat) : List (Str × Int × Int) :=
  (List.range n).map (fun (k : Nat) => ("/a".toList, Int.ofNat k, 1))

/-- The nodes `("/a", k, 1)` for `k = 0, ..., n - 1`. -/
def sessionNodes (n : Nat) : List Node :=
  (List.range n).map (fun (k : Nat) => Node.new "/a".toList (Int.ofNat k) 1)

/-- The value of a hex digit, upper or lower case: its place in `0123456789ABCDEF`
or in `0123456789abcdef`; `none` for any other character. -/
def hexDigitValue (c : Char) : Option Nat :=
  let up := "0123456789ABCDEF".toList.indexOf c
  let lo := "0123456789abcdef".toList.indexOf c
  if up < 16 then some up else if lo < 16 then some lo else none

/-- The value of a text that is, as a whole, a decimal numeral of the grammar:
an optional sign `'-'` or `'+'`, then at least one digit; `none` for any other
text. -/
def numeralValue (s : Str) : Option Int :=
  match s with
  | [] => none
  | c :: cs =>
    let body := if c = '-' ∨ c = '+' then cs else s
    if body ≠ [] ∧ body.all Char.isDigit = true then
      some (if c = '-' then -(digitsValue body : Int) else (digitsValue body : Int))
    else none

/-- The text of a list of pairs `session,sequence` separated by `';'`. -/
def pairsText : List (Str × Str) → Str
  | [] => []
  | [p] => p.1 ++ ',' :: p.2
  | p :: q :: ps => p.1 ++ ',' :: p.2 ++ ';' :: pairsText (q :: ps)

/-- The pair of texts is a well-formed pair `session,sequence` with the values
`v`: both texts are numerals of C++ `int`s. -/
def IsPair (t : Str × Str) (v : Int × Int) : Prop :=
  numeralValue t.1 = some v.1 ∧ numeralValue t.2 = some v.2 ∧ isInt v.1 ∧ isInt v.2

instance (t : Str × Str) (v : Int × Int) : Decidable (IsPair t v) :=
  inferInstanceAs (Decidable (numeralValue t.1 = some v.1 ∧ numeralValue t.2 = some v.2 ∧
    isInt v.1 ∧ isInt v.2))

/-- The text does not go on with a further pair: it does not lengthen the last
number, and it is not `';'` followed by a pair. -/
def NoFurtherPair (rest : Str) : Prop :=
  (∀ c, rest.head? = some c → c.isDigit = false) ∧
  (∀ r, rest = ';' :: r → parse_into_tuple r = none)

/-! ## Names, interests and the pending interest table (`pending-interests.{hpp,cpp}`)

An `ndn::Name` is the list of its components, each component the string of its
value octets. Of an `ndn::Interest` the name and the lifetime (milliseconds)
are kept. A C++ `long` is an `Int`; `toLong` is the two's complement wrap of
a sum. The wall clock is read once in a call and passed as `now`. -/

/-- `std::vector::clear()`. -/
def vector_clear {α : Type} (_v : List α) : List α := []

/-- An `ndn::Name`: its components. -/
abbrev Name := List Str

/-- An `ndn::Interest`: the name and `getInterestLifetime().count()`. -/
structure Interest where
  name : Name
  lifetime : Int
  deriving DecidableEq, Repr

/-- Smallest value of a 64-bit C++ `long`. -/
def LONG_MIN : Int := -9223372036854775808

/-- Largest value of a 64-bit C++ `long`. -/
def LONG_MAX : Int := 9223372036854775807

/-- The value a 64-bit signed sum wraps to. -/
def toLong (x : Int) : Int := (x + 9223372036854775808) % 18446744073709551616 - 9223372036854775808

/-- The class `InterestList::PendingInterest`. -/
structure PendingInterest where
  interest_ : Interest
  name_ : Name
  time_start_ : Int
  timeout_ms_ : Int
  deriving DecidableEq, Repr

namespace PendingInterest

/-- The constructor `PendingInterest(interest)`, run when the clock reads `now`. -/
def new (interest : Interest) (now : Int) : PendingInterest :=
  { interest_ := interest
    name_ := interest.name
    time_start_ := now
    timeout_ms_ := if interest.lifetime ≥ 0 then toLong (now + interest.lifetime) else 0 }

def getInterest (p : PendingInterest) : Interest := p.interest_

def getName (p : PendingInterest) : Name := p.name_

def getTimeStart (p : PendingInterest) : Int := p.time_start_

/-- `PendingInterest::isTimedOut(current)`. -/
def isTimedOut (p : PendingInterest) (current : Int) : Bool :=
  decide (p.timeout_ms_ > 0) && decide (current ≥ p.timeout_ms_)

end PendingInterest

/-- The class `InterestList` (with its `Impl`): the vector `interests_`. -/
structure InterestList where
  interests_ : List PendingInterest
  deriving DecidableEq, Repr

namespace InterestList

/-- The constructor `InterestList()`. -/
def new : InterestList := { interests_ := [] }

/-- `InterestList::Impl::storeInterest`, run when the clock reads `now`. -/
def storeInterest (l : InterestList) (interest : Interest) (now : Int) : InterestList :=
  { interests_ := l.interests_ ++ [PendingInterest.new interest now] }

/-- The loop of `getInterestsForName`: the entry at index `i` is looked at when
the counter is `i + 1`; the loop runs down to index 0. -/
def forNameLoop (name : Name) (now : Int) (remove : Bool) :
    Nat → List PendingInterest → List PendingInterest → List PendingInterest × List PendingInterest
  | 0, interests, pendingInterests => (interests, pendingInterests)
  | i + 1, interests, pendingInterests =>
    match interests.get? i with
    | none => (interests, pendingInterests)
    | some p =>
      if p.isTimedOut now then
        forNameLoop name now remove i (interests.eraseIdx i) pendingInterests
      else if p.getInterest.name = name then
        forNameLoop name now remove i (if remove then interests.eraseIdx i else interests)
          (pendingInterests ++ [p])
      else forNameLoop name now remove i interests pendingInterests

/-- `InterestList::Impl::getInterestsForName`: the table and the vector
`pendingInterests` after the call. -/
def getInterestsForNameImpl (l : InterestList) (name : Name)
    (pendingInterests : List PendingInterest) (remove : Bool) (now : Int) :
    InterestList × List PendingInterest :=
  let cleared := vector_clear pendingInterests
  match forNameLoop name now remove l.interests_.length l.interests_ cleared with
  | (interests, out) => ({ interests_ := interests }, out)

/-- The loop of `getInterestsWithPrefix`: the entry at index `i` is looked at
when the counter is `i + 1`; the loop runs down to index 0. -/
def withPrefixLoop (namePrefix : Name) (now : Int) (remove : Bool) :
    Nat → List PendingInterest → List PendingInterest → List PendingInterest × List PendingInterest
  | 0, interests, pendingInterests => (interests, pendingInterests)
  | i + 1, interests, pendingInterests =>
    match interests.get? i with
    | none => (interests, pendingInterests)
    | some p =>
      if p.isTimedOut now then
        withPrefixLoop namePrefix now remove i (interests.eraseIdx i) pendingInterests
      else if namePrefix.isPrefixOf p.getInterest.name then
        withPrefixLoop namePrefix now remove i (if remove then interests.eraseIdx i else interests)
          (pendingInterests ++ [p])
      else withPrefixLoop namePrefix now remove i interests pendingInterests

/-- `InterestList::Impl::getInterestsWithPrefix`: the table and the vector
`pendingInterests` after the call (`pendingInterests.clear()` comes first). -/
def getInterestsWithPrefixImpl (l : InterestList) (namePrefix : Name)
    (pendingInterests : List PendingInterest) (remove : Bool) (now : Int) :
    InterestList × List PendingInterest :=
  let cleared := vector_clear pendingInterests
  match withPrefixLoop namePrefix now remove l.interests_.length l.interests_ cleared with
  | (interests, out) => ({ interests_ := interests }, out)

/-- `InterestList::getInterestsWithPrefix`: the public call, which leaves
`remove` at its default `false`. -/
def getInterestsWithPrefix (l : InterestList) (namePrefix : Name)
    (pendingInterests : List PendingInterest) (now : Int) :
    InterestList × List PendingInterest :=
  l.getInterestsWithPrefixImpl namePrefix pendingInterests false now

/-- `InterestList::getInterestsForName`: the public call, which leaves `remove`
at its default `false`. -/
def getInterestsForName (l : InterestList) (name : Name)
    (pendingInterests : List PendingInterest) (now : Int) :
    InterestList × List PendingInterest :=
  l.getInterestsForNameImpl name pendingInterests false now

end InterestList

/-! ## Names of ndn-cxx and `std::stoi` -/

/-- Upper-case hexadecimal digit of a value below 16. -/
def hexDigitUpper (n : Nat) : Char :=
  if n < 10 then Char.ofNat (48 + n) else Char.ofNat (55 + n)

/-- The octets `ndn::escape` leaves as they are: letters, digits and `-._~`. -/
def isUnreserved (c : Char) : Bool :=
  c.isAlphanum || c = '-' || c = '.' || c = '_' || c = '~'

/-- `ndn::name::Component::toUri` of a generic component: every octet outside
the unreserved set becomes `%XX` with upper-case hex digits; a component made
of periods only (the empty one too) gets three more periods in front. -/
def Component.toUri (component : Str) : Str :=
  if component.all (fun c => c = '.') then ['.', '.', '.'] ++ component
  else (component.map (fun c =>
    if isUnreserved c then [c]
    else ['%', hexDigitUpper (c.toNat / 16 % 16), hexDigitUpper (c.toNat % 16)])).flatten

/-- `ndn::Name::get(i)` for `i ≥ 0`: the component at that place; the call is
undefined when there is none. -/
def Name.get (name : Name) (i : Nat) : Option Str := name.get? i

/-- `ndn::Name::toUri`: `/` and the URI of each component; `/` alone for the
empty name. -/
def Name.toUri (name : Name) : Str :=
  if name = [] then ['/'] else (name.map (fun c => '/' :: Component.toUri c)).flatten

/-- `std::stoi(str)`: white space in front is skipped, then an optional sign
and the longest run of decimal digits are read, what follows is ignored. `none`
stands for the exception thrown when there is no digit or the value does not
fit an `int`. -/
def stoi (str : Str) : Option Int :=
  let s := str.dropWhile (fun c => c = ' ' || (decide (9 ≤ c.toNat) && decide (c.toNat ≤ 13)))
  let body := if s.head? = some '-' ∨ s.head? = some '+' then s.tail else s
  let ds := body.takeWhile Char.isDigit
  if ds = [] then none
  else
    let v : Int := if s.head? = some '-' then -(digitsValue ds : Int) else (digitsValue ds : Int)
    if INT_MIN ≤ v ∧ v ≤ INT_MAX then some v else none

/-- `std::to_string(unsigned)`. -/
def to_string_unsigned (v : Nat) : Str := Nat.toDigits 10 v

/-! ## Messages and packets

`sync-state.proto` is not among the sources; the generated class is used by
`ictsync.cpp` through `type()`, `name()`, `seqno().seq()`, `seqno().session()`,
`has_application_info()` and `application_info()`. -/

namespace Sync

/-- Modelled from the spec: the enumeration `Sync::SyncState_ActionType` of the
absent `sync-state.proto`; the code names `UPDATE` and `UPDATE_NO_NAME`, every
other value is `OTHER`. -/
inductive SyncState_ActionType where
  | UPDATE
  | UPDATE_NO_NAME
  | OTHER
  deriving DecidableEq, Repr

/-- Modelled from the spec: the message `Sync::SyncState` of the absent
`sync-state.proto`: `type`, `name` (the empty string when not set),
`seqno { session : uint32, seq : uint32 }` and the optional
`application_info`. -/
structure SyncState where
  name : Str
  type : SyncState_ActionType
  seq : Nat
  session : Nat
  application_info : Option Str
  deriving DecidableEq, Repr

end Sync

/-- An `ndn::Data` packet as far as the engine sets it: the name, the content
(the `SyncStateMsg` it was serialized from, `none` when `setContent` was not
called) and the freshness period when one was set. Signing is left out. -/
structure Data where
  name : Name
  content : Option (List Sync.SyncState)
  freshnessPeriod : Option Int
  deriving DecidableEq, Repr

namespace ICTSync

/-- The class `ICTSync::SyncState` handed to the application. -/
structure SyncState where
  dataPrefixUri_ : Str
  sessionNo_ : Int
  sequenceNo_ : Int
  applicationInfo_ : Option Str
  deriving DecidableEq, Repr

/-- The three callbacks bound to an expressed interest: `onData` with
`initialNack` and `initialTimeout`, with `syncNack` and `syncTimeout`, or with
`discoveryNack` and `discoveryTimeout`. -/
inductive Callbacks where
  | initial
  | sync
  | discovery
  deriving DecidableEq, Repr

/-- A call the engine makes on the face, the scheduler, the application
callbacks or the error log. -/
inductive Effect where
  | setInterestFilter (filter : Name)
  | unregister
  | expressInterest (interest : Interest) (callbacks : Callbacks)
  | cancel (interest : Interest)
  | put (data : Data)
  | schedule (delay : Int)
  | onInitialized
  | onReceivedSyncState (syncStates : List SyncState) (isRecovery : Bool)
  | logError
  deriving DecidableEq, Repr

/-- The class `ICTSync::Impl`: its data members, and in `calls_` the calls made
so far on `face_`, `scheduler_`, `onReceivedSyncState_`, `onInitialized_` and the
error log, in order. `lastInterestId_` holds the interest the handle stands
for, `broadcastPrefixRegId_` whether the prefix is registered, and
`outgoingDiscoveryInterests_` the `std::map<int, int>` as its sorted list of
pairs. Times are milliseconds since the epoch, durations milliseconds. -/
structure Impl where
  syncLifetime_ : Int
  syncUpdateInterval_ : Int
  nextInterestTs_ : Int
  digestTree_ : ICTVectorState
  applicationDataPrefixUri_ : Str
  applicationBroadcastPrefix_ : Name
  sessionNo_ : Int
  initialPreviousSequenceNo_ : Int
  sequenceNo_ : Int
  pendingInterests_ : InterestList
  enabled_ : Bool
  lastInterestId_ : Option Interest
  broadcastPrefixRegId_ : Bool
  outgoingDiscoveryInterests_ : List (Int × Int)
  isDiscovery_ : Bool
  noData_ : Bool
  lastSentDigest_ : Str
  calls_ : List Effect
  deriving DecidableEq, Repr

/-- `std::map<int, int>::find`: the mapped value, `none` for `end()`. -/
def map_find (m : List (Int × Int)) (key : Int) : Option Int :=
  (m.find? (fun kv => decide (kv.1 = key))).map Prod.snd

/-- `std::map<int, int>::operator[]` followed by an assignment: the value of
an existing key is replaced, a new key is inserted at its place in key order. -/
def map_set : List (Int × Int) → Int → Int → List (Int × Int)
  | [], key, value => [(key, value)]
  | kv :: rest, key, value =>
    if kv.1 = key then (key, value) :: rest
    else if key < kv.1 then (key, value) :: kv :: rest
    else kv :: map_set rest key value

end ICTSync

/-- `ICTVectorState::get(i)`: the node at index `i`; the call is undefined when
there is none. -/
def ICTVectorState.get (st : ICTVectorState) (i : Nat) : Option Node := st.digestNode_.get? i

namespace ICTSync

namespace Impl

/-- Appends a call to the record of calls. -/
def log (s : Impl) (e : Effect) : Impl := { s with calls_ := s.calls_ ++ [e] }

/-- The constructor `ICTSync::Impl::Impl`; `now` is the clock reading. -/
def new (applicationDataPrefix applicationBroadcastPrefix : Name) (sessionNo : Int)
    (syncLifetime : Int) (previousSequenceNumber : Int) (isDiscovery noData : Bool)
    (syncUpdateInt : Int) (now : Int) : Impl :=
  { syncLifetime_ := syncLifetime,
    syncUpdateInterval_ := syncUpdateInt,
    nextInterestTs_ := now,
    digestTree_ := ICTVectorState.new,
    applicationDataPrefixUri_ := Name.toUri applicationDataPrefix,
    applicationBroadcastPrefix_ := applicationBroadcastPrefix,
    sessionNo_ := sessionNo,
    initialPreviousSequenceNo_ := previousSequenceNumber,
    sequenceNo_ := previousSequenceNumber,
    pendingInterests_ := InterestList.new,
    enabled_ := true,
    lastInterestId_ := none,
    broadcastPrefixRegId_ := false,
    outgoingDiscoveryInterests_ := [],
    isDiscovery_ := isDiscovery,
    noData_ := noData,
    lastSentDigest_ := [],
    calls_ := [] }

/-- `ICTSync::Impl::initialize`: registers the broadcast prefix, expresses the
interest `<broadcast prefix>/00` with lifetime 1000 ms and schedules
`checkForUpdate` after `syncUpdateInterval_`. -/
def initializeImpl (s : Impl) : Impl :=
  let s1 : Impl := { s.log (.setInterestFilter s.applicationBroadcastPrefix_) with
              broadcastPrefixRegId_ := true }
  let iname := s1.applicationBroadcastPrefix_ ++ ["00".toList]
  let interest : Interest := { name := iname, lifetime := 1000 }
  let s2 : Impl := s1.log (.expressInterest interest .initial)
  s2.log (.schedule s2.syncUpdateInterval_)

/-- `ICTSync::Impl::shutdown`. -/
def shutdown (s : Impl) : Impl :=
  { ({ s with enabled_ := false } : Impl).log .unregister with broadcastPrefixRegId_ := false }

/-- The loop of `ICTSync::Impl::update(content)`; `numUpdated` counts the
accepted entries. The `uint32` fields are converted to `int` where the code
passes them to `int` parameters or assigns them to `sequenceNo_`. -/
def updateLoop : List Sync.SyncState → Impl → Nat → Impl × Nat
  | [], s, numUpdated => (s, numUpdated)
  | m :: ms, s, numUpdated =>
    if m.type = .UPDATE then
      match s.digestTree_.update m.name (toInt32 m.session) (toInt32 m.seq) with
      | (true, tree) =>
        -- if local digest updated
        let s1 : Impl := { s with digestTree_ := tree }
        let s2 : Impl := if s1.applicationDataPrefixUri_ = m.name then
          { s1 with sequenceNo_ := toInt32 m.seq } else s1
        updateLoop ms s2 (numUpdated + 1)
      | (false, tree) => updateLoop ms { s with digestTree_ := tree } numUpdated
    else if m.type = .UPDATE_NO_NAME then
      let dataName := s.digestTree_.getSessionName (toInt32 m.session)
      if dataName ≠ [] then
        match s.digestTree_.update dataName (toInt32 m.session) (toInt32 m.seq) with
        | (true, tree) =>
          let s1 : Impl := { s with digestTree_ := tree }
          let s2 : Impl := if s1.applicationDataPrefixUri_ = dataName then
            { s1 with sequenceNo_ := toInt32 m.seq } else s1
          updateLoop ms s2 (numUpdated + 1)
        | (false, tree) => updateLoop ms { s with digestTree_ := tree } numUpdated
      else updateLoop ms s numUpdated
    else updateLoop ms s numUpdated

/-- `ICTSync::Impl::update(content)`: the returned flag and the object after
the call. -/
def update (s : Impl) (content : List Sync.SyncState) : Bool × Impl :=
  match updateLoop content s 0 with
  | (s1, numUpdated) => (decide (numUpdated ≠ 0), s1)

/-- `ICTSync::Impl::getProducerSequenceNo`. -/
def getProducerSequenceNo (s : Impl) (dataPrefix : Str) (sessionNo : Int) : Option Int :=
  let index := s.digestTree_.find dataPrefix sessionNo
  if index < 0 then some (-1)
  else (s.digestTree_.get index.toNat).map Node.getSequenceNo

/-- `ICTSync::Impl::getSequenceNo`. -/
def getSequenceNo (s : Impl) : Int := s.sequenceNo_

/-- `ICTSync::Impl::sendSyncInterest(interestName, syncLifetime)`: cancels the
interest behind `lastInterestId_`, expresses the new one, and with a positive
`syncUpdateInterval_` sets `nextInterestTs_` and schedules `checkForUpdate`. -/
def sendSyncInterestName (s : Impl) (interestName : Name) (syncLifetime : Int) (now : Int) :
    Impl :=
  let interest : Interest := { name := interestName, lifetime := syncLifetime }
  let s1 : Impl := match s.lastInterestId_ with
    | some old => s.log (.cancel old)
    | none => s
  let s2 : Impl := { s1.log (.expressInterest interest .sync) with lastInterestId_ := some interest }
  if s2.syncUpdateInterval_ > 0 then
    ({ s2 with nextInterestTs_ := toLong (now + s2.syncUpdateInterval_) } : Impl).log
      (.schedule s2.syncUpdateInterval_)
  else s2

/-- `ICTSync::Impl::sendSyncInterest(syncLifetime)`: with a positive
`syncUpdateInterval_` the interest is sent only when `now ≥ nextInterestTs_`. -/
def sendSyncInterest (s : Impl) (syncLifetime : Int) (now : Int) : Impl :=
  let sdigest := s.digestTree_.getVectorRoot
  let name := s.applicationBroadcastPrefix_ ++ [sdigest]
  if s.syncUpdateInterval_ > 0 then
    if now ≥ s.nextInterestTs_ then
      sendSyncInterestName { s with lastSentDigest_ := sdigest } name syncLifetime now
    else s
  else sendSyncInterestName { s with lastSentDigest_ := sdigest } name syncLifetime now

/-- `ICTSync::Impl::checkForUpdate`. -/
def checkForUpdate (s : Impl) (now : Int) : Impl :=
  let s1 : Impl := if s.digestTree_.getVectorRoot ≠ s.lastSentDigest_ then
    s.sendSyncInterest s.syncLifetime_ now else s
  s1.log (.schedule s1.syncUpdateInterval_)

/-- The loop of `sendSyncData` that fills `tempContent`: one entry for each
index of the list; `none` when `get` is called with an index outside the
table. -/
def syncDataEntries (s : Impl) (sendName : Bool) : List Nat → Option (List Sync.SyncState)
  | [] => some []
  | i :: rest =>
    match s.digestTree_.get i, syncDataEntries s sendName rest with
    | some node, some entries =>
      -- If in discovery mode, then no need to send the name unless specifically requested.
      if !s.isDiscovery_ || sendName then
        some ({ name := node.getDataPrefix, type := .UPDATE,
                seq := toUInt32 node.getSequenceNo, session := toUInt32 node.getSessionNo,
                application_info := none } :: entries)
      else
        some ({ name := [], type := .UPDATE_NO_NAME,
                seq := toUInt32 node.getSequenceNo, session := toUInt32 node.getSessionNo,
                application_info := none } :: entries)
    | _, _ => none

/-- `ICTSync::Impl::sendSyncData`: the returned flag and the object after the
call; `face.put` is taken to succeed. -/
def sendSyncData (s : Impl) (syncDigest : Str) (indexListToSend : List Nat) (sendName : Bool) :
    Option (Bool × Impl) :=
  if s.noData_ then some (true, s)
  else
    match syncDataEntries s sendName indexListToSend with
    | none => none
    | some tempContent =>
      if tempContent.length ≠ 0 then
        let name := s.applicationBroadcastPrefix_ ++ [unescape syncDigest]
        let data : Data :=
          { name := name,
            content := if !s.isDiscovery_ then some tempContent else none,
            freshnessPeriod := none }
        some (true, s.log (.put data))
      else some (false, s)

end Impl

end ICTSync

namespace ICTSync

namespace Impl

/-- The `int` sum `a + b`, wrapping at 2^31; `++x` is `intAdd x 1`. -/
def intAdd (a b : Int) : Int := toInt32 (toUInt32 (a + b))

/-- The loop of `processInterestUpdates` over `RemoteUpdates`: the vector state
and `appUpdates` after it; `none` when `get` is called with an index outside the
table. The `uint32` values are converted to `int` at each call. -/
def interestUpdatesLoop :
    List (Nat × Nat) → ICTVectorState → List SyncState → Option (ICTVectorState × List SyncState)
  | [], tree, appUpdates => some (tree, appUpdates)
  | r :: rest, tree, appUpdates =>
    -- first, look if session id is recognized
    let sessionIndex := tree.findSession (toInt32 r.1)
    if sessionIndex ≥ 0 then
      match tree.get sessionIndex.toNat with
      | none => none
      | some node =>
        -- update local state
        let tree1 := (tree.update node.getDataPrefix (toInt32 r.1) (toInt32 r.2)).2
        match tree1.get sessionIndex.toNat with
        | none => none
        | some node1 =>
          -- add to list to be sent to app
          interestUpdatesLoop rest tree1
            (appUpdates ++ [{ dataPrefixUri_ := node1.getDataPrefix, sessionNo_ := toInt32 r.1,
                              sequenceNo_ := toInt32 r.2, applicationInfo_ := none }])
    else interestUpdatesLoop rest tree appUpdates

/-- `ICTSync::Impl::processInterestUpdates`. -/
def processInterestUpdates (s : Impl) (RemoteUpdates : List (Nat × Nat)) (now : Int) :
    Option Impl :=
  match interestUpdatesLoop RemoteUpdates s.digestTree_ [] with
  | none => none
  | some (tree, appUpdates) =>
    -- update the application
    let s1 : Impl := ({ s with digestTree_ := tree } : Impl).log (.onReceivedSyncState appUpdates false)
    -- send new long-lived interest
    some (s1.sendSyncInterest s1.syncLifetime_ now)

/-- The loop of `processUnknownSessionIds`. The key of the map is an `int`,
the stored sequence is compared with the `uint32` one as unsigned values. -/
def unknownSessionsLoop : List (Nat × Nat) → Impl → Impl
  | [], s => s
  | unknownSession :: rest, s =>
    -- first, check if an interest for this session is already in flight
    match map_find s.outgoingDiscoveryInterests_ (toInt32 unknownSession.1) with
    | some second =>
      -- store the greatest sequence number
      let stored := map_set s.outgoingDiscoveryInterests_ (toInt32 unknownSession.1)
        (toInt32 unknownSession.2)
      let s1 : Impl := if toUInt32 second < unknownSession.2 then
        { s with outgoingDiscoveryInterests_ := stored }
        else s
      unknownSessionsLoop rest s1
    | none =>
      -- no discovery interest for this session is in flight
      let iname := s.applicationBroadcastPrefix_ ++ ["DISCOVERY".toList] ++
        [to_string_unsigned unknownSession.1]
      let interest : Interest := { name := iname, lifetime := s.syncLifetime_ }
      let s1 : Impl := s.log (.expressInterest interest .discovery)
      let stored := map_set s1.outgoingDiscoveryInterests_ (toInt32 unknownSession.1)
        (toInt32 unknownSession.2)
      unknownSessionsLoop rest { s1 with outgoingDiscoveryInterests_ := stored }

/-- `ICTSync::Impl::processUnknownSessionIds`. -/
def processUnknownSessionIds (s : Impl) (unknownSessionIds : List (Nat × Nat)) : Impl :=
  if !s.isDiscovery_ then s.log .logError
  else unknownSessionsLoop unknownSessionIds s

/-- `ICTSync::Impl::processSyncInterest`. The local `pushDataName` is not
initialised and `getDiff` takes it by value, so the value handed to
`sendSyncData` is whatever the variable holds: the parameter `pushDataName`. -/
def processSyncInterest (s : Impl) (interest : Interest) (syncDigest : Str)
    (pushDataName : Bool) (now : Int) : Option Impl :=
  let d := s.digestTree_.getDiff syncDigest
  let r1 : Option Impl :=
    if d.ret = -1 then
      -- local doesn't have new updates and has nothing to send
      -- save interest for future updates
      if !s.noData_ then
        some { s with pendingInterests_ := s.pendingInterests_.storeInterest interest now }
      else some s
    else
      -- send data according to the up-to-date items in local state
      (s.sendSyncData syncDigest d.positiveLocalIndexes pushDataName).map Prod.snd
  match r1 with
  | none => none
  | some s1 =>
    -- update local state and application according to the up-to-date items in the remote state
    let r2 : Option Impl :=
      if d.negativeInLocal.length > 0 then s1.processInterestUpdates d.negativeInLocal now
      else some s1
    match r2 with
    | none => none
    | some s2 =>
      if d.unknownSessions.length > 0 then
        if s2.isDiscovery_ then some (s2.processUnknownSessionIds d.unknownSessions)
        else some s2
      else some s2

/-- `ICTSync::Impl::processNewcomerInterest`. -/
def processNewcomerInterest (s : Impl) (interest : Interest) (_syncDigest : Str) : Impl :=
  if s.noData_ then s
  -- if local state is empty, quit
  else if s.digestTree_.getVectorRoot = "00".toList then s
  else
    -- go over local syncTree and get the latest seqs
    let tempContent : List Sync.SyncState := s.digestTree_.digestNode_.map (fun node =>
      { name := node.getDataPrefix, type := .UPDATE, seq := toUInt32 node.getSequenceNo,
        session := toUInt32 node.getSessionNo, application_info := none })
    if tempContent.length ≠ 0 then
      -- Limit the lifetime of replies to interest for "00" since they can be different.
      s.log (.put { name := interest.name, content := some tempContent,
                    freshnessPeriod := some 500 })
    else s

/-- `ICTSync::Impl::processDiscoveryInterest`; `none` when `Name::get` has no
component to give or `std::stoi` throws. -/
def processDiscoveryInterest (s : Impl) (interest : Interest) : Option Impl :=
  if !s.isDiscovery_ then some (s.log .logError)
  else
    -- must be discovery interest
    match Name.get interest.name s.applicationBroadcastPrefix_.length with
    | none => none
    | some c =>
      if Component.toUri c ≠ "DISCOVERY".toList then some (s.log .logError)
      else
        -- Get the requested session id
        match Name.get interest.name (s.applicationBroadcastPrefix_.length + 1) with
        | none => none
        | some c1 =>
          match stoi (Component.toUri c1) with
          | none => none
          | some v =>
            let sessionId := toUInt32 v
            -- Check if session id is known
            let sessionIndex := s.digestTree_.findSession (toInt32 sessionId)
            if sessionIndex < 0 then some (s.log .logError)
            else
              match s.digestTree_.get sessionIndex.toNat with
              | none => none
              | some node =>
                let seq := node.getSequenceNo
                let dataName := node.getDataPrefix
                -- respond to interest with data name and latest known sequence number
                let tempContent : List Sync.SyncState :=
                  [{ name := dataName, type := .UPDATE, seq := toUInt32 seq,
                     session := sessionId, application_info := none }]
                some (s.log (.put { name := interest.name, content := some tempContent,
                                    freshnessPeriod := none }))

/-- `ICTSync::Impl::onInterest`; `pushDataName` is the value of the local
variable of `processSyncInterest` that is not initialised, `now` the clock
reading; `none` when `Name::get` has no component to give. -/
def onInterest (s : Impl) (interest : Interest) (pushDataName : Bool) (now : Int) :
    Option Impl :=
  if !s.enabled_ then
    -- Ignore callbacks after the application calls shutdown().
    some s
  else if interest.name.length = s.applicationBroadcastPrefix_.length + 2 then
    if s.isDiscovery_ then s.processDiscoveryInterest interest
    else some (s.log .logError)
  else
    match Name.get interest.name s.applicationBroadcastPrefix_.length with
    | none => none
    | some c =>
      let syncDigest := Component.toUri c
      if syncDigest = "00".toList then
        -- a newcomer interest.
        some (s.processNewcomerInterest interest syncDigest)
      else if unescape syncDigest ≠ s.digestTree_.getVectorRoot then
        s.processSyncInterest interest syncDigest pushDataName now
      else some s

/-- The loop of `broadcastSyncData` from index `i - 1` down to 0 over the list
`pendingInterests`; `pushDataName i` is the value of the local variable of the
iteration with index `i`, which is not initialised. -/
def broadcastLoop (pendingInterests : List PendingInterest) (pushDataName : Nat → Bool) :
    Nat → Impl → Option Impl
  | 0, s => some s
  | i + 1, s =>
    match pendingInterests.get? i with
    | none => none
    | some p =>
      -- get diff
      match Name.get p.getInterest.name s.applicationBroadcastPrefix_.length with
      | none => none
      | some c =>
        let pendingDigest := unescape (Component.toUri c)
        let d := s.digestTree_.getDiff pendingDigest
        if d.ret = -1 then broadcastLoop pendingInterests pushDataName i s
        else
          match s.sendSyncData pendingDigest d.positiveLocalIndexes (pushDataName i) with
          | none => none
          | some (_, s1) => broadcastLoop pendingInterests pushDataName i s1

/-- `ICTSync::Impl::broadcastSyncData`. -/
def broadcastSyncData (s : Impl) (pushDataName : Nat → Bool) (now : Int) : Option Impl :=
  if s.noData_ then some s
  else
    -- get the list of pending interests
    match s.pendingInterests_.getInterestsWithPrefix s.applicationBroadcastPrefix_ [] now with
    | (table, pendingInterests) =>
      -- Go over all pending interests, find out diff and send it.
      broadcastLoop pendingInterests pushDataName pendingInterests.length
        { s with pendingInterests_ := table }

/-- `ICTSync::Impl::publishNextSequenceNo`; the application info is not used by
the code. -/
def publishNextSequenceNo (s : Impl) (pushDataName : Nat → Bool) (now : Int) : Option Impl :=
  -- update sequence numbers
  let s1 : Impl := { s with sequenceNo_ := intAdd s.sequenceNo_ 1 }
  -- update local vector state
  let s2 : Impl := { s1 with digestTree_ :=
    (s1.digestTree_.update s1.applicationDataPrefixUri_ s1.sessionNo_ s1.sequenceNo_).2 }
  -- broadcast sync Data to all pending interests
  match s2.broadcastSyncData pushDataName now with
  | none => none
  | some s3 =>
    -- send new long-lived interest
    some (s3.sendSyncInterest s3.syncLifetime_ now)

end Impl

end ICTSync

namespace ICTSync

namespace Impl

/-- `ICTSync::Impl::onDiscoveryData`: the returned flag and the object after
the call; `none` when `Name::get` has no component to give, `std::stoi` throws,
`content.Get(0)` is called on an empty list or the session of the first entry
has no pair in `outgoingDiscoveryInterests_` (`find` gives `end()`). -/
def onDiscoveryData (s : Impl) (interest : Interest) (content : List Sync.SyncState) :
    Option (Bool × Impl) :=
  if !s.isDiscovery_ then some (false, s.log .logError)
  else
    -- Get the requested session id
    match Name.get interest.name (s.applicationBroadcastPrefix_.length + 1) with
    | none => none
    | some c =>
      match stoi (Component.toUri c) with
      | none => none
      | some _sessionId =>
        match content.head? with
        | none => none
        | some m =>
          -- check if the sequence number received as unknown session and triggered
          -- discovery is greater than the one received in the Discovery data
          let updateSeq := toInt32 m.seq
          match map_find s.outgoingDiscoveryInterests_ (toInt32 m.session) with
          | none => none
          | some savedSeq =>
            let r := if savedSeq > updateSeq then
              s.digestTree_.update m.name (toInt32 m.session) savedSeq
              else s.digestTree_.update m.name (toInt32 m.session) updateSeq
            some (r.1, { s with digestTree_ := r.2 })

/-- `ICTSync::Impl::initialOnData`. -/
def initialOnData (s : Impl) (content : List Sync.SyncState) : Impl :=
  let s1 : Impl := (s.update content).2
  let s2 : Impl := s1.log .onInitialized
  if s2.digestTree_.find s2.applicationDataPrefixUri_ s2.sessionNo_ = -1 then
    -- the user hasn't put himself in the digest tree.
    let s3 : Impl := { s2 with sequenceNo_ := intAdd s2.sequenceNo_ 1 }
    let content2 : List Sync.SyncState :=
      [{ name := s3.applicationDataPrefixUri_, type := .UPDATE, seq := toUInt32 s3.sequenceNo_,
         session := toUInt32 s3.sessionNo_, application_info := none }]
    match s3.update content2 with
    | (true, s4) => s4.log .onInitialized
    | (false, s4) => s4
  else s2

/-- The loop of `onData` that prepares `appUpdates`: only `UPDATE` and
`UPDATE_NO_NAME` entries are reported, with the sequence number the table
holds; `none` when `get` is called with an index outside the table. Each
skipped `UPDATE_NO_NAME` entry logs an error. -/
def appUpdatesLoop : List Sync.SyncState → Impl → List SyncState → Option (Impl × List SyncState)
  | [], s, appUpdates => some (s, appUpdates)
  | m :: rest, s, appUpdates =>
    if m.type = .UPDATE ∨ m.type = .UPDATE_NO_NAME then
      let applicationInfo : Option Str :=
        match m.application_info with
        | some info => if info.length > 0 then some info else none
        | none => none
      let dataName : Str :=
        if m.type = .UPDATE_NO_NAME then s.digestTree_.getSessionName (toInt32 m.session)
        else m.name
      if m.type = .UPDATE_NO_NAME ∧ dataName = [] then
        appUpdatesLoop rest (s.log .logError) appUpdates
      else
        match s.getProducerSequenceNo dataName (toInt32 m.session) with
        | none => none
        | some latestSeq =>
          appUpdatesLoop rest s
            (appUpdates ++ [{ dataPrefixUri_ := dataName, sessionNo_ := toInt32 m.session,
                              sequenceNo_ := latestSeq, applicationInfo_ := applicationInfo }])
    else appUpdatesLoop rest s appUpdates

/-- `ICTSync::Impl::onData`; the content of the packet is the parsed
`SyncStateMsg` (no entry when the packet has no content); `none` when
`Name::get` has no component to give or a called function is undefined. -/
def onData (s : Impl) (interest : Interest) (data : Data) (now : Int) : Option Impl :=
  if !s.enabled_ then
    -- Ignore callbacks after the application calls shutdown().
    some s
  else
    match Name.get data.name s.applicationBroadcastPrefix_.length with
    | none => none
    | some c =>
      let discoveryNameComponent := Component.toUri c
      if s.isDiscovery_ ∧ discoveryNameComponent ≠ "DISCOVERY".toList then
        -- express an up-to-date interest
        some (s.sendSyncInterest s.syncLifetime_ now)
      else
        let content : List Sync.SyncState := data.content.getD []
        if discoveryNameComponent = "DISCOVERY".toList ∧ ¬ s.isDiscovery_ then
          some (s.log .logError)
        else
          let r : Option (Bool × Impl) :=
            if discoveryNameComponent = "DISCOVERY".toList then s.onDiscoveryData interest content
            else if s.digestTree_.getVectorRoot = "00".toList then
              -- processing initial sync data
              some (true, s.initialOnData content)
            else some (s.update content)
          match r with
          | none => none
          | some (isUpdated, s1) =>
            -- update application only if there are updates
            let r2 : Option Impl :=
              if isUpdated then
                match appUpdatesLoop content s1 [] with
                | none => none
                | some (s2, appUpdates) => some (s2.log (.onReceivedSyncState appUpdates false))
              else some s1
            match r2 with
            | none => none
            | some s3 =>
              -- express an up-to-date interest
              some (s3.sendSyncInterest s3.syncLifetime_ now)

/-- `ICTSync::Impl::syncTimeout` (and `syncNack`, which calls it). -/
def syncTimeout (s : Impl) (interest : Interest) (now : Int) : Option Impl :=
  if !s.enabled_ then
    -- Ignore callbacks after the application calls shutdown().
    some s
  else
    match Name.get interest.name s.applicationBroadcastPrefix_.length with
    | none => none
    | some c =>
      let component := Component.toUri c
      -- if same state, retry the same interest.
      if unescape component = s.digestTree_.getVectorRoot then
        some (s.sendSyncInterestName interest.name s.syncLifetime_ now)
      else some s

/-- `ICTSync::Impl::initialTimeout` (and `initialNack`, which calls it). -/
def initialTimeout (s : Impl) (_interest : Interest) (now : Int) : Impl :=
  if !s.enabled_ then
    -- Ignore callbacks after the application calls shutdown().
    s
  else
    let s1 : Impl := { s with sequenceNo_ := intAdd s.sequenceNo_ 1 }
    if s1.sequenceNo_ ≠ intAdd s1.initialPreviousSequenceNo_ 1 then
      -- Since there were no other users, we expect the sequence number to follow
      -- the initial value.
      s1.log .logError
    else
      let content : List Sync.SyncState :=
        [{ name := s1.applicationDataPrefixUri_, type := .UPDATE, seq := toUInt32 s1.sequenceNo_,
           session := toUInt32 s1.sessionNo_, application_info := none }]
      let s2 : Impl := (s1.update content).2
      let s3 : Impl := s2.log .onInitialized
      let name := s3.applicationBroadcastPrefix_ ++ [s3.digestTree_.getVectorRoot]
      s3.sendSyncInterestName name s3.syncLifetime_ now

/-- `ICTSync::Impl::discoveryTimeout` (and `discoveryNack`, which calls it);
`none` when `Name::get` has no component to give or `std::stoi` throws. -/
def discoveryTimeout (s : Impl) (interest : Interest) : Option Impl :=
  if !s.isDiscovery_ then some (s.log .logError)
  else
    -- must be discovery interest
    match Name.get interest.name s.applicationBroadcastPrefix_.length with
    | none => none
    | some c =>
      if Component.toUri c ≠ "DISCOVERY".toList then some (s.log .logError)
      else
        match Name.get interest.name (s.applicationBroadcastPrefix_.length + 1) with
        | none => none
        | some c1 =>
          match stoi (Component.toUri c1) with
          | none => none
          | some _sessionId =>
            let interest2 : Interest := { name := interest.name, lifetime := s.syncLifetime_ }
            some (s.log (.expressInterest interest2 .discovery))

end Impl

/-- An event of the engine: a callback of the face or of the scheduler with
its arguments and the clock reading, or a call of the application. -/
inductive Event where
  | onInterest (interest : Interest) (pushDataName : Bool) (now : Int)
  | onData (interest : Interest) (data : Data) (now : Int)
  | syncTimeout (interest : Interest) (now : Int)
  | initialTimeout (interest : Interest) (now : Int)
  | discoveryTimeout (interest : Interest)
  | checkForUpdate (now : Int)
  | publishNextSequenceNo (pushDataName : Nat → Bool) (now : Int)
  | shutdown

/-- The engine after an event; `none` when the called function is undefined. -/
def Impl.step (s : Impl) : Event → Option Impl
  | .onInterest interest pushDataName now => s.onInterest interest pushDataName now
  | .onData interest data now => s.onData interest data now
  | .syncTimeout interest now => s.syncTimeout interest now
  | .initialTimeout interest now => some (s.initialTimeout interest now)
  | .discoveryTimeout interest => s.discoveryTimeout interest
  | .checkForUpdate now => some (s.checkForUpdate now)
  | .publishNextSequenceNo pushDataName now => s.publishNextSequenceNo pushDataName now
  | .shutdown => some s.shutdown

/-- The engine after a list of events, `none` as soon as one is undefined. -/
def Impl.run (s : Impl) : List Event → Option Impl
  | [] => some s
  | e :: es =>
    match s.step e with
    | none => none
    | some s1 => Impl.run s1 es

/-- The engine right after the constructor `ICTSync::ICTSync`, which creates
the `Impl` and calls `initialize`; the `int` arguments are ints. -/
def create (applicationDataPrefix applicationBroadcastPrefix : Name) (sessionNo : Int)
    (syncLifetime : Int) (previousSequenceNumber : Int) (isDiscovery noData : Bool)
    (syncUpdateInt : Int) (now : Int) : Impl :=
  (Impl.new applicationDataPrefix applicationBroadcastPrefix sessionNo syncLifetime
    previousSequenceNumber isDiscovery noData syncUpdateInt now).initializeImpl

/-- The `uint32` fields of the entries of a received packet are below 2^32. -/
def Event.WellFormed : Event → Prop
  | .onData _ data _ => ∀ m ∈ data.content.getD [], m.seq < 4294967296 ∧ m.session < 4294967296
  | _ => True

/-- The engine states the events lead to from a created engine. -/
inductive Reachable : Impl → Prop
  | create (applicationDataPrefix applicationBroadcastPrefix : Name) (sessionNo : Int)
      (syncLifetime : Int) (previousSequenceNumber : Int) (isDiscovery noData : Bool)
      (syncUpdateInt : Int) (now : Int) :
      isInt sessionNo → isInt previousSequenceNumber →
      Reachable (create applicationDataPrefix applicationBroadcastPrefix sessionNo syncLifetime
        previousSequenceNumber isDiscovery noData syncUpdateInt now)
  | step (s s1 : Impl) (e : Event) :
      Reachable s → e.WellFormed → s.step e = some s1 → Reachable s1

end ICTSync

/-! ## Notions the properties of the engine are stated with -/

namespace ICTSync

/-- The engine with further calls recorded. -/
def Impl.withCalls (s : Impl) (es : List Effect) : Impl := { s with calls_ := s.calls_ ++ es }

/-- The interest of an `expressInterest` call and the callbacks bound to it. -/
def Effect.expressed : Effect → Option (Interest × Callbacks)
  | .expressInterest interest callbacks => some (interest, callbacks)
  | _ => none

/-- The packet of a `put` call. -/
def Effect.sent : Effect → Option Data
  | .put data => some data
  | _ => none

/-- Every parked interest has a name component after the broadcast prefix. -/
def ParkedOk (s : Impl) : Prop :=
  ∀ p ∈ s.pendingInterests_.interests_,
    s.applicationBroadcastPrefix_.length < p.interest_.name.length

/-- The parked interests and the broadcast prefix. -/
def Impl.parked (s : Impl) : List PendingInterest × Name :=
  (s.pendingInterests_.interests_, s.applicationBroadcastPrefix_)

end ICTSync

/-- The table of the engine is one built by `update` calls with `int`
arguments, the own session number is an `int` and the sequences recorded for
the discovery interests in flight are `int`s. -/
def ICTSync.Impl.Sound (s : ICTSync.Impl) : Prop :=
  ict.Reachable s.digestTree_ ∧ isInt s.sessionNo_ ∧
    ∀ kv ∈ s.outgoingDiscoveryInterests_, isInt kv.2

/-- The `uint32` fields of the entries of a message are below 2^32. -/
def Sync.WellFormed (content : List Sync.SyncState) : Prop :=
  ∀ m ∈ content, m.seq < 4294967296 ∧ m.session < 4294967296

/-- The `UPDATE` message of a table row: its prefix, and its session and
sequence numbers as `uint32` values. -/
def Node.toUpdate (n : Node) : Sync.SyncState :=
  { name := n.dataPrefix_, type := .UPDATE, seq := toUInt32 n.sequenceNo_,
    session := toUInt32 n.sessionNo_, application_info := none }

/-- The `UPDATE_NO_NAME` message of a table row: its session and sequence
numbers as `uint32` values, no name. -/
def Node.toUpdateNoName (n : Node) : Sync.SyncState :=
  { name := [], type := .UPDATE_NO_NAME, seq := toUInt32 n.sequenceNo_,
    session := toUInt32 n.sessionNo_, application_info := none }

/-- The digest `broadcastSyncData` reads from a parked interest: the unescaped
URI of the name component after the broadcast prefix. -/
def ICTSync.Impl.parkedDigest (s : ICTSync.Impl) (p : PendingInterest) : Str :=
  match Name.get p.interest_.name s.applicationBroadcastPrefix_.length with
  | some c => unescape (Component.toUri c)
  | none => []

/-- The data packet that answers a parked interest against the table of the
engine: none when the positive set of its digest is empty; otherwise the packet
named `<broadcast prefix>/<unescaped digest>` that lists the rows of the
positive set as `UPDATE` entries, without content in discovery mode. -/
def ICTSync.Impl.answerTo (s : ICTSync.Impl) (p : PendingInterest) : Option Data :=
  if (s.digestTree_.getDiff (s.parkedDigest p)).positiveLocalIndexes = [] then none
  else some
    { name := s.applicationBroadcastPrefix_ ++ [unescape (s.parkedDigest p)],
      content :=
        if s.isDiscovery_ = true then none
        else some ((s.digestTree_.getDiff (s.parkedDigest p)).positiveLocalIndexes.filterMap
          (fun i => (s.digestTree_.digestNode_.get? i).map Node.toUpdate)),
      freshnessPeriod := none }

/-- The row after `processInterestUpdates` has handled one remote pair: a row of
the pair's session whose sequence is below the pair's (both as `int`) takes the
pair's sequence. -/
def Node.raise (n : Node) (r : Nat × Nat) : Node :=
  if n.sessionNo_ = toInt32 r.1 ∧ n.sequenceNo_ < toInt32 r.2 then
    Node.new n.dataPrefix_ n.sessionNo_ (toInt32 r.2)
  else n

/-- The row after a sync interest with the remote list `remoteVector` has been
processed: a row that is behind its matching remote pair in the unsigned
comparison of `getDiff` and in the signed comparison of `update` takes the
sequence of that pair. -/
def applyRemote (remoteVector : List (Nat × Nat)) (L : Node) : Node :=
  match negativeOf remoteVector L with
  | some r => L.raise r
  | none => L

/-- The state `s1` comes from `s` by appending `calls` to the record of calls,
with the configuration of the engine unchanged. -/
def ICTSync.Impl.StepsTo (s s1 : ICTSync.Impl) (calls : List ICTSync.Effect) : Prop :=
  s1.calls_ = s.calls_ ++ calls ∧
  s1.applicationBroadcastPrefix_ = s.applicationBroadcastPrefix_ ∧
  s1.syncLifetime_ = s.syncLifetime_ ∧
  s1.isDiscovery_ = s.isDiscovery_ ∧
  s1.noData_ = s.noData_ ∧
  s1.enabled_ = s.enabled_

/-- The number of `expressInterest` calls of a list that carry the name. -/
def ICTSync.expressCount (calls : List ICTSync.Effect) (name : Name) : Nat :=
  (calls.filterMap ICTSync.Effect.expressed).countP (fun p => decide (p.1.name = name))

/-- The name of the discovery interest for a session:
`<broadcast prefix>/DISCOVERY/<session>`. -/
def ICTSync.Impl.discoveryName (s : ICTSync.Impl) (session : Nat) : Name :=
  s.applicationBroadcastPrefix_ ++ ["DISCOVERY".toList] ++ [to_string_unsigned session]

/-- The sequence number the table stores for a key: that of the first row with
the prefix and the session, none when there is no such row. -/
def ICTVectorState.stored (st : ICTVectorState) (dataPrefix : Str) (sessionNo : Int) :
    Option Int :=
  (st.digestNode_.find? (fun n => decide (n.dataPrefix_ = dataPrefix ∧ n.sessionNo_ = sessionNo))).map
    Node.sequenceNo_

/-- The arguments of an `onReceivedSyncState` call. -/
def ICTSync.Effect.received : ICTSync.Effect → Option (List ICTSync.SyncState × Bool)
  | .onReceivedSyncState updates isRecovery => some (updates, isRecovery)
  | _ => none

/-- The delay of a `schedule` call, which enqueues `checkForUpdate`. -/
def ICTSync.Effect.scheduled : ICTSync.Effect → Option Int
  | .schedule delay => some delay
  | _ => none

/-- The payload with one `UPDATE` entry `("/a", k, 1)` for `k = 1, ..., n`. -/
def sessionPayload (n : Nat) : List Sync.SyncState :=
  (List.range n).map (fun (k : Nat) =>
    { name := "/a".toList, type := .UPDATE, seq := 1, session := k + 1,
      application_info := none })

/-! ## Lookup lemmas -/

theorem findFrom_eq_neg_one {p : Str} {s : Int} :
    ∀ (l : List Node) (i : Nat), (∀ m ∈ l, ¬(m.dataPrefix_ = p ∧ m.sessionNo_ = s)) →
      findFrom p s l i = -1
  | [], _, _ => rfl
  | n :: ns, i, h => by
    have hn : ¬(n.dataPrefix_ = p ∧ n.sessionNo_ = s) := h n (List.mem_cons_self _ _)
    simp only [findFrom, Node.getDataPrefix, Node.getSessionNo, if_neg hn]
    exact findFrom_eq_neg_one ns (i + 1) (fun m hm => h m (List.mem_cons_of_mem _ hm))

theorem findFrom_append_match {p : Str} {s : Int} :
    ∀ (l1 : List Node) (n : Node) (l2 : List Node) (i : Nat),
      (∀ m ∈ l1, ¬(m.dataPrefix_ = p ∧ m.sessionNo_ = s)) →
      n.dataPrefix_ = p → n.sessionNo_ = s →
      findFrom p s (l1 ++ n :: l2) i = ((i + l1.length : Nat) : Int)
  | [], n, l2, i, _, hp, hs => by
    simp [findFrom, Node.getDataPrefix, Node.getSessionNo, hp, hs]
  | m :: ms, n, l2, i, h, hp, hs => by
    have hm : ¬(m.dataPrefix_ = p ∧ m.sessionNo_ = s) := h m (List.mem_cons_self _ _)
    simp only [List.cons_append, findFrom, Node.getDataPrefix, Node.getSessionNo, if_neg hm]
    show findFrom p s (ms ++ n :: l2) (i + 1) = _
    rw [findFrom_append_match ms n l2 (i + 1) (fun x hx => h x (List.mem_cons_of_mem _ hx)) hp hs]
    simp only [List.length_cons]
    congr 1
    omega

/-- Either no node has the key, or the list splits at the first node that has it. -/
theorem key_split (p : Str) (s : Int) :
    ∀ (l : List Node), (∀ m ∈ l, ¬(m.dataPrefix_ = p ∧ m.sessionNo_ = s)) ∨
      ∃ l1 n l2, l = l1 ++ n :: l2 ∧ (∀ m ∈ l1, ¬(m.dataPrefix_ = p ∧ m.sessionNo_ = s)) ∧
        n.dataPrefix_ = p ∧ n.sessionNo_ = s
  | [] => Or.inl (List.forall_mem_nil _)
  | n :: ns => by
    by_cases hn : n.dataPrefix_ = p ∧ n.sessionNo_ = s
    · exact Or.inr ⟨[], n, ns, rfl, List.forall_mem_nil _, hn.1, hn.2⟩
    · rcases key_split p s ns with h | ⟨l1, x, l2, rfl, h1, hp, hs⟩
      · left
        intro m hm
        rcases List.mem_cons.mp hm with rfl | hm
        · exact hn
        · exact h m hm
      · right
        refine ⟨n :: l1, x, l2, rfl, ?_, hp, hs⟩
        intro m hm
        rcases List.mem_cons.mp hm with rfl | hm
        · exact hn
        · exact h1 m hm

theorem recomputeVectorRoot_digestNode (st : ICTVectorState) :
    st.recomputeVectorRoot.digestNode_ = st.digestNode_ := rfl

theorem lower_bound_le (comp : Node → Node → Bool) (v : Node) :
    ∀ l : List Node, lower_bound comp l v ≤ l.length
  | [] => Nat.le_refl 0
  | e :: es => by
    unfold lower_bound
    split
    · simp only [List.length_cons]; exact Nat.succ_le_succ (lower_bound_le comp v es)
    · exact Nat.zero_le _

theorem setSequenceNo_eq_new (n : Node) (q : Int) :
    n.setSequenceNo q = Node.new n.dataPrefix_ n.sessionNo_ q := rfl

/-- What `update` does when the first node with the key sits after `l1`. -/
theorem update_of_match (st : ICTVectorState) (p : Str) (s q : Int)
    (l1 : List Node) (n : Node) (l2 : List Node)
    (hl : st.digestNode_ = l1 ++ n :: l2)
    (h1 : ∀ m ∈ l1, ¬(m.dataPrefix_ = p ∧ m.sessionNo_ = s))
    (hp : n.dataPrefix_ = p) (hs : n.sessionNo_ = s) :
    st.update p s q =
      if n.sequenceNo_ < q then
        (true, recomputeVectorRoot { st with digestNode_ := l1 ++ Node.new p s q :: l2 })
      else (false, st) := by
  have hfind : st.find p s = ((l1.length : Nat) : Int) := by
    unfold ICTVectorState.find
    rw [hl, findFrom_append_match l1 n l2 0 h1 hp hs]
    simp
  have hget : st.digestNode_.get? l1.length = some n := by
    rw [hl, List.get?_eq_getElem?, List.getElem?_append_right (Nat.le_refl _)]; simp
  have hset : st.digestNode_.set l1.length (n.setSequenceNo q) = l1 ++ Node.new p s q :: l2 := by
    rw [hl, setSequenceNo_eq_new, hp, hs]; simp
  unfold ICTVectorState.update
  simp only [hfind, Int.toNat_ofNat, hget, hset, Node.getSequenceNo]
  simp

/-- What `update` does when no node has the key. -/
theorem update_of_absent (st : ICTVectorState) (p : Str) (s q : Int)
    (h : ∀ m ∈ st.digestNode_, ¬(m.dataPrefix_ = p ∧ m.sessionNo_ = s)) :
    st.update p s q =
      (true, recomputeVectorRoot
        { st with
          digestNode_ := vector_insert st.digestNode_
            (lower_bound Node.Compare st.digestNode_ (Node.new p s q)) (Node.new p s q) }) := by
  have hfind : st.find p s = -1 := findFrom_eq_neg_one _ _ h
  unfold ICTVectorState.update
  simp [hfind]



theorem SameKeyLe.rfl (e : Node) : SameKeyLe e e := ⟨Eq.refl _, Eq.refl _, Int.le_refl _⟩

theorem sublistForall₂_self : ∀ l : List Node, List.SublistForall₂ SameKeyLe l l
  | [] => List.SublistForall₂.nil
  | e :: es => List.SublistForall₂.cons (SameKeyLe.rfl e) (sublistForall₂_self es)

theorem sublistForall₂_replace (n n' : Node) (h : SameKeyLe n n') (l2 : List Node) :
    ∀ l1 : List Node, List.SublistForall₂ SameKeyLe (l1 ++ n :: l2) (l1 ++ n' :: l2)
  | [] => List.SublistForall₂.cons h (sublistForall₂_self l2)
  | e :: es => List.SublistForall₂.cons (SameKeyLe.rfl e) (sublistForall₂_replace n n' h l2 es)

theorem sublistForall₂_insert (x : Node) (l2 : List Node) :
    ∀ l1 : List Node, List.SublistForall₂ SameKeyLe (l1 ++ l2) (l1 ++ x :: l2)
  | [] => List.SublistForall₂.cons_right (sublistForall₂_self l2)
  | e :: es => List.SublistForall₂.cons (SameKeyLe.rfl e) (sublistForall₂_insert x l2 es)

theorem sublistForall₂_mem {l l' : List Node} (h : List.SublistForall₂ SameKeyLe l l') :
    ∀ e ∈ l, ∃ e' ∈ l', SameKeyLe e e' := by
  induction h with
  | nil => intro e he; cases he
  | cons hr _ ih =>
    intro e he
    rcases List.mem_cons.mp he with rfl | he
    · exact ⟨_, List.mem_cons_self _ _, hr⟩
    · obtain ⟨e', he', hrel⟩ := ih e he
      exact ⟨e', List.mem_cons_of_mem _ he', hrel⟩
  | cons_right _ ih =>
    intro e he
    obtain ⟨e', he', hrel⟩ := ih e he
    exact ⟨e', List.mem_cons_of_mem _ he', hrel⟩

/-- The node list after `update`, against the one before. -/
theorem update_sublistForall₂ (st : ICTVectorState) (p : Str) (s q : Int) :
    List.SublistForall₂ SameKeyLe st.digestNode_ (st.update p s q).2.digestNode_ := by
  rcases key_split p s st.digestNode_ with h | ⟨l1, n, l2, hl, h1, hp, hs⟩
  · rw [update_of_absent st p s q h]
    show List.SublistForall₂ SameKeyLe st.digestNode_ (vector_insert st.digestNode_ _ _)
    unfold vector_insert
    conv => lhs; rw [← List.take_append_drop
      (lower_bound Node.Compare st.digestNode_ (Node.new p s q)) st.digestNode_]
    exact sublistForall₂_insert _ _ _
  · rw [update_of_match st p s q l1 n l2 hl h1 hp hs]
    by_cases hq : n.sequenceNo_ < q
    · rw [if_pos hq]
      show List.SublistForall₂ SameKeyLe st.digestNode_ (l1 ++ Node.new p s q :: l2)
      rw [hl]
      exact sublistForall₂_replace n _ ⟨hp.symm, hs.symm, Int.le_of_lt hq⟩ l2 l1
    · rw [if_neg hq]
      exact sublistForall₂_self _

/-- After `update(p,s,q)` the first node with key `(p,s)` has a sequence of at least `q`. -/
theorem update_first_ge (st : ICTVectorState) (p : Str) (s q : Int) :
    ∃ l1 n l2, (st.update p s q).2.digestNode_ = l1 ++ n :: l2 ∧
      (∀ m ∈ l1, ¬(m.dataPrefix_ = p ∧ m.sessionNo_ = s)) ∧
      n.dataPrefix_ = p ∧ n.sessionNo_ = s ∧ q ≤ n.sequenceNo_ := by
  rcases key_split p s st.digestNode_ with h | ⟨l1, n, l2, hl, h1, hp, hs⟩
  · rw [update_of_absent st p s q h]
    refine ⟨st.digestNode_.take (lower_bound Node.Compare st.digestNode_ (Node.new p s q)),
      Node.new p s q,
      st.digestNode_.drop (lower_bound Node.Compare st.digestNode_ (Node.new p s q)),
      rfl, ?_, rfl, rfl, Int.le_refl _⟩
    intro m hm
    exact h m (List.mem_of_mem_take hm)
  · rw [update_of_match st p s q l1 n l2 hl h1 hp hs]
    by_cases hq : n.sequenceNo_ < q
    · rw [if_pos hq]
      exact ⟨l1, Node.new p s q, l2, rfl, h1, rfl, rfl, Int.le_refl _⟩
    · rw [if_neg hq]
      exact ⟨l1, n, l2, hl, h1, hp, hs, Int.not_lt.mp hq⟩

/-- C1: `update(p,s,q)` on a state whose (first) entry `(p,s)` has sequence `q0`
replaces that entry by `(p,s,q)` and returns true when `q > q0`, and returns
false with the state unchanged when `q ≤ q0`; on a state with no entry `(p,s)`
it inserts the entry `(p,s,q)` among the others and returns true. -/
theorem update_contract (st : ICTVectorState) (p : Str) (s q : Int) :
    (∀ l1 n l2, st.digestNode_ = l1 ++ n :: l2 →
        (∀ m ∈ l1, ¬(m.dataPrefix_ = p ∧ m.sessionNo_ = s)) →
        n.dataPrefix_ = p → n.sessionNo_ = s →
        (n.sequenceNo_ < q →
          (st.update p s q).1 = true ∧
          (st.update p s q).2.digestNode_ =
            l1 ++ { n with sequenceNo_ := q, userDigest_ := entryDigest s q } :: l2) ∧
        (q ≤ n.sequenceNo_ → st.update p s q = (false, st))) ∧
    ((∀ m ∈ st.digestNode_, ¬(m.dataPrefix_ = p ∧ m.sessionNo_ = s)) →
        (st.update p s q).1 = true ∧
        ∃ l1 l2, st.digestNode_ = l1 ++ l2 ∧
          (st.update p s q).2.digestNode_ =
            l1 ++ { dataPrefix_ := p, sessionNo_ := s, sequenceNo_ := q,
                    userDigest_ := entryDigest s q } :: l2) := by
  refine ⟨?_, ?_⟩
  · intro l1 n l2 hl h1 hp hs
    rw [update_of_match st p s q l1 n l2 hl h1 hp hs]
    refine ⟨fun hq => ?_, fun hq => ?_⟩
    · rw [if_pos hq]
      refine ⟨rfl, ?_⟩
      subst hp; subst hs
      simp [recomputeVectorRoot, Node.new, Node.recomputeUserDigest, entryDigest]
    · rw [if_neg (Int.not_lt.mpr hq)]
  · intro h
    rw [update_of_absent st p s q h]
    refine ⟨rfl, _, _, (List.take_append_drop
      (lower_bound Node.Compare st.digestNode_ (Node.new p s q)) st.digestNode_).symm, ?_⟩
    simp [recomputeVectorRoot, vector_insert, Node.new, Node.recomputeUserDigest, entryDigest]

/-- Witness of C1 on the states built by `update("/a",1,5)`. -/
theorem update_contract_witness :
    (((ICTVectorState.new.update "/a".toList 1 5).2.update "/a".toList 1 7).1 = true ∧
      ((ICTVectorState.new.update "/a".toList 1 5).2.update "/a".toList 1 7).2.digestNode_ =
        [] ++ { Node.new "/a".toList 1 5 with
                sequenceNo_ := 7, userDigest_ := entryDigest 1 7 } :: []) ∧
    ((ICTVectorState.new.update "/a".toList 1 5).2.update "/a".toList 1 3 =
      (false, (ICTVectorState.new.update "/a".toList 1 5).2)) ∧
    (ICTVectorState.new.update "/a".toList 1 5).1 = true :=
  ⟨((update_contract (ICTVectorState.new.update "/a".toList 1 5).2 "/a".toList 1 7).1
      [] (Node.new "/a".toList 1 5) [] (by decide) (by decide) (by decide) (by decide)).1
      (by decide),
   ((update_contract (ICTVectorState.new.update "/a".toList 1 5).2 "/a".toList 1 3).1
      [] (Node.new "/a".toList 1 5) [] (by decide) (by decide) (by decide) (by decide)).2
      (by decide),
   ((update_contract ICTVectorState.new "/a".toList 1 5).2 (by decide)).1⟩

/-- C2: every entry present before `update(p,s,q)` is still present afterwards,
with the same key and a sequence that is not smaller (the old list is matched,
entry by entry and in order, into the new one); a second `update(p,s,q')` with
`q' ≤ q` returns false and changes nothing; and on the fresh state
`update("/a",1,5)` then `update("/a",1,3)` leaves the sequence at 5 and returns
false. -/
theorem update_monotone :
    (∀ (st : ICTVectorState) (p : Str) (s q : Int),
      List.SublistForall₂ SameKeyLe st.digestNode_ (st.update p s q).2.digestNode_ ∧
      ∀ e ∈ st.digestNode_, ∃ e' ∈ (st.update p s q).2.digestNode_,
        e'.dataPrefix_ = e.dataPrefix_ ∧ e'.sessionNo_ = e.sessionNo_ ∧
          e.sequenceNo_ ≤ e'.sequenceNo_) ∧
    (∀ (st : ICTVectorState) (p : Str) (s q q' : Int), q' ≤ q →
      (st.update p s q).2.update p s q' = (false, (st.update p s q).2)) ∧
    ((ICTVectorState.new.update "/a".toList 1 5).2.update "/a".toList 1 3).1 = false ∧
    (((ICTVectorState.new.update "/a".toList 1 5).2.update "/a".toList 1 3).2.digestNode_.map
      (fun n => (n.dataPrefix_, n.sessionNo_, n.sequenceNo_))) = [("/a".toList, 1, 5)] := by
  refine ⟨fun st p s q => ⟨update_sublistForall₂ st p s q,
    sublistForall₂_mem (update_sublistForall₂ st p s q)⟩, ?_, by decide, by decide⟩
  intro st p s q q' hq
  obtain ⟨l1, n, l2, hl, h1, hp, hs, hge⟩ := update_first_ge st p s q
  rw [update_of_match _ p s q' l1 n l2 hl h1 hp hs, if_neg (Int.not_lt.mpr (Int.le_trans hq hge))]

/-- Witness of C2: `update("/b",2,9)` then `update("/b",2,4)`. -/
theorem update_monotone_witness :
    ((ICTVectorState.new.update "/b".toList 2 9).2.update "/b".toList 2 4 =
      (false, (ICTVectorState.new.update "/b".toList 2 9).2)) :=
  update_monotone.2.1 ICTVectorState.new "/b".toList 2 9 4 (by decide)

/-! ## The order of `Node::Compare` -/

theorem char_eq_of_toNat {a b : Char} (h1 : ¬a.toNat < b.toNat) (h2 : ¬b.toNat < a.toNat) :
    a = b := by
  apply Char.ext
  apply UInt32.ext
  have : a.toNat = b.toNat := by omega
  exact this

theorem strCompare_self : ∀ a : Str, strCompare a a = 0
  | [] => rfl
  | c :: cs => by
    simp only [strCompare, Nat.lt_irrefl, if_false]
    exact strCompare_self cs

theorem strCompare_eq_zero : ∀ a b : Str, strCompare a b = 0 → a = b
  | [], [], _ => rfl
  | [], _ :: _, h => by simp [strCompare] at h
  | _ :: _, [], h => by simp [strCompare] at h
  | a :: as, b :: bs, h => by
    unfold strCompare at h
    by_cases h1 : a.toNat < b.toNat
    · rw [if_pos h1] at h; exact absurd h (by decide)
    · rw [if_neg h1] at h
      by_cases h2 : b.toNat < a.toNat
      · rw [if_pos h2] at h; exact absurd h (by decide)
      · rw [if_neg h2] at h
        rw [char_eq_of_toNat h1 h2, strCompare_eq_zero as bs h]

theorem strCompare_trans : ∀ a b c : Str, strCompare a b < 0 → strCompare b c < 0 →
    strCompare a c < 0
  | [], [], _, h, _ => by simp [strCompare] at h
  | [], _ :: _, [], _, h => by simp [strCompare] at h
  | [], _ :: _, _ :: _, _, _ => by simp [strCompare]
  | _ :: _, [], _, h, _ => by simp [strCompare] at h
  | _ :: _, _ :: _, [], _, h => by simp [strCompare] at h
  | a :: as, b :: bs, c :: cs, hab, hbc => by
    unfold strCompare at hab hbc ⊢
    by_cases hab1 : a.toNat < b.toNat
    · by_cases hbc1 : b.toNat < c.toNat
      · rw [if_pos (Nat.lt_trans hab1 hbc1)]; decide
      · rw [if_neg hbc1] at hbc
        by_cases hbc2 : c.toNat < b.toNat
        · rw [if_pos hbc2] at hbc; exact absurd hbc (by decide)
        · rw [if_pos (by omega)]; decide
    · rw [if_neg hab1] at hab
      by_cases hab2 : b.toNat < a.toNat
      · rw [if_pos hab2] at hab; exact absurd hab (by decide)
      · rw [if_neg hab2] at hab
        by_cases hbc1 : b.toNat < c.toNat
        · rw [if_pos (by omega)]; decide
        · rw [if_neg hbc1] at hbc
          by_cases hbc2 : c.toNat < b.toNat
          · rw [if_pos hbc2] at hbc; exact absurd hbc (by decide)
          · rw [if_neg hbc2] at hbc
            rw [if_neg (by omega), if_neg (by omega)]
            exact strCompare_trans as bs cs hab hbc

theorem strCompare_total : ∀ a b : Str, ¬strCompare a b < 0 → a ≠ b → strCompare b a < 0
  | [], [], _, h => absurd rfl h
  | [], _ :: _, h, _ => by simp [strCompare] at h
  | _ :: _, [], _, _ => by simp [strCompare]
  | a :: as, b :: bs, h, hne => by
    unfold strCompare at h ⊢
    by_cases h1 : a.toNat < b.toNat
    · rw [if_pos h1] at h; exact absurd (by decide) h
    · rw [if_neg h1] at h
      by_cases h2 : b.toNat < a.toNat
      · rw [if_pos h2]; decide
      · rw [if_neg h2] at h
        rw [if_neg h2, if_neg h1]
        have hc : a = b := char_eq_of_toNat h1 h2
        apply strCompare_total as bs h
        intro habs
        exact hne (by rw [hc, habs])

theorem strCompare_irrefl (a : Str) : ¬strCompare a a < 0 := by
  rw [strCompare_self]; decide

theorem keyLt_irrefl (a : Str × Int) : ¬keyLt a a := by
  rintro (h | ⟨_, h⟩)
  · exact strCompare_irrefl _ h
  · exact Int.lt_irrefl _ h

theorem keyLt_trans {a b c : Str × Int} (hab : keyLt a b) (hbc : keyLt b c) : keyLt a c := by
  rcases hab with h1 | ⟨e1, h1⟩ <;> rcases hbc with h2 | ⟨e2, h2⟩
  · exact Or.inl (strCompare_trans _ _ _ h1 h2)
  · exact Or.inl (e2 ▸ h1)
  · exact Or.inl (e1 ▸ h2)
  · exact Or.inr ⟨e1.trans e2, Int.lt_trans h1 h2⟩

theorem keyLt_total {a b : Str × Int} (h : ¬keyLt a b) (hne : a ≠ b) : keyLt b a := by
  by_cases he : a.1 = b.1
  · right
    refine ⟨he.symm, ?_⟩
    have h2 : ¬a.2 < b.2 := fun hlt => h (Or.inr ⟨he, hlt⟩)
    have h3 : a.2 ≠ b.2 := fun heq => hne (Prod.ext he heq)
    omega
  · left
    exact strCompare_total _ _ (fun hlt => h (Or.inl hlt)) he

theorem Compare_iff (a b : Node) : Node.Compare a b = true ↔ keyLt a.key b.key := by
  unfold Node.Compare keyLt Node.key
  simp only
  by_cases h0 : strCompare a.dataPrefix_ b.dataPrefix_ = 0
  · have he := strCompare_eq_zero _ _ h0
    simp [he, strCompare_self]
  · have hne : a.dataPrefix_ ≠ b.dataPrefix_ := fun he => h0 (he ▸ strCompare_self _)
    simp [h0, hne]

/-! ## `std::string::compare` is the lexicographic order -/

theorem strCompare_neg_iff_lex : ∀ a b : Str,
    strCompare a b < 0 ↔ List.Lex (fun x y : Char => x < y) a b
  | [], [] => by
    constructor
    · intro h; simp [strCompare] at h
    · intro h; cases h
  | [], b :: bs => by
    constructor
    · intro _; exact List.Lex.nil
    · intro _; simp [strCompare]
  | _ :: _, [] => by
    constructor
    · intro h; simp [strCompare] at h
    · intro h; cases h
  | a :: as, b :: bs => by
    have ih := strCompare_neg_iff_lex as bs
    unfold strCompare
    by_cases h1 : a.toNat < b.toNat
    · rw [if_pos h1]
      constructor
      · intro _; exact List.Lex.rel h1
      · intro _; decide
    · rw [if_neg h1]
      by_cases h2 : b.toNat < a.toNat
      · rw [if_pos h2]
        constructor
        · intro h; exact absurd h (by decide)
        · intro h
          cases h with
          | cons h => exact absurd h2 (Nat.lt_irrefl _)
          | rel h => exact absurd h h1
      · rw [if_neg h2, ih]
        have hab : a = b := char_eq_of_toNat h1 h2
        subst hab
        constructor
        · intro h; exact List.Lex.cons h
        · intro h
          cases h with
          | cons h => exact h
          | rel h => exact absurd h h1

/-- The order of `std::string::compare` is the order of strings. -/
theorem strCompare_neg_iff_lt (a b : Str) : strCompare a b < 0 ↔ String.mk a < String.mk b := by
  rw [strCompare_neg_iff_lex, String.lt_iff_toList_lt]
  exact Iff.rfl

/-! ## Sortedness of the node vector -/

theorem mem_vector_insert {l : List Node} {k : Nat} {x m : Node}
    (h : m ∈ vector_insert l k x) : m = x ∨ m ∈ l := by
  unfold vector_insert at h
  rcases List.mem_append.mp h with h | h
  · exact Or.inr (List.mem_of_mem_take h)
  · rcases List.mem_cons.mp h with h | h
    · exact Or.inl h
    · exact Or.inr (List.mem_of_mem_drop h)

theorem insert_strictlyAscending (x : Node) :
    ∀ l : List Node, StrictlyAscending l → (∀ m ∈ l, m.key ≠ x.key) →
      StrictlyAscending (vector_insert l (lower_bound Node.Compare l x) x)
  | [], _, _ => by
    simp [StrictlyAscending, vector_insert, lower_bound]
  | e :: es, hs, hne => by
    have hs' : (∀ m ∈ es, keyLt e.key m.key) ∧ StrictlyAscending es := List.pairwise_cons.mp hs
    unfold lower_bound
    by_cases hc : Node.Compare e x = true
    · rw [if_pos hc]
      have hins : vector_insert (e :: es) (lower_bound Node.Compare es x + 1) x =
          e :: vector_insert es (lower_bound Node.Compare es x) x := by
        simp [vector_insert]
      rw [hins]
      refine List.pairwise_cons.mpr ⟨?_, insert_strictlyAscending x es hs'.2
        (fun m hm => hne m (List.mem_cons_of_mem _ hm))⟩
      intro m hm
      rcases mem_vector_insert hm with rfl | hm
      · exact (Compare_iff e m).mp hc
      · exact hs'.1 m hm
    · rw [if_neg hc]
      have hins : vector_insert (e :: es) 0 x = x :: e :: es := by simp [vector_insert]
      rw [hins]
      have hxe : keyLt x.key e.key :=
        keyLt_total (fun h => hc ((Compare_iff e x).mpr h)) (hne e (List.mem_cons_self _ _))
      refine List.pairwise_cons.mpr ⟨?_, hs⟩
      intro m hm
      rcases List.mem_cons.mp hm with rfl | hm
      · exact hxe
      · exact keyLt_trans hxe (hs'.1 m hm)

theorem replace_strictlyAscending (l1 : List Node) (n n' : Node) (l2 : List Node)
    (hk : n'.key = n.key) (h : StrictlyAscending (l1 ++ n :: l2)) :
    StrictlyAscending (l1 ++ n' :: l2) := by
  have hmap : (l1 ++ n' :: l2).map Node.key = (l1 ++ n :: l2).map Node.key := by
    simp [hk]
  have e : ∀ l : List Node, StrictlyAscending l ↔ (l.map Node.key).Pairwise keyLt := by
    intro l; unfold StrictlyAscending; rw [List.pairwise_map]
  rw [e, hmap, ← e]; exact h

theorem key_ne_of_absent {p : Str} {s q : Int} {l : List Node}
    (h : ∀ m ∈ l, ¬(m.dataPrefix_ = p ∧ m.sessionNo_ = s)) :
    ∀ m ∈ l, m.key ≠ (Node.new p s q).key := by
  intro m hm hk
  apply h m hm
  have h1 : m.dataPrefix_ = p := congrArg Prod.fst hk
  have h2 : m.sessionNo_ = s := congrArg Prod.snd hk
  exact ⟨h1, h2⟩

/-- One `update` keeps the node vector strictly ascending. -/
theorem update_strictlyAscending (st : ICTVectorState) (p : Str) (s q : Int)
    (h : StrictlyAscending st.digestNode_) :
    StrictlyAscending (st.update p s q).2.digestNode_ := by
  rcases key_split p s st.digestNode_ with ha | ⟨l1, n, l2, hl, h1, hp, hs⟩
  · rw [update_of_absent st p s q ha]
    exact insert_strictlyAscending _ _ h (key_ne_of_absent ha)
  · rw [update_of_match st p s q l1 n l2 hl h1 hp hs]
    by_cases hq : n.sequenceNo_ < q
    · rw [if_pos hq]
      show StrictlyAscending (l1 ++ Node.new p s q :: l2)
      apply replace_strictlyAscending l1 n _ l2 _ (hl ▸ h)
      show (p, s) = (n.dataPrefix_, n.sessionNo_)
      rw [hp, hs]
    · rw [if_neg hq]; exact h

theorem reachable_strictlyAscending {st : ICTVectorState} (h : Reachable st) :
    StrictlyAscending st.digestNode_ := by
  induction h with
  | init => exact List.Pairwise.nil
  | update p s q _ _ _ ih => exact update_strictlyAscending _ p s q ih

theorem strictlyAscending_nodup {l : List Node} (h : StrictlyAscending l) :
    (l.map Node.key).Nodup := by
  unfold StrictlyAscending at h
  rw [List.Nodup, List.pairwise_map]
  refine h.imp ?_
  intro a b hab he
  rw [he] at hab
  exact keyLt_irrefl b.key hab

/-- C3: in every state reachable from the fresh state by `update` calls the
entry list is strictly ascending by `(data_prefix, session_id)` under
`Node::Compare` (string order on the prefix, then integer order on the
session), so no two positions hold the same `(data_prefix, session_id)`. -/
theorem reachable_sorted_no_duplicates (st : ICTVectorState) (h : Reachable st) :
    st.digestNode_.Pairwise (fun a b => Node.Compare a b = true) ∧
    st.digestNode_.Pairwise (fun a b =>
      String.mk a.dataPrefix_ < String.mk b.dataPrefix_ ∨
        (a.dataPrefix_ = b.dataPrefix_ ∧ a.sessionNo_ < b.sessionNo_)) ∧
    (st.digestNode_.map (fun n => (n.dataPrefix_, n.sessionNo_))).Nodup ∧
    ∀ (i j : Nat) (hi : i < st.digestNode_.length) (hj : j < st.digestNode_.length),
      (st.digestNode_.get ⟨i, hi⟩).dataPrefix_ = (st.digestNode_.get ⟨j, hj⟩).dataPrefix_ →
      (st.digestNode_.get ⟨i, hi⟩).sessionNo_ = (st.digestNode_.get ⟨j, hj⟩).sessionNo_ →
      i = j := by
  have hs := reachable_strictlyAscending h
  have hnd := strictlyAscending_nodup hs
  refine ⟨hs.imp (fun {a b} hab => (Compare_iff a b).mpr hab), hs.imp ?_, hnd, ?_⟩
  · intro a b hab
    rcases hab with h1 | h2
    · exact Or.inl ((strCompare_neg_iff_lt _ _).mp h1)
    · exact Or.inr h2
  intro i j hi hj hp hsn
  have hi' : i < (st.digestNode_.map Node.key).length := by simpa using hi
  have hj' : j < (st.digestNode_.map Node.key).length := by simpa using hj
  have := (List.Nodup.get_inj_iff hnd (i := ⟨i, hi'⟩) (j := ⟨j, hj'⟩)).mp (by
    simp only [List.get_eq_getElem, List.getElem_map, Node.key]
    simp only [List.get_eq_getElem] at hp hsn
    rw [hp, hsn])
  exact Fin.mk.inj_iff.mp this

/-- Witness of C3 on the state after `update("/b",2,1)`, `update("/a",7,1)`,
`update("/a",3,1)`. -/
theorem reachable_sorted_no_duplicates_witness :
    (applyUpdates ICTVectorState.new
        [("/b".toList, 2, 1), ("/a".toList, 7, 1), ("/a".toList, 3, 1)]).digestNode_.Pairwise
      (fun a b => Node.Compare a b = true) ∧
    (applyUpdates ICTVectorState.new
        [("/b".toList, 2, 1), ("/a".toList, 7, 1), ("/a".toList, 3, 1)]).digestNode_.map
      (fun n => (n.dataPrefix_, n.sessionNo_)) =
        [("/a".toList, 3), ("/a".toList, 7), ("/b".toList, 2)] :=
  ⟨(reachable_sorted_no_duplicates _
      (Reachable.update "/a".toList 3 1
        (Reachable.update "/a".toList 7 1
          (Reachable.update "/b".toList 2 1 Reachable.init (by decide) (by decide))
          (by decide) (by decide))
        (by decide) (by decide))).1,
   by decide⟩

/-! ## The root string -/

theorem foldl_digest_append (l : List Node) : ∀ acc : Str,
    l.foldl (fun acc n => acc ++ n.getUserDigest) acc =
      acc ++ l.foldl (fun acc n => acc ++ n.getUserDigest) [] := by
  induction l with
  | nil => intro acc; simp
  | cons n ns ih =>
    intro acc
    simp only [List.foldl_cons, List.nil_append]
    rw [ih (acc ++ n.getUserDigest), ih n.getUserDigest, List.append_assoc]

theorem foldl_digest_eq_encode : ∀ l : List Node, DigestOk l →
    l.foldl (fun acc n => acc ++ n.getUserDigest) [] = encodeEntries l
  | [], _ => rfl
  | n :: ns, h => by
    simp only [List.foldl_cons, List.nil_append]
    rw [foldl_digest_append, foldl_digest_eq_encode ns (fun m hm => h m (List.mem_cons_of_mem _ hm))]
    simp only [encodeEntries, Node.getUserDigest]
    rw [h n (List.mem_cons_self _ _)]

theorem recomputeVectorRoot_eq_encode (st : ICTVectorState) (h : DigestOk st.digestNode_) :
    st.recomputeVectorRoot.vectorRoot_ = encodeEntries st.digestNode_ :=
  foldl_digest_eq_encode _ h

theorem new_digest (p : Str) (s q : Int) :
    (Node.new p s q).userDigest_ = entryDigest (Node.new p s q).sessionNo_ (Node.new p s q).sequenceNo_ :=
  rfl

/-- One `update` keeps the stored digests right. -/
theorem update_digestOk (st : ICTVectorState) (p : Str) (s q : Int)
    (h : DigestOk st.digestNode_) : DigestOk (st.update p s q).2.digestNode_ := by
  rcases key_split p s st.digestNode_ with ha | ⟨l1, n, l2, hl, h1, hp, hs⟩
  · rw [update_of_absent st p s q ha]
    intro m hm
    rcases mem_vector_insert hm with rfl | hm
    · exact new_digest p s q
    · exact h m hm
  · rw [update_of_match st p s q l1 n l2 hl h1 hp hs]
    by_cases hq : n.sequenceNo_ < q
    · rw [if_pos hq]
      intro m hm
      have hm' : m ∈ l1 ++ Node.new p s q :: l2 := hm
      rcases List.mem_append.mp hm' with hm1 | hm2
      · exact h m (hl ▸ List.mem_append_left _ hm1)
      · rcases List.mem_cons.mp hm2 with rfl | hm2
        · exact new_digest p s q
        · exact h m (hl ▸ List.mem_append_right _ (List.mem_cons_of_mem _ hm2))
    · rw [if_neg hq]; exact h

theorem reachable_digestOk {st : ICTVectorState} (h : Reachable st) : DigestOk st.digestNode_ := by
  induction h with
  | init => intro n hn; cases hn
  | update p s q _ _ _ ih => exact update_digestOk _ p s q ih

/-- The root after one `update` on a state whose root is right unless it is empty. -/
theorem update_root (st : ICTVectorState) (p : Str) (s q : Int)
    (hd : DigestOk st.digestNode_)
    (hr : st.digestNode_ ≠ [] → st.vectorRoot_ = encodeEntries st.digestNode_) :
    (st.update p s q).2.digestNode_ ≠ [] ∧
    (st.update p s q).2.vectorRoot_ = encodeEntries (st.update p s q).2.digestNode_ := by
  have hd' := update_digestOk st p s q hd
  rcases key_split p s st.digestNode_ with ha | ⟨l1, n, l2, hl, h1, hp, hs⟩
  · rw [update_of_absent st p s q ha] at hd' ⊢
    refine ⟨?_, recomputeVectorRoot_eq_encode _ hd'⟩
    show vector_insert _ _ _ ≠ []
    simp [vector_insert]
  · have hne : st.digestNode_ ≠ [] := by rw [hl]; simp
    rw [update_of_match st p s q l1 n l2 hl h1 hp hs] at hd' ⊢
    by_cases hq : n.sequenceNo_ < q
    · rw [if_pos hq] at hd' ⊢
      refine ⟨?_, recomputeVectorRoot_eq_encode _ hd'⟩
      show l1 ++ Node.new p s q :: l2 ≠ []
      simp
    · rw [if_neg hq]
      exact ⟨hne, hr hne⟩

theorem reachable_root {st : ICTVectorState} (h : Reachable st) :
    (st.digestNode_ = [] → st = ICTVectorState.new) ∧
    (st.digestNode_ ≠ [] → st.vectorRoot_ = encodeEntries st.digestNode_) := by
  induction h with
  | init => exact ⟨fun _ => rfl, fun h => absurd rfl h⟩
  | @update st0 p s q h0 _ _ ih =>
    have := update_root st0 p s q (reachable_digestOk h0) ih.2
    exact ⟨fun he => absurd he this.1, fun _ => this.2⟩

/-- C4, the claim as stated fails: the freshly constructed state (reached by
the empty sequence of `update` calls) has `vector_root = "00"`, which is not
the concatenation of the digests of its (no) entries. -/
theorem fresh_root_not_concatenation :
    Reachable ICTVectorState.new ∧
    ICTVectorState.new.vectorRoot_ = "00".toList ∧
    encodeEntries ICTVectorState.new.digestNode_ = [] ∧
    ¬(∀ st : ICTVectorState, Reachable st → st.vectorRoot_ = encodeEntries st.digestNode_) :=
  ⟨Reachable.init, rfl, rfl, fun h => absurd (h _ Reachable.init) (by decide)⟩

/-- C4, amended: in every state reached by at least one `update` call
`vector_root` is the concatenation, in entry order, of the digest strings
`"<session_id>,<sequence_no>;"` of the entries; a reachable state is either
such a state or the fresh one, which has no entry and the root `"00"`. -/
theorem root_is_concatenation_after_update (st : ICTVectorState) (h : Reachable st) :
    (∀ (p : Str) (s q : Int),
      (st.update p s q).2.vectorRoot_ = encodeEntries (st.update p s q).2.digestNode_) ∧
    (st.digestNode_ ≠ [] → st.vectorRoot_ = encodeEntries st.digestNode_) ∧
    (st.digestNode_ = [] → st.vectorRoot_ = "00".toList) := by
  have hr := reachable_root h
  refine ⟨fun p s q => (update_root st p s q (reachable_digestOk h) hr.2).2, hr.2, ?_⟩
  intro he
  rw [hr.1 he]
  rfl

/-- Witness of C4 (amended) on the fresh state and `update("/a",1,5)`. -/
theorem root_is_concatenation_after_update_witness :
    (ICTVectorState.new.update "/a".toList 1 5).2.vectorRoot_ =
      encodeEntries (ICTVectorState.new.update "/a".toList 1 5).2.digestNode_ ∧
    (ICTVectorState.new.update "/a".toList 1 5).2.vectorRoot_ = "1,5;".toList :=
  ⟨(root_is_concatenation_after_update ICTVectorState.new Reachable.init).1 "/a".toList 1 5,
   by decide⟩

/-! ## Decimal rendering and the parser -/

theorem digitChar_spec : ∀ k : Nat, k < 10 →
    (Nat.digitChar k).isDigit = true ∧ (Nat.digitChar k).toNat - 48 = k ∧
      Nat.digitChar k ≠ '-' ∧ Nat.digitChar k ≠ '+' ∧ Nat.digitChar k ≠ '%' := by
  decide

theorem digitsValue_append_single (l : List Char) (d : Char) :
    digitsValue (l ++ [d]) = 10 * digitsValue l + (d.toNat - 48) := by
  simp [digitsValue, List.foldl_append]

/-- The decimal digits `Nat.toDigits` produces: a non-empty run of digit
characters whose value is the number. -/
theorem toDigitsCore_spec : ∀ (fuel n : Nat), n < fuel →
    ∃ l : List Char, (∀ ds, Nat.toDigitsCore 10 fuel n ds = l ++ ds) ∧ l ≠ [] ∧
      (∀ c ∈ l, c.isDigit = true ∧ c ≠ '-' ∧ c ≠ '+' ∧ c ≠ '%') ∧ digitsValue l = n
  | 0, _, h => absurd h (Nat.not_lt_zero _)
  | fuel + 1, n, h => by
    have hd := digitChar_spec (n % 10) (Nat.mod_lt _ (by decide))
    by_cases h0 : n / 10 = 0
    · refine ⟨[Nat.digitChar (n % 10)], ?_, by simp, ?_, ?_⟩
      · intro ds; simp [Nat.toDigitsCore, h0]
      · intro c hc
        rw [List.mem_singleton.mp hc]
        exact ⟨hd.1, hd.2.2⟩
      · have : digitsValue [Nat.digitChar (n % 10)] = (Nat.digitChar (n % 10)).toNat - 48 := by
          simp [digitsValue]
        rw [this, hd.2.1]
        omega
    · obtain ⟨l', hl', _, hdig, hval⟩ := toDigitsCore_spec fuel (n / 10) (by omega)
      refine ⟨l' ++ [Nat.digitChar (n % 10)], ?_, by simp, ?_, ?_⟩
      · intro ds
        simp only [Nat.toDigitsCore, if_neg h0]
        rw [hl']
        simp
      · intro c hc
        rcases List.mem_append.mp hc with hc | hc
        · exact hdig c hc
        · rw [List.mem_singleton.mp hc]
          exact ⟨hd.1, hd.2.2⟩
      · rw [digitsValue_append_single, hval, hd.2.1]
        omega

theorem toDigits_spec (n : Nat) :
    Nat.toDigits 10 n ≠ [] ∧
      (∀ c ∈ Nat.toDigits 10 n, c.isDigit = true ∧ c ≠ '-' ∧ c ≠ '+' ∧ c ≠ '%') ∧
      digitsValue (Nat.toDigits 10 n) = n := by
  obtain ⟨l, hl, hne, hdig, hval⟩ := toDigitsCore_spec (n + 1) n (Nat.lt_succ_self n)
  have : Nat.toDigits 10 n = l := by
    unfold Nat.toDigits
    rw [hl]; simp
  rw [this]
  exact ⟨hne, hdig, hval⟩

theorem takeWhile_digits (c : Char) (rest : Str) (hc : c.isDigit = false) :
    ∀ l : List Char, (∀ d ∈ l, d.isDigit = true) →
      (l ++ c :: rest).takeWhile Char.isDigit = l ∧
      (l ++ c :: rest).dropWhile Char.isDigit = c :: rest
  | [], _ => by simp [List.takeWhile, List.dropWhile, hc]
  | d :: ds, h => by
    have hd : d.isDigit = true := h d (List.mem_cons_self _ _)
    have ih := takeWhile_digits c rest hc ds (fun x hx => h x (List.mem_cons_of_mem _ hx))
    simp only [List.cons_append, List.takeWhile, List.dropWhile, hd]
    exact ⟨congrArg (List.cons d) ih.1, ih.2⟩

/-- `qi::int_` reads back what `std::to_string` wrote, up to the next octet
that is no digit. -/
theorem qi_int_to_string (v : Int) (hv : isInt v) (c : Char) (rest : Str)
    (hc : c.isDigit = false) :
    qi_int (to_string v ++ c :: rest) = some (v, c :: rest) := by
  obtain ⟨hne, hdig, hval⟩ := toDigits_spec v.natAbs
  have htw := takeWhile_digits c rest hc (Nat.toDigits 10 v.natAbs) (fun d hd => (hdig d hd).1)
  unfold to_string
  by_cases hneg : v < 0
  · rw [if_pos hneg]
    simp only [List.cons_append, qi_int, true_or, if_true, htw.1, htw.2, if_neg hne, hval]
    have : -((v.natAbs : Nat) : Int) = v := by omega
    rw [this, if_pos (show INT_MIN ≤ v ∧ v ≤ INT_MAX from hv)]
  · rw [if_neg hneg]
    obtain ⟨d, ds, hds⟩ := List.exists_cons_of_ne_nil hne
    have hd := hdig d (hds ▸ List.mem_cons_self _ _)
    have hbody : (if d = '-' ∨ d = '+' then ds ++ c :: rest else d :: (ds ++ c :: rest)) =
        Nat.toDigits 10 v.natAbs ++ c :: rest := by
      rw [if_neg (by simp [hd.2.1, hd.2.2.1]), hds]; rfl
    have hq : qi_int (Nat.toDigits 10 v.natAbs ++ c :: rest) =
        (if Nat.toDigits 10 v.natAbs = [] then none
         else if INT_MIN ≤ (if d = '-' then -(digitsValue (Nat.toDigits 10 v.natAbs) : Int)
                else (digitsValue (Nat.toDigits 10 v.natAbs) : Int)) ∧
              (if d = '-' then -(digitsValue (Nat.toDigits 10 v.natAbs) : Int)
                else (digitsValue (Nat.toDigits 10 v.natAbs) : Int)) ≤ INT_MAX
           then some ((if d = '-' then -(digitsValue (Nat.toDigits 10 v.natAbs) : Int)
                else (digitsValue (Nat.toDigits 10 v.natAbs) : Int)), c :: rest) else none) := by
      conv => lhs; rw [hds]
      simp only [List.cons_append, qi_int]
      rw [hbody, htw.1, htw.2]
    rw [hq, if_neg hne, if_neg hd.2.1, hval]
    have : ((v.natAbs : Nat) : Int) = v := by omega
    rw [this, if_pos (show INT_MIN ≤ v ∧ v ≤ INT_MAX from hv)]

theorem entryDigest_append (s q : Int) (rest : Str) :
    entryDigest s q ++ rest = to_string s ++ ',' :: (to_string q ++ ';' :: rest) := by
  simp [entryDigest]

theorem parse_into_tuple_entryDigest (s q : Int) (hs : isInt s) (hq : isInt q) (rest : Str) :
    parse_into_tuple (entryDigest s q ++ rest) =
      some ((toUInt32 s, toUInt32 q), ';' :: rest) := by
  rw [entryDigest_append]
  unfold parse_into_tuple
  rw [qi_int_to_string s hs ',' _ (by decide)]
  simp only
  rw [qi_int_to_string q hq ';' _ (by decide)]

theorem parse_into_tuple_nil : parse_into_tuple [] = none := rfl

theorem entryDigest_length_pos (s q : Int) : 1 ≤ (entryDigest s q).length := by
  simp only [entryDigest, List.length_append, List.length_singleton]
  omega

theorem encodeEntries_length : ∀ l : List Node, l.length ≤ (encodeEntries l).length
  | [] => Nat.le_refl 0
  | n :: ns => by
    have h1 := entryDigest_length_pos n.sessionNo_ n.sequenceNo_
    have h2 := encodeEntries_length ns
    simp only [encodeEntries, List.length_cons, List.length_append]
    omega

/-- The repetition of the list parser on the rest of an encoding: with one unit
of fuel per entry and one more it reads every pair. -/
theorem parse_more_encode : ∀ (l : List Node) (fuel : Nat),
    (∀ n ∈ l, isInt n.sessionNo_ ∧ isInt n.sequenceNo_) → l.length + 1 ≤ fuel →
    parse_more fuel (';' :: encodeEntries l) = l.map entryPair
  | [], fuel + 1, _, _ => by
    simp [parse_more, encodeEntries, parse_into_tuple_nil]
  | [], 0, _, h => absurd h (by decide)
  | n :: ns, 0, _, h => absurd h (by simp)
  | n :: ns, fuel + 1, hw, hf => by
    have hn := hw n (List.mem_cons_self _ _)
    simp only [parse_more, encodeEntries]
    rw [parse_into_tuple_entryDigest _ _ hn.1 hn.2]
    simp only [List.map_cons]
    rw [parse_more_encode ns fuel (fun m hm => hw m (List.mem_cons_of_mem _ hm))
      (by simp only [List.length_cons] at hf; omega)]
    rfl

/-- The pair parser of `getDiff` reads an encoding back. -/
theorem parse_into_vec_encode (l : List Node)
    (hw : ∀ n ∈ l, isInt n.sessionNo_ ∧ isInt n.sequenceNo_) :
    parse_into_vec (encodeEntries l) = l.map entryPair := by
  cases l with
  | nil => rfl
  | cons n ns =>
    have hn := hw n (List.mem_cons_self _ _)
    simp only [parse_into_vec, encodeEntries]
    rw [parse_into_tuple_entryDigest _ _ hn.1 hn.2]
    simp only [List.map_cons]
    rw [parse_more_encode ns _ (fun m hm => hw m (List.mem_cons_of_mem _ hm))
      (by have := encodeEntries_length ns; simp only [List.length_cons]; omega)]
    rfl

/-! ## `unescape` on strings without `'%'` -/

theorem unescape_of_no_percent : ∀ s : Str, (∀ c ∈ s, c ≠ '%') → unescape s = s
  | [], _ => rfl
  | [_], _ => rfl
  | [_, _], _ => rfl
  | c :: c1 :: c2 :: rest, h => by
    have hc : c ≠ '%' := h c (List.mem_cons_self _ _)
    unfold unescape
    rw [if_neg hc, unescape_of_no_percent (c1 :: c2 :: rest)
      (fun x hx => h x (List.mem_cons_of_mem _ hx))]

theorem to_string_no_percent (v : Int) : ∀ c ∈ to_string v, c ≠ '%' := by
  have hd := (toDigits_spec v.natAbs).2.1
  intro c hc
  unfold to_string at hc
  split at hc
  · rcases List.mem_cons.mp hc with rfl | hc
    · decide
    · exact (hd c hc).2.2.2
  · exact (hd c hc).2.2.2

theorem entryDigest_no_percent (s q : Int) : ∀ c ∈ entryDigest s q, c ≠ '%' := by
  intro c hc
  unfold entryDigest at hc
  simp only [List.mem_append, List.mem_singleton] at hc
  rcases hc with ((hc | rfl) | hc) | rfl
  · exact to_string_no_percent s c hc
  · decide
  · exact to_string_no_percent q c hc
  · decide

theorem encodeEntries_no_percent : ∀ (l : List Node), ∀ c ∈ encodeEntries l, c ≠ '%'
  | [], c, hc => by cases hc
  | n :: ns, c, hc => by
    unfold encodeEntries at hc
    rcases List.mem_append.mp hc with hc | hc
    · exact entryDigest_no_percent _ _ c hc
    · exact encodeEntries_no_percent ns c hc

/-! ## The `int` range of the stored fields -/

theorem update_wellTyped (st : ICTVectorState) (p : Str) (s q : Int) (hs : isInt s) (hq : isInt q)
    (h : WellTyped st) : WellTyped (st.update p s q).2 := by
  have hnew : isInt (Node.new p s q).sessionNo_ ∧ isInt (Node.new p s q).sequenceNo_ := ⟨hs, hq⟩
  unfold WellTyped
  rcases key_split p s st.digestNode_ with ha | ⟨l1, n, l2, hl, h1, hp, hsn⟩
  · rw [update_of_absent st p s q ha]
    intro m hm
    rcases mem_vector_insert hm with rfl | hm
    · exact hnew
    · exact h m hm
  · rw [update_of_match st p s q l1 n l2 hl h1 hp hsn]
    by_cases hlt : n.sequenceNo_ < q
    · rw [if_pos hlt]
      intro m hm
      have hm' : m ∈ l1 ++ Node.new p s q :: l2 := hm
      rcases List.mem_append.mp hm' with hm1 | hm2
      · exact h m (hl ▸ List.mem_append_left _ hm1)
      · rcases List.mem_cons.mp hm2 with rfl | hm2
        · exact hnew
        · exact h m (hl ▸ List.mem_append_right _ (List.mem_cons_of_mem _ hm2))
    · rw [if_neg hlt]; exact h

theorem reachable_wellTyped {st : ICTVectorState} (h : Reachable st) : WellTyped st := by
  induction h with
  | init => intro n hn; cases hn
  | update p s q _ hs hq ih => exact update_wellTyped _ p s q hs hq ih

/-- The parsed remote vector of a reachable state's own root. -/
theorem parse_own_root {st : ICTVectorState} (h : Reachable st) :
    parse_into_vec (unescape st.vectorRoot_) = st.digestNode_.map entryPair := by
  have hr := reachable_root h
  by_cases he : st.digestNode_ = []
  · rw [hr.1 he]; rfl
  · rw [hr.2 he, unescape_of_no_percent _ (encodeEntries_no_percent _),
      parse_into_vec_encode _ (reachable_wellTyped h)]

theorem toUInt32_of_nonneg (v : Int) (h0 : 0 ≤ v) (hv : isInt v) : ((toUInt32 v : Nat) : Int) = v := by
  unfold toUInt32
  unfold isInt INT_MIN INT_MAX at hv
  omega

/-- C10: for every reachable state, parsing the unescaped `vector_root` with the
pair parser of `getDiff` yields the `(session_id, sequence_no)` pairs of the
entries, in entry order: each stored `int` appears as the `uint32_t` it converts
to, which is the stored number itself whenever that is not negative. -/
theorem parse_root_round_trip (st : ICTVectorState) (h : Reachable st) :
    parse_into_vec (unescape st.vectorRoot_) =
      st.digestNode_.map (fun n => (toUInt32 n.sessionNo_, toUInt32 n.sequenceNo_)) ∧
    ((∀ n ∈ st.digestNode_, 0 ≤ n.sessionNo_ ∧ 0 ≤ n.sequenceNo_) →
      (parse_into_vec (unescape st.vectorRoot_)).map (fun r => ((r.1 : Int), (r.2 : Int))) =
        st.digestNode_.map (fun n => (n.sessionNo_, n.sequenceNo_))) := by
  have hp := parse_own_root h
  refine ⟨hp, fun hnn => ?_⟩
  rw [hp, List.map_map]
  apply List.map_congr_left
  intro n hn
  have hw := reachable_wellTyped h n hn
  simp only [Function.comp, entryPair]
  rw [toUInt32_of_nonneg _ (hnn n hn).1 hw.1, toUInt32_of_nonneg _ (hnn n hn).2 hw.2]

/-- Witness of C10 on the state after `update("/b",2,3)`, `update("/a",1,5)`. -/
theorem parse_root_round_trip_witness :
    parse_into_vec (unescape
      (applyUpdates ICTVectorState.new [("/b".toList, 2, 3), ("/a".toList, 1, 5)]).vectorRoot_) =
      (applyUpdates ICTVectorState.new [("/b".toList, 2, 3), ("/a".toList, 1, 5)]).digestNode_.map
        (fun n => (toUInt32 n.sessionNo_, toUInt32 n.sequenceNo_)) ∧
    parse_into_vec (unescape
      (applyUpdates ICTVectorState.new [("/b".toList, 2, 3), ("/a".toList, 1, 5)]).vectorRoot_) =
      [(1, 5), (2, 3)] :=
  ⟨(parse_root_round_trip _
      (Reachable.update "/a".toList 1 5
        (Reachable.update "/b".toList 2 3 Reachable.init (by decide) (by decide))
        (by decide) (by decide))).1,
   by decide⟩

/-! ## The loops of `getDiff` -/

theorem scanRemote_eq (node : Node) (i : Nat) :
    ∀ (remote : List (Nat × Nat)) (pos : List Nat) (neg : List (Nat × Nat)),
      scanRemote node i remote pos neg =
        match matchingPair remote node with
        | none => (false, pos, neg)
        | some r =>
          (true, (if toUInt32 node.sequenceNo_ > r.2 then pos ++ [i % 256] else pos),
            (if toUInt32 node.sequenceNo_ < r.2 then neg ++ [r] else neg))
  | [], _, _ => rfl
  | r :: rs, pos, neg => by
    unfold scanRemote matchingPair
    by_cases h : toUInt32 node.sessionNo_ = r.1
    · simp [Node.getSessionNo, Node.getSequenceNo, h, List.find?]
    · have ih := scanRemote_eq node i rs pos neg
      unfold matchingPair at ih
      simp only [Node.getSessionNo, if_neg h, List.find?, decide_eq_false h]
      exact ih

/-- The outer loop of `getDiff`: what it appends to the two lists. -/
theorem localLoop_eq (remote : List (Nat × Nat)) :
    ∀ (l : List Node) (i : Nat) (pos : List Nat) (neg : List (Nat × Nat)),
      localLoop remote l i pos neg =
        (pos ++ ((l.enumFrom i).filter (fun x => isPositive remote x.2)).map (fun x => x.1 % 256),
         neg ++ l.filterMap (negativeOf remote))
  | [], _, _, _ => by simp [localLoop]
  | node :: nodes, i, pos, neg => by
    unfold localLoop
    rw [scanRemote_eq]
    cases hm : matchingPair remote node with
    | none =>
      simp only [Bool.not_false, if_true]
      rw [localLoop_eq remote nodes (i + 1)]
      simp [List.enumFrom_cons, List.filter_cons, isPositive, negativeOf, hm]
    | some r =>
      simp only [Bool.not_true]
      rw [localLoop_eq remote nodes (i + 1)]
      by_cases h1 : toUInt32 node.sequenceNo_ > r.2
      · have h2 : ¬toUInt32 node.sequenceNo_ < r.2 := by omega
        simp [List.enumFrom_cons, List.filter_cons, isPositive, negativeOf, hm, h1, h2]
      · by_cases h2 : toUInt32 node.sequenceNo_ < r.2
        · simp [List.enumFrom_cons, List.filter_cons, isPositive, negativeOf, hm, h1, h2]
        · simp [List.enumFrom_cons, List.filter_cons, isPositive, negativeOf, hm, h1, h2]

/-- The last loop of `getDiff`: what it appends to the list. -/
theorem unknownLoop_eq (st : ICTVectorState) :
    ∀ (remote : List (Nat × Nat)) (unknown : List (Nat × Nat)),
      unknownLoop st remote unknown =
        unknown ++ remote.filter (fun r => decide (st.findSession (toInt32 r.1) = -1))
  | [], _ => by simp [unknownLoop]
  | r :: rs, unknown => by
    unfold unknownLoop
    by_cases h : st.findSession (toInt32 r.1) = -1
    · rw [if_pos h, unknownLoop_eq st rs]
      simp [List.filter_cons, h]
    · rw [if_neg h, unknownLoop_eq st rs]
      simp [List.filter_cons, h]

/-- The three lists and the return value of `getDiff`. -/
theorem getDiff_eq (st : ICTVectorState) (rState : Str) :
    (st.getDiff rState).positiveLocalIndexes =
      ((st.digestNode_.enumFrom 0).filter
        (fun x => isPositive (parse_into_vec (unescape rState)) x.2)).map (fun x => x.1 % 256) ∧
    (st.getDiff rState).negativeInLocal =
      st.digestNode_.filterMap (negativeOf (parse_into_vec (unescape rState))) ∧
    (st.getDiff rState).unknownSessions =
      (parse_into_vec (unescape rState)).filter
        (fun r => decide (st.findSession (toInt32 r.1) = -1)) ∧
    (st.getDiff rState).ret =
      if (st.getDiff rState).positiveLocalIndexes.length > 0
      then ((st.getDiff rState).positiveLocalIndexes.length : Int) else -1 := by
  unfold ICTVectorState.getDiff
  simp only [localLoop_eq, unknownLoop_eq, List.nil_append]
  simp

theorem findSessionFrom_eq_neg_one (x : Int) :
    ∀ (l : List Node) (i : Nat), findSessionFrom x l i = -1 ↔ ∀ n ∈ l, n.sessionNo_ ≠ x
  | [], _ => by simp [findSessionFrom]
  | n :: ns, i => by
    unfold findSessionFrom
    by_cases h : n.sessionNo_ = x
    · simp only [Node.getSessionNo, if_pos h]
      constructor
      · intro hi; omega
      · intro hall; exact absurd h (hall n (List.mem_cons_self _ _))
    · simp only [Node.getSessionNo, if_neg h]
      rw [findSessionFrom_eq_neg_one x ns (i + 1)]
      constructor
      · intro hall m hm
        rcases List.mem_cons.mp hm with rfl | hm
        · exact h
        · exact hall m hm
      · intro hall m hm
        exact hall m (List.mem_cons_of_mem _ hm)

theorem findSession_eq_neg_one (st : ICTVectorState) (x : Int) :
    st.findSession x = -1 ↔ ∀ n ∈ st.digestNode_, n.sessionNo_ ≠ x :=
  findSessionFrom_eq_neg_one x _ 0

/-! ## Conversions between `int` and `uint32_t` -/

theorem toUInt32_inj {a b : Int} (ha : isInt a) (hb : isInt b) (h : toUInt32 a = toUInt32 b) :
    a = b := by
  unfold toUInt32 at h
  unfold isInt INT_MIN INT_MAX at ha hb
  omega

theorem toUInt32_lt (a : Int) : toUInt32 a < 4294967296 := by
  unfold toUInt32
  omega

theorem toInt32_toUInt32 {a : Int} (ha : isInt a) : toInt32 (toUInt32 a) = a := by
  unfold toInt32 toUInt32
  unfold isInt INT_MIN INT_MAX at ha
  split <;> omega

theorem toUInt32_toInt32 {u : Nat} (hu : u < 4294967296) : toUInt32 (toInt32 u) = u := by
  unfold toInt32 toUInt32
  split <;> omega

theorem isInt_toInt32 {u : Nat} (hu : u < 4294967296) : isInt (toInt32 u) := by
  unfold toInt32 isInt INT_MIN INT_MAX
  split <;> omega

/-! ## Diffing a state against its own root -/

/-- The search of `getDiff` in the state's own pairs finds the pair of an entry
of the same session. -/
theorem matchingPair_own (L : Node) (hL : isInt L.sessionNo_) :
    ∀ l : List Node, (∀ m ∈ l, isInt m.sessionNo_) → L ∈ l →
      ∃ m ∈ l, m.sessionNo_ = L.sessionNo_ ∧ matchingPair (l.map entryPair) L = some (entryPair m)
  | [], _, h => by cases h
  | m :: ms, hw, h => by
    by_cases hm : toUInt32 L.sessionNo_ = toUInt32 m.sessionNo_
    · refine ⟨m, List.mem_cons_self _ _, (toUInt32_inj hL (hw m (List.mem_cons_self _ _)) hm).symm, ?_⟩
      simp [matchingPair, List.find?, entryPair, hm]
    · have hne : L ≠ m := fun e => hm (e ▸ rfl)
      have hin : L ∈ ms := by
        rcases List.mem_cons.mp h with e | hin
        · exact absurd e hne
        · exact hin
      obtain ⟨m', hm', hs', hfind⟩ :=
        matchingPair_own L hL ms (fun x hx => hw x (List.mem_cons_of_mem _ hx)) hin
      refine ⟨m', List.mem_cons_of_mem _ hm', hs', ?_⟩
      unfold matchingPair at hfind ⊢
      simp only [List.map_cons, List.find?, entryPair, decide_eq_false hm]
      exact hfind

theorem matchingPair_congr (remote : List (Nat × Nat)) {a b : Node}
    (h : a.sessionNo_ = b.sessionNo_) : matchingPair remote a = matchingPair remote b := by
  unfold matchingPair; rw [h]

theorem positive_part_nil (remote : List (Nat × Nat)) :
    ∀ (l : List Node) (i : Nat),
      ((l.enumFrom i).filter (fun x => isPositive remote x.2)).map (fun x => x.1 % 256) = [] ↔
        ∀ L ∈ l, isPositive remote L = false
  | [], _ => by simp
  | n :: ns, i => by
    have ih := positive_part_nil remote ns (i + 1)
    by_cases hn : isPositive remote n = true
    · simp [List.enumFrom_cons, List.filter_cons, hn]
    · simp only [Bool.not_eq_true] at hn
      simp only [List.enumFrom_cons, List.filter_cons, hn, List.forall_mem_cons, true_and]
      simpa using ih

theorem negative_part_nil (remote : List (Nat × Nat)) (l : List Node) :
    l.filterMap (negativeOf remote) = [] ↔ ∀ L ∈ l, negativeOf remote L = none := by
  simp [List.filterMap_eq_nil_iff]

/-- Unknown sessions never arise when a reachable state is diffed against its own root. -/
theorem unknown_own_nil {st : ICTVectorState} (hw : WellTyped st) :
    (st.digestNode_.map entryPair).filter
      (fun r => decide (st.findSession (toInt32 r.1) = -1)) = [] := by
  rw [List.filter_eq_nil_iff]
  intro r hr
  obtain ⟨m, hm, rfl⟩ := List.mem_map.mp hr
  simp only [decide_eq_true_eq, entryPair]
  rw [toInt32_toUInt32 (hw m hm).1, findSession_eq_neg_one]
  intro hall
  exact hall m hm rfl

theorem diff_own_root_iff {st : ICTVectorState} (h : Reachable st) :
    ((st.getDiff st.vectorRoot_).positiveLocalIndexes = [] ∧
      (st.getDiff st.vectorRoot_).negativeInLocal = [] ∧
      (st.getDiff st.vectorRoot_).unknownSessions = []) ↔
    ∀ a ∈ st.digestNode_, ∀ b ∈ st.digestNode_,
      a.sessionNo_ = b.sessionNo_ → a.sequenceNo_ = b.sequenceNo_ := by
  have hw := reachable_wellTyped h
  obtain ⟨hpos, hneg, hunk, _⟩ := getDiff_eq st st.vectorRoot_
  rw [hpos, hneg, hunk, parse_own_root h, positive_part_nil, negative_part_nil, unknown_own_nil hw]
  have hws : ∀ m ∈ st.digestNode_, isInt m.sessionNo_ := fun m hm => (hw m hm).1
  constructor
  · rintro ⟨hp, hn, _⟩ a ha b hb hab
    obtain ⟨m, hm, _, hfa⟩ := matchingPair_own a (hws a ha) _ hws ha
    have hfb : matchingPair (st.digestNode_.map entryPair) b = some (entryPair m) :=
      (matchingPair_congr _ hab).symm.trans hfa
    have pa := hp a ha
    have na := hn a ha
    have pb := hp b hb
    have nb := hn b hb
    simp only [isPositive, hfa, hfb, negativeOf, entryPair, decide_eq_false_iff_not,
      ite_eq_right_iff] at pa na pb nb
    have ea : toUInt32 a.sequenceNo_ = toUInt32 m.sequenceNo_ := by
      by_cases hlt : toUInt32 a.sequenceNo_ < toUInt32 m.sequenceNo_
      · exact absurd (na hlt) (by simp)
      · omega
    have eb : toUInt32 b.sequenceNo_ = toUInt32 m.sequenceNo_ := by
      by_cases hlt : toUInt32 b.sequenceNo_ < toUInt32 m.sequenceNo_
      · exact absurd (nb hlt) (by simp)
      · omega
    exact toUInt32_inj (hw a ha).2 (hw b hb).2 (ea.trans eb.symm)
  · intro H
    refine ⟨?_, ?_, rfl⟩
    · intro L hL
      obtain ⟨m, hm, hs, hf⟩ := matchingPair_own L (hws L hL) _ hws hL
      have hq := H m hm L hL hs
      simp [isPositive, hf, entryPair, hq]
    · intro L hL
      obtain ⟨m, hm, hs, hf⟩ := matchingPair_own L (hws L hL) _ hws hL
      have hq := H m hm L hL hs
      simp [negativeOf, hf, entryPair, hq]

/-- C5, the claim as stated fails: after `update("/a",1,5)` and
`update("/b",1,3)` the state has the root `"1,5;1,3;"`, and diffing it against
that root puts `(1,5)` into the negative list. -/
theorem diff_own_root_counterexample :
    Reachable (applyUpdates ICTVectorState.new [("/a".toList, 1, 5), ("/b".toList, 1, 3)]) ∧
    (applyUpdates ICTVectorState.new
      [("/a".toList, 1, 5), ("/b".toList, 1, 3)]).vectorRoot_ = "1,5;1,3;".toList ∧
    (applyUpdates ICTVectorState.new [("/a".toList, 1, 5), ("/b".toList, 1, 3)]).getDiff
      (applyUpdates ICTVectorState.new [("/a".toList, 1, 5), ("/b".toList, 1, 3)]).vectorRoot_ =
      { ret := -1, positiveLocalIndexes := [], negativeInLocal := [(1, 5)],
        unknownSessions := [] } :=
  ⟨Reachable.update "/b".toList 1 3
      (Reachable.update "/a".toList 1 5 Reachable.init (by decide) (by decide))
      (by decide) (by decide),
   by decide, by decide⟩

/-- C5, amended: for every reachable state in which the entries that share a
session id have the same sequence (in particular when the session ids are
pairwise distinct), `getDiff` against the state's own `vector_root` gives an
empty positive, negative and unknown list and returns -1; for every other
reachable state one of the lists is not empty. -/
theorem diff_own_root_empty (st : ICTVectorState) (h : Reachable st) :
    ((∀ a ∈ st.digestNode_, ∀ b ∈ st.digestNode_,
        a.sessionNo_ = b.sessionNo_ → a.sequenceNo_ = b.sequenceNo_) →
      st.getDiff st.vectorRoot_ =
        { ret := -1, positiveLocalIndexes := [], negativeInLocal := [], unknownSessions := [] }) ∧
    ((st.digestNode_.map (fun n => n.sessionNo_)).Nodup →
      st.getDiff st.vectorRoot_ =
        { ret := -1, positiveLocalIndexes := [], negativeInLocal := [], unknownSessions := [] }) ∧
    (st.getDiff st.vectorRoot_ =
        { ret := -1, positiveLocalIndexes := [], negativeInLocal := [], unknownSessions := [] } →
      ∀ a ∈ st.digestNode_, ∀ b ∈ st.digestNode_,
        a.sessionNo_ = b.sessionNo_ → a.sequenceNo_ = b.sequenceNo_) := by
  have key : (∀ a ∈ st.digestNode_, ∀ b ∈ st.digestNode_,
        a.sessionNo_ = b.sessionNo_ → a.sequenceNo_ = b.sequenceNo_) →
      st.getDiff st.vectorRoot_ =
        { ret := -1, positiveLocalIndexes := [], negativeInLocal := [], unknownSessions := [] } := by
    intro H
    obtain ⟨hp, hn, hu⟩ := (diff_own_root_iff h).mpr H
    have hr := (getDiff_eq st st.vectorRoot_).2.2.2
    rw [hp] at hr
    cases hd : st.getDiff st.vectorRoot_ with
    | mk r p n u =>
      rw [hd] at hp hn hu hr
      simp only at hp hn hu hr
      rw [hp, hn, hu, hr]
      rfl
  refine ⟨key, fun hnd => key ?_, fun he => (diff_own_root_iff h).mp ?_⟩
  · intro a ha b hb hab
    have : a = b := List.inj_on_of_nodup_map hnd ha hb hab
    rw [this]
  · rw [he]; exact ⟨rfl, rfl, rfl⟩

/-- Witness of C5 (amended) on the state after `update("/a",1,5)`,
`update("/b",2,3)`. -/
theorem diff_own_root_empty_witness :
    (applyUpdates ICTVectorState.new [("/a".toList, 1, 5), ("/b".toList, 2, 3)]).getDiff
      (applyUpdates ICTVectorState.new [("/a".toList, 1, 5), ("/b".toList, 2, 3)]).vectorRoot_ =
      { ret := -1, positiveLocalIndexes := [], negativeInLocal := [], unknownSessions := [] } :=
  (diff_own_root_empty _
      (Reachable.update "/b".toList 2 3
        (Reachable.update "/a".toList 1 5 Reachable.init (by decide) (by decide))
        (by decide) (by decide))).2.1 (by decide)

/-! ## States built by a list of calls -/

theorem reachable_applyUpdates : ∀ (cs : List (Str × Int × Int)) (st : ICTVectorState),
    Reachable st → (∀ c ∈ cs, isInt c.2.1 ∧ isInt c.2.2) → Reachable (applyUpdates st cs)
  | [], _, h, _ => h
  | c :: cs, st, h, hc => by
    unfold applyUpdates
    have h1 := hc c (List.mem_cons_self _ _)
    exact reachable_applyUpdates cs _ (Reachable.update c.1 c.2.1 c.2.2 h h1.1 h1.2)
      (fun x hx => hc x (List.mem_cons_of_mem _ hx))

theorem applyUpdates_append : ∀ (cs ds : List (Str × Int × Int)) (st : ICTVectorState),
    applyUpdates st (cs ++ ds) = applyUpdates (applyUpdates st cs) ds
  | [], _, _ => rfl
  | c :: cs, ds, st => by
    simp only [List.cons_append, applyUpdates]
    exact applyUpdates_append cs ds _

theorem lower_bound_all (comp : Node → Node → Bool) (x : Node) :
    ∀ l : List Node, (∀ e ∈ l, comp e x = true) → lower_bound comp l x = l.length
  | [], _ => rfl
  | e :: es, h => by
    unfold lower_bound
    rw [if_pos (h e (List.mem_cons_self _ _)),
      lower_bound_all comp x es (fun m hm => h m (List.mem_cons_of_mem _ hm))]
    rfl

theorem sessionCalls_isInt (n : Nat) (hn : n ≤ 2147483648) :
    ∀ c ∈ sessionCalls n, isInt c.2.1 ∧ isInt c.2.2 := by
  intro c hc
  unfold sessionCalls at hc
  obtain ⟨k, hk, rfl⟩ := List.mem_map.mp hc
  have hk' : k < n := List.mem_range.mp hk
  unfold isInt INT_MIN INT_MAX
  simp only [Int.ofNat_eq_coe]
  omega

/-- Sessions issued in ascending order under one prefix are appended one
after the other. -/
theorem applyUpdates_sessionCalls : ∀ n : Nat,
    (applyUpdates ICTVectorState.new (sessionCalls n)).digestNode_ = sessionNodes n
  | 0 => rfl
  | n + 1 => by
    have ih := applyUpdates_sessionCalls n
    have hc : sessionCalls (n + 1) = sessionCalls n ++ [("/a".toList, (n : Int), 1)] := by
      simp [sessionCalls, List.range_succ]
    have hn : sessionNodes (n + 1) = sessionNodes n ++ [Node.new "/a".toList (n : Int) 1] := by
      simp [sessionNodes, List.range_succ]
    rw [hc, applyUpdates_append, hn]
    show ((applyUpdates ICTVectorState.new (sessionCalls n)).update "/a".toList (n : Int) 1).2.digestNode_
      = _
    have hmem : ∀ m ∈ sessionNodes n, ∃ k : Nat, k < n ∧ m = Node.new "/a".toList (k : Int) 1 := by
      intro m hm
      unfold sessionNodes at hm
      obtain ⟨k, hk, rfl⟩ := List.mem_map.mp hm
      exact ⟨k, List.mem_range.mp hk, rfl⟩
    have habs : ∀ m ∈ (applyUpdates ICTVectorState.new (sessionCalls n)).digestNode_,
        ¬(m.dataPrefix_ = "/a".toList ∧ m.sessionNo_ = (n : Int)) := by
      rw [ih]
      intro m hm
      obtain ⟨k, hk, rfl⟩ := hmem m hm
      rintro ⟨_, h2⟩
      have h3 : (k : Int) = (n : Int) := h2
      omega
    rw [update_of_absent _ _ _ _ habs]
    show vector_insert _ _ _ = _
    rw [ih, lower_bound_all]
    · simp [vector_insert]
    · intro e he
      obtain ⟨k, hk, rfl⟩ := hmem e he
      rw [Compare_iff]
      right
      exact ⟨rfl, by show (k : Int) < (n : Int); omega⟩

theorem getDiff_positive_of_nodes (st : ICTVectorState) (rState : Str) :
    (st.getDiff rState).positiveLocalIndexes =
      (localLoop (parse_into_vec (unescape rState)) st.digestNode_ 0 [] []).1 := by
  unfold ICTVectorState.getDiff
  rfl

/-! ## The parsed pairs are `uint32_t` values -/

theorem parse_into_tuple_lt {s : Str} {t : Nat × Nat} {r : Str}
    (h : parse_into_tuple s = some (t, r)) : t.1 < 4294967296 ∧ t.2 < 4294967296 := by
  unfold parse_into_tuple at h
  split at h
  · cases h
  · split at h
    · split at h
      · simp only [Option.some.injEq, Prod.mk.injEq] at h
        rw [← h.1]
        exact ⟨toUInt32_lt _, toUInt32_lt _⟩
      · cases h
    · cases h

theorem parse_more_lt : ∀ (fuel : Nat) (s : Str), ∀ r ∈ parse_more fuel s,
    r.1 < 4294967296 ∧ r.2 < 4294967296
  | 0, _, r, hr => by simp [parse_more] at hr
  | fuel + 1, s, r, hr => by
    unfold parse_more at hr
    split at hr
    · split at hr
      · next t r' heq =>
        rcases List.mem_cons.mp hr with rfl | hr
        · exact parse_into_tuple_lt heq
        · exact parse_more_lt fuel r' r hr
      · cases hr
    · cases hr

theorem parse_into_vec_lt (s : Str) : ∀ r ∈ parse_into_vec s,
    r.1 < 4294967296 ∧ r.2 < 4294967296 := by
  intro r hr
  unfold parse_into_vec at hr
  split at hr
  · cases hr
  · next t r' heq =>
    rcases List.mem_cons.mp hr with rfl | hr
    · exact parse_into_tuple_lt heq
    · exact parse_more_lt _ r' r hr

/-- C8: the unknown list of `getDiff` is exactly the list of the remote pairs
whose session no local entry carries, each as often and in the place it stands
in the remote digest (the session compared as `find(int)` does, and, the local
sessions being C++ `int`s, equally as 32-bit values); for the local state
`{1→5}` and the digest of `{1→5, 7→2}` it is `[(7,2)]`, with an empty positive
and negative list. -/
theorem getDiff_unknown_exact (st : ICTVectorState) (rState : Str) :
    (st.getDiff rState).unknownSessions =
      (parse_into_vec (unescape rState)).filter
        (fun r => decide (∀ n ∈ st.digestNode_, n.sessionNo_ ≠ toInt32 r.1)) ∧
    ((∀ n ∈ st.digestNode_, isInt n.sessionNo_) →
      (st.getDiff rState).unknownSessions =
        (parse_into_vec (unescape rState)).filter
          (fun r => decide (∀ n ∈ st.digestNode_, toUInt32 n.sessionNo_ ≠ r.1))) ∧
    (ICTVectorState.new.update "/a".toList 1 5).2.getDiff "1,5;7,2;".toList =
      { ret := -1, positiveLocalIndexes := [], negativeInLocal := [],
        unknownSessions := [(7, 2)] } := by
  have h1 : (st.getDiff rState).unknownSessions =
      (parse_into_vec (unescape rState)).filter
        (fun r => decide (∀ n ∈ st.digestNode_, n.sessionNo_ ≠ toInt32 r.1)) := by
    rw [(getDiff_eq st rState).2.2.1]
    apply List.filter_congr
    intro r _
    simp only [findSession_eq_neg_one]
  refine ⟨h1, fun hw => ?_, by decide⟩
  rw [h1]
  apply List.filter_congr
  intro r hr
  have hlt := (parse_into_vec_lt _ r hr).1
  apply decide_eq_decide.mpr
  constructor
  · intro hall n hn he
    apply hall n hn
    rw [← he, toInt32_toUInt32 (hw n hn)]
  · intro hall n hn he
    apply hall n hn
    rw [he, toUInt32_toInt32 hlt]

/-- Witness of C8 on the local state `{1→5}` and the digest `"1,5;7,2;9,9;"`. -/
theorem getDiff_unknown_exact_witness :
    ((ICTVectorState.new.update "/a".toList 1 5).2.getDiff "1,5;7,2;9,9;".toList).unknownSessions =
      (parse_into_vec (unescape "1,5;7,2;9,9;".toList)).filter
        (fun r => decide (∀ n ∈ (ICTVectorState.new.update "/a".toList 1 5).2.digestNode_,
          toUInt32 n.sessionNo_ ≠ r.1)) ∧
    ((ICTVectorState.new.update "/a".toList 1 5).2.getDiff "1,5;7,2;9,9;".toList).unknownSessions =
      [(7, 2), (9, 9)] :=
  ⟨(getDiff_unknown_exact (ICTVectorState.new.update "/a".toList 1 5).2
      "1,5;7,2;9,9;".toList).2.1 (by decide),
   by decide⟩

/-! ## The negative list and the order of the lists -/

theorem mem_negative_iff (remote : List (Nat × Nat)) (l : List Node) (p : Nat × Nat) :
    p ∈ l.filterMap (negativeOf remote) ↔
      ∃ L ∈ l, matchingPair remote L = some p ∧ toUInt32 L.sequenceNo_ < p.2 := by
  rw [List.mem_filterMap]
  constructor
  · rintro ⟨L, hL, hn⟩
    refine ⟨L, hL, ?_⟩
    unfold negativeOf at hn
    split at hn
    · cases hn
    · next r hm =>
      split at hn
      · next hlt =>
        cases hn
        exact ⟨hm, hlt⟩
      · cases hn
  · rintro ⟨L, hL, hm, hlt⟩
    refine ⟨L, hL, ?_⟩
    unfold negativeOf
    rw [hm]
    simp only
    rw [if_pos hlt]

theorem matchingPair_fst {remote : List (Nat × Nat)} {L : Node} {p : Nat × Nat}
    (h : matchingPair remote L = some p) : p ∈ remote ∧ p.1 = toUInt32 L.sessionNo_ := by
  unfold matchingPair at h
  have h1 := List.mem_of_find?_eq_some h
  have h2 := List.find?_some h
  simp only [decide_eq_true_eq] at h2
  exact ⟨h1, h2.symm⟩

/-- The unsigned comparison of `getDiff` and the comparison of the `int`s agree
when the two sequences do not differ in sign. -/
theorem unsigned_lt_iff_of_same_sign (q : Int) (u : Nat) (hq : isInt q) (hu : u < 4294967296)
    (hsign : 0 ≤ q ↔ 0 ≤ toInt32 u) : toUInt32 q < u ↔ q < toInt32 u := by
  unfold isInt INT_MIN INT_MAX at hq
  unfold toInt32 at hsign ⊢
  unfold toUInt32
  split at hsign <;> rename_i h
  · rw [if_pos h]
    omega
  · rw [if_neg h]
    omega

/-- C7, the claim as stated fails. (1) The local state `{1→3}` is diffed against
the root `"1,2;1,5;"` of a reachable remote state; the remote pair `(1,5)` carries
the local entry's session with a greater sequence, and the negative list is
empty, because the search stops at the first pair of the session, `(1,2)`.
(2) The comparison is between `uint32_t` values: the reachable local row
`(/a, 1) → -1` against `"1,5;"` gives an empty negative list although 5 is
greater than -1, and the local row `(/a, 1) → 0` against `"1,-1;"`, the root of
the former state, gives the negative list `[(1, 4294967295)]` although -1 is
not greater than 0. -/
theorem getDiff_negative_counterexample :
    (applyUpdates ICTVectorState.new [("/a".toList, 1, 2), ("/b".toList, 1, 5)]).vectorRoot_ =
      "1,2;1,5;".toList ∧
    parse_into_vec (unescape "1,2;1,5;".toList) = [(1, 2), (1, 5)] ∧
    (ICTVectorState.new.update "/a".toList 1 3).2.digestNode_.map
      (fun L => (toUInt32 L.sessionNo_, toUInt32 L.sequenceNo_)) = [(1, 3)] ∧
    ((ICTVectorState.new.update "/a".toList 1 3).2.getDiff "1,2;1,5;".toList).negativeInLocal =
      [] ∧
    ¬(∀ L ∈ (ICTVectorState.new.update "/a".toList 1 3).2.digestNode_,
        ∀ r ∈ parse_into_vec (unescape "1,2;1,5;".toList),
          r.1 = toUInt32 L.sessionNo_ → toUInt32 L.sequenceNo_ < r.2 →
          r ∈ ((ICTVectorState.new.update "/a".toList 1 3).2.getDiff
            "1,2;1,5;".toList).negativeInLocal) ∧
    Reachable (ICTVectorState.new.update "/a".toList 1 (-1)).2 ∧
    (ICTVectorState.new.update "/a".toList 1 (-1)).2.digestNode_.map
      (fun L => (L.sessionNo_, L.sequenceNo_)) = [(1, -1)] ∧
    (ICTVectorState.new.update "/a".toList 1 (-1)).2.vectorRoot_ = "1,-1;".toList ∧
    parse_into_vec (unescape "1,5;".toList) = [(1, 5)] ∧
    ((ICTVectorState.new.update "/a".toList 1 (-1)).2.getDiff "1,5;".toList).negativeInLocal =
      [] ∧
    parse_into_vec (unescape "1,-1;".toList) = [(1, 4294967295)] ∧
    toInt32 4294967295 = -1 ∧
    (ICTVectorState.new.update "/a".toList 1 0).2.digestNode_.map
      (fun L => (L.sessionNo_, L.sequenceNo_)) = [(1, 0)] ∧
    ((ICTVectorState.new.update "/a".toList 1 0).2.getDiff "1,-1;".toList).negativeInLocal =
      [(1, 4294967295)] := by
  refine ⟨by decide, by decide, by decide, by decide, ?_,
    Reachable.update _ _ _ Reachable.init (by decide) (by decide), by decide, by decide,
    by decide, by decide, by decide, by decide, by decide, by decide⟩
  decide

/-- C7, amended: when no local entry's sequence differs in sign from the
sequence of the first remote pair that carries the entry's session, the
negative list of `getDiff` holds, in local entry order, exactly one pair for
each local entry `L` for which the first remote pair that carries `L`'s session
has a sequence strictly greater than `L`'s, namely that remote pair
`(session_id, remote sequence)`, and no other pair; the sequences are compared
as the `int`s the table stores and the digest spells. For every state and
digest the list holds one pair for each local entry that is behind the first
remote pair of its session in the comparison of the `uint32_t` values, which
for an entry and a pair of the same sign is the comparison of the `int`s. -/
theorem getDiff_negative_exact (st : ICTVectorState) (rState : Str) :
    ((∀ L ∈ st.digestNode_, isInt L.sequenceNo_) →
      (∀ L ∈ st.digestNode_, ∀ r ∈ parse_into_vec (unescape rState),
        (parse_into_vec (unescape rState)).find?
          (fun r => decide (toUInt32 L.sessionNo_ = r.1)) = some r →
        (0 ≤ L.sequenceNo_ ↔ 0 ≤ toInt32 r.2)) →
      (st.getDiff rState).negativeInLocal =
        st.digestNode_.filterMap (fun L =>
          match (parse_into_vec (unescape rState)).find?
              (fun r => decide (toUInt32 L.sessionNo_ = r.1)) with
          | none => none
          | some r => if L.sequenceNo_ < toInt32 r.2 then some r else none)) ∧
    (st.getDiff rState).negativeInLocal =
      st.digestNode_.filterMap (fun L =>
        match (parse_into_vec (unescape rState)).find?
            (fun r => decide (toUInt32 L.sessionNo_ = r.1)) with
        | none => none
        | some r => if toUInt32 L.sequenceNo_ < r.2 then some r else none) ∧
    (∀ p : Nat × Nat, p ∈ (st.getDiff rState).negativeInLocal ↔
      ∃ L ∈ st.digestNode_,
        (parse_into_vec (unescape rState)).find?
          (fun r => decide (toUInt32 L.sessionNo_ = r.1)) = some p ∧
        p.1 = toUInt32 L.sessionNo_ ∧ toUInt32 L.sequenceNo_ < p.2) ∧
    (∀ L ∈ st.digestNode_, isInt L.sequenceNo_ →
      ∀ r ∈ parse_into_vec (unescape rState), (0 ≤ L.sequenceNo_ ↔ 0 ≤ toInt32 r.2) →
        (toUInt32 L.sequenceNo_ < r.2 ↔ L.sequenceNo_ < toInt32 r.2)) := by
  have h := (getDiff_eq st rState).2.1
  have hexact : (st.getDiff rState).negativeInLocal =
      st.digestNode_.filterMap (fun L =>
        match (parse_into_vec (unescape rState)).find?
            (fun r => decide (toUInt32 L.sessionNo_ = r.1)) with
        | none => none
        | some r => if toUInt32 L.sequenceNo_ < r.2 then some r else none) := h
  refine ⟨fun hw hsign => ?_, hexact, fun p => ?_, ?_⟩
  · rw [hexact]
    apply List.filterMap_congr
    intro L hL
    cases hf : (parse_into_vec (unescape rState)).find?
        (fun r => decide (toUInt32 L.sessionNo_ = r.1)) with
    | none => rfl
    | some r =>
      have hr : r ∈ parse_into_vec (unescape rState) := List.mem_of_find?_eq_some hf
      have hiff := unsigned_lt_iff_of_same_sign L.sequenceNo_ r.2 (hw L hL)
        (parse_into_vec_lt _ r hr).2 (hsign L hL r hr hf)
      show (if toUInt32 L.sequenceNo_ < r.2 then some r else none) =
        (if L.sequenceNo_ < toInt32 r.2 then some r else none)
      exact if_congr hiff rfl rfl
  · rw [h, mem_negative_iff]
    constructor
    · rintro ⟨L, hL, hm, hlt⟩
      exact ⟨L, hL, hm, (matchingPair_fst hm).2, hlt⟩
    · rintro ⟨L, hL, hm, _, hlt⟩
      exact ⟨L, hL, hm, hlt⟩
  · intro L _ hq r hr hsign
    exact unsigned_lt_iff_of_same_sign L.sequenceNo_ r.2 hq (parse_into_vec_lt _ r hr).2 hsign

/-- Witness of C7 (amended): the local state `{(/a, 1) → 3, (/b, 2) → 7}` against
the digest `"1,2;1,5;2,9;"`, all sequences non-negative: the first pair of
session 1 is `(1, 2)`, not greater than 3, the first pair of session 2 is
`(2, 9)`, greater than 7, and the negative list is `[(2, 9)]`. -/
theorem getDiff_negative_exact_witness :
    ((applyUpdates ICTVectorState.new [("/a".toList, 1, 3), ("/b".toList, 2, 7)]).getDiff
        "1,2;1,5;2,9;".toList).negativeInLocal =
      (applyUpdates ICTVectorState.new
        [("/a".toList, 1, 3), ("/b".toList, 2, 7)]).digestNode_.filterMap (fun L =>
          match (parse_into_vec (unescape "1,2;1,5;2,9;".toList)).find?
              (fun r => decide (toUInt32 L.sessionNo_ = r.1)) with
          | none => none
          | some r => if L.sequenceNo_ < toInt32 r.2 then some r else none) ∧
    ((applyUpdates ICTVectorState.new [("/a".toList, 1, 3), ("/b".toList, 2, 7)]).getDiff
        "1,2;1,5;2,9;".toList).negativeInLocal = [(2, 9)] :=
  ⟨(getDiff_negative_exact (applyUpdates ICTVectorState.new
      [("/a".toList, 1, 3), ("/b".toList, 2, 7)]) "1,2;1,5;2,9;".toList).1
      (by decide) (by decide),
   by decide⟩

theorem filterMap_sublist_forall₂ {α β : Type} (f : α → Option β) :
    ∀ l : List α, ∃ ls : List α, ls.Sublist l ∧
      List.Forall₂ (fun a b => f a = some b) ls (l.filterMap f)
  | [] => ⟨[], List.Sublist.refl _, List.Forall₂.nil⟩
  | a :: as => by
    obtain ⟨ls, hsub, hf⟩ := filterMap_sublist_forall₂ f as
    cases hfa : f a with
    | none =>
      refine ⟨ls, List.Sublist.cons _ hsub, ?_⟩
      rw [List.filterMap_cons_none hfa]
      exact hf
    | some b =>
      refine ⟨a :: ls, List.Sublist.cons₂ _ hsub, ?_⟩
      rw [List.filterMap_cons_some hfa]
      exact List.Forall₂.cons hfa hf

/-- C9, the claim as stated fails: the local state after `update("/a",2,1)`
and `update("/b",1,1)` holds session 2 before session 1; against the digest
`"1,5;2,5;"` the negative list is `[(2,5), (1,5)]`, the reverse of the order of
the remote digest. -/
theorem getDiff_negative_order_counterexample :
    (applyUpdates ICTVectorState.new [("/a".toList, 2, 1), ("/b".toList, 1, 1)]).digestNode_.map
      (fun L => (L.dataPrefix_, L.sessionNo_, L.sequenceNo_)) =
        [("/a".toList, 2, 1), ("/b".toList, 1, 1)] ∧
    parse_into_vec (unescape "1,5;2,5;".toList) = [(1, 5), (2, 5)] ∧
    ((applyUpdates ICTVectorState.new [("/a".toList, 2, 1), ("/b".toList, 1, 1)]).getDiff
      "1,5;2,5;".toList).negativeInLocal = [(2, 5), (1, 5)] ∧
    ¬(((applyUpdates ICTVectorState.new [("/a".toList, 2, 1), ("/b".toList, 1, 1)]).getDiff
      "1,5;2,5;".toList).negativeInLocal).Sublist (parse_into_vec (unescape "1,5;2,5;".toList)) := by
  refine ⟨by decide, by decide, by decide, ?_⟩
  decide

/-- C9, amended: the positive list of `getDiff` is in local entry order (it is
the list of an ascending selection of local indexes, each stored as `uint8_t`);
the negative list is in local entry order too: its pairs are, one by one, the
first remote pairs of the sessions of a selection of local entries taken in
local order; the unknown list is in the order of the remote digest. -/
theorem getDiff_list_orders (st : ICTVectorState) (rState : Str) :
    (∃ idx : List Nat, idx.Sublist (List.range st.digestNode_.length) ∧
      (st.getDiff rState).positiveLocalIndexes = idx.map (fun i => i % 256)) ∧
    (st.digestNode_.length ≤ 256 →
      ((st.getDiff rState).positiveLocalIndexes).Sublist (List.range st.digestNode_.length)) ∧
    (∃ ls : List Node, ls.Sublist st.digestNode_ ∧
      List.Forall₂
        (fun L p => (parse_into_vec (unescape rState)).find?
          (fun r => decide (toUInt32 L.sessionNo_ = r.1)) = some p)
        ls (st.getDiff rState).negativeInLocal) ∧
    ((st.getDiff rState).unknownSessions).Sublist (parse_into_vec (unescape rState)) := by
  obtain ⟨hp, hn, hu, _⟩ := getDiff_eq st rState
  have hidx : (((st.digestNode_.enumFrom 0).filter
      (fun x => isPositive (parse_into_vec (unescape rState)) x.2)).map Prod.fst).Sublist
      (List.range st.digestNode_.length) := by
    have h1 := (List.filter_sublist (p := fun x : Nat × Node =>
        isPositive (parse_into_vec (unescape rState)) x.2) (st.digestNode_.enumFrom 0)).map
        Prod.fst
    rw [List.enumFrom_map_fst, ← List.range_eq_range'] at h1
    exact h1
  have hmap : (st.getDiff rState).positiveLocalIndexes =
      (((st.digestNode_.enumFrom 0).filter
        (fun x => isPositive (parse_into_vec (unescape rState)) x.2)).map Prod.fst).map
        (fun i => i % 256) := by
    rw [hp, List.map_map]
    rfl
  refine ⟨⟨_, hidx, hmap⟩, ?_, ?_, ?_⟩
  · intro hlen
    rw [hmap]
    have hid : ∀ i ∈ ((st.digestNode_.enumFrom 0).filter
        (fun x => isPositive (parse_into_vec (unescape rState)) x.2)).map Prod.fst,
        (fun i => i % 256) i = id i := by
      intro i hi
      have := List.mem_range.mp (hidx.subset hi)
      show i % 256 = i
      omega
    rw [List.map_congr_left hid, List.map_id]
    exact hidx
  · obtain ⟨ls, hsub, hf⟩ := filterMap_sublist_forall₂
      (negativeOf (parse_into_vec (unescape rState))) st.digestNode_
    refine ⟨ls, hsub, ?_⟩
    rw [hn]
    refine hf.imp ?_
    intro L p hLp
    have hmem : p ∈ [L].filterMap (negativeOf (parse_into_vec (unescape rState))) := by
      simp [List.filterMap_cons_some hLp]
    obtain ⟨L', hL', hm, _⟩ := (mem_negative_iff _ _ _).mp hmem
    rw [List.mem_singleton.mp hL'] at hm
    exact hm
  · rw [hu]
    exact List.filter_sublist _

/-- Witness of C9 (amended) on the local state `{1→5, 2→3}` and the digest
`"2,9;1,9;7,7;"`. -/
theorem getDiff_list_orders_witness :
    (((applyUpdates ICTVectorState.new [("/a".toList, 1, 5), ("/b".toList, 2, 3)]).getDiff
      "2,9;1,9;7,7;".toList).positiveLocalIndexes).Sublist (List.range 2) ∧
    ((applyUpdates ICTVectorState.new [("/a".toList, 1, 5), ("/b".toList, 2, 3)]).getDiff
      "2,9;1,9;7,7;".toList).negativeInLocal = [(1, 9), (2, 9)] :=
  ⟨(getDiff_list_orders (applyUpdates ICTVectorState.new
      [("/a".toList, 1, 5), ("/b".toList, 2, 3)]) "2,9;1,9;7,7;".toList).2.1 (by decide),
   by decide⟩

/-! ## The positive list -/

/-- C6, the code in general and at a failing input. For every state and digest
the positive list is, in local order, the list of the indexes of the local
entries that no remote pair matches or whose matching (first) remote pair has a
smaller sequence, each index stored as `uint8_t`, that is reduced modulo 256,
and the return value is the length of the list or -1 when it is empty; for the
local state `{1→5, 2→3}` and the digest of `{1→5, 2→2}` the lists are `[1]`,
`[]`, `[]`. After `update("/a", k, 1)` for `k = 0, ..., 256` the table holds 257
entries; diffed against the digest `"1000,1;"` of a peer that knows none of
these sessions, every entry is to be advertised, but the entry at index 256 is
recorded as 0, so 256 is missing from the positive list and 0 stands there
twice. -/
theorem getDiff_positive_wraps_at_256 :
    (∀ (st : ICTVectorState) (rState : Str),
      (st.getDiff rState).positiveLocalIndexes =
        ((st.digestNode_.enumFrom 0).filter (fun x =>
          match (parse_into_vec (unescape rState)).find?
              (fun r => decide (toUInt32 x.2.sessionNo_ = r.1)) with
          | none => true
          | some r => decide (r.2 < toUInt32 x.2.sequenceNo_))).map (fun x => x.1 % 256) ∧
      (st.getDiff rState).ret =
        if (st.getDiff rState).positiveLocalIndexes.length > 0
        then ((st.getDiff rState).positiveLocalIndexes.length : Int) else -1) ∧
    (applyUpdates ICTVectorState.new [("/a".toList, 1, 5), ("/b".toList, 2, 3)]).getDiff
        (applyUpdates ICTVectorState.new [("/a".toList, 1, 5), ("/b".toList, 2, 2)]).vectorRoot_ =
      { ret := 1, positiveLocalIndexes := [1], negativeInLocal := [], unknownSessions := [] } ∧
    Reachable (applyUpdates ICTVectorState.new (sessionCalls 257)) ∧
    (applyUpdates ICTVectorState.new (sessionCalls 257)).digestNode_.length = 257 ∧
    (applyUpdates ICTVectorState.new (sessionCalls 257)).digestNode_.map
        (fun n => n.sessionNo_) = (List.range 257).map Int.ofNat ∧
    parse_into_vec (unescape "1000,1;".toList) = [(1000, 1)] ∧
    ((applyUpdates ICTVectorState.new (sessionCalls 257)).getDiff
      "1000,1;".toList).positiveLocalIndexes = List.range 256 ++ [0] ∧
    256 ∉ ((applyUpdates ICTVectorState.new (sessionCalls 257)).getDiff
      "1000,1;".toList).positiveLocalIndexes := by
  have hpos : ((applyUpdates ICTVectorState.new (sessionCalls 257)).getDiff
      "1000,1;".toList).positiveLocalIndexes = List.range 256 ++ [0] := by
    rw [getDiff_positive_of_nodes, applyUpdates_sessionCalls]
    decide!
  refine ⟨fun st rState => ⟨(getDiff_eq st rState).1, (getDiff_eq st rState).2.2.2⟩, by decide,
    reachable_applyUpdates _ _ Reachable.init (sessionCalls_isInt 257 (by decide)), ?_, ?_,
    by decide, hpos, ?_⟩
  · rw [applyUpdates_sessionCalls]
    simp [sessionNodes]
  · rw [applyUpdates_sessionCalls]
    simp [sessionNodes, Node.new, Node.recomputeUserDigest]
  · rw [hpos]
    decide

/-! ## The fuel of the list parser is enough -/

theorem takeWhile_dropWhile_length (p : Char → Bool) (s : Str) :
    (s.takeWhile p).length + (s.dropWhile p).length = s.length := by
  have h := congrArg List.length (List.takeWhile_append_dropWhile p s)
  rw [List.length_append] at h
  exact h

/-- `qi::int_` consumes at least one octet when it succeeds. -/
theorem qi_int_length {s : Str} {v : Int} {rest : Str} (h : qi_int s = some (v, rest)) :
    rest.length < s.length := by
  cases s with
  | nil => cases h
  | cons c cs =>
    unfold qi_int at h
    simp only at h
    have hbody : (if c = '-' ∨ c = '+' then cs else c :: cs).length ≤ (c :: cs).length := by
      split <;> simp
    generalize (if c = '-' ∨ c = '+' then cs else c :: cs) = body at h hbody
    have hlen := takeWhile_dropWhile_length Char.isDigit body
    by_cases hne : body.takeWhile Char.isDigit = []
    · rw [if_pos hne] at h; cases h
    · rw [if_neg hne] at h
      have hpos : 0 < (body.takeWhile Char.isDigit).length := List.length_pos.mpr hne
      have hrest : rest = body.dropWhile Char.isDigit := by
        by_cases hc : c = '-'
        · simp only [hc, if_true] at h
          split at h
          · simp only [Option.some.injEq, Prod.mk.injEq] at h
            exact h.2.symm
          · cases h
        · simp only [hc, if_false] at h
          split at h
          · simp only [Option.some.injEq, Prod.mk.injEq] at h
            exact h.2.symm
          · cases h
      rw [hrest]
      omega

/-- The tuple parser consumes at least one octet when it succeeds. -/
theorem parse_into_tuple_length {s : Str} {t : Nat × Nat} {rest : Str}
    (h : parse_into_tuple s = some (t, rest)) : rest.length < s.length := by
  unfold parse_into_tuple at h
  split at h
  · cases h
  · next a r1 h1 =>
    split at h
    · next r2 =>
      split at h
      · next b r3 h3 =>
        simp only [Option.some.injEq, Prod.mk.injEq] at h
        have l1 := qi_int_length h1
        have l3 := qi_int_length h3
        rw [← h.2]
        simp only [List.length_cons] at l1
        omega
      · cases h
    · cases h

/-- More fuel than the length of the input changes nothing: the list parser
never stops for lack of fuel. -/
theorem parse_more_fuel : ∀ (n : Nat) (s : Str) (fuel : Nat), s.length ≤ n → n ≤ fuel →
    parse_more fuel s = parse_more n s
  | 0, s, fuel, hs, _ => by
    have : s = [] := List.length_eq_zero.mp (Nat.le_zero.mp hs)
    subst this
    cases fuel <;> rfl
  | n + 1, s, 0, _, hf => absurd hf (by simp)
  | n + 1, s, fuel + 1, hs, hf => by
    unfold parse_more
    split
    · next r =>
      split
      · next t r' heq =>
        have hl := parse_into_tuple_length heq
        simp only [List.length_cons] at hs
        rw [parse_more_fuel n r' fuel (by omega) (by omega)]
      · rfl
    · rfl

/-! ## `unescape` -/

theorem char_eq_ofNat (c : Char) : c = Char.ofNat c.toNat := by
  simp [Char.ofNat_toNat]

/-- `fromHexChar` gives the hex value of a hex digit and -1 for any other character. -/
theorem fromHexChar_eq (c : Char) :
    fromHexChar c = match hexDigitValue c with
      | some v => (v : Int)
      | none => -1 := by
  have hc := char_eq_ofNat c
  by_cases h1 : 48 ≤ c.toNat ∧ c.toNat ≤ 57
  · obtain ⟨ha, hb⟩ := h1
    generalize c.toNat = n at hc ha hb
    subst hc
    interval_cases n <;> decide
  · by_cases h2 : 65 ≤ c.toNat ∧ c.toNat ≤ 70
    · obtain ⟨ha, hb⟩ := h2
      generalize c.toNat = n at hc ha hb
      subst hc
      interval_cases n <;> decide
    · by_cases h3 : 97 ≤ c.toNat ∧ c.toNat ≤ 102
      · obtain ⟨ha, hb⟩ := h3
        generalize c.toNat = n at hc ha hb
        subst hc
        interval_cases n <;> decide
      · have hrange : ∀ d ∈ "0123456789ABCDEFabcdef".toList,
            (48 ≤ d.toNat ∧ d.toNat ≤ 57) ∨ (65 ≤ d.toNat ∧ d.toNat ≤ 70) ∨
              (97 ≤ d.toNat ∧ d.toNat ≤ 102) := by decide
        have hnot : ∀ d ∈ "0123456789ABCDEFabcdef".toList, c ≠ d := by
          intro d hd he
          subst he
          rcases hrange c hd with h | h | h
          · exact h1 h
          · exact h2 h
          · exact h3 h
        have hup : "0123456789ABCDEF".toList.indexOf c = 16 := by
          apply List.indexOf_eq_length.mpr
          intro hmem
          exact hnot c (by
            have : "0123456789ABCDEF".toList ⊆ "0123456789ABCDEFabcdef".toList := by decide
            exact this hmem) rfl
        have hlo : "0123456789abcdef".toList.indexOf c = 16 := by
          apply List.indexOf_eq_length.mpr
          intro hmem
          exact hnot c (by
            have : "0123456789abcdef".toList ⊆ "0123456789ABCDEFabcdef".toList := by decide
            exact this hmem) rfl
        have e0 : '0'.toNat = 48 := rfl
        have e9 : '9'.toNat = 57 := rfl
        have eA : 'A'.toNat = 65 := rfl
        have eF : 'F'.toNat = 70 := rfl
        have ea : 'a'.toNat = 97 := rfl
        have ef : 'f'.toNat = 102 := rfl
        unfold fromHexChar hexDigitValue
        simp only [hup, hlo, e0, e9, eA, eF, ea, ef, if_neg h1, if_neg h2, if_neg h3,
          Nat.lt_irrefl, if_false]

theorem unescape_cons_of_ne (c : Char) (rest : Str) (hc : c ≠ '%') :
    unescape (c :: rest) = c :: unescape rest := by
  cases rest with
  | nil => rfl
  | cons d rest =>
    cases rest with
    | nil => rfl
    | cons e rest =>
      rw [unescape, if_neg hc]

theorem unescape_percent (a b : Char) (rest : Str) :
    unescape ('%' :: a :: b :: rest) =
      if fromHexChar a < 0 ∨ fromHexChar b < 0 then '%' :: a :: b :: unescape rest
      else Char.ofNat (16 * fromHexChar a + fromHexChar b).toNat :: unescape rest := by
  rw [unescape]
  simp

/-- C12: reading the string from left to right, `unescape` replaces a `'%'`
followed by two hex digits (upper or lower case) by the single octet
`16 * hi + lo`, copies a `'%'` followed by two characters that are not both hex
digits as those three characters, and copies every other character, a `'%'`
with fewer than two characters after it included, unchanged; so a string
without `'%'` is returned unchanged. -/
theorem unescape_contract :
    (∀ (a b : Char) (rest : Str) (hi lo : Nat),
      hexDigitValue a = some hi → hexDigitValue b = some lo →
      unescape ('%' :: a :: b :: rest) = Char.ofNat (16 * hi + lo) :: unescape rest) ∧
    (∀ (a b : Char) (rest : Str),
      hexDigitValue a = none ∨ hexDigitValue b = none →
      unescape ('%' :: a :: b :: rest) = '%' :: a :: b :: unescape rest) ∧
    (∀ (c : Char) (rest : Str), c ≠ '%' → unescape (c :: rest) = c :: unescape rest) ∧
    (∀ a : Char, unescape ['%', a] = ['%', a]) ∧
    unescape ['%'] = ['%'] ∧
    unescape [] = [] ∧
    (∀ s : Str, (∀ c ∈ s, c ≠ '%') → unescape s = s) ∧
    unescape "1%2C5%3b%zz%4".toList = "1,5;%zz%4".toList ∧
    unescape "%%41".toList = "%%41".toList := by
  refine ⟨?_, ?_, unescape_cons_of_ne, fun _ => rfl, rfl, rfl, unescape_of_no_percent, by decide,
    by decide⟩
  · intro a b rest hi lo ha hb
    have h1 := fromHexChar_eq a
    have h2 := fromHexChar_eq b
    rw [ha] at h1
    rw [hb] at h2
    have h1' : fromHexChar a = (hi : Int) := h1
    have h2' : fromHexChar b = (lo : Int) := h2
    rw [unescape_percent, h1', h2']
    have hneg : ¬((hi : Int) < 0 ∨ (lo : Int) < 0) := by omega
    rw [if_neg hneg]
    have hn : (16 * (hi : Int) + (lo : Int)).toNat = 16 * hi + lo := by omega
    rw [hn]
  · intro a b rest hab
    have h1 := fromHexChar_eq a
    have h2 := fromHexChar_eq b
    have hneg : fromHexChar a < 0 ∨ fromHexChar b < 0 := by
      rcases hab with h | h
      · left; rw [h1, h]; decide
      · right; rw [h2, h]; decide
    rw [unescape_percent, if_pos hneg]

/-- Witness of C12 on `"%41%2c;"` and `"%4G1"`. -/
theorem unescape_contract_witness :
    unescape "%41%2c;".toList = 'A' :: unescape "%2c;".toList ∧
    unescape "%4G1".toList = '%' :: '4' :: 'G' :: unescape "1".toList ∧
    unescape "%41%2c;".toList = "A,;".toList :=
  ⟨unescape_contract.1 '4' '1' "%2c;".toList 4 1 (by decide) (by decide),
   unescape_contract.2.1 '4' 'G' "1".toList (Or.inr (by decide)),
   by decide⟩

/-! ## A well-formed beginning followed by other text -/

theorem takeWhile_digits_tail (tail : Str) (ht : ∀ c, tail.head? = some c → c.isDigit = false) :
    ∀ l : List Char, (∀ d ∈ l, d.isDigit = true) →
      (l ++ tail).takeWhile Char.isDigit = l ∧ (l ++ tail).dropWhile Char.isDigit = tail
  | [], _ => by
    cases tail with
    | nil => exact ⟨rfl, rfl⟩
    | cons c rest =>
      have hc : c.isDigit = false := ht c rfl
      simp [List.takeWhile, List.dropWhile, hc]
  | d :: ds, h => by
    have hd : d.isDigit = true := h d (List.mem_cons_self _ _)
    have ih := takeWhile_digits_tail tail ht ds (fun x hx => h x (List.mem_cons_of_mem _ hx))
    simp only [List.cons_append, List.takeWhile, List.dropWhile, hd]
    exact ⟨congrArg (List.cons d) ih.1, ih.2⟩

/-- `qi::int_` reads a numeral of an `int` up to the text after it. -/
theorem qi_int_numeral (s : Str) (v : Int) (hnum : numeralValue s = some v) (hv : isInt v)
    (tail : Str) (ht : ∀ c, tail.head? = some c → c.isDigit = false) :
    qi_int (s ++ tail) = some (v, tail) := by
  cases s with
  | nil => cases hnum
  | cons c cs =>
    unfold numeralValue at hnum
    simp only at hnum
    by_cases hsign : c = '-' ∨ c = '+'
    · rw [if_pos hsign] at hnum
      by_cases hb : cs ≠ [] ∧ cs.all Char.isDigit = true
      · rw [if_pos hb] at hnum
        have hdig : ∀ d ∈ cs, d.isDigit = true := List.all_eq_true.mp hb.2
        have htw := takeWhile_digits_tail tail ht cs hdig
        simp only [List.cons_append, qi_int, if_pos hsign, htw.1, htw.2, if_neg hb.1]
        simp only [Option.some.injEq] at hnum
        rw [hnum, if_pos (show INT_MIN ≤ v ∧ v ≤ INT_MAX from hv)]
      · rw [if_neg hb] at hnum; cases hnum
    · rw [if_neg hsign] at hnum
      by_cases hb : c :: cs ≠ [] ∧ (c :: cs).all Char.isDigit = true
      · rw [if_pos hb] at hnum
        have hdig : ∀ d ∈ c :: cs, d.isDigit = true := List.all_eq_true.mp hb.2
        have htw := takeWhile_digits_tail tail ht (c :: cs) hdig
        have htw1 : (c :: (cs ++ tail)).takeWhile Char.isDigit = c :: cs := htw.1
        have htw2 : (c :: (cs ++ tail)).dropWhile Char.isDigit = tail := htw.2
        simp only [List.cons_append, qi_int, if_neg hsign, htw1, htw2, if_neg hb.1]
        simp only [Option.some.injEq] at hnum
        rw [hnum, if_pos (show INT_MIN ≤ v ∧ v ≤ INT_MAX from hv)]
      · rw [if_neg hb] at hnum; cases hnum

/-- The tuple parser reads a well-formed pair up to the text after it. -/
theorem parse_into_tuple_pair (t : Str × Str) (v : Int × Int) (hp : IsPair t v)
    (tail : Str) (ht : ∀ c, tail.head? = some c → c.isDigit = false) :
    parse_into_tuple (t.1 ++ ',' :: t.2 ++ tail) =
      some ((toUInt32 v.1, toUInt32 v.2), tail) := by
  obtain ⟨h1, h2, hv1, hv2⟩ := hp
  have e : t.1 ++ ',' :: t.2 ++ tail = t.1 ++ ',' :: (t.2 ++ tail) := by simp
  rw [e]
  unfold parse_into_tuple
  rw [qi_int_numeral t.1 v.1 h1 hv1 (',' :: (t.2 ++ tail)) (by
    intro c hc
    simp only [List.head?_cons, Option.some.injEq] at hc
    rw [← hc]; decide)]
  simp only
  rw [qi_int_numeral t.2 v.2 h2 hv2 tail ht]

/-- One round of the list parser, with the fuel `parse_into_vec` gives it. -/
theorem parse_more_step {r r' : Str} {t : Nat × Nat} (h : parse_into_tuple r = some (t, r')) :
    parse_more (';' :: r).length (';' :: r) = t :: parse_more r'.length r' := by
  have hl := parse_into_tuple_length h
  simp only [List.length_cons, parse_more, h]
  rw [parse_more_fuel r'.length r' r.length (Nat.le_refl _) (Nat.le_of_lt hl)]

theorem parse_more_noFurtherPair (rest : Str) (h : NoFurtherPair rest) (n : Nat) :
    parse_more n rest = [] := by
  cases n with
  | zero => rfl
  | succ n =>
    unfold parse_more
    split
    · next r =>
      rw [h.2 r rfl]
    · rfl

theorem head_semicolon_not_digit (r : Str) :
    ∀ c, (';' :: r).head? = some c → c.isDigit = false := by
  intro c hc
  simp only [List.head?_cons, Option.some.injEq] at hc
  rw [← hc]; decide

/-- The list parser on `';'`, a well-formed list and text that is no further pair. -/
theorem parse_more_pairs (rest : Str) (hrest : NoFurtherPair rest) :
    ∀ (ps : List (Str × Str)) (vs : List (Int × Int)) (p : Str × Str) (v : Int × Int),
      IsPair p v → List.Forall₂ IsPair ps vs →
      parse_more (';' :: (pairsText (p :: ps) ++ rest)).length (';' :: (pairsText (p :: ps) ++ rest)) =
        (v :: vs).map (fun v => (toUInt32 v.1, toUInt32 v.2))
  | [], vs, p, v, hp, hps => by
    cases hps
    have h := parse_into_tuple_pair p v hp rest hrest.1
    have e : pairsText [p] ++ rest = p.1 ++ ',' :: p.2 ++ rest := by simp [pairsText]
    rw [e, parse_more_step h, parse_more_noFurtherPair rest hrest]
    rfl
  | q :: ps, vs, p, v, hp, hps => by
    cases hps with
    | cons hq hps' =>
      next w ws =>
      have ih := parse_more_pairs rest hrest ps ws q w hq hps'
      have h := parse_into_tuple_pair p v hp (';' :: (pairsText (q :: ps) ++ rest))
        (head_semicolon_not_digit _)
      have e : pairsText (p :: q :: ps) ++ rest =
          p.1 ++ ',' :: p.2 ++ ';' :: (pairsText (q :: ps) ++ rest) := by simp [pairsText]
      rw [e, parse_more_step h, ih]
      rfl

/-- The pair parser of `getDiff` on a well-formed list followed by text that is
no further pair. -/
theorem parse_into_vec_pairs (rest : Str) (hrest : NoFurtherPair rest)
    (ps : List (Str × Str)) (vs : List (Int × Int)) (hne : ps ≠ [])
    (hps : List.Forall₂ IsPair ps vs) :
    parse_into_vec (pairsText ps ++ rest) = vs.map (fun v => (toUInt32 v.1, toUInt32 v.2)) := by
  cases hps with
  | nil => exact absurd rfl hne
  | cons hp hps' =>
    next p v ps' vs' =>
    cases hps' with
    | nil =>
      have h := parse_into_tuple_pair p v hp rest hrest.1
      have e : pairsText [p] ++ rest = p.1 ++ ',' :: p.2 ++ rest := by simp [pairsText]
      unfold parse_into_vec
      rw [e, h]
      simp only
      rw [parse_more_noFurtherPair rest hrest]
      rfl
    | cons hq hps'' =>
      next q w qs ws =>
      have h := parse_into_tuple_pair p v hp (';' :: (pairsText (q :: qs) ++ rest))
        (head_semicolon_not_digit _)
      have e : pairsText (p :: q :: qs) ++ rest =
          p.1 ++ ',' :: p.2 ++ ';' :: (pairsText (q :: qs) ++ rest) := by simp [pairsText]
      unfold parse_into_vec
      rw [e, h]
      simp only
      rw [parse_more_pairs rest hrest qs ws q w hq hps'']
      rfl

theorem getDiff_congr (st : ICTVectorState) {a b : Str}
    (h : parse_into_vec (unescape a) = parse_into_vec (unescape b)) :
    st.getDiff a = st.getDiff b := by
  unfold ICTVectorState.getDiff
  simp only [h]

theorem numeral_no_percent {s : Str} {v : Int} (h : numeralValue s = some v) :
    ∀ c ∈ s, c ≠ '%' := by
  cases s with
  | nil => cases h
  | cons c cs =>
    unfold numeralValue at h
    simp only at h
    have hd : ∀ d : Char, d.isDigit = true → d ≠ '%' := by
      intro d hd he
      rw [he] at hd
      exact absurd hd (by decide)
    by_cases hsign : c = '-' ∨ c = '+'
    · rw [if_pos hsign] at h
      by_cases hb : cs ≠ [] ∧ cs.all Char.isDigit = true
      · intro x hx
        rcases List.mem_cons.mp hx with rfl | hx
        · rcases hsign with rfl | rfl <;> decide
        · exact hd x (List.all_eq_true.mp hb.2 x hx)
      · rw [if_neg hb] at h; cases h
    · rw [if_neg hsign] at h
      by_cases hb : c :: cs ≠ [] ∧ (c :: cs).all Char.isDigit = true
      · intro x hx
        exact hd x (List.all_eq_true.mp hb.2 x hx)
      · rw [if_neg hb] at h; cases h

theorem pairsText_no_percent : ∀ (ps : List (Str × Str)) (vs : List (Int × Int)),
    List.Forall₂ IsPair ps vs → ∀ c ∈ pairsText ps, c ≠ '%'
  | [], _, _, c, hc => by cases hc
  | [p], _, h, c, hc => by
    cases h with
    | cons hp _ =>
      simp only [pairsText, List.mem_append, List.mem_cons] at hc
      rcases hc with hc | rfl | hc
      · exact numeral_no_percent hp.1 c hc
      · decide
      · exact numeral_no_percent hp.2.1 c hc
  | p :: q :: ps, _, h, c, hc => by
    cases h with
    | cons hp hps =>
      simp only [pairsText, List.mem_append, List.mem_cons] at hc
      rcases hc with (hc | rfl | hc) | rfl | hc
      · exact numeral_no_percent hp.1 c hc
      · decide
      · exact numeral_no_percent hp.2.1 c hc
      · decide
      · exact pairsText_no_percent (q :: ps) _ hps c hc

theorem noFurtherPair_nil : NoFurtherPair [] :=
  ⟨fun _ h => (nomatch h), fun _ h => (nomatch h)⟩

/-- C11: when the unescaped remote digest is a well-formed `';'`-separated list
of `session,sequence` pairs (each number a decimal numeral of an `int`, with
an optional sign) followed by text that is no further pair, the parser of
`getDiff` yields exactly the pairs of that beginning, and `getDiff` returns
what it returns for the well-formed beginning alone; a digest that does not
begin with a pair is treated as the empty list; `"1,5;2,x"` is treated as
`[(1,5)]`. -/
theorem getDiff_ignores_malformed_rest (st : ICTVectorState) (rState : Str)
    (ps : List (Str × Str)) (vs : List (Int × Int)) (rest : Str)
    (hne : ps ≠ []) (hps : List.Forall₂ IsPair ps vs) (hrest : NoFurtherPair rest)
    (hu : unescape rState = pairsText ps ++ rest) :
    parse_into_vec (unescape rState) = vs.map (fun v => (toUInt32 v.1, toUInt32 v.2)) ∧
    st.getDiff rState = st.getDiff (pairsText ps) ∧
    (∀ s : Str, parse_into_tuple (unescape s) = none → st.getDiff s = st.getDiff []) ∧
    parse_into_vec (unescape "1,5;2,x".toList) = [(1, 5)] := by
  have h1 : parse_into_vec (unescape rState) =
      vs.map (fun v => (toUInt32 v.1, toUInt32 v.2)) := by
    rw [hu]; exact parse_into_vec_pairs rest hrest ps vs hne hps
  have h2 : parse_into_vec (unescape (pairsText ps)) =
      vs.map (fun v => (toUInt32 v.1, toUInt32 v.2)) := by
    rw [unescape_of_no_percent _ (pairsText_no_percent ps vs hps)]
    have := parse_into_vec_pairs [] noFurtherPair_nil ps vs hne hps
    rw [List.append_nil] at this
    exact this
  refine ⟨h1, getDiff_congr st (h1.trans h2.symm), ?_, by decide⟩
  intro s hs
  apply getDiff_congr
  unfold parse_into_vec
  rw [hs]
  rfl

/-- Witness of C11 on the digest `"1,5;-2,+07;2,x"`: the pairs `1,5` and
`-2,+07`, then the text `";2,x"`. -/
theorem getDiff_ignores_malformed_rest_witness :
    parse_into_vec (unescape "1,5;-2,+07;2,x".toList) =
      [(1, 5), (-2, 7)].map (fun v : Int × Int => (toUInt32 v.1, toUInt32 v.2)) ∧
    (ICTVectorState.new.update "/a".toList 1 9).2.getDiff "1,5;-2,+07;2,x".toList =
      (ICTVectorState.new.update "/a".toList 1 9).2.getDiff "1,5;-2,+07".toList :=
  ⟨(getDiff_ignores_malformed_rest (ICTVectorState.new.update "/a".toList 1 9).2
      "1,5;-2,+07;2,x".toList [("1".toList, "5".toList), ("-2".toList, "+07".toList)]
      [(1, 5), (-2, 7)] ";2,x".toList (by decide)
      (List.Forall₂.cons (by decide) (List.Forall₂.cons (by decide) List.Forall₂.nil))
      ⟨by decide, fun r hr => by cases hr; decide⟩ (by decide)).1,
   (getDiff_ignores_malformed_rest (ICTVectorState.new.update "/a".toList 1 9).2
      "1,5;-2,+07;2,x".toList [("1".toList, "5".toList), ("-2".toList, "+07".toList)]
      [(1, 5), (-2, 7)] ";2,x".toList (by decide)
      (List.Forall₂.cons (by decide) (List.Forall₂.cons (by decide) List.Forall₂.nil))
      ⟨by decide, fun r hr => by cases hr; decide⟩ (by decide)).2.1⟩

/-! ## The pending interest table -/

theorem get?_append_length {α : Type} (pre : List α) (p : α) (suf : List α) :
    (pre ++ p :: suf).get? pre.length = some p := by
  rw [List.get?_eq_getElem?, List.getElem?_append_right (Nat.le_refl _)]
  simp

theorem eraseIdx_append_length {α : Type} (pre : List α) (p : α) (suf : List α) :
    (pre ++ p :: suf).eraseIdx pre.length = pre ++ suf := by
  induction pre with
  | nil => rfl
  | cons a as ih => simp only [List.cons_append, List.length_cons, List.eraseIdx_cons_succ, ih]

/-- The loop of `getInterestsWithPrefix` over the first `pre.length` entries. -/
theorem withPrefixLoop_eq (namePrefix : Name) (now : Int) (remove : Bool) :
    ∀ (pre suf out : List PendingInterest),
      InterestList.withPrefixLoop namePrefix now remove pre.length (pre ++ suf) out =
        (pre.filter (fun p => !p.isTimedOut now &&
            !(remove && namePrefix.isPrefixOf p.getInterest.name)) ++ suf,
         out ++ (pre.filter (fun p => !p.isTimedOut now &&
            namePrefix.isPrefixOf p.getInterest.name)).reverse) := by
  intro pre
  induction pre using List.reverseRecOn with
  | nil => intro suf out; simp [InterestList.withPrefixLoop]
  | append_singleton pre p ih =>
    intro suf out
    have hlen : (pre ++ [p]).length = pre.length + 1 := by simp
    have happ : pre ++ [p] ++ suf = pre ++ p :: suf := by simp
    rw [hlen, happ]
    unfold InterestList.withPrefixLoop
    rw [get?_append_length]
    simp only [eraseIdx_append_length]
    by_cases ht : p.isTimedOut now = true
    · rw [if_pos ht, ih suf out]
      simp [List.filter_append, ht]
    · rw [if_neg ht]
      have ht' : p.isTimedOut now = false := Bool.eq_false_iff.mpr ht
      by_cases hm : namePrefix.isPrefixOf p.getInterest.name = true
      · rw [if_pos hm]
        cases remove with
        | true =>
          simp only [if_true]
          rw [ih suf (out ++ [p])]
          simp [List.filter_append, ht', hm]
        | false =>
          simp only [Bool.false_eq_true, if_false]
          rw [ih (p :: suf) (out ++ [p])]
          simp [List.filter_append, ht', hm]
      · rw [if_neg hm]
        have hm' : namePrefix.isPrefixOf p.getInterest.name = false := Bool.eq_false_iff.mpr hm
        rw [ih (p :: suf) out]
        simp [List.filter_append, ht', hm']

/-- The table and the result vector after `getInterestsWithPrefix`. -/
theorem getInterestsWithPrefixImpl_eq (l : InterestList) (namePrefix : Name)
    (out0 : List PendingInterest) (remove : Bool) (now : Int) :
    l.getInterestsWithPrefixImpl namePrefix out0 remove now =
      ({ interests_ := l.interests_.filter (fun p => !p.isTimedOut now &&
            !(remove && namePrefix.isPrefixOf p.getInterest.name)) },
       (l.interests_.filter (fun p => !p.isTimedOut now &&
            namePrefix.isPrefixOf p.getInterest.name)).reverse) := by
  unfold InterestList.getInterestsWithPrefixImpl
  have h := withPrefixLoop_eq namePrefix now remove l.interests_ [] []
  rw [List.append_nil] at h
  simp only [vector_clear, h, List.append_nil, List.nil_append]

theorem isTimedOut_iff (p : PendingInterest) (current : Int) :
    p.isTimedOut current = true ↔ (p.timeout_ms_ > 0 ∧ current ≥ p.timeout_ms_) := by
  unfold PendingInterest.isTimedOut
  simp

/-- C18, the claim as stated fails: the table holds an interest stored at the
clock reading -10 with lifetime 5 (expiry -5) and one stored at the clock
reading 1000 with the lifetime 2^63 - 1 (the expiry wraps to a negative
number); at time 2000 both have `expiry_ms ≠ 0` and `now ≥ expiry_ms`, and
both stay in the table and are returned, because the test for a timed-out
entry is `expiry_ms > 0 && now ≥ expiry_ms`. -/
theorem getInterestsWithPrefix_counterexample :
    (PendingInterest.new ⟨["b".toList, "x".toList], 5⟩ (-10)).timeout_ms_ = -5 ∧
    (PendingInterest.new ⟨["b".toList, "y".toList], LONG_MAX⟩ 1000).timeout_ms_ =
      -9223372036854774809 ∧
    ((InterestList.mk [PendingInterest.new ⟨["b".toList, "x".toList], 5⟩ (-10),
        PendingInterest.new ⟨["b".toList, "y".toList], LONG_MAX⟩ 1000]).getInterestsWithPrefixImpl
      ["b".toList] [] false 2000).1.interests_ =
      [PendingInterest.new ⟨["b".toList, "x".toList], 5⟩ (-10),
       PendingInterest.new ⟨["b".toList, "y".toList], LONG_MAX⟩ 1000] ∧
    ((InterestList.mk [PendingInterest.new ⟨["b".toList, "x".toList], 5⟩ (-10),
        PendingInterest.new ⟨["b".toList, "y".toList], LONG_MAX⟩ 1000]).getInterestsWithPrefixImpl
      ["b".toList] [] false 2000).2 =
      [PendingInterest.new ⟨["b".toList, "y".toList], LONG_MAX⟩ 1000,
       PendingInterest.new ⟨["b".toList, "x".toList], 5⟩ (-10)] ∧
    ¬(∀ p ∈ ((InterestList.mk [PendingInterest.new ⟨["b".toList, "x".toList], 5⟩ (-10),
        PendingInterest.new ⟨["b".toList, "y".toList], LONG_MAX⟩ 1000]).getInterestsWithPrefixImpl
      ["b".toList] [] false 2000).1.interests_,
        ¬(p.timeout_ms_ ≠ 0 ∧ (2000 : Int) ≥ p.timeout_ms_)) := by
  refine ⟨by decide, by decide, by decide, by decide, ?_⟩
  decide

/-- C18, amended: `getInterestsWithPrefix(prefix, out, remove)` first clears
`out` (the result does not depend on what `out` held); afterwards the table
holds no entry with `expiry_ms > 0` and `now ≥ expiry_ms`; `out` holds exactly
the previously stored entries that are not expired in this sense and whose
name starts with `prefix` (the last stored first); and the table holds the
entries that are not expired in their original order, without the returned
ones when `remove` is true. For entries whose expiry is not negative the test
is the same as `expiry_ms ≠ 0` and `now ≥ expiry_ms`. -/
theorem getInterestsWithPrefix_contract (l : InterestList) (namePrefix : Name)
    (out0 : List PendingInterest) (remove : Bool) (now : Int) :
    l.getInterestsWithPrefixImpl namePrefix out0 remove now =
      l.getInterestsWithPrefixImpl namePrefix [] remove now ∧
    (∀ p ∈ (l.getInterestsWithPrefixImpl namePrefix out0 remove now).1.interests_,
      ¬(p.timeout_ms_ > 0 ∧ now ≥ p.timeout_ms_)) ∧
    (l.getInterestsWithPrefixImpl namePrefix out0 remove now).2 =
      (l.interests_.filter (fun p => decide (¬(p.timeout_ms_ > 0 ∧ now ≥ p.timeout_ms_)) &&
        namePrefix.isPrefixOf p.interest_.name)).reverse ∧
    (∀ p, p ∈ (l.getInterestsWithPrefixImpl namePrefix out0 remove now).2 ↔
      p ∈ l.interests_ ∧ ¬(p.timeout_ms_ > 0 ∧ now ≥ p.timeout_ms_) ∧
        namePrefix <+: p.interest_.name) ∧
    (l.getInterestsWithPrefixImpl namePrefix out0 remove now).1.interests_ =
      l.interests_.filter (fun p => decide (¬(p.timeout_ms_ > 0 ∧ now ≥ p.timeout_ms_)) &&
        !(remove && namePrefix.isPrefixOf p.interest_.name)) ∧
    (∀ p : PendingInterest, 0 ≤ p.timeout_ms_ →
      ((p.timeout_ms_ > 0 ∧ now ≥ p.timeout_ms_) ↔ (p.timeout_ms_ ≠ 0 ∧ now ≥ p.timeout_ms_))) := by
  have hexp : ∀ p : PendingInterest,
      (!p.isTimedOut now) = decide (¬(p.timeout_ms_ > 0 ∧ now ≥ p.timeout_ms_)) := by
    intro p
    by_cases h : p.isTimedOut now = true
    · rw [h]; simp [(isTimedOut_iff p now).mp h]
    · have h' : p.isTimedOut now = false := Bool.eq_false_iff.mpr h
      rw [h']
      have : ¬(p.timeout_ms_ > 0 ∧ now ≥ p.timeout_ms_) := fun hc => h ((isTimedOut_iff p now).mpr hc)
      simp [this]
  have hstore : (l.getInterestsWithPrefixImpl namePrefix out0 remove now).1.interests_ =
      l.interests_.filter (fun p => decide (¬(p.timeout_ms_ > 0 ∧ now ≥ p.timeout_ms_)) &&
        !(remove && namePrefix.isPrefixOf p.interest_.name)) := by
    rw [getInterestsWithPrefixImpl_eq]
    simp only [hexp, PendingInterest.getInterest]
  have hout : (l.getInterestsWithPrefixImpl namePrefix out0 remove now).2 =
      (l.interests_.filter (fun p => decide (¬(p.timeout_ms_ > 0 ∧ now ≥ p.timeout_ms_)) &&
        namePrefix.isPrefixOf p.interest_.name)).reverse := by
    rw [getInterestsWithPrefixImpl_eq]
    simp only [hexp, PendingInterest.getInterest]
  refine ⟨?_, ?_, hout, ?_, hstore, ?_⟩
  · rw [getInterestsWithPrefixImpl_eq, getInterestsWithPrefixImpl_eq]
  · intro p hp
    rw [hstore] at hp
    have := (List.mem_filter.mp hp).2
    simp only [Bool.and_eq_true, decide_eq_true_eq] at this
    exact this.1
  · intro p
    rw [hout, List.mem_reverse, List.mem_filter]
    simp only [Bool.and_eq_true, decide_eq_true_eq, List.isPrefixOf_iff_prefix]
  · intro p hp
    constructor
    · rintro ⟨h1, h2⟩; exact ⟨by omega, h2⟩
    · rintro ⟨h1, h2⟩; exact ⟨by omega, h2⟩

/-- Witness of C18 (amended): an entry with a non-negative expiry. -/
theorem getInterestsWithPrefix_contract_witness :
    (((PendingInterest.new ⟨["b".toList], 5⟩ 10).timeout_ms_ > 0 ∧
        (20 : Int) ≥ (PendingInterest.new ⟨["b".toList], 5⟩ 10).timeout_ms_) ↔
      ((PendingInterest.new ⟨["b".toList], 5⟩ 10).timeout_ms_ ≠ 0 ∧
        (20 : Int) ≥ (PendingInterest.new ⟨["b".toList], 5⟩ 10).timeout_ms_)) :=
  (getInterestsWithPrefix_contract InterestList.new [] [] false 20).2.2.2.2.2
    (PendingInterest.new ⟨["b".toList], 5⟩ 10) (by decide)

/-- C19, the claim as stated fails: an interest stored at the clock reading 0
with lifetime 0 gets the expiry 0, which is the sentinel, and is not timed out
at time 5 although `5 ≥ 0 + 0`; likewise with the clock reading -10 and the
lifetime 5 (expiry -5); and an interest stored at the clock reading 1000 with
the lifetime 2^63 - 1 gets an expiry that is not `t + L` (the 64-bit sum
wraps). -/
theorem pendingInterest_expiry_counterexample :
    (PendingInterest.new ⟨["b".toList], 0⟩ 0).timeout_ms_ = 0 + 0 ∧
    (PendingInterest.new ⟨["b".toList], 0⟩ 0).isTimedOut 5 = false ∧
    (5 : Int) ≥ 0 + 0 ∧
    (PendingInterest.new ⟨["b".toList], 5⟩ (-10)).timeout_ms_ = -10 + 5 ∧
    (PendingInterest.new ⟨["b".toList], 5⟩ (-10)).isTimedOut 5 = false ∧
    (PendingInterest.new ⟨["b".toList], LONG_MAX⟩ 1000).timeout_ms_ ≠ 1000 + LONG_MAX := by
  decide

/-- C19, amended: a pending interest stored at the clock reading `t` with a
lifetime `L ≥ 0` such that `0 < t + L ≤ 2^63 - 1` gets `expiry_ms = t + L` and
is timed out at time `now` exactly when `now ≥ t + L`; when `t + L ≤ 0` it is
never timed out; stored with a negative lifetime it gets the sentinel expiry 0
and is never timed out. -/
theorem pendingInterest_expiry (interest : Interest) (t now : Int) :
    (0 ≤ interest.lifetime → 0 < t + interest.lifetime → t + interest.lifetime ≤ LONG_MAX →
      (PendingInterest.new interest t).timeout_ms_ = t + interest.lifetime ∧
      ((PendingInterest.new interest t).isTimedOut now = true ↔ now ≥ t + interest.lifetime)) ∧
    (0 ≤ interest.lifetime → LONG_MIN ≤ t + interest.lifetime → t + interest.lifetime ≤ 0 →
      (PendingInterest.new interest t).timeout_ms_ = t + interest.lifetime ∧
      (PendingInterest.new interest t).isTimedOut now = false) ∧
    (interest.lifetime < 0 →
      (PendingInterest.new interest t).timeout_ms_ = 0 ∧
      (PendingInterest.new interest t).isTimedOut now = false) := by
  refine ⟨?_, ?_, ?_⟩
  · intro hL hpos hmax
    have ht : (PendingInterest.new interest t).timeout_ms_ = t + interest.lifetime := by
      unfold PendingInterest.new toLong
      unfold LONG_MAX at hmax
      simp only [ge_iff_le, hL, if_true]
      omega
    refine ⟨ht, ?_⟩
    rw [isTimedOut_iff, ht]
    constructor
    · intro h; exact h.2
    · intro h; exact ⟨hpos, h⟩
  · intro hL hmin hle
    have ht : (PendingInterest.new interest t).timeout_ms_ = t + interest.lifetime := by
      unfold PendingInterest.new toLong
      unfold LONG_MIN at hmin
      simp only [ge_iff_le, hL, if_true]
      omega
    refine ⟨ht, ?_⟩
    apply Bool.eq_false_iff.mpr
    intro h
    have := (isTimedOut_iff _ _).mp h
    rw [ht] at this
    omega
  · intro hL
    have ht : (PendingInterest.new interest t).timeout_ms_ = 0 := by
      unfold PendingInterest.new
      simp only [ge_iff_le]
      rw [if_neg (by omega)]
    refine ⟨ht, ?_⟩
    apply Bool.eq_false_iff.mpr
    intro h
    have := (isTimedOut_iff _ _).mp h
    rw [ht] at this
    omega

/-- Witness of C19 (amended): stored at the clock reading 1000 with lifetime
4000, and with lifetime -1. -/
theorem pendingInterest_expiry_witness :
    ((PendingInterest.new ⟨["b".toList], 4000⟩ 1000).timeout_ms_ = 1000 + 4000 ∧
      ((PendingInterest.new ⟨["b".toList], 4000⟩ 1000).isTimedOut 5000 = true ↔
        (5000 : Int) ≥ 1000 + 4000)) ∧
    ((PendingInterest.new ⟨["b".toList], -1⟩ 1000).timeout_ms_ = 0 ∧
      (PendingInterest.new ⟨["b".toList], -1⟩ 1000).isTimedOut 5000 = false) :=
  ⟨(pendingInterest_expiry ⟨["b".toList], 4000⟩ 1000 5000).1 (by decide) (by decide) (by decide),
   (pendingInterest_expiry ⟨["b".toList], -1⟩ 1000 5000).2.2 (by decide)⟩


/-! ## The engine: what the helpers leave as it is -/

section EngineFrame

open ICTSync ICTSync.Impl

theorem log_eq_withCalls (s : Impl) (e : Effect) : s.log e = s.withCalls [e] := rfl

theorem withCalls_withCalls (s : Impl) (a b : List Effect) :
    (s.withCalls a).withCalls b = s.withCalls (a ++ b) := by
  simp [Impl.withCalls, List.append_assoc]

theorem withCalls_nil (s : Impl) : s.withCalls [] = s := by
  simp [Impl.withCalls]

theorem parked_log (s : Impl) (e : Effect) : (s.log e).parked = s.parked := rfl

theorem parked_withCalls (s : Impl) (es : List Effect) : (s.withCalls es).parked = s.parked := rfl

theorem parked_sendSyncInterestName (s : Impl) (n : Name) (l now : Int) :
    (s.sendSyncInterestName n l now).parked = s.parked := by
  unfold sendSyncInterestName
  cases s.lastInterestId_ <;> simp only <;> split <;> rfl

theorem parked_sendSyncInterest (s : Impl) (l now : Int) :
    (s.sendSyncInterest l now).parked = s.parked := by
  unfold sendSyncInterest
  simp only
  split
  · split
    · rw [parked_sendSyncInterestName]; rfl
    · rfl
  · rw [parked_sendSyncInterestName]; rfl

theorem parked_checkForUpdate (s : Impl) (now : Int) : (s.checkForUpdate now).parked = s.parked := by
  unfold checkForUpdate
  simp only
  rw [parked_log]
  split
  · exact parked_sendSyncInterest _ _ _
  · rfl

theorem parked_updateLoop : ∀ (content : List Sync.SyncState) (s : Impl) (k : Nat),
    (updateLoop content s k).1.parked = s.parked
  | [], _, _ => rfl
  | m :: ms, s, k => by
    unfold updateLoop
    repeat' (first | rfl | rw [parked_updateLoop ms] | split | dsimp only)

theorem parked_update (s : Impl) (content : List Sync.SyncState) :
    (s.update content).2.parked = s.parked := by
  unfold Impl.update
  exact parked_updateLoop content s 0

theorem parked_shutdown (s : Impl) : s.shutdown.parked = s.parked := rfl

theorem parked_initialTimeout (s : Impl) (i : Interest) (now : Int) :
    (s.initialTimeout i now).parked = s.parked := by
  unfold initialTimeout
  split
  · rfl
  · simp only
    split
    · rfl
    · rw [parked_sendSyncInterestName, parked_log, parked_update]; rfl

theorem parked_initialOnData (s : Impl) (content : List Sync.SyncState) :
    (s.initialOnData content).parked = s.parked := by
  unfold initialOnData
  dsimp only
  split
  · split
    · rename_i s4 h
      have := congrArg (fun (r : Bool × Impl) => r.2.parked) h
      dsimp only at this
      rw [parked_update] at this
      rw [parked_log, ← this]
      exact parked_update s content
    · rename_i s4 h
      have := congrArg (fun (r : Bool × Impl) => r.2.parked) h
      dsimp only at this
      rw [parked_update] at this
      rw [← this]
      exact parked_update s content
  · rw [parked_log]; exact parked_update s content

end EngineFrame


/-! ## The engine: sending data and the parked interests -/

section EngineData

open ICTSync ICTSync.Impl

theorem getDiff_positive_lt (st : ICTVectorState) (rState : Str) :
    ∀ i ∈ (st.getDiff rState).positiveLocalIndexes, i < st.digestNode_.length := by
  intro i hi
  rw [(getDiff_eq st rState).1] at hi
  rcases List.mem_map.mp hi with ⟨x, hx, rfl⟩
  have hx' := (List.mem_filter.mp hx).1
  have := List.mem_enumFrom hx'
  have h1 : x.1 % 256 ≤ x.1 := Nat.mod_le _ _
  omega

theorem syncDataEntries_some (s : Impl) (sendName : Bool) :
    ∀ l : List Nat, (∀ i ∈ l, i < s.digestTree_.digestNode_.length) →
      ∃ entries, syncDataEntries s sendName l = some entries ∧ entries.length = l.length
  | [], _ => ⟨[], rfl, rfl⟩
  | i :: rest, h => by
    obtain ⟨entries, he, hl⟩ := syncDataEntries_some s sendName rest
      (fun j hj => h j (List.mem_cons_of_mem _ hj))
    have hi : i < s.digestTree_.digestNode_.length := h i (List.mem_cons_self _ _)
    obtain ⟨node, hn⟩ : ∃ node, s.digestTree_.get i = some node :=
      ⟨s.digestTree_.digestNode_.get ⟨i, hi⟩, by
        unfold ICTVectorState.get; rw [List.get?_eq_get hi]⟩
    unfold syncDataEntries
    rw [hn, he]
    dsimp only
    split
    · exact ⟨_, rfl, by simp [hl]⟩
    · exact ⟨_, rfl, by simp [hl]⟩

/-- `sendSyncData` either changes nothing or records one `put`. -/
theorem sendSyncData_some (s : Impl) (syncDigest : Str) (l : List Nat) (sendName : Bool)
    (h : ∀ i ∈ l, i < s.digestTree_.digestNode_.length) :
    ∃ (r : Bool) (puts : List Data), s.sendSyncData syncDigest l sendName = some (r, s.withCalls (puts.map Effect.put)) ∧
      puts.length ≤ 1 := by
  unfold sendSyncData
  split
  · exact ⟨true, [], by rw [List.map_nil, withCalls_nil], by simp⟩
  · obtain ⟨entries, he, _⟩ := syncDataEntries_some s sendName l h
    rw [he]
    dsimp only
    split
    · exact ⟨true, [_], rfl, by simp⟩
    · exact ⟨false, [], by rw [List.map_nil, withCalls_nil], by simp⟩

/-- The loop of `broadcastSyncData` returns and records `put` calls only. -/
theorem broadcastLoop_some (pendingInterests : List PendingInterest) (pushDataName : Nat → Bool) :
    ∀ (i : Nat) (s : Impl), i ≤ pendingInterests.length →
      (∀ p ∈ pendingInterests, s.applicationBroadcastPrefix_.length < p.interest_.name.length) →
      ∃ puts : List Data, broadcastLoop pendingInterests pushDataName i s =
        some (s.withCalls (puts.map Effect.put))
  | 0, s, _, _ => ⟨[], by rw [List.map_nil, withCalls_nil]; rfl⟩
  | i + 1, s, hi, hp => by
    have hlt : i < pendingInterests.length := by omega
    unfold broadcastLoop
    rw [List.get?_eq_get hlt]
    dsimp only
    have hmem : pendingInterests.get ⟨i, hlt⟩ ∈ pendingInterests := List.get_mem _ _ _
    have hlen := hp _ hmem
    obtain ⟨c, hc⟩ : ∃ c, Name.get (pendingInterests.get ⟨i, hlt⟩).getInterest.name
        s.applicationBroadcastPrefix_.length = some c :=
      ⟨_, by unfold Name.get PendingInterest.getInterest; rw [List.get?_eq_get hlen]⟩
    rw [hc]
    dsimp only
    split
    · exact broadcastLoop_some pendingInterests pushDataName i s (by omega) hp
    · obtain ⟨r, puts, hs, _⟩ := sendSyncData_some s
        (unescape (Component.toUri c))
        (s.digestTree_.getDiff (unescape (Component.toUri c))).positiveLocalIndexes
        (pushDataName i) (getDiff_positive_lt _ _)
      rw [hs]
      dsimp only
      obtain ⟨puts2, h2⟩ := broadcastLoop_some pendingInterests pushDataName i
        (s.withCalls (puts.map Effect.put)) (by omega) hp
      refine ⟨puts ++ puts2, ?_⟩
      rw [h2, withCalls_withCalls, List.map_append]

/-- The table `broadcastSyncData` leaves: the entries that have not timed out. -/
theorem broadcast_table (l : InterestList) (namePrefix : Name) (now : Int) :
    (l.getInterestsWithPrefix namePrefix [] now).1.interests_ =
      l.interests_.filter (fun p => !p.isTimedOut now) ∧
    (∀ p ∈ (l.getInterestsWithPrefix namePrefix [] now).2, p ∈ l.interests_) := by
  unfold InterestList.getInterestsWithPrefix
  rw [getInterestsWithPrefixImpl_eq]
  constructor
  · simp
  · intro p hp
    rw [List.mem_reverse] at hp
    exact (List.mem_filter.mp hp).1

/-- `broadcastSyncData` returns on every state whose parked interests have a
component after the prefix; it drops the timed-out entries (unless `noData_`)
and records `put` calls only. -/
theorem broadcastSyncData_some (s : Impl) (pushDataName : Nat → Bool) (now : Int)
    (hp : ParkedOk s) :
    ∃ puts : List Data, s.broadcastSyncData pushDataName now =
      some (({ s with pendingInterests_ :=
        if s.noData_ then s.pendingInterests_
        else { interests_ := s.pendingInterests_.interests_.filter (fun p => !p.isTimedOut now) } } :
        Impl).withCalls (puts.map Effect.put)) := by
  unfold broadcastSyncData
  by_cases hn : s.noData_ = true
  · rw [if_pos hn, if_pos hn]
    exact ⟨[], by rw [List.map_nil, withCalls_nil]⟩
  · rw [if_neg hn, if_neg hn]
    have ht := broadcast_table s.pendingInterests_ s.applicationBroadcastPrefix_ now
    obtain ⟨puts, h⟩ := broadcastLoop_some
      (s.pendingInterests_.getInterestsWithPrefix s.applicationBroadcastPrefix_ [] now).2
      pushDataName _
      ({ s with pendingInterests_ :=
        (s.pendingInterests_.getInterestsWithPrefix s.applicationBroadcastPrefix_ [] now).1 })
      (Nat.le_refl _) (fun p hp' => hp p (ht.2 p hp'))
    refine ⟨puts, ?_⟩
    dsimp only
    rw [h]
    have : (s.pendingInterests_.getInterestsWithPrefix s.applicationBroadcastPrefix_ [] now).1 =
        { interests_ := s.pendingInterests_.interests_.filter (fun p => !p.isTimedOut now) } := by
      cases hh : (s.pendingInterests_.getInterestsWithPrefix s.applicationBroadcastPrefix_ [] now).1
      rw [hh] at ht
      simp only at ht
      rw [ht.1]
    rw [this]

end EngineData


/-! ## The engine: the parked interests keep a component after the prefix -/

section EngineParked

open ICTSync ICTSync.Impl

theorem parked_sendSyncData (s : Impl) (d : Str) (l : List Nat) (b r : Bool) (s1 : Impl)
    (h : s.sendSyncData d l b = some (r, s1)) : s1.parked = s.parked := by
  unfold sendSyncData at h
  repeat' (first | (cases h; rfl) | cases h | split at h)

theorem parked_processDiscoveryInterest (s : Impl) (i : Interest) (s1 : Impl)
    (h : s.processDiscoveryInterest i = some s1) : s1.parked = s.parked := by
  unfold processDiscoveryInterest at h
  repeat' (first | (cases h; rfl) | cases h | split at h | dsimp only at h)

theorem parked_processNewcomerInterest (s : Impl) (i : Interest) (d : Str) :
    (s.processNewcomerInterest i d).parked = s.parked := by
  unfold processNewcomerInterest
  repeat' (first | rfl | split | dsimp only)

theorem parked_processInterestUpdates (s : Impl) (l : List (Nat × Nat)) (now : Int) (s1 : Impl)
    (h : s.processInterestUpdates l now = some s1) : s1.parked = s.parked := by
  unfold processInterestUpdates at h
  split at h
  · cases h
  · cases h
    rw [parked_sendSyncInterest]
    rfl

theorem parked_unknownSessionsLoop : ∀ (l : List (Nat × Nat)) (s : Impl),
    (unknownSessionsLoop l s).parked = s.parked
  | [], _ => rfl
  | u :: rest, s => by
    unfold unknownSessionsLoop
    repeat' (first | rfl | rw [parked_unknownSessionsLoop rest] | split)

theorem parked_processUnknownSessionIds (s : Impl) (l : List (Nat × Nat)) :
    (s.processUnknownSessionIds l).parked = s.parked := by
  unfold processUnknownSessionIds
  split
  · rfl
  · exact parked_unknownSessionsLoop l s

/-- `processSyncInterest` keeps the parked interests or parks the interest it
was called with. -/
theorem parked_processSyncInterest (s : Impl) (i : Interest) (d : Str) (b : Bool) (now : Int)
    (s1 : Impl) (h : s.processSyncInterest i d b now = some s1) :
    s1.applicationBroadcastPrefix_ = s.applicationBroadcastPrefix_ ∧
    (s1.pendingInterests_.interests_ = s.pendingInterests_.interests_ ∨
     s1.pendingInterests_.interests_ =
       s.pendingInterests_.interests_ ++ [PendingInterest.new i now]) := by
  unfold processSyncInterest at h
  dsimp only at h
  split at h
  · cases h
  · rename_i sa ha
    have h1 : sa.applicationBroadcastPrefix_ = s.applicationBroadcastPrefix_ ∧
        (sa.pendingInterests_.interests_ = s.pendingInterests_.interests_ ∨
         sa.pendingInterests_.interests_ =
           s.pendingInterests_.interests_ ++ [PendingInterest.new i now]) := by
      split at ha
      · split at ha
        · cases ha
          exact ⟨rfl, Or.inr rfl⟩
        · cases ha
          exact ⟨rfl, Or.inl rfl⟩
      · cases hs : s.sendSyncData d (s.digestTree_.getDiff d).positiveLocalIndexes b with
        | none => rw [hs] at ha; cases ha
        | some r =>
          rw [hs] at ha
          cases ha
          have := parked_sendSyncData s _ _ _ r.1 r.2 hs
          unfold Impl.parked at this
          exact ⟨(Prod.mk.inj this).2, Or.inl (Prod.mk.inj this).1⟩
    split at h
    · cases h
    · rename_i sb hb
      have h2 : sb.parked = sa.parked := by
        split at hb
        · exact parked_processInterestUpdates _ _ _ _ hb
        · cases hb; rfl
      have h3 : s1.parked = sb.parked := by
        repeat' (first | (cases h; rfl) | (cases h; exact parked_processUnknownSessionIds _ _) |
          split at h)
      have h4 : s1.parked = sa.parked := h3.trans h2
      unfold Impl.parked at h4
      rw [(Prod.mk.inj h4).1, (Prod.mk.inj h4).2]
      exact h1

theorem parkedOk_of_parked {s s1 : Impl} (h : s1.parked = s.parked) (hp : ParkedOk s) :
    ParkedOk s1 := by
  unfold Impl.parked at h
  unfold ParkedOk
  rw [(Prod.mk.inj h).1, (Prod.mk.inj h).2]
  exact hp

theorem parkedOk_onInterest (s : Impl) (i : Interest) (b : Bool) (now : Int) (s1 : Impl)
    (h : s.onInterest i b now = some s1) (hp : ParkedOk s) : ParkedOk s1 := by
  unfold onInterest at h
  split at h
  · cases h; exact hp
  · split at h
    · split at h
      · exact parkedOk_of_parked (parked_processDiscoveryInterest _ _ _ h) hp
      · cases h; exact hp
    · split at h
      · cases h
      · rename_i c hc
        dsimp only at h
        split at h
        · cases h
          exact parkedOk_of_parked (parked_processNewcomerInterest _ _ _) hp
        · split at h
          · obtain ⟨h1, h2⟩ := parked_processSyncInterest _ _ _ _ _ _ h
            unfold ParkedOk
            rw [h1]
            rcases h2 with h2 | h2
            · rw [h2]; exact hp
            · rw [h2]
              intro p hmem
              rcases List.mem_append.mp hmem with hm | hm
              · exact hp p hm
              · rw [List.mem_singleton] at hm
                subst hm
                unfold Name.get at hc
                have := List.get?_eq_some.mp hc
                obtain ⟨hlt, _⟩ := this
                exact hlt
          · cases h; exact hp

theorem parked_onDiscoveryData (s : Impl) (i : Interest) (content : List Sync.SyncState)
    (r : Bool) (s1 : Impl) (h : s.onDiscoveryData i content = some (r, s1)) :
    s1.parked = s.parked := by
  unfold onDiscoveryData at h
  repeat' (first | (cases h; rfl) | cases h | split at h)

theorem parked_appUpdatesLoop : ∀ (content : List Sync.SyncState) (s : Impl) (app : List SyncState)
    (s1 : Impl) (app1 : List SyncState), appUpdatesLoop content s app = some (s1, app1) →
    s1.parked = s.parked
  | [], s, app, s1, app1, h => by
    unfold appUpdatesLoop at h
    cases h; rfl
  | m :: rest, s, app, s1, app1, h => by
    have ih := parked_appUpdatesLoop rest
    unfold appUpdatesLoop at h
    repeat' (first | exact ih _ _ _ _ h | exact (ih _ _ _ _ h).trans (parked_log _ _) | cases h | split at h | dsimp only at h)

theorem parked_onData (s : Impl) (i : Interest) (data : Data) (now : Int) (s1 : Impl)
    (h : s.onData i data now = some s1) : s1.parked = s.parked := by
  unfold onData at h
  split at h
  · cases h; rfl
  · split at h
    · cases h
    · dsimp only at h
      split at h
      · cases h; exact parked_sendSyncInterest _ _ _
      · split at h
        · cases h; rfl
        · split at h
          · cases h
          · rename_i isUpdated sa ha
            have h1 : sa.parked = s.parked := by
              split at ha
              · exact parked_onDiscoveryData _ _ _ _ _ ha
              · split at ha
                · cases ha; exact parked_initialOnData _ _
                · cases ha; exact parked_update _ _
            split at h
            · cases h
            · rename_i sb hb
              cases h
              rw [parked_sendSyncInterest, ← h1]
              split at hb
              · split at hb
                · cases hb
                · rename_i sc app hc
                  cases hb
                  rw [parked_log]
                  exact parked_appUpdatesLoop _ _ _ _ _ hc
              · cases hb; rfl

theorem parked_syncTimeout (s : Impl) (i : Interest) (now : Int) (s1 : Impl)
    (h : s.syncTimeout i now = some s1) : s1.parked = s.parked := by
  have hn := parked_sendSyncInterestName s i.name s.syncLifetime_ now
  unfold syncTimeout at h
  repeat' (first | (cases h; rfl) | (cases h; exact hn) | cases h | split at h | dsimp only at h)

theorem parked_discoveryTimeout (s : Impl) (i : Interest) (s1 : Impl)
    (h : s.discoveryTimeout i = some s1) : s1.parked = s.parked := by
  unfold discoveryTimeout at h
  repeat' (first | (cases h; rfl) | cases h | split at h)

/-- What `publishNextSequenceNo` does on a state whose parked interests have a
component after the prefix: the sequence number and the table row, the
broadcast (timed-out entries dropped unless `noData_`, `put` calls recorded),
then `sendSyncInterest`. -/
theorem publishNextSequenceNo_eq (s : Impl) (pushDataName : Nat → Bool) (now : Int)
    (hp : ParkedOk s) :
    ∃ puts : List Data, s.publishNextSequenceNo pushDataName now =
      some ((({ s with
        sequenceNo_ := intAdd s.sequenceNo_ 1,
        digestTree_ := (s.digestTree_.update s.applicationDataPrefixUri_ s.sessionNo_
          (intAdd s.sequenceNo_ 1)).2,
        pendingInterests_ :=
          if s.noData_ then s.pendingInterests_
          else { interests_ := s.pendingInterests_.interests_.filter (fun p => !p.isTimedOut now) } } :
        Impl).withCalls (puts.map Effect.put)).sendSyncInterest s.syncLifetime_ now) := by
  unfold publishNextSequenceNo
  dsimp only
  obtain ⟨puts, h⟩ := broadcastSyncData_some
    ({ s with
        sequenceNo_ := intAdd s.sequenceNo_ 1,
        digestTree_ := (s.digestTree_.update s.applicationDataPrefixUri_ s.sessionNo_
          (intAdd s.sequenceNo_ 1)).2 } : Impl) pushDataName now hp
  rw [h]
  exact ⟨puts, rfl⟩

theorem parkedOk_publishNextSequenceNo (s : Impl) (pushDataName : Nat → Bool) (now : Int)
    (s1 : Impl) (h : s.publishNextSequenceNo pushDataName now = some s1) (hp : ParkedOk s) :
    ParkedOk s1 := by
  obtain ⟨puts, h1⟩ := publishNextSequenceNo_eq s pushDataName now hp
  rw [h1] at h
  cases h
  have hpk := parked_sendSyncInterest ((({ s with
        sequenceNo_ := intAdd s.sequenceNo_ 1,
        digestTree_ := (s.digestTree_.update s.applicationDataPrefixUri_ s.sessionNo_
          (intAdd s.sequenceNo_ 1)).2,
        pendingInterests_ :=
          if s.noData_ then s.pendingInterests_
          else { interests_ := s.pendingInterests_.interests_.filter (fun p => !p.isTimedOut now) } } :
        Impl).withCalls (puts.map Effect.put))) s.syncLifetime_ now
  unfold Impl.parked at hpk
  unfold ParkedOk
  rw [(Prod.mk.inj hpk).1, (Prod.mk.inj hpk).2]
  intro p hmem
  apply hp
  change p ∈ (if s.noData_ = true then s.pendingInterests_
    else { interests_ := s.pendingInterests_.interests_.filter (fun p => !p.isTimedOut now) }).interests_
    at hmem
  split at hmem
  · exact hmem
  · exact (List.mem_filter.mp hmem).1

theorem parkedOk_step (s s1 : Impl) (e : Event) (h : s.step e = some s1) (hp : ParkedOk s) :
    ParkedOk s1 := by
  cases e with
  | onInterest i b now => exact parkedOk_onInterest s i b now s1 h hp
  | onData i d now => exact parkedOk_of_parked (parked_onData s i d now s1 h) hp
  | syncTimeout i now => exact parkedOk_of_parked (parked_syncTimeout s i now s1 h) hp
  | initialTimeout i now =>
    cases h
    exact parkedOk_of_parked (parked_initialTimeout s i now) hp
  | discoveryTimeout i => exact parkedOk_of_parked (parked_discoveryTimeout s i s1 h) hp
  | checkForUpdate now =>
    cases h
    exact parkedOk_of_parked (parked_checkForUpdate s now) hp
  | publishNextSequenceNo b now => exact parkedOk_publishNextSequenceNo s b now s1 h hp
  | shutdown =>
    cases h
    exact parkedOk_of_parked (parked_shutdown s) hp

/-- In every reachable engine state each parked interest has a name component
after the broadcast prefix. -/
theorem reachable_parkedOk {s : Impl} (h : ICTSync.Reachable s) : ParkedOk s := by
  induction h with
  | create => intro p hp; cases hp
  | step s s1 e _ _ hstep ih => exact parkedOk_step s s1 e hstep ih

/-- `publishNextSequenceNo` returns on every reachable engine state. -/
theorem reachable_publish_some {s : Impl} (h : ICTSync.Reachable s) (pushDataName : Nat → Bool)
    (now : Int) : ∃ s1, s.publishNextSequenceNo pushDataName now = some s1 := by
  obtain ⟨puts, h1⟩ := publishNextSequenceNo_eq s pushDataName now (reachable_parkedOk h)
  exact ⟨_, h1⟩

end EngineParked


/-! ## The initial timeout -/

section EngineInitial

open ICTSync ICTSync.Impl

theorem intAdd_of_isInt {a b : Int} (h : isInt (a + b)) : intAdd a b = a + b :=
  toInt32_toUInt32 h

theorem entryDigest_ne_00 (s q : Int) : entryDigest s q ≠ "00".toList := by
  intro h
  have h1 := congrArg List.getLast? h
  unfold entryDigest at h1
  rw [List.getLast?_append] at h1
  simp at h1

/-- `ICTSync::Impl::update` with the single `UPDATE` entry of the own prefix on
an engine whose table is empty. -/
theorem update_own_fresh (s : Impl) (q : Int) (hs : isInt s.sessionNo_) (hq : isInt q)
    (hfresh : s.digestTree_ = ICTVectorState.new) :
    s.update [{ name := s.applicationDataPrefixUri_, type := .UPDATE, seq := toUInt32 q,
                session := toUInt32 s.sessionNo_, application_info := none }] =
      (true, { s with
        digestTree_ :=
          { digestNode_ := [Node.new s.applicationDataPrefixUri_ s.sessionNo_ q],
            vectorRoot_ := entryDigest s.sessionNo_ q },
        sequenceNo_ := q }) := by
  have hu : s.digestTree_.update s.applicationDataPrefixUri_ s.sessionNo_ q =
      (true, { digestNode_ := [Node.new s.applicationDataPrefixUri_ s.sessionNo_ q],
               vectorRoot_ := entryDigest s.sessionNo_ q }) := by
    rw [hfresh]
    rw [update_of_absent _ _ _ _ (by intro m hm; cases hm)]
    simp [ICTVectorState.new, vector_insert, lower_bound, recomputeVectorRoot, Node.new,
      Node.recomputeUserDigest, Node.getUserDigest, entryDigest]
  unfold Impl.update updateLoop
  simp only [toInt32_toUInt32 hs, toInt32_toUInt32 hq, hu, updateLoop, if_true]
  simp

/-- The initial timeout on an enabled engine with an empty table whose
sequence number is still the initial one. -/
theorem initialTimeout_eq (s : Impl) (interest : Interest) (now : Int)
    (hen : s.enabled_ = true) (hq : isInt (s.sequenceNo_ + 1))
    (hini : s.initialPreviousSequenceNo_ = s.sequenceNo_) (hs : isInt s.sessionNo_)
    (hfresh : s.digestTree_ = ICTVectorState.new) :
    s.initialTimeout interest now =
      (({ s with
        digestTree_ :=
          { digestNode_ := [Node.new s.applicationDataPrefixUri_ s.sessionNo_ (s.sequenceNo_ + 1)],
            vectorRoot_ := entryDigest s.sessionNo_ (s.sequenceNo_ + 1) },
        sequenceNo_ := s.sequenceNo_ + 1 } : Impl).log Effect.onInitialized).sendSyncInterestName
          (s.applicationBroadcastPrefix_ ++ [entryDigest s.sessionNo_ (s.sequenceNo_ + 1)])
          s.syncLifetime_ now := by
  have hupd := update_own_fresh ({ s with sequenceNo_ := s.sequenceNo_ + 1 }) (s.sequenceNo_ + 1)
    hs hq hfresh
  dsimp only at hupd
  unfold initialTimeout
  rw [if_neg (by rw [hen]; decide)]
  dsimp only
  have hcond : ¬(intAdd s.sequenceNo_ 1 ≠ intAdd s.initialPreviousSequenceNo_ 1) := by
    rw [hini]; exact fun h => h rfl
  rw [if_neg hcond, intAdd_of_isInt hq, hupd]
  rfl

/-- C20: on an engine created with previous sequence `p` (with `p + 1` an
`int`) on which no other event has happened, the initial-interest timeout sets
the own sequence number to `p + 1`, inserts the own entry
`(own prefix, own session, p + 1)` so that the root becomes
`"<own session>,<p+1>;"`, which is not `"00"`, invokes `onInitialized` exactly
once and expresses exactly one interest, the sync interest named
`<broadcast prefix>/<that root>`. -/
theorem initialTimeout_bootstrap (applicationDataPrefix applicationBroadcastPrefix : Name)
    (sessionNo syncLifetime p : Int) (isDiscovery noData : Bool) (syncUpdateInt now0 now : Int)
    (interest : Interest) (s0 s1 : Impl)
    (hs : isInt sessionNo) (hp : isInt p) (hp1 : p + 1 ≤ INT_MAX)
    (h0 : s0 = create applicationDataPrefix applicationBroadcastPrefix sessionNo syncLifetime p
      isDiscovery noData syncUpdateInt now0)
    (h1 : s1 = s0.initialTimeout interest now) :
    s1.sequenceNo_ = p + 1 ∧
    s1.digestTree_.digestNode_ = [Node.new (Name.toUri applicationDataPrefix) sessionNo (p + 1)] ∧
    s1.digestTree_.getVectorRoot = to_string sessionNo ++ [','] ++ to_string (p + 1) ++ [';'] ∧
    s1.digestTree_.getVectorRoot ≠ "00".toList ∧
    s1.calls_ = s0.calls_ ++
      ([Effect.onInitialized,
        Effect.expressInterest
          ⟨applicationBroadcastPrefix ++ [s1.digestTree_.getVectorRoot], syncLifetime⟩ .sync] ++
       (if syncUpdateInt > 0 then [Effect.schedule syncUpdateInt] else [])) ∧
    (s1.calls_.drop s0.calls_.length).count Effect.onInitialized = 1 ∧
    (s1.calls_.drop s0.calls_.length).filterMap Effect.expressed =
      [(⟨applicationBroadcastPrefix ++ [s1.digestTree_.getVectorRoot], syncLifetime⟩, .sync)] := by
  have hq : isInt (p + 1) := ⟨by have := hp.1; omega, hp1⟩
  have hen : s0.enabled_ = true := by rw [h0]; rfl
  have hseq : s0.sequenceNo_ = p := by rw [h0]; rfl
  have hini : s0.initialPreviousSequenceNo_ = p := by rw [h0]; rfl
  have hses : s0.sessionNo_ = sessionNo := by rw [h0]; rfl
  have huri : s0.applicationDataPrefixUri_ = Name.toUri applicationDataPrefix := by rw [h0]; rfl
  have hpre : s0.applicationBroadcastPrefix_ = applicationBroadcastPrefix := by rw [h0]; rfl
  have hlife : s0.syncLifetime_ = syncLifetime := by rw [h0]; rfl
  have hint : s0.syncUpdateInterval_ = syncUpdateInt := by rw [h0]; rfl
  have hlast : s0.lastInterestId_ = none := by rw [h0]; rfl
  have htree : s0.digestTree_ = ICTVectorState.new := by rw [h0]; rfl
  have key : s1 = (({ s0 with
        digestTree_ :=
          { digestNode_ := [Node.new s0.applicationDataPrefixUri_ s0.sessionNo_ (p + 1)],
            vectorRoot_ := entryDigest s0.sessionNo_ (p + 1) },
        sequenceNo_ := p + 1 } : Impl).log Effect.onInitialized).sendSyncInterestName
          (s0.applicationBroadcastPrefix_ ++ [entryDigest s0.sessionNo_ (p + 1)])
          s0.syncLifetime_ now := by
    rw [h1, initialTimeout_eq s0 interest now hen (by rw [hseq]; exact hq) (by rw [hini, hseq])
      (by rw [hses]; exact hs) htree, hseq]
  have hcalls : s1.calls_ = s0.calls_ ++
      ([Effect.onInitialized,
        Effect.expressInterest
          ⟨applicationBroadcastPrefix ++ [entryDigest sessionNo (p + 1)], syncLifetime⟩ .sync] ++
       (if syncUpdateInt > 0 then [Effect.schedule syncUpdateInt] else [])) := by
    rw [key]
    unfold sendSyncInterestName
    simp only [Impl.log, hlast, hint, hpre, hlife, hses]
    split <;> simp
  have hroot : s1.digestTree_.getVectorRoot = entryDigest sessionNo (p + 1) := by
    rw [key]
    unfold sendSyncInterestName ICTVectorState.getVectorRoot
    simp only [Impl.log, hlast, hint, hses]
    split <;> rfl
  refine ⟨?_, ?_, ?_, ?_, ?_, ?_, ?_⟩
  · rw [key]
    unfold sendSyncInterestName
    simp only [Impl.log, hlast, hint]
    split <;> rfl
  · rw [key]
    unfold sendSyncInterestName
    simp only [Impl.log, hlast, hint, huri, hses]
    split <;> rfl
  · rw [hroot]; rfl
  · rw [hroot]; exact entryDigest_ne_00 _ _
  · rw [hroot]; exact hcalls
  · rw [hcalls, List.drop_left]
    split <;> simp [List.count_cons]
  · rw [hcalls, List.drop_left, hroot]
    split <;> rfl

/-- Witness of C20: the engine of prefix `/a`, session 1, with the default
previous sequence -1 and the other defaults; the own sequence becomes 0 and the
root `"1,0;"`. -/
theorem initialTimeout_bootstrap_witness :
    ((create ["a".toList] ["b".toList] 1 4000 (-1) false false 0 0).initialTimeout
      ⟨["b".toList, "00".toList], 1000⟩ 1000).sequenceNo_ = -1 + 1 ∧
    ((create ["a".toList] ["b".toList] 1 4000 (-1) false false 0 0).initialTimeout
      ⟨["b".toList, "00".toList], 1000⟩ 1000).digestTree_.getVectorRoot = "1,0;".toList :=
  ⟨(initialTimeout_bootstrap ["a".toList] ["b".toList] 1 4000 (-1) false false 0 0 1000
      ⟨["b".toList, "00".toList], 1000⟩ _ _ (by decide) (by decide) (by decide) rfl rfl).1,
   (initialTimeout_bootstrap ["a".toList] ["b".toList] 1 4000 (-1) false false 0 0 1000
      ⟨["b".toList, "00".toList], 1000⟩ _ _ (by decide) (by decide) (by decide) rfl rfl).2.2.1⟩

end EngineInitial


/-! ## A sync interest that carries the local root -/

section EngineEqualDigest

open ICTSync ICTSync.Impl

/-- C16, what the code does: an incoming interest `<broadcast prefix>/<digest>`
whose digest, unescaped, equals the local root leaves the engine as it is,
whatever `noData_` is: the interest is not stored in the pending interest
table and nothing is sent (`processSyncInterest`, which stores an interest, is
called only when the digest differs from the root). -/
theorem onInterest_equal_digest_not_parked (s : Impl) (interest : Interest) (c : Str)
    (pushDataName : Bool) (now : Int)
    (hname : interest.name = s.applicationBroadcastPrefix_ ++ [c])
    (heq : unescape (Component.toUri c) = s.digestTree_.getVectorRoot) :
    s.onInterest interest pushDataName now = some s := by
  have hlen : ¬(interest.name.length = s.applicationBroadcastPrefix_.length + 2) := by
    rw [hname, List.length_append, List.length_singleton]; omega
  have hget : Name.get interest.name s.applicationBroadcastPrefix_.length = some c := by
    unfold Name.get
    rw [hname, List.get?_eq_getElem?, List.getElem?_append_right (Nat.le_refl _)]
    simp
  unfold onInterest
  split
  · rfl
  · rw [hget]
    dsimp only
    split
    · rename_i h00
      unfold processNewcomerInterest
      split
      · rfl
      · rw [h00] at heq
        have h0 : s.digestTree_.getVectorRoot = "00".toList := heq.symm
        rw [if_pos h0]
    · rw [if_neg (by rw [heq]; exact fun h => h rfl)]

/-- Witness of C16, the failing input: the engine of prefix `/a`, session 1,
broadcast prefix `/b` with the defaults (`noData_ = false`) after its initial
timeout has the root `"1,0;"` and no parked interest; the interest
`/b/1,0;` leaves it so. -/
theorem onInterest_equal_digest_not_parked_witness :
    ((create ["a".toList] ["b".toList] 1 4000 (-1) false false 0 0).initialTimeout
      ⟨["b".toList, "00".toList], 1000⟩ 1000).noData_ = false ∧
    ((create ["a".toList] ["b".toList] 1 4000 (-1) false false 0 0).initialTimeout
      ⟨["b".toList, "00".toList], 1000⟩ 1000).digestTree_.getVectorRoot = "1,0;".toList ∧
    ((create ["a".toList] ["b".toList] 1 4000 (-1) false false 0 0).initialTimeout
      ⟨["b".toList, "00".toList], 1000⟩ 1000).pendingInterests_.interests_ = [] ∧
    ((create ["a".toList] ["b".toList] 1 4000 (-1) false false 0 0).initialTimeout
      ⟨["b".toList, "00".toList], 1000⟩ 1000).onInterest
        ⟨["b".toList, "1,0;".toList], 4000⟩ false 1100 =
      some ((create ["a".toList] ["b".toList] 1 4000 (-1) false false 0 0).initialTimeout
        ⟨["b".toList, "00".toList], 1000⟩ 1000) :=
  ⟨by decide, by decide, by decide,
   onInterest_equal_digest_not_parked _ ⟨["b".toList, "1,0;".toList], 4000⟩ "1,0;".toList
     false 1100 (by decide) (by decide)⟩

end EngineEqualDigest


/-! ## Publishing the next sequence number -/

section EnginePublish

open ICTSync ICTSync.Impl

theorem reachable_run : ∀ (es : List Event) (s s1 : Impl), ICTSync.Reachable s →
    (∀ e ∈ es, e.WellFormed) → s.run es = some s1 → ICTSync.Reachable s1
  | [], s, s1, h, _, hr => by
    unfold Impl.run at hr
    cases hr
    exact h
  | e :: es, s, s1, h, hw, hr => by
    unfold Impl.run at hr
    split at hr
    · cases hr
    · rename_i s2 hs2
      exact reachable_run es s2 s1
        (ICTSync.Reachable.step s s2 e h (hw e (List.mem_cons_self _ _)) hs2)
        (fun e' he' => hw e' (List.mem_cons_of_mem _ he')) hr

/-- C13, the failing trace: the engine of prefix `/a`, session 1, broadcast
prefix `/b` with the defaults, after its initial timeout (own sequence 0, row
`(/a, 1) → 0`), receives the sync interest `/b/1,10;`. `processInterestUpdates`
raises the row to 10 and leaves `sequenceNo_` at 0. The state is reachable.
`publishNextSequenceNo` then sets `sequenceNo_` to 1, the table rejects the
sequence 1, and the row and the root are the same as before the call. -/
theorem publish_after_remote_raise :
    (∀ s, (create ["a".toList] ["b".toList] 1 4000 (-1) false false 0 0).run
        [.initialTimeout ⟨["b".toList, "00".toList], 1000⟩ 1000,
         .onInterest ⟨["b".toList, "1,10;".toList], 4000⟩ false 1100] = some s →
      ICTSync.Reachable s) ∧
    ((create ["a".toList] ["b".toList] 1 4000 (-1) false false 0 0).run
        [.initialTimeout ⟨["b".toList, "00".toList], 1000⟩ 1000,
         .onInterest ⟨["b".toList, "1,10;".toList], 4000⟩ false 1100]).map
      (fun s => (s.applicationDataPrefixUri_, s.sessionNo_, s.sequenceNo_,
        s.getProducerSequenceNo "/a".toList 1, s.digestTree_.getVectorRoot)) =
      some ("/a".toList, 1, 0, some 10, "1,10;".toList) ∧
    ((create ["a".toList] ["b".toList] 1 4000 (-1) false false 0 0).run
        [.initialTimeout ⟨["b".toList, "00".toList], 1000⟩ 1000,
         .onInterest ⟨["b".toList, "1,10;".toList], 4000⟩ false 1100,
         .publishNextSequenceNo (fun _ => false) 1200]).map
      (fun s => (s.sequenceNo_, s.getProducerSequenceNo "/a".toList 1,
        s.digestTree_.getVectorRoot)) =
      some (1, some 10, "1,10;".toList) := by
  refine ⟨?_, by decide, by decide⟩
  intro s hs
  refine reachable_run _ _ _
    (ICTSync.Reachable.create ["a".toList] ["b".toList] 1 4000 (-1) false false 0 0
      (by decide) (by decide)) ?_ hs
  intro e he
  simp only [List.mem_cons, List.mem_singleton, List.not_mem_nil, or_false] at he
  rcases he with rfl | rfl <;> exact True.intro

/-- After an accepted `update` the root holds the digest of the new row. -/
theorem update_root_includes (st : ICTVectorState) (p : Str) (s q : Int)
    (h : ∀ n ∈ st.digestNode_, n.dataPrefix_ = p → n.sessionNo_ = s → n.sequenceNo_ < q) :
    Node.new p s q ∈ (st.update p s q).2.digestNode_ ∧
    ∃ front back : Str, (st.update p s q).2.vectorRoot_ = front ++ entryDigest s q ++ back := by
  have hroot : ∀ (l1 l2 : List Node),
      (recomputeVectorRoot { st with digestNode_ := l1 ++ Node.new p s q :: l2 }).vectorRoot_ =
        l1.foldl (fun acc n => acc ++ n.getUserDigest) [] ++ entryDigest s q ++
          l2.foldl (fun acc n => acc ++ n.getUserDigest) [] := by
    intro l1 l2
    unfold recomputeVectorRoot
    simp only [List.foldl_append, List.foldl_cons]
    rw [foldl_digest_append l2]
    rfl
  rcases key_split p s st.digestNode_ with ha | ⟨l1, n, l2, hl, h1, hp, hs⟩
  · rw [update_of_absent st p s q ha]
    unfold vector_insert
    exact ⟨by simp [recomputeVectorRoot], _, _, hroot _ _⟩
  · rw [update_of_match st p s q l1 n l2 hl h1 hp hs,
      if_pos (h n (by rw [hl]; simp) hp hs)]
    exact ⟨by simp [recomputeVectorRoot], _, _, hroot _ _⟩

/-- The calls of `sendSyncInterest(interestName, syncLifetime)`: one interest
is expressed. -/
theorem sendSyncInterestName_calls (s : Impl) (n : Name) (l now : Int) :
    (s.sendSyncInterestName n l now).digestTree_ = s.digestTree_ ∧
    ∃ calls, (s.sendSyncInterestName n l now).calls_ = s.calls_ ++ calls ∧
      calls.filterMap Effect.expressed = [(⟨n, l⟩, Callbacks.sync)] := by
  unfold sendSyncInterestName
  cases hlast : s.lastInterestId_ with
  | none =>
    dsimp only
    split
    · exact ⟨rfl, [.expressInterest ⟨n, l⟩ .sync, .schedule s.syncUpdateInterval_],
        by simp [Impl.log], rfl⟩
    · exact ⟨rfl, [.expressInterest ⟨n, l⟩ .sync], by simp [Impl.log], rfl⟩
  | some old =>
    dsimp only
    split
    · exact ⟨rfl, [.cancel old, .expressInterest ⟨n, l⟩ .sync, .schedule s.syncUpdateInterval_],
        by simp [Impl.log], rfl⟩
    · exact ⟨rfl, [.cancel old, .expressInterest ⟨n, l⟩ .sync], by simp [Impl.log], rfl⟩

/-- The calls of `sendSyncInterest(syncLifetime)`: one interest named
`<broadcast prefix>/<root>` when the update interval is not positive or the
clock has reached `nextInterestTs_`, none otherwise. -/
theorem sendSyncInterest_calls (s : Impl) (l now : Int) :
    (s.sendSyncInterest l now).digestTree_ = s.digestTree_ ∧
    ∃ calls, (s.sendSyncInterest l now).calls_ = s.calls_ ++ calls ∧
      calls.filterMap Effect.expressed =
        if s.syncUpdateInterval_ ≤ 0 ∨ now ≥ s.nextInterestTs_ then
          [(⟨s.applicationBroadcastPrefix_ ++ [s.digestTree_.getVectorRoot], l⟩, Callbacks.sync)]
        else [] := by
  unfold sendSyncInterest
  dsimp only
  by_cases hi : s.syncUpdateInterval_ > 0
  · rw [if_pos hi]
    by_cases hn : now ≥ s.nextInterestTs_
    · rw [if_pos hn, if_pos (Or.inr hn)]
      exact sendSyncInterestName_calls _ _ _ _
    · rw [if_neg hn, if_neg (by omega)]
      exact ⟨rfl, [], by simp, rfl⟩
  · rw [if_neg hi, if_pos (Or.inl (by omega))]
    exact sendSyncInterestName_calls _ _ _ _

/-- C14, the claim as stated fails: the engine of prefix `/a`, session 1,
broadcast prefix `/b` with an update interval of 5000 ms, created at time 0,
has after its initial timeout at time 1000 the root `"1,0;"` and
`nextInterestTs_ = 6000`. `publishNextSequenceNo` at time 2000 changes the root
to `"1,1;"` and makes no call at all: no sync interest is expressed. -/
theorem publish_no_interest_counterexample :
    (∀ s, (create ["a".toList] ["b".toList] 1 4000 (-1) false false 5000 0).run
        [.initialTimeout ⟨["b".toList, "00".toList], 1000⟩ 1000] = some s →
      ICTSync.Reachable s) ∧
    ((create ["a".toList] ["b".toList] 1 4000 (-1) false false 5000 0).run
        [.initialTimeout ⟨["b".toList, "00".toList], 1000⟩ 1000]).map
      (fun s => (s.digestTree_.getVectorRoot, s.nextInterestTs_, s.calls_.length)) =
      some ("1,0;".toList, 6000, 6) ∧
    ((create ["a".toList] ["b".toList] 1 4000 (-1) false false 5000 0).run
        [.initialTimeout ⟨["b".toList, "00".toList], 1000⟩ 1000,
         .publishNextSequenceNo (fun _ => false) 2000]).map
      (fun s => (s.digestTree_.getVectorRoot, s.calls_.length,
        (s.calls_.drop 6).filterMap Effect.expressed)) =
      some ("1,1;".toList, 6, []) := by
  refine ⟨?_, by decide, by decide⟩
  intro s hs
  refine reachable_run _ _ _
    (ICTSync.Reachable.create ["a".toList] ["b".toList] 1 4000 (-1) false false 5000 0
      (by decide) (by decide)) ?_ hs
  intro e he
  simp only [List.mem_singleton] at he
  subst he
  exact True.intro

/-- C14, amended: on every reachable engine state `publishNextSequenceNo` at
time `now` returns; the table is the one after `update` of the own row with the
incremented sequence number; among the calls it adds there is exactly one
`expressInterest` when the update interval is not positive or
`now ≥ nextInterestTs_`, and none otherwise; that interest is the sync interest
named `<broadcast prefix>/<root after the call>`; and when the table held no
own row with a sequence at or above the new one, the root after the call
includes the digest of the own row with the new sequence number. -/
theorem publish_sync_interest (s : Impl) (pushDataName : Nat → Bool) (now : Int)
    (h : ICTSync.Reachable s) :
    ∃ s1 calls, s.publishNextSequenceNo pushDataName now = some s1 ∧
      s1.sequenceNo_ = intAdd s.sequenceNo_ 1 ∧
      s1.digestTree_ = (s.digestTree_.update s.applicationDataPrefixUri_ s.sessionNo_
        (intAdd s.sequenceNo_ 1)).2 ∧
      s1.calls_ = s.calls_ ++ calls ∧
      calls.filterMap Effect.expressed =
        (if s.syncUpdateInterval_ ≤ 0 ∨ now ≥ s.nextInterestTs_ then
          [(⟨s.applicationBroadcastPrefix_ ++ [s1.digestTree_.getVectorRoot], s.syncLifetime_⟩,
            Callbacks.sync)]
        else []) ∧
      ((∀ n ∈ s.digestTree_.digestNode_, n.dataPrefix_ = s.applicationDataPrefixUri_ →
          n.sessionNo_ = s.sessionNo_ → n.sequenceNo_ < intAdd s.sequenceNo_ 1) →
        Node.new s.applicationDataPrefixUri_ s.sessionNo_ (intAdd s.sequenceNo_ 1) ∈
          s1.digestTree_.digestNode_ ∧
        ∃ front back : Str, s1.digestTree_.getVectorRoot =
          front ++ entryDigest s.sessionNo_ (intAdd s.sequenceNo_ 1) ++ back) := by
  obtain ⟨puts, hpub⟩ := publishNextSequenceNo_eq s pushDataName now (reachable_parkedOk h)
  obtain ⟨htree, calls, hcalls, hexp⟩ := sendSyncInterest_calls
    (({ s with
        sequenceNo_ := intAdd s.sequenceNo_ 1,
        digestTree_ := (s.digestTree_.update s.applicationDataPrefixUri_ s.sessionNo_
          (intAdd s.sequenceNo_ 1)).2,
        pendingInterests_ :=
          if s.noData_ then s.pendingInterests_
          else { interests_ := s.pendingInterests_.interests_.filter (fun p => !p.isTimedOut now) } } :
        Impl).withCalls (puts.map Effect.put)) s.syncLifetime_ now
  refine ⟨_, puts.map Effect.put ++ calls, hpub, ?_, htree, ?_, ?_, ?_⟩
  · unfold sendSyncInterest
    dsimp only
    repeat' (first | rfl | split | unfold sendSyncInterestName | dsimp only)
  · rw [hcalls]
    simp [Impl.withCalls, List.append_assoc]
  · rw [List.filterMap_append]
    have hp : (puts.map Effect.put).filterMap Effect.expressed = [] := by
      induction puts with
      | nil => rfl
      | cons d ds ih => simp [List.filterMap_cons, Effect.expressed]
    rw [hp, List.nil_append, hexp, htree]
    rfl
  · intro hlt
    rw [htree]
    exact update_root_includes _ _ _ _ hlt

/-- Witness of C14 (amended): the engine with the defaults after its initial
timeout. -/
theorem publish_sync_interest_witness :
    ∃ s1 calls,
      ((create ["a".toList] ["b".toList] 1 4000 (-1) false false 0 0).initialTimeout
        ⟨["b".toList, "00".toList], 1000⟩ 1000).publishNextSequenceNo (fun _ => false) 1200 =
        some s1 ∧
      s1.calls_ = ((create ["a".toList] ["b".toList] 1 4000 (-1) false false 0 0).initialTimeout
        ⟨["b".toList, "00".toList], 1000⟩ 1000).calls_ ++ calls ∧
      calls.filterMap Effect.expressed =
        [(⟨["b".toList, s1.digestTree_.getVectorRoot], 4000⟩, Callbacks.sync)] := by
  obtain ⟨s1, calls, h1, _, _, h4, h5, _⟩ := publish_sync_interest
    ((create ["a".toList] ["b".toList] 1 4000 (-1) false false 0 0).initialTimeout
      ⟨["b".toList, "00".toList], 1000⟩ 1000) (fun _ => false) 1200
    (ICTSync.Reachable.step _ _ (.initialTimeout ⟨["b".toList, "00".toList], 1000⟩ 1000)
      (ICTSync.Reachable.create ["a".toList] ["b".toList] 1 4000 (-1) false false 0 0
        (by decide) (by decide)) True.intro rfl)
  exact ⟨s1, calls, h1, h4, h5⟩

end EnginePublish


/-! ## Callbacks after `shutdown` -/

section EngineShutdown

open ICTSync ICTSync.Impl

/-- C15, what the code does. On a state with `enabled_ = false` the callbacks
`onInterest`, `onData`, `syncTimeout` (and `syncNack`) and `initialTimeout` (and
`initialNack`) return the state as it is, and `discoveryTimeout` (and
`discoveryNack`) changes none of the listed fields. `checkForUpdate` has no
such test: on the engine of prefix `/a`, session 1, broadcast prefix `/b` with
an update interval of 5000 ms, created at time 0, after the initial timeout at
time 1000 and `shutdown`, the timer tick at time 5000 changes nothing but the
tick at time 6000 sets `lastSentDigest_` from `""` to `"1,0;"` and
`nextInterestTs_` from 6000 to 11000 and expresses the interest `/b/1,0;`. -/
theorem checkForUpdate_after_shutdown :
    (∀ s : Impl, s.enabled_ = false →
      (∀ i b now, s.onInterest i b now = some s) ∧
      (∀ i d now, s.onData i d now = some s) ∧
      (∀ i now, s.syncTimeout i now = some s) ∧
      (∀ i now, s.initialTimeout i now = s) ∧
      (∀ i s1, s.discoveryTimeout i = some s1 →
        s1.digestTree_ = s.digestTree_ ∧ s1.sequenceNo_ = s.sequenceNo_ ∧
        s1.pendingInterests_ = s.pendingInterests_ ∧ s1.lastSentDigest_ = s.lastSentDigest_ ∧
        s1.nextInterestTs_ = s.nextInterestTs_ ∧
        s1.outgoingDiscoveryInterests_ = s.outgoingDiscoveryInterests_)) ∧
    ((create ["a".toList] ["b".toList] 1 4000 (-1) false false 5000 0).run
        [.initialTimeout ⟨["b".toList, "00".toList], 1000⟩ 1000, .shutdown]).map
      (fun s => (s.enabled_, s.digestTree_.getVectorRoot, s.lastSentDigest_, s.nextInterestTs_,
        s.calls_.length)) =
      some (false, "1,0;".toList, [], 6000, 7) ∧
    ((create ["a".toList] ["b".toList] 1 4000 (-1) false false 5000 0).run
        [.initialTimeout ⟨["b".toList, "00".toList], 1000⟩ 1000, .shutdown,
         .checkForUpdate 5000]).map
      (fun s => (s.lastSentDigest_, s.nextInterestTs_, s.calls_.drop 7)) =
      some ([], 6000, [.schedule 5000]) ∧
    ((create ["a".toList] ["b".toList] 1 4000 (-1) false false 5000 0).run
        [.initialTimeout ⟨["b".toList, "00".toList], 1000⟩ 1000, .shutdown,
         .checkForUpdate 5000, .checkForUpdate 6000]).map
      (fun s => (s.enabled_, s.lastSentDigest_, s.nextInterestTs_,
        (s.calls_.drop 8).filterMap Effect.expressed)) =
      some (false, "1,0;".toList, 11000,
        [(⟨["b".toList, "1,0;".toList], 4000⟩, Callbacks.sync)]) := by
  refine ⟨?_, by decide, by decide, by decide⟩
  intro s hen
  refine ⟨?_, ?_, ?_, ?_, ?_⟩
  · intro i b now
    unfold onInterest
    rw [if_pos (by rw [hen]; rfl)]
  · intro i d now
    unfold onData
    rw [if_pos (by rw [hen]; rfl)]
  · intro i now
    unfold syncTimeout
    rw [if_pos (by rw [hen]; rfl)]
  · intro i now
    unfold initialTimeout
    rw [if_pos (by rw [hen]; rfl)]
  · intro i s1 h
    unfold discoveryTimeout at h
    repeat' (first | (cases h; exact ⟨rfl, rfl, rfl, rfl, rfl, rfl⟩) | cases h | split at h)

end EngineShutdown

/-! ## Parked interests across `publishNextSequenceNo` -/

section EngineParkedPublish

open ICTSync ICTSync.Impl

/-- C17, the claim as stated fails: the engine of prefix `/a`, session 1,
broadcast prefix `/b` with the defaults, after its initial timeout, parks the
interest `/b/1,0;7,2;` (lifetime 4000 ms, at time 1100). The publish at time
1200 sends the data packet `/b/1,0;7,2;` that answers it, and the interest is
still in the table; the publish at time 1300 sends a data packet of this name
again, and the interest is still in the table. -/
theorem publish_keeps_parked_counterexample :
    ((create ["a".toList] ["b".toList] 1 4000 (-1) false false 0 0).run
        [.initialTimeout ⟨["b".toList, "00".toList], 1000⟩ 1000,
         .onInterest ⟨["b".toList, "1,0;7,2;".toList], 4000⟩ false 1100]).map
      (fun s => (s.pendingInterests_.interests_.map (fun p => p.interest_),
        s.calls_.filterMap Effect.sent)) =
      some ([⟨["b".toList, "1,0;7,2;".toList], 4000⟩], []) ∧
    ((create ["a".toList] ["b".toList] 1 4000 (-1) false false 0 0).run
        [.initialTimeout ⟨["b".toList, "00".toList], 1000⟩ 1000,
         .onInterest ⟨["b".toList, "1,0;7,2;".toList], 4000⟩ false 1100,
         .publishNextSequenceNo (fun _ => false) 1200]).map
      (fun s => (s.pendingInterests_.interests_.map (fun p => p.interest_),
        (s.calls_.filterMap Effect.sent).map (fun d => d.name))) =
      some ([⟨["b".toList, "1,0;7,2;".toList], 4000⟩], [["b".toList, "1,0;7,2;".toList]]) ∧
    ((create ["a".toList] ["b".toList] 1 4000 (-1) false false 0 0).run
        [.initialTimeout ⟨["b".toList, "00".toList], 1000⟩ 1000,
         .onInterest ⟨["b".toList, "1,0;7,2;".toList], 4000⟩ false 1100,
         .publishNextSequenceNo (fun _ => false) 1200,
         .publishNextSequenceNo (fun _ => false) 1300]).map
      (fun s => (s.pendingInterests_.interests_.map (fun p => p.interest_),
        (s.calls_.filterMap Effect.sent).map (fun d => d.name))) =
      some ([⟨["b".toList, "1,0;7,2;".toList], 4000⟩],
        [["b".toList, "1,0;7,2;".toList], ["b".toList, "1,0;7,2;".toList]]) := by
  refine ⟨by decide, by decide, by decide⟩

/-- C17, amended: on every reachable engine state `publishNextSequenceNo` at
time `now` returns and leaves in the pending interest table exactly the
entries that have not timed out at `now`, in their order (all entries when
`noData_` is set), whether or not data answering them was sent; so a parked
interest that has not timed out is in the table after the call. -/
theorem publish_keeps_parked (s : Impl) (pushDataName : Nat → Bool) (now : Int)
    (h : ICTSync.Reachable s) :
    ∃ s1, s.publishNextSequenceNo pushDataName now = some s1 ∧
      s1.pendingInterests_.interests_ =
        (if s.noData_ then s.pendingInterests_.interests_
         else s.pendingInterests_.interests_.filter (fun p => !p.isTimedOut now)) ∧
      (∀ p ∈ s.pendingInterests_.interests_, p.isTimedOut now = false →
        p ∈ s1.pendingInterests_.interests_) := by
  obtain ⟨puts, hpub⟩ := publishNextSequenceNo_eq s pushDataName now (reachable_parkedOk h)
  have hpk := parked_sendSyncInterest ((({ s with
        sequenceNo_ := intAdd s.sequenceNo_ 1,
        digestTree_ := (s.digestTree_.update s.applicationDataPrefixUri_ s.sessionNo_
          (intAdd s.sequenceNo_ 1)).2,
        pendingInterests_ :=
          if s.noData_ then s.pendingInterests_
          else { interests_ := s.pendingInterests_.interests_.filter (fun p => !p.isTimedOut now) } } :
        Impl).withCalls (puts.map Effect.put))) s.syncLifetime_ now
  unfold Impl.parked at hpk
  have hstore := (Prod.mk.inj hpk).1
  have heq : (if s.noData_ = true then s.pendingInterests_
      else { interests_ := s.pendingInterests_.interests_.filter (fun p => !p.isTimedOut now) } :
        InterestList).interests_ =
      (if s.noData_ = true then s.pendingInterests_.interests_
       else s.pendingInterests_.interests_.filter (fun p => !p.isTimedOut now)) := by
    split <;> rfl
  refine ⟨_, hpub, hstore.trans heq, ?_⟩
  intro p hp ht
  rw [hstore.trans heq]
  split
  · exact hp
  · exact List.mem_filter.mpr ⟨hp, by rw [ht]; rfl⟩

/-- Witness of C17 (amended): the engine with the defaults that has parked the
interest `/b/1,0;7,2;`. -/
theorem publish_keeps_parked_witness :
    ∃ s s1, (create ["a".toList] ["b".toList] 1 4000 (-1) false false 0 0).run
        [.initialTimeout ⟨["b".toList, "00".toList], 1000⟩ 1000,
         .onInterest ⟨["b".toList, "1,0;7,2;".toList], 4000⟩ false 1100] = some s ∧
      s.publishNextSequenceNo (fun _ => false) 1200 = some s1 ∧
      s1.pendingInterests_.interests_ =
        (if s.noData_ then s.pendingInterests_.interests_
         else s.pendingInterests_.interests_.filter (fun p => !p.isTimedOut 1200)) := by
  cases hrun : (create ["a".toList] ["b".toList] 1 4000 (-1) false false 0 0).run
        [.initialTimeout ⟨["b".toList, "00".toList], 1000⟩ 1000,
         .onInterest ⟨["b".toList, "1,0;7,2;".toList], 4000⟩ false 1100] with
  | none => exact absurd hrun (by decide)
  | some s =>
    obtain ⟨s1, h1, h2, _⟩ := publish_keeps_parked s (fun _ => false) 1200
      (reachable_run _ _ _
        (ICTSync.Reachable.create ["a".toList] ["b".toList] 1 4000 (-1) false false 0 0
          (by decide) (by decide))
        (by
          intro e he
          simp only [List.mem_cons, List.mem_singleton, List.not_mem_nil, or_false] at he
          rcases he with rfl | rfl <;> exact True.intro)
        hrun)
    exact ⟨s, s1, rfl, h1, h2⟩

end EngineParkedPublish


/-! ## Bootstrap from newcomer data, and the own sequence number -/

section EngineBootstrapData

open ICTSync ICTSync.Impl

/-- C21, the claim as stated fails: the engine B of prefix `/b`, session 2,
broadcast prefix `/s` with the defaults (previous sequence -1, root `"00"`)
receives the newcomer data `[{/a, session 1, seq 1}]`; it inserts itself at
sequence 0 and its root is `"1,1;2,0;"`, not `"1,1;2,1;"`. -/
theorem bootstrap_data_counterexample :
    ((create ["b".toList] ["s".toList] 2 4000 (-1) false false 0 0).run
        [.onData ⟨["s".toList, "00".toList], 1000⟩
          ⟨["s".toList, "00".toList], some [⟨"/a".toList, .UPDATE, 1, 1, none⟩], some 500⟩
          500]).map
      (fun s => (s.getProducerSequenceNo "/b".toList 2, s.digestTree_.getVectorRoot)) =
      some (some 0, "1,1;2,0;".toList) ∧
    "1,1;2,0;".toList ≠ "1,1;2,1;".toList := by
  decide

/-- C21, amended: the engine B of prefix `/b`, session 2, broadcast prefix `/s`
with the defaults has the root `"00"` and the sequence number -1; when it
receives the newcomer data `[{/a, session 1, seq 1}]` it applies it and inserts
itself at sequence 0 (the previous sequence plus one), so that its table is
`(/a, 1) → 1, (/b, 2) → 0` and its root `"1,1;2,0;"`; `onInitialized` is
called, the application is told `(/a, 1, 1)` and the sync interest
`/s/1,1;2,0;` is expressed. Created with the previous sequence 0 the engine
inserts itself at sequence 1 and the root is `"1,1;2,1;"`. -/
theorem bootstrap_data_default :
    ((create ["b".toList] ["s".toList] 2 4000 (-1) false false 0 0).digestTree_.getVectorRoot,
      (create ["b".toList] ["s".toList] 2 4000 (-1) false false 0 0).sequenceNo_) =
      ("00".toList, -1) ∧
    ((create ["b".toList] ["s".toList] 2 4000 (-1) false false 0 0).run
        [.onData ⟨["s".toList, "00".toList], 1000⟩
          ⟨["s".toList, "00".toList], some [⟨"/a".toList, .UPDATE, 1, 1, none⟩], some 500⟩
          500]).map
      (fun s => (s.sequenceNo_,
        s.digestTree_.digestNode_.map (fun n => (n.dataPrefix_, n.sessionNo_, n.sequenceNo_)),
        s.digestTree_.getVectorRoot, s.calls_.drop 3)) =
      some (0, [("/a".toList, 1, 1), ("/b".toList, 2, 0)], "1,1;2,0;".toList,
        [.onInitialized, .onInitialized,
         .onReceivedSyncState [⟨"/a".toList, 1, 1, none⟩] false,
         .expressInterest ⟨["s".toList, "1,1;2,0;".toList], 4000⟩ .sync]) ∧
    ((create ["b".toList] ["s".toList] 2 4000 0 false false 0 0).run
        [.onData ⟨["s".toList, "00".toList], 1000⟩
          ⟨["s".toList, "00".toList], some [⟨"/a".toList, .UPDATE, 1, 1, none⟩], some 500⟩
          500]).map
      (fun s => (s.sequenceNo_, s.digestTree_.getVectorRoot)) =
      some (1, "1,1;2,1;".toList) := by
  refine ⟨by decide, rfl, by decide⟩

/-- C22, the failing trace: the engine of prefix `/a`, session 2, broadcast
prefix `/s` with the defaults bootstraps by its initial timeout and publishes
three times (own sequence 3, row `(/a, 2) → 3`). It then receives sync data
with the entry `{/a, session 1, seq 1}`, a row of the same prefix and another
session: `update` inserts the row and, comparing the prefix only, sets
`sequenceNo_` to 1. The states are reachable. The next publish gives
`sequenceNo_ = 2` while the own row stays at 3. -/
theorem own_sequence_decreases :
    (∀ s, (create ["a".toList] ["s".toList] 2 4000 (-1) false false 0 0).run
        [.initialTimeout ⟨["s".toList, "00".toList], 1000⟩ 1000,
         .publishNextSequenceNo (fun _ => false) 1100,
         .publishNextSequenceNo (fun _ => false) 1200,
         .publishNextSequenceNo (fun _ => false) 1300,
         .onData ⟨["s".toList, "2,3;".toList], 4000⟩
           ⟨["s".toList, "2,3;".toList], some [⟨"/a".toList, .UPDATE, 1, 1, none⟩], none⟩
           1400] = some s → ICTSync.Reachable s) ∧
    ((create ["a".toList] ["s".toList] 2 4000 (-1) false false 0 0).run
        [.initialTimeout ⟨["s".toList, "00".toList], 1000⟩ 1000,
         .publishNextSequenceNo (fun _ => false) 1100,
         .publishNextSequenceNo (fun _ => false) 1200,
         .publishNextSequenceNo (fun _ => false) 1300]).map
      (fun s => (s.applicationDataPrefixUri_, s.sessionNo_, s.sequenceNo_,
        s.digestTree_.getVectorRoot)) =
      some ("/a".toList, 2, 3, "2,3;".toList) ∧
    ((create ["a".toList] ["s".toList] 2 4000 (-1) false false 0 0).run
        [.initialTimeout ⟨["s".toList, "00".toList], 1000⟩ 1000,
         .publishNextSequenceNo (fun _ => false) 1100,
         .publishNextSequenceNo (fun _ => false) 1200,
         .publishNextSequenceNo (fun _ => false) 1300,
         .onData ⟨["s".toList, "2,3;".toList], 4000⟩
           ⟨["s".toList, "2,3;".toList], some [⟨"/a".toList, .UPDATE, 1, 1, none⟩], none⟩
           1400]).map
      (fun s => (s.sequenceNo_, s.getProducerSequenceNo "/a".toList 2,
        s.digestTree_.getVectorRoot)) =
      some (1, some 3, "1,1;2,3;".toList) ∧
    ((create ["a".toList] ["s".toList] 2 4000 (-1) false false 0 0).run
        [.initialTimeout ⟨["s".toList, "00".toList], 1000⟩ 1000,
         .publishNextSequenceNo (fun _ => false) 1100,
         .publishNextSequenceNo (fun _ => false) 1200,
         .publishNextSequenceNo (fun _ => false) 1300,
         .onData ⟨["s".toList, "2,3;".toList], 4000⟩
           ⟨["s".toList, "2,3;".toList], some [⟨"/a".toList, .UPDATE, 1, 1, none⟩], none⟩
           1400,
         .publishNextSequenceNo (fun _ => false) 1500]).map
      (fun s => (s.sequenceNo_, s.getProducerSequenceNo "/a".toList 2,
        s.digestTree_.getVectorRoot)) =
      some (2, some 3, "1,1;2,3;".toList) := by
  refine ⟨?_, by decide, by decide, by decide⟩
  intro s hs
  refine reachable_run _ _ _
    (ICTSync.Reachable.create ["a".toList] ["s".toList] 2 4000 (-1) false false 0 0
      (by decide) (by decide)) ?_ hs
  intro e he
  simp only [List.mem_cons, List.mem_singleton, List.not_mem_nil, or_false] at he
  rcases he with rfl | rfl | rfl | rfl | rfl
  · exact True.intro
  · exact True.intro
  · exact True.intro
  · exact True.intro
  · intro m hm
    simp only [Option.getD_some, List.mem_singleton] at hm
    subst hm
    exact ⟨by decide, by decide⟩

end EngineBootstrapData


/-! ## The engine: the table is built by `update` calls with `int` arguments -/

section EngineSound

open ICTSync ICTSync.Impl

theorem sound_log (s : Impl) (e : Effect) (h : s.Sound) : (s.log e).Sound := h

theorem sound_withCalls (s : Impl) (es : List Effect) (h : s.Sound) : (s.withCalls es).Sound := h

theorem sound_sendSyncInterestName (s : Impl) (n : Name) (l now : Int) (h : s.Sound) :
    (s.sendSyncInterestName n l now).Sound := by
  unfold sendSyncInterestName
  cases s.lastInterestId_ <;> simp only <;> split <;> exact h

theorem sound_sendSyncInterest (s : Impl) (l now : Int) (h : s.Sound) :
    (s.sendSyncInterest l now).Sound := by
  unfold sendSyncInterest
  simp only
  split
  · split
    · exact sound_sendSyncInterestName _ _ _ _ h
    · exact h
  · exact sound_sendSyncInterestName _ _ _ _ h

theorem sound_checkForUpdate (s : Impl) (now : Int) (h : s.Sound) : (s.checkForUpdate now).Sound := by
  unfold checkForUpdate
  simp only
  apply sound_log
  split
  · exact sound_sendSyncInterest _ _ _ h
  · exact h

theorem sound_shutdown (s : Impl) (h : s.Sound) : s.shutdown.Sound := h

/-- The state with the table replaced by the one after an `update` call with
`int` arguments. -/
theorem sound_tree_update (s : Impl) (p : Str) (a b : Int) (ha : isInt a) (hb : isInt b)
    (r : Bool) (tree : ICTVectorState) (hu : s.digestTree_.update p a b = (r, tree))
    (h : s.Sound) : ict.Reachable tree := by
  have := ict.Reachable.update p a b h.1 ha hb
  rw [hu] at this
  exact this

theorem sound_updateLoop : ∀ (content : List Sync.SyncState) (s : Impl) (k : Nat),
    Sync.WellFormed content → s.Sound → (updateLoop content s k).1.Sound
  | [], _, _, _, h => h
  | m :: ms, s, k, hw, h => by
    have hm := hw m (List.mem_cons_self _ _)
    have hms : Sync.WellFormed ms := fun x hx => hw x (List.mem_cons_of_mem _ hx)
    have h1 := isInt_toInt32 hm.1
    have h2 := isInt_toInt32 hm.2
    unfold updateLoop
    split
    · split
      · rename_i tree hu
        apply sound_updateLoop ms _ _ hms
        have ht := sound_tree_update s _ _ _ h2 h1 _ _ hu h
        dsimp only
        split
        · exact ⟨ht, h.2⟩
        · exact ⟨ht, h.2⟩
      · rename_i tree hu
        apply sound_updateLoop ms _ _ hms
        exact ⟨sound_tree_update s _ _ _ h2 h1 _ _ hu h, h.2⟩
    · split
      · dsimp only
        split
        · split
          · rename_i tree hu
            apply sound_updateLoop ms _ _ hms
            have ht := sound_tree_update s _ _ _ h2 h1 _ _ hu h
            split
            · exact ⟨ht, h.2⟩
            · exact ⟨ht, h.2⟩
          · rename_i tree hu
            apply sound_updateLoop ms _ _ hms
            exact ⟨sound_tree_update s _ _ _ h2 h1 _ _ hu h, h.2⟩
        · exact sound_updateLoop ms s k hms h
      · exact sound_updateLoop ms s k hms h

theorem sound_update (s : Impl) (content : List Sync.SyncState)
    (hw : Sync.WellFormed content) (h : s.Sound) : (s.update content).2.Sound := by
  unfold Impl.update
  exact sound_updateLoop content s 0 hw h

theorem wellFormed_own (name : Str) (a b : Int) :
    Sync.WellFormed [{ name := name, type := .UPDATE, seq := toUInt32 a, session := toUInt32 b,
                       application_info := none }] := by
  intro m hm
  rw [List.mem_singleton] at hm
  subst hm
  exact ⟨toUInt32_lt _, toUInt32_lt _⟩

theorem sound_initialTimeout (s : Impl) (i : Interest) (now : Int) (h : s.Sound) :
    (s.initialTimeout i now).Sound := by
  unfold initialTimeout
  split
  · exact h
  · simp only
    split
    · exact h
    · apply sound_sendSyncInterestName
      apply sound_log
      exact sound_update _ _ (wellFormed_own _ _ _) h

theorem sound_initialOnData (s : Impl) (content : List Sync.SyncState)
    (hw : Sync.WellFormed content) (h : s.Sound) : (s.initialOnData content).Sound := by
  have h1 : ((s.update content).2.log Effect.onInitialized).Sound :=
    sound_log _ _ (sound_update s content hw h)
  unfold initialOnData
  dsimp only
  split
  · have h2 := sound_update ({ (s.update content).2.log Effect.onInitialized with
      sequenceNo_ := intAdd ((s.update content).2.log Effect.onInitialized).sequenceNo_ 1 })
      _ (wellFormed_own ((s.update content).2.log Effect.onInitialized).applicationDataPrefixUri_
        (intAdd ((s.update content).2.log Effect.onInitialized).sequenceNo_ 1)
        ((s.update content).2.log Effect.onInitialized).sessionNo_) h1
    split
    · rename_i s4 hu
      have := congrArg (fun (r : Bool × Impl) => r.2) hu
      dsimp only at this
      rw [← this]
      exact sound_log _ _ h2
    · rename_i s4 hu
      have := congrArg (fun (r : Bool × Impl) => r.2) hu
      dsimp only at this
      rw [← this]
      exact h2
  · exact h1

end EngineSound


section EngineSoundHandlers

open ICTSync ICTSync.Impl

theorem sound_sendSyncData (s : Impl) (d : Str) (l : List Nat) (b r : Bool) (s1 : Impl)
    (h : s.sendSyncData d l b = some (r, s1)) (hs : s.Sound) : s1.Sound := by
  unfold sendSyncData at h
  repeat' (first | (cases h; exact hs) | cases h | split at h)

theorem sound_processDiscoveryInterest (s : Impl) (i : Interest) (s1 : Impl)
    (h : s.processDiscoveryInterest i = some s1) (hs : s.Sound) : s1.Sound := by
  unfold processDiscoveryInterest at h
  repeat' (first | (cases h; exact hs) | cases h | split at h | dsimp only at h)

theorem sound_processNewcomerInterest (s : Impl) (i : Interest) (d : Str) (hs : s.Sound) :
    (s.processNewcomerInterest i d).Sound := by
  unfold processNewcomerInterest
  repeat' (first | exact hs | split | dsimp only)

theorem getDiff_negative_lt (st : ICTVectorState) (rState : Str) :
    ∀ r ∈ (st.getDiff rState).negativeInLocal, r.1 < 4294967296 ∧ r.2 < 4294967296 := by
  intro r hr
  rw [(getDiff_eq st rState).2.1, mem_negative_iff] at hr
  obtain ⟨L, _, hm, _⟩ := hr
  exact parse_into_vec_lt _ r (matchingPair_fst hm).1

theorem getDiff_unknown_lt (st : ICTVectorState) (rState : Str) :
    ∀ r ∈ (st.getDiff rState).unknownSessions, r.1 < 4294967296 ∧ r.2 < 4294967296 := by
  intro r hr
  rw [(getDiff_eq st rState).2.2.1] at hr
  exact parse_into_vec_lt _ r (List.mem_filter.mp hr).1

theorem reachable_interestUpdatesLoop : ∀ (l : List (Nat × Nat)) (tree : ICTVectorState)
    (app : List SyncState) (tree1 : ICTVectorState) (app1 : List SyncState),
    (∀ r ∈ l, r.1 < 4294967296 ∧ r.2 < 4294967296) → ict.Reachable tree →
    interestUpdatesLoop l tree app = some (tree1, app1) → ict.Reachable tree1
  | [], tree, app, tree1, app1, _, ht, h => by
    unfold interestUpdatesLoop at h
    cases h
    exact ht
  | r :: rest, tree, app, tree1, app1, hl, ht, h => by
    have hr := hl r (List.mem_cons_self _ _)
    have hrest : ∀ x ∈ rest, x.1 < 4294967296 ∧ x.2 < 4294967296 :=
      fun x hx => hl x (List.mem_cons_of_mem _ hx)
    unfold interestUpdatesLoop at h
    dsimp only at h
    split at h
    · split at h
      · cases h
      · rename_i node hn
        split at h
        · cases h
        · exact reachable_interestUpdatesLoop rest _ _ _ _ hrest
            (ict.Reachable.update _ _ _ ht (isInt_toInt32 hr.1) (isInt_toInt32 hr.2)) h
    · exact reachable_interestUpdatesLoop rest _ _ _ _ hrest ht h

theorem sound_processInterestUpdates (s : Impl) (l : List (Nat × Nat)) (now : Int) (s1 : Impl)
    (hl : ∀ r ∈ l, r.1 < 4294967296 ∧ r.2 < 4294967296)
    (h : s.processInterestUpdates l now = some s1) (hs : s.Sound) : s1.Sound := by
  unfold processInterestUpdates at h
  split at h
  · cases h
  · rename_i tree app hloop
    cases h
    apply sound_sendSyncInterest
    apply sound_log
    exact ⟨reachable_interestUpdatesLoop l _ _ _ _ hl hs.1 hloop, hs.2⟩

theorem map_set_mem : ∀ (m : List (Int × Int)) (k v : Int) (kv : Int × Int),
    kv ∈ map_set m k v → kv ∈ m ∨ kv = (k, v)
  | [], k, v, kv, h => by
    unfold map_set at h
    exact Or.inr (List.mem_singleton.mp h)
  | x :: rest, k, v, kv, h => by
    unfold map_set at h
    split at h
    · rcases List.mem_cons.mp h with h | h
      · exact Or.inr h
      · exact Or.inl (List.mem_cons_of_mem _ h)
    · split at h
      · rcases List.mem_cons.mp h with h | h
        · exact Or.inr h
        · exact Or.inl h
      · rcases List.mem_cons.mp h with h | h
        · exact Or.inl (by rw [h]; exact List.mem_cons_self _ _)
        · rcases map_set_mem rest k v kv h with h | h
          · exact Or.inl (List.mem_cons_of_mem _ h)
          · exact Or.inr h

theorem map_set_isInt (m : List (Int × Int)) (k : Int) (u : Nat) (hu : u < 4294967296)
    (h : ∀ kv ∈ m, isInt kv.2) : ∀ kv ∈ map_set m k (toInt32 u), isInt kv.2 := by
  intro kv hkv
  rcases map_set_mem m k _ kv hkv with h1 | h1
  · exact h kv h1
  · rw [h1]
    exact isInt_toInt32 hu

theorem sound_unknownSessionsLoop : ∀ (l : List (Nat × Nat)) (s : Impl),
    (∀ r ∈ l, r.1 < 4294967296 ∧ r.2 < 4294967296) → s.Sound → (unknownSessionsLoop l s).Sound
  | [], _, _, h => h
  | u :: rest, s, hl, h => by
    have hu := hl u (List.mem_cons_self _ _)
    have hrest : ∀ x ∈ rest, x.1 < 4294967296 ∧ x.2 < 4294967296 :=
      fun x hx => hl x (List.mem_cons_of_mem _ hx)
    unfold unknownSessionsLoop
    split
    · dsimp only
      apply sound_unknownSessionsLoop rest _ hrest
      split
      · exact ⟨h.1, h.2.1, map_set_isInt _ _ _ hu.2 h.2.2⟩
      · exact h
    · dsimp only
      apply sound_unknownSessionsLoop rest _ hrest
      exact ⟨h.1, h.2.1, map_set_isInt _ _ _ hu.2 h.2.2⟩

theorem sound_processUnknownSessionIds (s : Impl) (l : List (Nat × Nat))
    (hl : ∀ r ∈ l, r.1 < 4294967296 ∧ r.2 < 4294967296) (h : s.Sound) :
    (s.processUnknownSessionIds l).Sound := by
  unfold processUnknownSessionIds
  split
  · exact h
  · exact sound_unknownSessionsLoop l s hl h

theorem sound_processSyncInterest (s : Impl) (i : Interest) (d : Str) (b : Bool) (now : Int)
    (s1 : Impl) (h : s.processSyncInterest i d b now = some s1) (hs : s.Sound) : s1.Sound := by
  unfold processSyncInterest at h
  dsimp only at h
  split at h
  · cases h
  · rename_i sa ha
    have h1 : sa.Sound := by
      split at ha
      · split at ha
        · cases ha; exact hs
        · cases ha; exact hs
      · cases hsd : s.sendSyncData d (s.digestTree_.getDiff d).positiveLocalIndexes b with
        | none => rw [hsd] at ha; cases ha
        | some r =>
          rw [hsd] at ha
          cases ha
          exact sound_sendSyncData s _ _ _ r.1 r.2 hsd hs
    split at h
    · cases h
    · rename_i sb hb
      have h2 : sb.Sound := by
        split at hb
        · exact sound_processInterestUpdates _ _ _ _ (getDiff_negative_lt _ _) hb h1
        · cases hb; exact h1
      have h3 := sound_processUnknownSessionIds sb _ (getDiff_unknown_lt s.digestTree_ d) h2
      repeat' (first | (cases h; exact h2) | (cases h; exact h3) | split at h)

theorem sound_onInterest (s : Impl) (i : Interest) (b : Bool) (now : Int) (s1 : Impl)
    (h : s.onInterest i b now = some s1) (hs : s.Sound) : s1.Sound := by
  unfold onInterest at h
  split at h
  · cases h; exact hs
  · split at h
    · split at h
      · exact sound_processDiscoveryInterest _ _ _ h hs
      · cases h; exact hs
    · split at h
      · cases h
      · dsimp only at h
        split at h
        · cases h
          exact sound_processNewcomerInterest _ _ _ hs
        · split at h
          · exact sound_processSyncInterest _ _ _ _ _ _ h hs
          · cases h; exact hs

theorem map_find_mem (m : List (Int × Int)) (k v : Int) (h : map_find m k = some v) :
    (k, v) ∈ m := by
  unfold map_find at h
  cases hf : m.find? (fun kv => decide (kv.1 = k)) with
  | none => rw [hf] at h; cases h
  | some kv =>
    rw [hf] at h
    simp only [Option.map_some', Option.some.injEq] at h
    have h1 := List.mem_of_find?_eq_some hf
    have h2 := List.find?_some hf
    simp only [decide_eq_true_eq] at h2
    rw [← h, ← h2]
    exact h1

theorem sound_onDiscoveryData (s : Impl) (i : Interest) (content : List Sync.SyncState)
    (r : Bool) (s1 : Impl) (hw : Sync.WellFormed content)
    (h : s.onDiscoveryData i content = some (r, s1)) (hs : s.Sound) : s1.Sound := by
  unfold onDiscoveryData at h
  split at h
  · cases h; exact hs
  · split at h
    · cases h
    · split at h
      · cases h
      · split at h
        · cases h
        · rename_i m hm
          dsimp only at h
          split at h
          · cases h
          · rename_i savedSeq hsaved
            have hmem : m ∈ content := by
              cases content with
              | nil => cases hm
              | cons x xs =>
                simp only [List.head?_cons, Option.some.injEq] at hm
                rw [← hm]
                exact List.mem_cons_self _ _
            have hb := hw m hmem
            have hsv : isInt savedSeq := hs.2.2 _ (map_find_mem _ _ _ hsaved)
            cases h
            refine ⟨?_, hs.2⟩
            dsimp only
            split
            · exact ict.Reachable.update _ _ _ hs.1 (isInt_toInt32 hb.2) hsv
            · exact ict.Reachable.update _ _ _ hs.1 (isInt_toInt32 hb.2) (isInt_toInt32 hb.1)

theorem sound_appUpdatesLoop : ∀ (content : List Sync.SyncState) (s : Impl) (app : List SyncState)
    (s1 : Impl) (app1 : List SyncState), appUpdatesLoop content s app = some (s1, app1) →
    s.Sound → s1.Sound
  | [], s, app, s1, app1, h, hs => by
    unfold appUpdatesLoop at h
    cases h; exact hs
  | m :: rest, s, app, s1, app1, h, hs => by
    have ih := sound_appUpdatesLoop rest
    unfold appUpdatesLoop at h
    repeat' (first | exact ih _ _ _ _ h hs | exact ih _ _ _ _ h (sound_log _ _ hs) | cases h | split at h | dsimp only at h)

theorem sound_onData (s : Impl) (i : Interest) (data : Data) (now : Int) (s1 : Impl)
    (hw : Sync.WellFormed (data.content.getD []))
    (h : s.onData i data now = some s1) (hs : s.Sound) : s1.Sound := by
  unfold onData at h
  split at h
  · cases h; exact hs
  · split at h
    · cases h
    · dsimp only at h
      split at h
      · cases h; exact sound_sendSyncInterest _ _ _ hs
      · split at h
        · cases h; exact hs
        · split at h
          · cases h
          · rename_i isUpdated sa ha
            have h1 : sa.Sound := by
              split at ha
              · exact sound_onDiscoveryData _ _ _ _ _ hw ha hs
              · split at ha
                · cases ha; exact sound_initialOnData _ _ hw hs
                · cases ha; exact sound_update _ _ hw hs
            split at h
            · cases h
            · rename_i sb hb
              cases h
              apply sound_sendSyncInterest
              split at hb
              · split at hb
                · cases hb
                · rename_i sc app hc
                  cases hb
                  exact sound_log _ _ (sound_appUpdatesLoop _ _ _ _ _ hc h1)
              · cases hb; exact h1

theorem sound_syncTimeout (s : Impl) (i : Interest) (now : Int) (s1 : Impl)
    (h : s.syncTimeout i now = some s1) (hs : s.Sound) : s1.Sound := by
  have hn := sound_sendSyncInterestName s i.name s.syncLifetime_ now hs
  unfold syncTimeout at h
  repeat' (first | (cases h; exact hs) | (cases h; exact hn) | cases h | split at h | dsimp only at h)

theorem sound_discoveryTimeout (s : Impl) (i : Interest) (s1 : Impl)
    (h : s.discoveryTimeout i = some s1) (hs : s.Sound) : s1.Sound := by
  unfold discoveryTimeout at h
  repeat' (first | (cases h; exact hs) | cases h | split at h)

theorem isInt_intAdd (a b : Int) : isInt (intAdd a b) := isInt_toInt32 (toUInt32_lt _)

theorem sound_publishNextSequenceNo (s : Impl) (pushDataName : Nat → Bool) (now : Int)
    (s1 : Impl) (h : s.publishNextSequenceNo pushDataName now = some s1) (hp : ParkedOk s)
    (hs : s.Sound) : s1.Sound := by
  obtain ⟨puts, h1⟩ := publishNextSequenceNo_eq s pushDataName now hp
  rw [h1] at h
  cases h
  apply sound_sendSyncInterest
  exact ⟨ict.Reachable.update _ _ _ hs.1 hs.2.1 (isInt_intAdd _ _), hs.2⟩

theorem sound_step (s s1 : Impl) (e : Event) (hw : e.WellFormed) (h : s.step e = some s1)
    (hp : ParkedOk s) (hs : s.Sound) : s1.Sound := by
  cases e with
  | onInterest i b now => exact sound_onInterest s i b now s1 h hs
  | onData i d now => exact sound_onData s i d now s1 hw h hs
  | syncTimeout i now => exact sound_syncTimeout s i now s1 h hs
  | initialTimeout i now =>
    cases h
    exact sound_initialTimeout s i now hs
  | discoveryTimeout i => exact sound_discoveryTimeout s i s1 h hs
  | checkForUpdate now =>
    cases h
    exact sound_checkForUpdate s now hs
  | publishNextSequenceNo b now => exact sound_publishNextSequenceNo s b now s1 h hp hs
  | shutdown =>
    cases h
    exact sound_shutdown s hs

/-- In every reachable engine state the table is one built by `update` calls
with `int` arguments (so it is sorted, its digests and its root are right and
its fields are `int`s), and the own session number is an `int`. -/
theorem reachable_sound {s : Impl} (h : ICTSync.Reachable s) : s.Sound := by
  induction h with
  | create adp abp sn sl p d n i now hsn _ =>
    exact ⟨ict.Reachable.init, hsn, fun kv hkv => by cases hkv⟩
  | step s s1 e hr hw hstep ih => exact sound_step s s1 e hw hstep (reachable_parkedOk hr) ih

end EngineSoundHandlers


/-! ## The newcomer interest -/

section EngineNewcomer

open ICTSync ICTSync.Impl

theorem reachable_root_00 {st : ICTVectorState} (h : ict.Reachable st) :
    st.getVectorRoot = "00".toList ↔ st.digestNode_ = [] := by
  have hr := reachable_root h
  constructor
  · intro h0
    by_contra hne
    have h1 := hr.2 hne
    unfold ICTVectorState.getVectorRoot at h0
    rw [h1] at h0
    cases hl : st.digestNode_ with
    | nil => exact hne hl
    | cons n ns =>
      rw [hl] at h0
      unfold encodeEntries at h0
      have hlen := congrArg List.length h0
      have h2 : (entryDigest n.sessionNo_ n.sequenceNo_).getLast? = some ';' := by
        unfold entryDigest
        rw [List.getLast?_append]
        simp
      have h3 : ∀ c ∈ entryDigest n.sessionNo_ n.sequenceNo_ ++ encodeEntries ns,
          c = '0' := by
        rw [h0]
        intro c hc
        simp only [String.toList, List.mem_cons, List.mem_singleton, List.not_mem_nil,
          or_false, or_self] at hc
        exact hc
      have h4 : ';' ∈ entryDigest n.sessionNo_ n.sequenceNo_ := by
        unfold entryDigest
        simp
      exact absurd (h3 ';' (List.mem_append_left _ h4)) (by decide)
  · intro he
    rw [hr.1 he]
    rfl

end EngineNewcomer


/-! ## The data packet of `sendSyncData` -/

section EngineSendData

open ICTSync ICTSync.Impl

/-- The entries `sendSyncData` builds for a list of indexes into the table:
`UPDATE` messages with the names when the engine is not in discovery mode or
the name flag is set, `UPDATE_NO_NAME` messages otherwise. -/
theorem syncDataEntries_eq (s : Impl) (sendName : Bool) :
    ∀ l : List Nat, (∀ i ∈ l, i < s.digestTree_.digestNode_.length) →
      syncDataEntries s sendName l =
        some (l.filterMap (fun i => (s.digestTree_.digestNode_.get? i).map
          (if (!s.isDiscovery_ || sendName) = true then Node.toUpdate else Node.toUpdateNoName)))
  | [], _ => rfl
  | i :: rest, h => by
    have ih := syncDataEntries_eq s sendName rest (fun j hj => h j (List.mem_cons_of_mem _ hj))
    have hi : i < s.digestTree_.digestNode_.length := h i (List.mem_cons_self _ _)
    unfold syncDataEntries
    unfold ICTVectorState.get
    rw [ih, List.get?_eq_get hi]
    dsimp only
    rw [List.filterMap_cons, List.get?_eq_get hi]
    split <;> rfl

theorem filterMap_get_length (nodes : List Node) (f : Node → Sync.SyncState) :
    ∀ l : List Nat, (∀ i ∈ l, i < nodes.length) →
      (l.filterMap (fun i => (nodes.get? i).map f)).length = l.length
  | [], _ => rfl
  | i :: rest, h => by
    have hi : i < nodes.length := h i (List.mem_cons_self _ _)
    rw [List.filterMap_cons, List.get?_eq_get hi]
    simp only [Option.map_some', List.length_cons]
    rw [filterMap_get_length nodes f rest (fun j hj => h j (List.mem_cons_of_mem _ hj))]

/-- What `sendSyncData` does with `noData_` off and indexes into the table:
nothing for the empty list, otherwise one `put` of a packet named
`<broadcast prefix>/<unescaped digest>` whose content is set only when the
engine is not in discovery mode. -/
theorem sendSyncData_eq (s : Impl) (syncDigest : Str) (l : List Nat) (sendName : Bool)
    (hn : s.noData_ = false) (hi : ∀ i ∈ l, i < s.digestTree_.digestNode_.length) :
    s.sendSyncData syncDigest l sendName =
      some (decide (l ≠ []), s.withCalls
        (if l = [] then []
         else [Effect.put ⟨s.applicationBroadcastPrefix_ ++ [unescape syncDigest],
           if s.isDiscovery_ = true then none
           else some (l.filterMap (fun i => (s.digestTree_.digestNode_.get? i).map Node.toUpdate)),
           none⟩])) := by
  unfold sendSyncData
  rw [if_neg (by rw [hn]; decide), syncDataEntries_eq s sendName l hi]
  dsimp only
  rw [filterMap_get_length _ _ l hi]
  by_cases hl : l = []
  · subst hl
    simp [withCalls_nil]
  · have hlen : l.length ≠ 0 := fun h => hl (List.length_eq_zero.mp h)
    rw [if_pos hlen, if_neg hl]
    by_cases hd : s.isDiscovery_ = true
    · simp [hd, hl, Impl.log, Impl.withCalls]
    · have hd' : s.isDiscovery_ = false := Bool.eq_false_iff.mpr hd
      simp [hd', hl, Impl.log, Impl.withCalls]

end EngineSendData


section EngineSendDataClaims

open ICTSync ICTSync.Impl

end EngineSendDataClaims


/-! ## The data packets of `broadcastSyncData` -/

section EngineBroadcast

open ICTSync ICTSync.Impl

theorem getDiff_ret_eq_neg_one (st : ICTVectorState) (rState : Str) :
    (st.getDiff rState).ret = -1 ↔ (st.getDiff rState).positiveLocalIndexes = [] := by
  rw [(getDiff_eq st rState).2.2.2]
  constructor
  · intro h
    split at h
    · omega
    · rename_i hlen
      exact List.length_eq_zero.mp (by omega)
  · intro h
    rw [h]
    rfl

theorem answerTo_withCalls (s : Impl) (es : List Effect) (p : PendingInterest) :
    (s.withCalls es).answerTo p = s.answerTo p := rfl

end EngineBroadcast


/-! ## The data packets of a publication -/

section EnginePublishData

open ICTSync ICTSync.Impl

end EnginePublishData


/-! ## The loop of `processInterestUpdates` -/

section InterestUpdates

open ICTSync ICTSync.Impl

theorem findSessionFrom_split (x : Int) : ∀ (l : List Node) (i : Nat),
    0 ≤ findSessionFrom x l i →
    ∃ l1 n l2, l = l1 ++ n :: l2 ∧ (∀ m ∈ l1, m.sessionNo_ ≠ x) ∧ n.sessionNo_ = x ∧
      findSessionFrom x l i = ((i + l1.length : Nat) : Int)
  | [], i, h => by
    unfold findSessionFrom at h
    omega
  | n :: ns, i, h => by
    unfold findSessionFrom at h ⊢
    by_cases hn : n.getSessionNo = x
    · rw [if_pos hn]
      exact ⟨[], n, ns, rfl, List.forall_mem_nil _, hn, by simp⟩
    · rw [if_neg hn] at h ⊢
      obtain ⟨l1, m, l2, hl, h1, hm, hf⟩ := findSessionFrom_split x ns (i + 1) h
      refine ⟨n :: l1, m, l2, by rw [hl]; rfl, ?_, hm, ?_⟩
      · intro k hk
        rcases List.mem_cons.mp hk with rfl | hk
        · exact hn
        · exact h1 k hk
      · rw [hf]
        simp only [List.length_cons]
        congr 1
        omega

theorem findSessionFrom_cases (x : Int) : ∀ (l : List Node) (i : Nat),
    findSessionFrom x l i = -1 ∨ 0 ≤ findSessionFrom x l i
  | [], _ => Or.inl rfl
  | n :: ns, i => by
    unfold findSessionFrom
    split
    · exact Or.inr (Int.ofNat_nonneg _)
    · exact findSessionFrom_cases x ns (i + 1)

theorem raise_sessionNo (n : Node) (r : Nat × Nat) : (n.raise r).sessionNo_ = n.sessionNo_ := by
  unfold Node.raise
  split <;> rfl

theorem raise_dataPrefix (n : Node) (r : Nat × Nat) : (n.raise r).dataPrefix_ = n.dataPrefix_ := by
  unfold Node.raise
  split <;> rfl

theorem raise_of_ne (n : Node) (r : Nat × Nat) (h : n.sessionNo_ ≠ toInt32 r.1) :
    n.raise r = n := by
  unfold Node.raise
  rw [if_neg (fun hc => h hc.1)]

/-- The table after `update` is called with the prefix and the session of one
of its rows, the first of that session. -/
theorem update_known_session (st : ICTVectorState) (r : Nat × Nat)
    (l1 : List Node) (n : Node) (l2 : List Node)
    (hl : st.digestNode_ = l1 ++ n :: l2)
    (h1 : ∀ m ∈ l1, m.sessionNo_ ≠ toInt32 r.1) (hs : n.sessionNo_ = toInt32 r.1) :
    (st.update n.dataPrefix_ (toInt32 r.1) (toInt32 r.2)).2.digestNode_ =
      l1 ++ n.raise r :: l2 := by
  rw [update_of_match st n.dataPrefix_ (toInt32 r.1) (toInt32 r.2) l1 n l2 hl
    (fun m hm hc => h1 m hm hc.2) rfl hs]
  unfold Node.raise
  by_cases hlt : n.sequenceNo_ < toInt32 r.2
  · rw [if_pos hlt, if_pos ⟨hs, hlt⟩, hs]
    rfl
  · rw [if_neg hlt, if_neg (fun hc => hlt hc.2)]
    exact hl

/-- One iteration of the loop of `processInterestUpdates`: nothing for a
session the table does not have; otherwise the first row of the session is
raised and the application is told the pair. -/
theorem interestUpdatesLoop_cons (r : Nat × Nat) (rest : List (Nat × Nat))
    (tree : ICTVectorState) (app : List SyncState) :
    (tree.findSession (toInt32 r.1) = -1 ∧
      interestUpdatesLoop (r :: rest) tree app = interestUpdatesLoop rest tree app) ∨
    ∃ l1 n l2, tree.digestNode_ = l1 ++ n :: l2 ∧ (∀ m ∈ l1, m.sessionNo_ ≠ toInt32 r.1) ∧
      n.sessionNo_ = toInt32 r.1 ∧
      (tree.update n.dataPrefix_ (toInt32 r.1) (toInt32 r.2)).2.digestNode_ =
        l1 ++ n.raise r :: l2 ∧
      interestUpdatesLoop (r :: rest) tree app =
        interestUpdatesLoop rest (tree.update n.dataPrefix_ (toInt32 r.1) (toInt32 r.2)).2
          (app ++ [{ dataPrefixUri_ := n.dataPrefix_, sessionNo_ := toInt32 r.1,
                     sequenceNo_ := toInt32 r.2, applicationInfo_ := none }]) := by
  by_cases hf : 0 ≤ tree.findSession (toInt32 r.1)
  · right
    obtain ⟨l1, n, l2, hl, h1, hs, hidx⟩ := findSessionFrom_split _ _ 0 hf
    have hup := update_known_session tree r l1 n l2 hl h1 hs
    refine ⟨l1, n, l2, hl, h1, hs, hup, ?_⟩
    have hidx2 : tree.findSession (toInt32 r.1) = ((l1.length : Nat) : Int) := by
      unfold ICTVectorState.findSession
      rw [hidx]
      simp
    have hget : tree.get l1.length = some n := by
      unfold ICTVectorState.get
      rw [hl, List.get?_eq_getElem?, List.getElem?_append_right (Nat.le_refl _)]
      simp
    have hget1 : (tree.update n.dataPrefix_ (toInt32 r.1) (toInt32 r.2)).2.get l1.length =
        some (n.raise r) := by
      unfold ICTVectorState.get
      rw [hup, List.get?_eq_getElem?, List.getElem?_append_right (Nat.le_refl _)]
      simp
    rw [interestUpdatesLoop]
    simp only [hidx2, Int.toNat_ofNat, hget, Node.getDataPrefix, hget1, raise_dataPrefix]
    simp
  · left
    have hneg : tree.findSession (toInt32 r.1) = -1 := by
      rcases findSessionFrom_cases (toInt32 r.1) tree.digestNode_ 0 with h | h
      · exact h
      · exact absurd h hf
    refine ⟨hneg, ?_⟩
    rw [interestUpdatesLoop]
    simp [hneg]

end InterestUpdates


section InterestUpdatesTable

open ICTSync ICTSync.Impl

/-- The loop of `processInterestUpdates` returns on every table, and keeps the
sessions and the prefixes of the rows. -/
theorem interestUpdatesLoop_some : ∀ (l : List (Nat × Nat)) (tree : ICTVectorState)
    (app : List SyncState), ∃ tree1 app1, interestUpdatesLoop l tree app = some (tree1, app1) ∧
      tree1.digestNode_.map Node.sessionNo_ = tree.digestNode_.map Node.sessionNo_ ∧
      tree1.digestNode_.map Node.dataPrefix_ = tree.digestNode_.map Node.dataPrefix_
  | [], tree, app => ⟨tree, app, rfl, rfl, rfl⟩
  | r :: rest, tree, app => by
    rcases interestUpdatesLoop_cons r rest tree app with ⟨_, h⟩ | ⟨l1, n, l2, hl, _, _, hup, h⟩
    · rw [h]
      exact interestUpdatesLoop_some rest tree app
    · rw [h]
      obtain ⟨tree1, app1, h1, hs, hp⟩ := interestUpdatesLoop_some rest
        (tree.update n.dataPrefix_ (toInt32 r.1) (toInt32 r.2)).2
        (app ++ [{ dataPrefixUri_ := n.dataPrefix_, sessionNo_ := toInt32 r.1,
                   sequenceNo_ := toInt32 r.2, applicationInfo_ := none }])
      refine ⟨tree1, app1, h1, ?_, ?_⟩
      · rw [hs, hup, hl]
        simp [raise_sessionNo]
      · rw [hp, hup, hl]
        simp [raise_dataPrefix]

/-- The loop of `processInterestUpdates` on a table with one row for each
session: every row is raised by the pairs of the list, in order. -/
theorem interestUpdatesLoop_unique : ∀ (l : List (Nat × Nat)) (tree : ICTVectorState)
    (app : List SyncState), (tree.digestNode_.map Node.sessionNo_).Nodup →
    ∃ tree1 app1, interestUpdatesLoop l tree app = some (tree1, app1) ∧
      tree1.digestNode_ = tree.digestNode_.map (fun L => l.foldl Node.raise L)
  | [], tree, app, _ => ⟨tree, app, rfl, by simp⟩
  | r :: rest, tree, app, hnd => by
    rcases interestUpdatesLoop_cons r rest tree app with ⟨hneg, h⟩ | ⟨l1, n, l2, hl, hl1, hn, hup, h⟩
    · rw [h]
      obtain ⟨tree1, app1, h1, ht⟩ := interestUpdatesLoop_unique rest tree app hnd
      refine ⟨tree1, app1, h1, ?_⟩
      rw [ht]
      apply List.map_congr_left
      intro L hL
      rw [List.foldl_cons, raise_of_ne L r ((findSession_eq_neg_one _ _).mp hneg L hL)]
    · rw [h]
      have hmap : (tree.update n.dataPrefix_ (toInt32 r.1) (toInt32 r.2)).2.digestNode_ =
          tree.digestNode_.map (fun L => L.raise r) := by
        rw [hup, hl, List.map_append, List.map_cons]
        rw [hl, List.map_append, List.map_cons] at hnd
        have hnd2 := (List.nodup_append.mp hnd).2.1
        have hl2 : ∀ m ∈ l2, m.sessionNo_ ≠ toInt32 r.1 := by
          intro m hm hc
          exact (List.nodup_cons.mp hnd2).1 (by
            rw [hn, ← hc]
            exact List.mem_map_of_mem _ hm)
        congr 1
        · symm
          rw [List.map_congr_left (fun m hm => raise_of_ne m r (hl1 m hm))]
          simp
        · congr 1
          symm
          rw [List.map_congr_left (fun m hm => raise_of_ne m r (hl2 m hm))]
          simp
      have hnd1 : ((tree.update n.dataPrefix_ (toInt32 r.1) (toInt32 r.2)).2.digestNode_.map
          Node.sessionNo_).Nodup := by
        rw [hmap, List.map_map]
        have : (Node.sessionNo_ ∘ fun L => L.raise r) = Node.sessionNo_ := by
          funext L
          exact raise_sessionNo L r
        rw [this]
        exact hnd
      obtain ⟨tree1, app1, h1, ht⟩ := interestUpdatesLoop_unique rest
        (tree.update n.dataPrefix_ (toInt32 r.1) (toInt32 r.2)).2
        (app ++ [{ dataPrefixUri_ := n.dataPrefix_, sessionNo_ := toInt32 r.1,
                   sequenceNo_ := toInt32 r.2, applicationInfo_ := none }]) hnd1
      refine ⟨tree1, app1, h1, ?_⟩
      rw [ht, hmap, List.map_map]
      rfl

theorem raise_raise (L : Node) (r : Nat × Nat) : (L.raise r).raise r = L.raise r := by
  unfold Node.raise
  by_cases h : L.sessionNo_ = toInt32 r.1 ∧ L.sequenceNo_ < toInt32 r.2
  · rw [if_pos h]
    rw [if_neg (by
      intro hc
      exact absurd hc.2 (by simp [Node.new, Node.recomputeUserDigest]))]
  · rw [if_neg h, if_neg h]

/-- A row raised by a list of pairs of which only `r0` can carry its session. -/
theorem foldl_raise_eq (r0 : Nat × Nat) : ∀ (rs : List (Nat × Nat)) (L : Node),
    (∀ r ∈ rs, toInt32 r.1 = L.sessionNo_ → r = r0) →
    rs.foldl Node.raise L = if r0 ∈ rs then L.raise r0 else L
  | [], L, _ => by simp
  | r :: rest, L, h => by
    rw [List.foldl_cons]
    by_cases hr : toInt32 r.1 = L.sessionNo_
    · have hr0 : r = r0 := h r (List.mem_cons_self _ _) hr
      rw [hr0, if_pos (List.mem_cons_self _ _),
        foldl_raise_eq r0 rest (L.raise r0) (by
          intro x hx hs
          rw [raise_sessionNo] at hs
          exact h x (List.mem_cons_of_mem _ hx) hs)]
      split
      · exact raise_raise L r0
      · rfl
    · rw [raise_of_ne L r (fun hc => hr hc.symm),
        foldl_raise_eq r0 rest L (fun x hx hs => h x (List.mem_cons_of_mem _ hx) hs)]
      by_cases hm : r0 ∈ rest
      · rw [if_pos hm, if_pos (List.mem_cons_of_mem _ hm)]
      · rw [if_neg hm]
        by_cases he : r0 = r
        · rw [if_pos (by rw [he]; exact List.mem_cons_self _ _), he,
            raise_of_ne L r (fun hc => hr hc.symm)]
        · rw [if_neg (by
            intro hc
            rcases List.mem_cons.mp hc with h1 | h1
            · exact he h1
            · exact hm h1)]

/-- The rows after the negative set of a remote list has gone through the loop
of `processInterestUpdates`, on a well-typed table with one row for each
session. -/
theorem foldl_raise_negative (remote : List (Nat × Nat)) (l : List Node)
    (hnd : (l.map Node.sessionNo_).Nodup) (hw : ∀ n ∈ l, isInt n.sessionNo_ ∧ isInt n.sequenceNo_)
    (L : Node) (hL : L ∈ l) :
    (l.filterMap (negativeOf remote)).foldl Node.raise L = applyRemote remote L := by
  have huniq : ∀ r ∈ l.filterMap (negativeOf remote), toInt32 r.1 = L.sessionNo_ →
      negativeOf remote L = some r := by
    intro r hr hs
    obtain ⟨L0, hL0, hneg⟩ := List.mem_filterMap.mp hr
    have hm : matchingPair remote L0 = some r := by
      unfold negativeOf at hneg
      split at hneg
      · cases hneg
      · split at hneg
        · rename_i hmp _
          cases hneg
          exact hmp
        · cases hneg
    have h1 := (matchingPair_fst hm).2
    have h2 : L0.sessionNo_ = L.sessionNo_ := by
      rw [← hs, h1, toInt32_toUInt32 (hw L0 hL0).1]
    have h3 : L0 = L := List.inj_on_of_nodup_map hnd hL0 hL h2
    rw [← h3]
    exact hneg
  unfold applyRemote
  cases hneg : negativeOf remote L with
  | none =>
    rw [foldl_raise_eq (0, 0) _ L (by
      intro r hr hs
      rw [huniq r hr hs] at hneg
      cases hneg)]
    split
    · rename_i hmem
      have hs : toInt32 (0, 0).1 ≠ L.sessionNo_ := by
        intro hs
        rw [huniq _ hmem hs] at hneg
        cases hneg
      exact raise_of_ne L _ (fun hc => hs hc.symm)
    · rfl
  | some r0 =>
    rw [foldl_raise_eq r0 _ L (by
      intro r hr hs
      rw [huniq r hr hs] at hneg
      cases hneg
      rfl)]
    rw [if_pos (List.mem_filterMap.mpr ⟨L, hL, hneg⟩)]

end InterestUpdatesTable


/-! ## The calls of the handlers of a sync interest -/

section InterestCalls

open ICTSync ICTSync.Impl

theorem stepsTo_refl (s : Impl) : s.StepsTo s [] :=
  ⟨(List.append_nil _).symm, rfl, rfl, rfl, rfl, rfl⟩

theorem stepsTo_trans {s s1 s2 : Impl} {a b : List Effect} (h1 : s.StepsTo s1 a)
    (h2 : s1.StepsTo s2 b) : s.StepsTo s2 (a ++ b) := by
  obtain ⟨c1, p1, l1, d1, n1, e1⟩ := h1
  obtain ⟨c2, p2, l2, d2, n2, e2⟩ := h2
  exact ⟨by rw [c2, c1, List.append_assoc], p2.trans p1, l2.trans l1, d2.trans d1,
    n2.trans n1, e2.trans e1⟩

theorem stepsTo_withCalls (s : Impl) (calls : List Effect) : s.StepsTo (s.withCalls calls) calls :=
  ⟨rfl, rfl, rfl, rfl, rfl, rfl⟩

theorem expressCount_append (a b : List Effect) (n : Name) :
    expressCount (a ++ b) n = expressCount a n + expressCount b n := by
  unfold expressCount
  rw [List.filterMap_append, List.countP_append]

theorem expressCount_nil (n : Name) : expressCount [] n = 0 := rfl

theorem expressCount_puts (puts : List Data) (n : Name) :
    expressCount (puts.map Effect.put) n = 0 := by
  unfold expressCount
  have : (puts.map Effect.put).filterMap Effect.expressed = [] := by
    induction puts with
    | nil => rfl
    | cons d rest ih => simp [Effect.expressed]
  rw [this]
  rfl

theorem sendSyncInterestName_frame (s : Impl) (n : Name) (l now : Int) :
    (s.sendSyncInterestName n l now).digestTree_ = s.digestTree_ ∧
    (s.sendSyncInterestName n l now).outgoingDiscoveryInterests_ = s.outgoingDiscoveryInterests_ ∧
    ∃ calls, s.StepsTo (s.sendSyncInterestName n l now) calls ∧
      calls.filterMap Effect.sent = [] ∧
      calls.filterMap Effect.expressed = [(⟨n, l⟩, Callbacks.sync)] := by
  unfold sendSyncInterestName
  cases hlast : s.lastInterestId_ with
  | none =>
    dsimp only
    split
    · exact ⟨rfl, rfl, [.expressInterest ⟨n, l⟩ .sync, .schedule s.syncUpdateInterval_],
        ⟨by simp [Impl.log], rfl, rfl, rfl, rfl, rfl⟩, rfl, rfl⟩
    · exact ⟨rfl, rfl, [.expressInterest ⟨n, l⟩ .sync],
        ⟨by simp [Impl.log], rfl, rfl, rfl, rfl, rfl⟩, rfl, rfl⟩
  | some old =>
    dsimp only
    split
    · exact ⟨rfl, rfl,
        [.cancel old, .expressInterest ⟨n, l⟩ .sync, .schedule s.syncUpdateInterval_],
        ⟨by simp [Impl.log], rfl, rfl, rfl, rfl, rfl⟩, rfl, rfl⟩
    · exact ⟨rfl, rfl, [.cancel old, .expressInterest ⟨n, l⟩ .sync],
        ⟨by simp [Impl.log], rfl, rfl, rfl, rfl, rfl⟩, rfl, rfl⟩

/-- The calls of `sendSyncInterest(syncLifetime)`: no packet, and no interest
whose name has not one component after the broadcast prefix. -/
theorem sendSyncInterest_frame (s : Impl) (l now : Int) :
    (s.sendSyncInterest l now).digestTree_ = s.digestTree_ ∧
    (s.sendSyncInterest l now).outgoingDiscoveryInterests_ = s.outgoingDiscoveryInterests_ ∧
    ∃ calls, s.StepsTo (s.sendSyncInterest l now) calls ∧
      calls.filterMap Effect.sent = [] ∧
      ∀ n : Name, n.length ≠ s.applicationBroadcastPrefix_.length + 1 →
        expressCount calls n = 0 := by
  have hname : ∀ (x : Impl) (calls : List Effect),
      calls.filterMap Effect.expressed =
        [(⟨s.applicationBroadcastPrefix_ ++ [s.digestTree_.getVectorRoot], l⟩, Callbacks.sync)] →
      ∀ n : Name, n.length ≠ s.applicationBroadcastPrefix_.length + 1 →
        expressCount calls n = 0 := by
    intro _ calls hc n hn
    unfold expressCount
    rw [hc, List.countP_cons_of_neg]
    · rfl
    · intro he
      apply hn
      rw [← of_decide_eq_true he]
      simp
  unfold sendSyncInterest
  dsimp only
  split
  · split
    · obtain ⟨h1, h2, calls, h3, h4, h5⟩ := sendSyncInterestName_frame
        ({ s with lastSentDigest_ := s.digestTree_.getVectorRoot } : Impl)
        (s.applicationBroadcastPrefix_ ++ [s.digestTree_.getVectorRoot]) l now
      exact ⟨h1, h2, calls, h3, h4, hname s calls h5⟩
    · exact ⟨rfl, rfl, [], stepsTo_refl s, rfl, fun _ _ => rfl⟩
  · obtain ⟨h1, h2, calls, h3, h4, h5⟩ := sendSyncInterestName_frame
      ({ s with lastSentDigest_ := s.digestTree_.getVectorRoot } : Impl)
      (s.applicationBroadcastPrefix_ ++ [s.digestTree_.getVectorRoot]) l now
    exact ⟨h1, h2, calls, h3, h4, hname s calls h5⟩

/-- What `processInterestUpdates` does: the table after the loop, one call of
`onReceivedSyncState`, then `sendSyncInterest`. -/
theorem processInterestUpdates_frame (s : Impl) (l : List (Nat × Nat)) (now : Int)
    (tree1 : ICTVectorState) (app1 : List SyncState)
    (hloop : interestUpdatesLoop l s.digestTree_ [] = some (tree1, app1)) :
    ∃ s1 calls, s.processInterestUpdates l now = some s1 ∧ s1.digestTree_ = tree1 ∧
      s1.outgoingDiscoveryInterests_ = s.outgoingDiscoveryInterests_ ∧
      s.StepsTo s1 calls ∧ calls.filterMap Effect.sent = [] ∧
      ∀ n : Name, n.length ≠ s.applicationBroadcastPrefix_.length + 1 →
        expressCount calls n = 0 := by
  obtain ⟨h1, h2, calls, h3, h4, h5⟩ := sendSyncInterest_frame
    (({ s with digestTree_ := tree1 } : Impl).log (.onReceivedSyncState app1 false))
    s.syncLifetime_ now
  refine ⟨_, [.onReceivedSyncState app1 false] ++ calls, ?_, h1, h2, ?_, ?_, ?_⟩
  · unfold processInterestUpdates
    rw [hloop]
    rfl
  · have h0 : s.StepsTo (({ s with digestTree_ := tree1 } : Impl).log
        (.onReceivedSyncState app1 false)) [.onReceivedSyncState app1 false] :=
      ⟨rfl, rfl, rfl, rfl, rfl, rfl⟩
    exact stepsTo_trans h0 h3
  · rw [List.filterMap_append, h4]
    rfl
  · intro n hn
    rw [expressCount_append, h5 n hn]
    rfl

end InterestCalls


/-! ## Discovery interests for unknown sessions -/

section UnknownSessions

open ICTSync ICTSync.Impl

theorem map_find_map_set : ∀ (m : List (Int × Int)) (k v k1 : Int),
    map_find (map_set m k v) k1 = if k1 = k then some v else map_find m k1
  | [], k, v, k1 => by
    unfold map_set map_find
    by_cases h : k1 = k
    · simp [h]
    · have h2 : ¬k = k1 := fun hc => h hc.symm
      simp [h, h2]
  | kv :: rest, k, v, k1 => by
    have ih := map_find_map_set rest k v k1
    unfold map_find at ih ⊢
    unfold map_set
    by_cases h : k1 = k
    · rw [if_pos h]
      by_cases h1 : kv.1 = k
      · rw [if_pos h1]
        simp [h]
      · rw [if_neg h1]
        by_cases h2 : k < kv.1
        · rw [if_pos h2]
          simp [h]
        · rw [if_neg h2, List.find?_cons_of_neg _ (by simpa [h] using h1), ih, if_pos h]
    · rw [if_neg h]
      have hk : ¬k = k1 := fun hc => h hc.symm
      by_cases h1 : kv.1 = k
      · rw [if_pos h1]
        have h3 : ¬kv.1 = k1 := by rw [h1]; exact hk
        simp [hk, h3]
      · rw [if_neg h1]
        by_cases h2 : k < kv.1
        · rw [if_pos h2]
          simp [hk]
        · rw [if_neg h2]
          by_cases h3 : kv.1 = k1
          · simp [h3]
          · rw [List.find?_cons_of_neg _ (by simpa using h3),
              List.find?_cons_of_neg _ (by simpa using h3), ih, if_neg h]

theorem to_string_unsigned_inj {a b : Nat} (h : to_string_unsigned a = to_string_unsigned b) :
    a = b := by
  unfold to_string_unsigned at h
  rw [← (toDigits_spec a).2.2, ← (toDigits_spec b).2.2, h]

theorem toInt32_inj {a b : Nat} (ha : a < 4294967296) (hb : b < 4294967296)
    (h : toInt32 a = toInt32 b) : a = b := by
  rw [← toUInt32_toInt32 ha, ← toUInt32_toInt32 hb, h]

theorem expressCount_discovery (s : Impl) (a u : Nat) (l : Int) :
    expressCount [Effect.expressInterest ⟨s.discoveryName a, l⟩ Callbacks.discovery]
      (s.discoveryName u) = if a = u then 1 else 0 := by
  unfold expressCount
  by_cases h : a = u
  · rw [if_pos h, h]
    simp [Effect.expressed]
  · rw [if_neg h]
    have hne : s.discoveryName a ≠ s.discoveryName u := by
      intro hc
      unfold Impl.discoveryName at hc
      have h1 := List.append_cancel_left hc
      exact h (to_string_unsigned_inj (List.cons.inj h1).1)
    simp [Effect.expressed, hne]

/-- The loop of `processUnknownSessionIds`: the discovery interest of a session
`u` is expressed once when no entry of the map has `u` and a pair of the list
carries it, and not at all otherwise; afterwards the map has an entry for `u`
when it had one before or a pair of the list carries `u`. -/
theorem unknownSessionsLoop_frame (u : Nat) (hu : u < 4294967296) :
    ∀ (l : List (Nat × Nat)) (s : Impl), (∀ r ∈ l, r.1 < 4294967296) →
    (unknownSessionsLoop l s).digestTree_ = s.digestTree_ ∧
    (map_find (unknownSessionsLoop l s).outgoingDiscoveryInterests_ (toInt32 u) = none ↔
      map_find s.outgoingDiscoveryInterests_ (toInt32 u) = none ∧ ∀ r ∈ l, r.1 ≠ u) ∧
    ∃ calls, s.StepsTo (unknownSessionsLoop l s) calls ∧
      calls.filterMap Effect.sent = [] ∧
      expressCount calls (s.discoveryName u) =
        if map_find s.outgoingDiscoveryInterests_ (toInt32 u) = none ∧ ∃ r ∈ l, r.1 = u
        then 1 else 0
  | [], s, _ => by
    refine ⟨rfl, ?_, [], stepsTo_refl s, rfl, ?_⟩
    · simp [unknownSessionsLoop]
    · simp [expressCount_nil]
  | r :: rest, s, hl => by
    have hr := hl r (List.mem_cons_self _ _)
    have hrest : ∀ x ∈ rest, x.1 < 4294967296 := fun x hx => hl x (List.mem_cons_of_mem _ hx)
    have hkey : toInt32 u = toInt32 r.1 ↔ r.1 = u :=
      ⟨fun h => (toInt32_inj hu hr h).symm, fun h => by rw [h]⟩
    unfold unknownSessionsLoop
    cases hfind : map_find s.outgoingDiscoveryInterests_ (toInt32 r.1) with
    | some second =>
      dsimp only
      obtain ⟨m1, hm1⟩ : ∃ m1,
        m1 = map_set s.outgoingDiscoveryInterests_ (toInt32 r.1) (toInt32 r.2) := ⟨_, rfl⟩
      rw [← hm1]
      have hmap : ∀ x : Impl, x = (if toUInt32 second < r.2 then
            ({ s with outgoingDiscoveryInterests_ := m1 } : Impl)
          else s) →
          s.StepsTo x [] ∧ x.digestTree_ = s.digestTree_ ∧
          (map_find x.outgoingDiscoveryInterests_ (toInt32 u) = none ↔
            map_find s.outgoingDiscoveryInterests_ (toInt32 u) = none) := by
        intro x hx
        split at hx
        · rw [hx]
          refine ⟨⟨(List.append_nil _).symm, rfl, rfl, rfl, rfl, rfl⟩, rfl, ?_⟩
          dsimp only
          rw [hm1, map_find_map_set]
          by_cases hk : toInt32 u = toInt32 r.1
          · rw [if_pos hk, hk, hfind]
            simp
          · rw [if_neg hk]
        · rw [hx]
          exact ⟨stepsTo_refl s, rfl, Iff.rfl⟩
      obtain ⟨hst, htree, hm⟩ := hmap _ rfl
      obtain ⟨ht, hmf, calls, hsteps, hsent, hcount⟩ := unknownSessionsLoop_frame u hu rest
        (if toUInt32 second < r.2 then
            ({ s with outgoingDiscoveryInterests_ := m1 } : Impl)
          else s) hrest
      have hsome : r.1 = u → map_find s.outgoingDiscoveryInterests_ (toInt32 u) ≠ none := by
        intro h
        rw [← h, hfind]
        exact Option.some_ne_none _
      refine ⟨ht.trans htree, ?_, calls, ?_, hsent, ?_⟩
      · rw [hmf, hm]
        constructor
        · rintro ⟨h1, h2⟩
          refine ⟨h1, ?_⟩
          intro x hx
          rcases List.mem_cons.mp hx with rfl | hx
          · exact fun hc => hsome hc h1
          · exact h2 x hx
        · rintro ⟨h1, h2⟩
          exact ⟨h1, fun x hx => h2 x (List.mem_cons_of_mem _ hx)⟩
      · have := stepsTo_trans hst hsteps
        simpa using this
      · have hname : ∀ x : Impl, s.StepsTo x [] → x.discoveryName u = s.discoveryName u := by
          intro x hx
          unfold Impl.discoveryName
          rw [hx.2.1]
        rw [hname _ hst] at hcount
        rw [hcount]
        by_cases h1 : map_find s.outgoingDiscoveryInterests_ (toInt32 u) = none
        · have hru : r.1 ≠ u := fun hc => hsome hc h1
          simp only [hm, h1, true_and, List.mem_cons, exists_eq_or_imp, hru, false_or]
        · simp [hm, h1]
    | none =>
      dsimp only
      obtain ⟨m1, hm1⟩ : ∃ m1,
        m1 = map_set s.outgoingDiscoveryInterests_ (toInt32 r.1) (toInt32 r.2) := ⟨_, rfl⟩
      obtain ⟨e, he⟩ : ∃ e, e = Effect.expressInterest
        ⟨s.applicationBroadcastPrefix_ ++ ["DISCOVERY".toList] ++ [to_string_unsigned r.1],
          s.syncLifetime_⟩ .discovery := ⟨_, rfl⟩
      have hmlog : (s.log e).outgoingDiscoveryInterests_ = s.outgoingDiscoveryInterests_ := rfl
      rw [← he, hmlog, ← hm1]
      obtain ⟨ht, hmf, calls, hsteps, hsent, hcount⟩ := unknownSessionsLoop_frame u hu rest
        ({ s.log e with outgoingDiscoveryInterests_ := m1 } : Impl) hrest
      have hm : map_find (map_set s.outgoingDiscoveryInterests_ (toInt32 r.1) (toInt32 r.2))
          (toInt32 u) = none ↔
          map_find s.outgoingDiscoveryInterests_ (toInt32 u) = none ∧ r.1 ≠ u := by
        rw [map_find_map_set]
        by_cases hk : toInt32 u = toInt32 r.1
        · rw [if_pos hk]
          simp [hkey.mp hk]
        · rw [if_neg hk]
          have : r.1 ≠ u := fun hc => hk (hkey.mpr hc)
          simp [this]
      refine ⟨ht, ?_, [e] ++ calls, ?_, ?_, ?_⟩
      · rw [hmf]
        change (map_find m1 (toInt32 u) = none ∧ _) ↔ _
        rw [hm1, hm]
        simp only [List.mem_cons, forall_eq_or_imp, and_assoc]
      · have h0 : s.StepsTo ({ s.log e with outgoingDiscoveryInterests_ := m1 } : Impl) [e] :=
          ⟨rfl, rfl, rfl, rfl, rfl, rfl⟩
        exact stepsTo_trans h0 hsteps
      · rw [List.filterMap_append, hsent, he]
        rfl
      · rw [expressCount_append, he]
        change expressCount [Effect.expressInterest ⟨s.discoveryName r.1, s.syncLifetime_⟩
          Callbacks.discovery] (s.discoveryName u) + expressCount calls (s.discoveryName u) = _
        rw [expressCount_discovery]
        change expressCount calls (s.discoveryName u) =
          (if map_find m1 (toInt32 u) = none ∧ ∃ x ∈ rest, x.1 = u then 1 else 0) at hcount
        rw [hcount, hm1]
        by_cases hru : r.1 = u
        · have h1 : map_find s.outgoingDiscoveryInterests_ (toInt32 u) = none := by
            rw [← hru]
            exact hfind
          have h2 : ¬(map_find (map_set s.outgoingDiscoveryInterests_ (toInt32 r.1) (toInt32 r.2))
              (toInt32 u) = none ∧ ∃ x ∈ rest, x.1 = u) := fun hc => (hm.mp hc.1).2 hru
          rw [if_pos hru, if_neg h2, if_pos ⟨h1, r, List.mem_cons_self _ _, hru⟩]
        · rw [if_neg hru, Nat.zero_add]
          have hiff : (map_find (map_set s.outgoingDiscoveryInterests_ (toInt32 r.1) (toInt32 r.2))
              (toInt32 u) = none ∧ ∃ x ∈ rest, x.1 = u) ↔
              (map_find s.outgoingDiscoveryInterests_ (toInt32 u) = none ∧
                ∃ x ∈ r :: rest, x.1 = u) := by
            rw [hm]
            constructor
            · rintro ⟨⟨h1, _⟩, x, hx, hxu⟩
              exact ⟨h1, x, List.mem_cons_of_mem _ hx, hxu⟩
            · rintro ⟨h1, x, hx, hxu⟩
              rcases List.mem_cons.mp hx with rfl | hx
              · exact absurd hxu hru
              · exact ⟨⟨h1, hru⟩, x, hx, hxu⟩
          exact if_congr hiff rfl rfl

end UnknownSessions


/-! ## What `processSyncInterest` does -/

section ProcessSyncInterest

open ICTSync ICTSync.Impl

/-- The first part of `processSyncInterest`: the interest is stored, or the
positive set is sent. -/
theorem processSyncInterest_answer (s : Impl) (interest : Interest) (syncDigest : Str)
    (pushDataName : Bool) (now : Int) :
    ∃ s1 calls,
      (if (s.digestTree_.getDiff syncDigest).ret = -1 then
        if (!s.noData_) = true then
          some { s with pendingInterests_ := s.pendingInterests_.storeInterest interest now }
        else some s
      else
        (s.sendSyncData syncDigest (s.digestTree_.getDiff syncDigest).positiveLocalIndexes
          pushDataName).map Prod.snd) = some s1 ∧
      s1.digestTree_ = s.digestTree_ ∧
      s1.outgoingDiscoveryInterests_ = s.outgoingDiscoveryInterests_ ∧
      s.StepsTo s1 calls ∧
      (∀ n : Name, expressCount calls n = 0) ∧
      (s.noData_ = false → calls.filterMap Effect.sent =
        if (s.digestTree_.getDiff syncDigest).positiveLocalIndexes = [] then []
        else [⟨s.applicationBroadcastPrefix_ ++ [unescape syncDigest],
          if s.isDiscovery_ = true then none
          else some ((s.digestTree_.getDiff syncDigest).positiveLocalIndexes.filterMap
            (fun i => (s.digestTree_.digestNode_.get? i).map Node.toUpdate)),
          none⟩]) := by
  by_cases hret : (s.digestTree_.getDiff syncDigest).ret = -1
  · have hpos := (getDiff_ret_eq_neg_one _ _).mp hret
    rw [if_pos hret]
    split
    · exact ⟨_, [], rfl, rfl, rfl, ⟨(List.append_nil _).symm, rfl, rfl, rfl, rfl, rfl⟩,
        fun _ => rfl, fun _ => by simp [hpos]⟩
    · exact ⟨_, [], rfl, rfl, rfl, stepsTo_refl s, fun _ => rfl,
        fun _ => by simp [hpos]⟩
  · have hpos : (s.digestTree_.getDiff syncDigest).positiveLocalIndexes ≠ [] :=
      fun h => hret ((getDiff_ret_eq_neg_one _ _).mpr h)
    rw [if_neg hret]
    obtain ⟨r, puts, hsend, _⟩ := sendSyncData_some s syncDigest
      (s.digestTree_.getDiff syncDigest).positiveLocalIndexes pushDataName
      (getDiff_positive_lt _ _)
    refine ⟨s.withCalls (puts.map Effect.put), puts.map Effect.put, by rw [hsend]; rfl, rfl, rfl,
      stepsTo_withCalls _ _, fun n => expressCount_puts puts n, ?_⟩
    intro hn
    rw [sendSyncData_eq s syncDigest _ pushDataName hn (getDiff_positive_lt _ _),
      if_neg hpos] at hsend
    have hc := congrArg (fun x : Option (Bool × Impl) => x.map (fun y => y.2.calls_)) hsend
    simp only [Option.map_some', Impl.withCalls, Option.some.injEq] at hc
    rw [if_neg hpos, ← List.append_cancel_left hc]
    rfl

/-- What `processSyncInterest` does: it returns; the table is the one the loop
of `processInterestUpdates` leaves for the negative set; with `noData_` off the
only packet is the answer with the positive set; the discovery interest of a
session `u` is expressed once when the engine is in discovery mode, the map has
no entry for `u` and `u` is among the unknown sessions of the digest, and not
at all otherwise. -/
theorem processSyncInterest_frame (s : Impl) (interest : Interest) (syncDigest : Str)
    (pushDataName : Bool) (now : Int) (u : Nat) (hu : u < 4294967296) :
    ∃ s1 calls tree1 app1,
      s.processSyncInterest interest syncDigest pushDataName now = some s1 ∧
      interestUpdatesLoop (s.digestTree_.getDiff syncDigest).negativeInLocal s.digestTree_ [] =
        some (tree1, app1) ∧
      s1.digestTree_ = tree1 ∧
      s.StepsTo s1 calls ∧
      (s.noData_ = false → calls.filterMap Effect.sent =
        if (s.digestTree_.getDiff syncDigest).positiveLocalIndexes = [] then []
        else [⟨s.applicationBroadcastPrefix_ ++ [unescape syncDigest],
          if s.isDiscovery_ = true then none
          else some ((s.digestTree_.getDiff syncDigest).positiveLocalIndexes.filterMap
            (fun i => (s.digestTree_.digestNode_.get? i).map Node.toUpdate)),
          none⟩]) ∧
      (map_find s1.outgoingDiscoveryInterests_ (toInt32 u) = none ↔
        map_find s.outgoingDiscoveryInterests_ (toInt32 u) = none ∧
          (s.isDiscovery_ = true →
            ∀ r ∈ (s.digestTree_.getDiff syncDigest).unknownSessions, r.1 ≠ u)) ∧
      expressCount calls (s.discoveryName u) =
        if s.isDiscovery_ = true ∧ map_find s.outgoingDiscoveryInterests_ (toInt32 u) = none ∧
          ∃ r ∈ (s.digestTree_.getDiff syncDigest).unknownSessions, r.1 = u
        then 1 else 0 := by
  obtain ⟨sA, cA, hA, htA, hmA, hstA, hcA, hsentA⟩ :=
    processSyncInterest_answer s interest syncDigest pushDataName now
  obtain ⟨tree1, app1, hloop, _, _⟩ := interestUpdatesLoop_some
    (s.digestTree_.getDiff syncDigest).negativeInLocal s.digestTree_ []
  -- the negative set
  obtain ⟨sB, cB, hB, htB, hmB, hstB, hsentB, hcB⟩ : ∃ sB cB,
      (if (s.digestTree_.getDiff syncDigest).negativeInLocal.length > 0 then
        sA.processInterestUpdates (s.digestTree_.getDiff syncDigest).negativeInLocal now
       else some sA) = some sB ∧ sB.digestTree_ = tree1 ∧
      sB.outgoingDiscoveryInterests_ = s.outgoingDiscoveryInterests_ ∧
      sA.StepsTo sB cB ∧ cB.filterMap Effect.sent = [] ∧
      expressCount cB (s.discoveryName u) = 0 := by
    by_cases hneg : (s.digestTree_.getDiff syncDigest).negativeInLocal.length > 0
    · rw [if_pos hneg]
      obtain ⟨sB, cB, h1, h2, h3, h4, h5, h6⟩ := processInterestUpdates_frame sA
        (s.digestTree_.getDiff syncDigest).negativeInLocal now tree1 app1 (by rw [htA]; exact hloop)
      refine ⟨sB, cB, h1, h2, h3.trans hmA, h4, h5, h6 _ ?_⟩
      rw [hstA.2.1]
      unfold Impl.discoveryName
      simp
    · rw [if_neg hneg]
      have hnil : (s.digestTree_.getDiff syncDigest).negativeInLocal = [] :=
        List.length_eq_zero.mp (by omega)
      rw [hnil] at hloop
      unfold interestUpdatesLoop at hloop
      cases hloop
      exact ⟨sA, [], rfl, htA, hmA, stepsTo_refl sA, rfl, rfl⟩
  -- the unknown sessions
  obtain ⟨sC, cC, hC, htC, hmC, hstC, hsentC, hcC⟩ : ∃ sC cC,
      (if (s.digestTree_.getDiff syncDigest).unknownSessions.length > 0 then
        if sB.isDiscovery_ = true then
          some (sB.processUnknownSessionIds (s.digestTree_.getDiff syncDigest).unknownSessions)
        else some sB
       else some sB) = some sC ∧ sC.digestTree_ = tree1 ∧
      (map_find sC.outgoingDiscoveryInterests_ (toInt32 u) = none ↔
        map_find s.outgoingDiscoveryInterests_ (toInt32 u) = none ∧
          (s.isDiscovery_ = true →
            ∀ r ∈ (s.digestTree_.getDiff syncDigest).unknownSessions, r.1 ≠ u)) ∧
      sB.StepsTo sC cC ∧ cC.filterMap Effect.sent = [] ∧
      expressCount cC (s.discoveryName u) =
        if s.isDiscovery_ = true ∧ map_find s.outgoingDiscoveryInterests_ (toInt32 u) = none ∧
          ∃ r ∈ (s.digestTree_.getDiff syncDigest).unknownSessions, r.1 = u
        then 1 else 0 := by
    have hdisc : sB.isDiscovery_ = s.isDiscovery_ := hstB.2.2.2.1.trans hstA.2.2.2.1
    have hname : sB.discoveryName u = s.discoveryName u := by
      unfold Impl.discoveryName
      rw [hstB.2.1, hstA.2.1]
    by_cases hd : s.isDiscovery_ = true
    · obtain ⟨h1, h2, calls, h3, h4, h5⟩ := unknownSessionsLoop_frame u hu
        (s.digestTree_.getDiff syncDigest).unknownSessions sB
        (fun r hr => (getDiff_unknown_lt _ _ r hr).1)
      have hval : (if (s.digestTree_.getDiff syncDigest).unknownSessions.length > 0 then
          if sB.isDiscovery_ = true then
            some (sB.processUnknownSessionIds (s.digestTree_.getDiff syncDigest).unknownSessions)
          else some sB
         else some sB) =
          some (unknownSessionsLoop (s.digestTree_.getDiff syncDigest).unknownSessions sB) := by
        by_cases hlen : (s.digestTree_.getDiff syncDigest).unknownSessions.length > 0
        · rw [if_pos hlen, if_pos (hdisc.trans hd)]
          unfold processUnknownSessionIds
          rw [hdisc.trans hd]
          rfl
        · have hnil : (s.digestTree_.getDiff syncDigest).unknownSessions = [] :=
            List.length_eq_zero.mp (by omega)
          rw [if_neg hlen, hnil]
          rfl
      refine ⟨_, calls, hval, h1.trans htB, ?_, h3, h4, ?_⟩
      · rw [h2, hmB]
        constructor
        · rintro ⟨a, b⟩
          exact ⟨a, fun _ => b⟩
        · rintro ⟨a, b⟩
          exact ⟨a, b hd⟩
      · rw [← hname, h5, hmB]
        exact if_congr ⟨fun h => ⟨hd, h⟩, fun h => h.2⟩ rfl rfl
    · have hval : (if (s.digestTree_.getDiff syncDigest).unknownSessions.length > 0 then
          if sB.isDiscovery_ = true then
            some (sB.processUnknownSessionIds (s.digestTree_.getDiff syncDigest).unknownSessions)
          else some sB
         else some sB) = some sB := by
        split
        · rw [if_neg (by rw [hdisc]; exact hd)]
        · rfl
      refine ⟨sB, [], hval, htB, ?_, stepsTo_refl sB, rfl, ?_⟩
      · rw [hmB]
        exact ⟨fun a => ⟨a, fun h => absurd h hd⟩, fun a => a.1⟩
      · rw [if_neg (fun h => hd h.1)]
        rfl
  refine ⟨sC, cA ++ (cB ++ cC), tree1, app1, ?_, hloop, htC,
    stepsTo_trans hstA (stepsTo_trans hstB hstC), ?_, hmC, ?_⟩
  · unfold processSyncInterest
    dsimp only
    rw [hA]
    dsimp only
    rw [hB]
    dsimp only
    exact hC
  · intro hn
    rw [List.filterMap_append, List.filterMap_append, hsentB, hsentC, hsentA hn]
    simp
  · rw [expressCount_append, expressCount_append, hcA, hcB, hcC]
    simp

end ProcessSyncInterest


/-! ## Sync interests with a digest other than the root -/

section SyncInterestClaims

open ICTSync ICTSync.Impl

/-- An enabled engine hands an interest named `<broadcast prefix>/<c>` whose
digest is neither `00` nor the root to `processSyncInterest`. -/
theorem onInterest_sync (s : Impl) (interest : Interest) (c : Str) (pushDataName : Bool)
    (now : Int) (hen : s.enabled_ = true)
    (hname : interest.name = s.applicationBroadcastPrefix_ ++ [c])
    (h00 : Component.toUri c ≠ "00".toList)
    (hroot : unescape (Component.toUri c) ≠ s.digestTree_.getVectorRoot) :
    s.onInterest interest pushDataName now =
      s.processSyncInterest interest (Component.toUri c) pushDataName now := by
  have hlen : ¬(interest.name.length = s.applicationBroadcastPrefix_.length + 2) := by
    rw [hname, List.length_append, List.length_singleton]; omega
  have hget : Name.get interest.name s.applicationBroadcastPrefix_.length = some c := by
    unfold Name.get
    rw [hname, List.get?_eq_getElem?, List.getElem?_append_right (Nat.le_refl _)]
    simp
  unfold onInterest
  rw [if_neg (by rw [hen]; decide), if_neg hlen, hget]
  dsimp only
  rw [if_neg h00, if_pos hroot]

/-- The root of a reachable table has a pair for every row. -/
theorem matchingPair_root {st : ICTVectorState} (h : ict.Reachable st) (L : Node)
    (hL : L ∈ st.digestNode_) :
    matchingPair (parse_into_vec (unescape st.getVectorRoot)) L ≠ none := by
  unfold ICTVectorState.getVectorRoot
  rw [parse_own_root h]
  unfold matchingPair
  intro hc
  have := List.find?_eq_none.mp hc (entryPair L) (List.mem_map_of_mem _ hL)
  simp [entryPair] at this

theorem unescape_root {st : ICTVectorState} (h : ict.Reachable st) :
    unescape st.getVectorRoot = st.getVectorRoot := by
  unfold ICTVectorState.getVectorRoot
  by_cases he : st.digestNode_ = []
  · rw [(reachable_root h).1 he]
    rfl
  · rw [(reachable_root h).2 he]
    exact unescape_of_no_percent _ (encodeEntries_no_percent _)

/-- A row without a pair in the remote list is in the positive set. -/
theorem positive_of_lacking (st : ICTVectorState) (rState : Str) (L : Node)
    (hL : L ∈ st.digestNode_)
    (hlack : matchingPair (parse_into_vec (unescape rState)) L = none) :
    (st.getDiff rState).positiveLocalIndexes ≠ [] := by
  rw [(getDiff_eq st rState).1]
  obtain ⟨i, hi, hget⟩ := List.mem_iff_getElem.mp hL
  have hmem : (i, L) ∈ (st.digestNode_.enumFrom 0).filter
      (fun x => isPositive (parse_into_vec (unescape rState)) x.2) := by
    rw [List.mem_filter]
    refine ⟨?_, ?_⟩
    · rw [List.mk_mem_enumFrom_iff_le_and_getElem?_sub]
      refine ⟨Nat.zero_le _, ?_⟩
      rw [Nat.sub_zero, List.getElem?_eq_getElem hi, hget]
    · unfold isPositive
      rw [hlack]
  intro hnil
  have := List.map_eq_nil_iff.mp hnil
  rw [this] at hmem
  cases hmem

/-- C26, as the code has it: the engine `/a` (session 1, discovery mode,
`noData_` off) with the rows `(/a, 1, 5)` and `(/b, 2, 3)` receives the sync
interest `/s/1,5;`, whose digest lacks the local session 2. The answer it sends
has no content, whether the variable `pushDataName` holds true or false. -/
theorem discovery_answer_counterexample :
    ((create ["a".toList] ["s".toList] 1 4000 (-1) true false 0 0).run
      [.initialTimeout ⟨["s".toList, "00".toList], 1000⟩ 1000,
       .publishNextSequenceNo (fun _ => false) 1100,
       .publishNextSequenceNo (fun _ => false) 1200,
       .publishNextSequenceNo (fun _ => false) 1300,
       .publishNextSequenceNo (fun _ => false) 1400,
       .publishNextSequenceNo (fun _ => false) 1500,
       .onInterest ⟨["s".toList, "1,5;2,3;".toList], 4000⟩ false 1600,
       .onData ⟨["s".toList, "DISCOVERY".toList, "2".toList], 4000⟩
         ⟨["s".toList, "DISCOVERY".toList, "2".toList],
           some [⟨"/b".toList, .UPDATE, 3, 2, none⟩], none⟩ 1700,
       .onInterest ⟨["s".toList, "1,5;".toList], 4000⟩ true 1800]).map
      (fun s => (s.isDiscovery_, s.digestTree_.getVectorRoot,
        (s.digestTree_.getDiff "1,5;".toList).positiveLocalIndexes,
        s.calls_.filterMap Effect.sent)) =
      some (true, "1,5;2,3;".toList, [1], [⟨["s".toList, "1,5;".toList], none, none⟩]) ∧
    ((create ["a".toList] ["s".toList] 1 4000 (-1) true false 0 0).run
      [.initialTimeout ⟨["s".toList, "00".toList], 1000⟩ 1000,
       .publishNextSequenceNo (fun _ => false) 1100,
       .publishNextSequenceNo (fun _ => false) 1200,
       .publishNextSequenceNo (fun _ => false) 1300,
       .publishNextSequenceNo (fun _ => false) 1400,
       .publishNextSequenceNo (fun _ => false) 1500,
       .onInterest ⟨["s".toList, "1,5;2,3;".toList], 4000⟩ false 1600,
       .onData ⟨["s".toList, "DISCOVERY".toList, "2".toList], 4000⟩
         ⟨["s".toList, "DISCOVERY".toList, "2".toList],
           some [⟨"/b".toList, .UPDATE, 3, 2, none⟩], none⟩ 1700,
       .onInterest ⟨["s".toList, "1,5;".toList], 4000⟩ false 1800]).map
      (fun s => (s.isDiscovery_, s.digestTree_.getVectorRoot,
        (s.digestTree_.getDiff "1,5;".toList).positiveLocalIndexes,
        s.calls_.filterMap Effect.sent)) =
      some (true, "1,5;2,3;".toList, [1], [⟨["s".toList, "1,5;".toList], none, none⟩]) :=
  ⟨rfl, rfl⟩

/-- C26 (amended): in discovery mode with `noData_` off, when the digest of an
incoming sync interest (a digest other than `00`) lacks the session of a row of
the table, the engine
answers with exactly one data packet, named
`<broadcast prefix>/<unescaped digest>`, whose positive set is not empty and
which carries no content, whatever the variable `pushDataName` holds. -/
theorem discovery_answer_no_payload (s : Impl) (interest : Interest) (c : Str)
    (pushDataName : Bool) (now : Int) (hr : ICTSync.Reachable s)
    (hen : s.enabled_ = true) (hd : s.isDiscovery_ = true) (hn : s.noData_ = false)
    (hname : interest.name = s.applicationBroadcastPrefix_ ++ [c])
    (h00 : Component.toUri c ≠ "00".toList)
    (L : Node) (hL : L ∈ s.digestTree_.digestNode_)
    (hlack : matchingPair (parse_into_vec (unescape (Component.toUri c))) L = none) :
    (s.digestTree_.getDiff (Component.toUri c)).positiveLocalIndexes ≠ [] ∧
    ∃ s1 calls, s.onInterest interest pushDataName now = some s1 ∧
      s1.calls_ = s.calls_ ++ calls ∧
      calls.filterMap Effect.sent =
        [⟨s.applicationBroadcastPrefix_ ++ [unescape (Component.toUri c)], none, none⟩] := by
  have hpos := positive_of_lacking s.digestTree_ (Component.toUri c) L hL hlack
  have hroot : unescape (Component.toUri c) ≠ s.digestTree_.getVectorRoot := by
    intro hc
    rw [hc, ← unescape_root (reachable_sound hr).1] at hlack
    exact matchingPair_root (reachable_sound hr).1 L hL hlack
  obtain ⟨s1, calls, _, _, h1, _, _, hst, hsent, _, _⟩ := processSyncInterest_frame s interest
    (Component.toUri c) pushDataName now 0 (by decide)
  refine ⟨hpos, s1, calls, ?_, hst.1, ?_⟩
  · rw [onInterest_sync s interest c pushDataName now hen hname h00 hroot]
    exact h1
  · rw [hsent hn, if_neg hpos, if_pos hd]

/-- Witness of C26 (amended): the engine `/a` in discovery mode after its
initial timeout holds the row `(/a, 1, 0)`; the digest `7,2;` lacks session 1,
and the answer to the interest `/s/7,2;` has no content. -/
theorem discovery_answer_no_payload_witness :
    (((create ["a".toList] ["s".toList] 1 4000 (-1) true false 0 0).initialTimeout
        ⟨["s".toList, "00".toList], 1000⟩ 1000).digestTree_.getDiff
          (Component.toUri "7,2;".toList)).positiveLocalIndexes ≠ [] ∧
    ∃ s1 calls,
      ((create ["a".toList] ["s".toList] 1 4000 (-1) true false 0 0).initialTimeout
        ⟨["s".toList, "00".toList], 1000⟩ 1000).onInterest
          ⟨["s".toList, "7,2;".toList], 4000⟩ true 1100 = some s1 ∧
      s1.calls_ =
        ((create ["a".toList] ["s".toList] 1 4000 (-1) true false 0 0).initialTimeout
          ⟨["s".toList, "00".toList], 1000⟩ 1000).calls_ ++ calls ∧
      calls.filterMap Effect.sent =
        [⟨["s".toList] ++ [unescape (Component.toUri "7,2;".toList)], none, none⟩] :=
  discovery_answer_no_payload
    ((create ["a".toList] ["s".toList] 1 4000 (-1) true false 0 0).initialTimeout
      ⟨["s".toList, "00".toList], 1000⟩ 1000)
    ⟨["s".toList, "7,2;".toList], 4000⟩ "7,2;".toList true 1100
    (ICTSync.Reachable.step _ _ (.initialTimeout ⟨["s".toList, "00".toList], 1000⟩ 1000)
      (ICTSync.Reachable.create ["a".toList] ["s".toList] 1 4000 (-1) true false 0 0
        (by decide) (by decide)) True.intro rfl)
    rfl rfl rfl rfl (by decide) (Node.new "/a".toList 1 0) (by decide) (by decide)

end SyncInterestClaims


/-! ## Discovery interests are expressed once -/

section DiscoveryOnce

open ICTSync ICTSync.Impl

theorem processNewcomerInterest_frame (s : Impl) (interest : Interest) (d : Str) :
    (s.processNewcomerInterest interest d).outgoingDiscoveryInterests_ =
      s.outgoingDiscoveryInterests_ ∧
    ∃ calls, s.StepsTo (s.processNewcomerInterest interest d) calls ∧
      ∀ n : Name, expressCount calls n = 0 := by
  unfold processNewcomerInterest
  split
  · exact ⟨rfl, [], stepsTo_refl s, fun _ => rfl⟩
  · split
    · exact ⟨rfl, [], stepsTo_refl s, fun _ => rfl⟩
    · dsimp only
      split
      · exact ⟨rfl, [_], ⟨rfl, rfl, rfl, rfl, rfl, rfl⟩, fun _ => rfl⟩
      · exact ⟨rfl, [], stepsTo_refl s, fun _ => rfl⟩

/-- An interest named `<broadcast prefix>/<c>` on an enabled engine: the
handler returns; it does not express the discovery interest of a session `u`
the map has an entry for, and it keeps that entry. -/
theorem onInterest_frame (s : Impl) (interest : Interest) (c : Str) (pushDataName : Bool)
    (now : Int) (u : Nat) (hu : u < 4294967296) (hen : s.enabled_ = true)
    (hname : interest.name = s.applicationBroadcastPrefix_ ++ [c]) :
    ∃ s1 calls, s.onInterest interest pushDataName now = some s1 ∧ s.StepsTo s1 calls ∧
      (map_find s.outgoingDiscoveryInterests_ (toInt32 u) ≠ none →
        map_find s1.outgoingDiscoveryInterests_ (toInt32 u) ≠ none ∧
        expressCount calls (s.discoveryName u) = 0) := by
  by_cases h00 : Component.toUri c = "00".toList
  · have hlen : ¬(interest.name.length = s.applicationBroadcastPrefix_.length + 2) := by
      rw [hname, List.length_append, List.length_singleton]; omega
    have hget : Name.get interest.name s.applicationBroadcastPrefix_.length = some c := by
      unfold Name.get
      rw [hname, List.get?_eq_getElem?, List.getElem?_append_right (Nat.le_refl _)]
      simp
    obtain ⟨hm, calls, hst, hc⟩ := processNewcomerInterest_frame s interest (Component.toUri c)
    refine ⟨_, calls, ?_, hst, fun h => ⟨by rw [hm]; exact h, hc _⟩⟩
    unfold onInterest
    rw [if_neg (by rw [hen]; decide), if_neg hlen, hget]
    dsimp only
    rw [if_pos h00]
  · by_cases hroot : unescape (Component.toUri c) ≠ s.digestTree_.getVectorRoot
    · obtain ⟨s1, calls, _, _, h1, _, _, hst, _, hmap, hcount⟩ := processSyncInterest_frame s
        interest (Component.toUri c) pushDataName now u hu
      refine ⟨s1, calls, ?_, hst, ?_⟩
      · rw [onInterest_sync s interest c pushDataName now hen hname h00 hroot]
        exact h1
      · intro h
        refine ⟨fun hc => h (hmap.mp hc).1, ?_⟩
        rw [hcount, if_neg (fun hc => h hc.2.1)]
    · have hlen : ¬(interest.name.length = s.applicationBroadcastPrefix_.length + 2) := by
        rw [hname, List.length_append, List.length_singleton]; omega
      have hget : Name.get interest.name s.applicationBroadcastPrefix_.length = some c := by
        unfold Name.get
        rw [hname, List.get?_eq_getElem?, List.getElem?_append_right (Nat.le_refl _)]
        simp
      refine ⟨s, [], ?_, stepsTo_refl s, fun h => ⟨h, rfl⟩⟩
      unfold onInterest
      rw [if_neg (by rw [hen]; decide), if_neg hlen, hget]
      dsimp only
      rw [if_neg h00, if_neg hroot]

/-- A session that a row of a reachable table carries is found by
`find(sessionNo)`; so a session that is not found has no pair in the root. -/
theorem unknown_not_in_root {st : ICTVectorState} (h : ict.Reachable st) (u : Nat)
    (hunk : st.findSession (toInt32 u) = -1) (q : Nat) :
    (u, q) ∉ parse_into_vec st.getVectorRoot := by
  rw [← unescape_root h]
  unfold ICTVectorState.getVectorRoot
  rw [parse_own_root h]
  intro hc
  obtain ⟨L, hL, he⟩ := List.mem_map.mp hc
  have hs : toUInt32 L.sessionNo_ = u := congrArg Prod.fst he
  apply (findSession_eq_neg_one _ _).mp hunk L hL
  rw [← hs, toInt32_toUInt32 (reachable_wellTyped h L hL).1]

/-- The first sync interest whose digest carries a session `u` that is neither
in the table nor in the map: the discovery interest of `u` is expressed once,
and the map has an entry for `u` afterwards. -/
theorem onInterest_first (s : Impl) (interest : Interest) (c : Str) (pushDataName : Bool)
    (now : Int) (u q : Nat) (hu : u < 4294967296) (hr : ICTSync.Reachable s)
    (hen : s.enabled_ = true) (hd : s.isDiscovery_ = true)
    (hname : interest.name = s.applicationBroadcastPrefix_ ++ [c])
    (hmem : (u, q) ∈ parse_into_vec (unescape (Component.toUri c)))
    (hunk : s.digestTree_.findSession (toInt32 u) = -1)
    (hmap : map_find s.outgoingDiscoveryInterests_ (toInt32 u) = none) :
    ∃ s1 calls, s.onInterest interest pushDataName now = some s1 ∧ s.StepsTo s1 calls ∧
      map_find s1.outgoingDiscoveryInterests_ (toInt32 u) ≠ none ∧
      expressCount calls (s.discoveryName u) = 1 := by
  have h00 : Component.toUri c ≠ "00".toList := by
    intro hc
    have hnil : parse_into_vec (unescape "00".toList) = [] := by decide
    rw [hc, hnil] at hmem
    cases hmem
  have hroot : unescape (Component.toUri c) ≠ s.digestTree_.getVectorRoot := by
    intro hc
    rw [hc] at hmem
    exact unknown_not_in_root (reachable_sound hr).1 u hunk q hmem
  have hin : (u, q) ∈ (s.digestTree_.getDiff (Component.toUri c)).unknownSessions := by
    rw [(getDiff_eq _ _).2.2.1, List.mem_filter]
    exact ⟨hmem, decide_eq_true hunk⟩
  obtain ⟨s1, calls, _, _, h1, _, _, hst, _, hm, hcount⟩ := processSyncInterest_frame s
    interest (Component.toUri c) pushDataName now u hu
  refine ⟨s1, calls, ?_, hst, ?_, ?_⟩
  · rw [onInterest_sync s interest c pushDataName now hen hname h00 hroot]
    exact h1
  · intro hc
    exact (hm.mp hc).2 hd (u, q) hin rfl
  · rw [hcount, if_pos ⟨hd, hmap, (u, q), hin, rfl⟩]

end DiscoveryOnce


section DiscoveryOnceClaim

open ICTSync ICTSync.Impl

/-- Sync interests on an engine whose map has an entry for the session `u`: the
run returns and the discovery interest of `u` is not expressed. -/
theorem onInterest_run_known (u : Nat) (hu : u < 4294967296) :
    ∀ (es : List Event) (s : Impl), s.enabled_ = true →
      (∀ e ∈ es, ∃ interest c b now, e = Event.onInterest interest b now ∧
        interest.name = s.applicationBroadcastPrefix_ ++ [c]) →
      map_find s.outgoingDiscoveryInterests_ (toInt32 u) ≠ none →
      ∃ s1 calls, s.run es = some s1 ∧ s.StepsTo s1 calls ∧
        expressCount calls (s.discoveryName u) = 0
  | [], s, _, _, _ => ⟨s, [], rfl, stepsTo_refl s, rfl⟩
  | e :: es, s, hen, hes, hmap => by
    obtain ⟨interest, c, b, now, he, hname⟩ := hes e (List.mem_cons_self _ _)
    obtain ⟨s1, calls, h1, hst, hk⟩ := onInterest_frame s interest c b now u hu hen hname
    obtain ⟨hmap1, hc1⟩ := hk hmap
    obtain ⟨s2, calls2, h2, hst2, hc2⟩ := onInterest_run_known u hu es s1 (hst.2.2.2.2.2.trans hen)
      (by
        intro x hx
        rw [hst.2.1]
        exact hes x (List.mem_cons_of_mem _ hx))
      hmap1
    refine ⟨s2, calls ++ calls2, ?_, stepsTo_trans hst hst2, ?_⟩
    · have hstep : s.step (Event.onInterest interest b now) = some s1 := h1
      rw [he, Impl.run, hstep]
      exact h2
    · have hn : s1.discoveryName u = s.discoveryName u := by
        unfold Impl.discoveryName
        rw [hst.2.1]
      rw [expressCount_append, hc1, ← hn, hc2]

/-- C29: in discovery mode, on a reachable enabled engine, for a session id `u`
that is not in the table and has no entry in the map of discovery interests,
after any non-empty sequence of incoming sync interests whose digests carry
`u` (no other event in between), the interest
`<broadcast prefix>/DISCOVERY/<u>` has been expressed exactly once; as this
holds for the first interest alone, it is expressed on the first interest and
not again. -/
theorem discovery_interest_once (s : Impl) (u : Nat) (e : Event) (es : List Event)
    (hr : ICTSync.Reachable s) (hen : s.enabled_ = true) (hd : s.isDiscovery_ = true)
    (hu : u < 4294967296)
    (hunk : s.digestTree_.findSession (toInt32 u) = -1)
    (hmap : map_find s.outgoingDiscoveryInterests_ (toInt32 u) = none)
    (hes : ∀ x ∈ e :: es, ∃ interest c b now q, x = Event.onInterest interest b now ∧
      interest.name = s.applicationBroadcastPrefix_ ++ [c] ∧
      (u, q) ∈ parse_into_vec (unescape (Component.toUri c))) :
    ∃ s1 calls, s.run (e :: es) = some s1 ∧ s1.calls_ = s.calls_ ++ calls ∧
      expressCount calls (s.discoveryName u) = 1 := by
  obtain ⟨interest, c, b, now, q, he, hname, hmem⟩ := hes e (List.mem_cons_self _ _)
  obtain ⟨s1, calls, h1, hst, hmap1, hc1⟩ :=
    onInterest_first s interest c b now u q hu hr hen hd hname hmem hunk hmap
  obtain ⟨s2, calls2, h2, hst2, hc2⟩ := onInterest_run_known u hu es s1 (hst.2.2.2.2.2.trans hen)
    (by
      intro x hx
      obtain ⟨i, c1, b1, n1, _, h3, h4, _⟩ := hes x (List.mem_cons_of_mem _ hx)
      rw [hst.2.1]
      exact ⟨i, c1, b1, n1, h3, h4⟩)
    hmap1
  refine ⟨s2, calls ++ calls2, ?_, (stepsTo_trans hst hst2).1, ?_⟩
  · have hstep : s.step (Event.onInterest interest b now) = some s1 := h1
    rw [he, Impl.run, hstep]
    exact h2
  · have hn : s1.discoveryName u = s.discoveryName u := by
      unfold Impl.discoveryName
      rw [hst.2.1]
    rw [expressCount_append, hc1, ← hn, hc2]

/-- Witness of C29: the engine `/a` in discovery mode after its initial timeout
receives the interests `/s/1,0;7,2;` and `/s/1,0;7,3;`; the interest
`/s/DISCOVERY/7` is expressed once. -/
theorem discovery_interest_once_witness :
    ∃ s1 calls,
      ((create ["a".toList] ["s".toList] 1 4000 (-1) true false 0 0).initialTimeout
        ⟨["s".toList, "00".toList], 1000⟩ 1000).run
          [.onInterest ⟨["s".toList, "1,0;7,2;".toList], 4000⟩ false 1100,
           .onInterest ⟨["s".toList, "1,0;7,3;".toList], 4000⟩ false 1200] = some s1 ∧
      s1.calls_ =
        ((create ["a".toList] ["s".toList] 1 4000 (-1) true false 0 0).initialTimeout
          ⟨["s".toList, "00".toList], 1000⟩ 1000).calls_ ++ calls ∧
      expressCount calls
        (((create ["a".toList] ["s".toList] 1 4000 (-1) true false 0 0).initialTimeout
          ⟨["s".toList, "00".toList], 1000⟩ 1000).discoveryName 7) = 1 :=
  discovery_interest_once
    ((create ["a".toList] ["s".toList] 1 4000 (-1) true false 0 0).initialTimeout
      ⟨["s".toList, "00".toList], 1000⟩ 1000) 7
    (.onInterest ⟨["s".toList, "1,0;7,2;".toList], 4000⟩ false 1100)
    [.onInterest ⟨["s".toList, "1,0;7,3;".toList], 4000⟩ false 1200]
    (ICTSync.Reachable.step _ _ (.initialTimeout ⟨["s".toList, "00".toList], 1000⟩ 1000)
      (ICTSync.Reachable.create ["a".toList] ["s".toList] 1 4000 (-1) true false 0 0
        (by decide) (by decide)) True.intro rfl)
    rfl rfl (by decide) (by decide) (by decide)
    (by
      intro x hx
      simp only [List.mem_cons, List.mem_singleton, List.not_mem_nil, or_false] at hx
      rcases hx with rfl | rfl
      · exact ⟨_, "1,0;7,2;".toList, _, _, 2, rfl, rfl, by decide⟩
      · exact ⟨_, "1,0;7,3;".toList, _, _, 3, rfl, rfl, by decide⟩)

end DiscoveryOnceClaim


/-! ## The table after a sync interest -/

section SyncInterestTable

open ICTSync ICTSync.Impl

/-- The table after `processSyncInterest` on a reachable engine with one row
for each session: every row has gone through `applyRemote`. -/
theorem processSyncInterest_table (s : Impl) (interest : Interest) (syncDigest : Str)
    (pushDataName : Bool) (now : Int) (hr : ICTSync.Reachable s)
    (hnd : (s.digestTree_.digestNode_.map Node.sessionNo_).Nodup) :
    ∃ s1, s.processSyncInterest interest syncDigest pushDataName now = some s1 ∧
      s1.digestTree_.digestNode_ =
        s.digestTree_.digestNode_.map (applyRemote (parse_into_vec (unescape syncDigest))) := by
  obtain ⟨s1, _, tree1, app1, h1, hloop, ht, _, _, _, _⟩ := processSyncInterest_frame s interest
    syncDigest pushDataName now 0 (by decide)
  obtain ⟨tree2, app2, hloop2, hnodes⟩ := interestUpdatesLoop_unique
    (s.digestTree_.getDiff syncDigest).negativeInLocal s.digestTree_ [] hnd
  rw [hloop] at hloop2
  have heq : tree1 = tree2 := congrArg Prod.fst (Option.some.inj hloop2)
  refine ⟨s1, h1, ?_⟩
  rw [ht, heq, hnodes, (getDiff_eq _ _).2.1]
  apply List.map_congr_left
  intro L hL
  exact foldl_raise_negative _ _ hnd (reachable_wellTyped (reachable_sound hr).1) L hL

/-- C23, as the code has it. (1) The engine `/a` (session 1) with the row
`(/a, 1, 1)` processes the interest `/s/1,5;1,9;`: the row takes the sequence 5
of the first pair of session 1 and stays below the 9 of the second one. (2) The
engine with the rows `(/a, 1, 0)` and `(/b, 2, -1)`, the second one learned
from a packet with the sequence 4294967295, processes the interest
`/s/1,0;2,5;`: the row of session 2 keeps the sequence -1, below the remote
5. -/
theorem sync_interest_counterexample :
    ((create ["a".toList] ["s".toList] 1 4000 (-1) false false 0 0).run
      [.initialTimeout ⟨["s".toList, "00".toList], 1000⟩ 1000,
       .publishNextSequenceNo (fun _ => false) 1100]).map
      (fun s => s.digestTree_.digestNode_.map (fun n => (n.sessionNo_, n.sequenceNo_))) =
      some [(1, 1)] ∧
    ((create ["a".toList] ["s".toList] 1 4000 (-1) false false 0 0).run
      [.initialTimeout ⟨["s".toList, "00".toList], 1000⟩ 1000,
       .publishNextSequenceNo (fun _ => false) 1100,
       .onInterest ⟨["s".toList, "1,5;1,9;".toList], 4000⟩ false 1200]).map
      (fun s => (s.digestTree_.digestNode_.map (fun n => (n.sessionNo_, n.sequenceNo_)),
        parse_into_vec (unescape (Component.toUri "1,5;1,9;".toList)))) =
      some ([(1, 5)], [(1, 5), (1, 9)]) ∧
    ((create ["a".toList] ["s".toList] 1 4000 (-1) false false 0 0).run
      [.initialTimeout ⟨["s".toList, "00".toList], 1000⟩ 1000,
       .onData ⟨["s".toList, "1,0;".toList], 4000⟩
         ⟨["s".toList, "1,0;".toList], some [⟨"/b".toList, .UPDATE, 4294967295, 2, none⟩],
           none⟩ 1100]).map
      (fun s => s.digestTree_.digestNode_.map (fun n => (n.sessionNo_, n.sequenceNo_))) =
      some [(1, 0), (2, -1)] ∧
    ((create ["a".toList] ["s".toList] 1 4000 (-1) false false 0 0).run
      [.initialTimeout ⟨["s".toList, "00".toList], 1000⟩ 1000,
       .onData ⟨["s".toList, "1,0;".toList], 4000⟩
         ⟨["s".toList, "1,0;".toList], some [⟨"/b".toList, .UPDATE, 4294967295, 2, none⟩],
           none⟩ 1100,
       .onInterest ⟨["s".toList, "1,0;2,5;".toList], 4000⟩ false 1200]).map
      (fun s => (s.digestTree_.digestNode_.map (fun n => (n.sessionNo_, n.sequenceNo_)),
        parse_into_vec (unescape (Component.toUri "1,0;2,5;".toList)))) =
      some ([(1, 0), (2, -1)], [(1, 0), (2, 5)]) := by
  refine ⟨?_, ?_, ?_, ?_⟩ <;> decide

/-- C23 (amended): on a reachable enabled engine whose table has one row for
each session, after an incoming sync interest `<broadcast prefix>/<c>` whose
digest differs from the local root has been processed, the table has the same
rows in the same order with the same prefixes and sessions; a row whose session
has no pair in the remote digest is unchanged; and for a row `L` and the first
pair `r` of its session in the remote digest, the row is unchanged when its
sequence is not below the remote one, and when the local sequence is not
negative the new sequence is at least the remote one (the remote sequence read
as the `int` the digest spells). -/
theorem sync_interest_raises (s : Impl) (interest : Interest) (c : Str)
    (pushDataName : Bool) (now : Int) (hr : ICTSync.Reachable s) (hen : s.enabled_ = true)
    (hname : interest.name = s.applicationBroadcastPrefix_ ++ [c])
    (hroot : unescape (Component.toUri c) ≠ s.digestTree_.getVectorRoot)
    (hnd : (s.digestTree_.digestNode_.map Node.sessionNo_).Nodup) :
    ∃ s1, s.onInterest interest pushDataName now = some s1 ∧
      s1.digestTree_.digestNode_.length = s.digestTree_.digestNode_.length ∧
      ∀ (i : Nat) (L : Node), s.digestTree_.digestNode_.get? i = some L →
        ∃ L1, s1.digestTree_.digestNode_.get? i = some L1 ∧
          L1.dataPrefix_ = L.dataPrefix_ ∧ L1.sessionNo_ = L.sessionNo_ ∧
          (matchingPair (parse_into_vec (unescape (Component.toUri c))) L = none → L1 = L) ∧
          ∀ r, matchingPair (parse_into_vec (unescape (Component.toUri c))) L = some r →
            (toInt32 r.2 ≤ L.sequenceNo_ → L1 = L) ∧
            (0 ≤ L.sequenceNo_ → toInt32 r.2 ≤ L1.sequenceNo_) := by
  have hrow : ∀ L ∈ s.digestTree_.digestNode_,
      (applyRemote (parse_into_vec (unescape (Component.toUri c))) L).dataPrefix_ =
        L.dataPrefix_ ∧
      (applyRemote (parse_into_vec (unescape (Component.toUri c))) L).sessionNo_ =
        L.sessionNo_ ∧
      (matchingPair (parse_into_vec (unescape (Component.toUri c))) L = none →
        applyRemote (parse_into_vec (unescape (Component.toUri c))) L = L) ∧
      ∀ r, matchingPair (parse_into_vec (unescape (Component.toUri c))) L = some r →
        (toInt32 r.2 ≤ L.sequenceNo_ →
          applyRemote (parse_into_vec (unescape (Component.toUri c))) L = L) ∧
        (0 ≤ L.sequenceNo_ → toInt32 r.2 ≤
          (applyRemote (parse_into_vec (unescape (Component.toUri c))) L).sequenceNo_) := by
    intro L hL
    have hw := reachable_wellTyped (reachable_sound hr).1 L hL
    unfold applyRemote negativeOf
    cases hm : matchingPair (parse_into_vec (unescape (Component.toUri c))) L with
    | none => exact ⟨rfl, rfl, fun _ => rfl, fun r hc => by cases hc⟩
    | some r0 =>
      have hr0 := parse_into_vec_lt _ r0 (matchingPair_fst hm).1
      dsimp only
      by_cases hlt : toUInt32 L.sequenceNo_ < r0.2
      · rw [if_pos hlt]
        dsimp only
        refine ⟨raise_dataPrefix L r0, raise_sessionNo L r0, (fun hc => by cases hc), ?_⟩
        intro r hc
        cases hc
        constructor
        · intro hle
          unfold Node.raise
          rw [if_neg (fun h => absurd h.2 (by omega))]
        · intro h0
          unfold Node.raise
          have hs : L.sessionNo_ = toInt32 r0.1 := by
            rw [(matchingPair_fst hm).2, toInt32_toUInt32 hw.1]
          by_cases hq : L.sequenceNo_ < toInt32 r0.2
          · rw [if_pos ⟨hs, hq⟩]
            exact Int.le_refl _
          · rw [if_neg (fun h => hq h.2)]
            omega
      · rw [if_neg hlt]
        dsimp only
        refine ⟨rfl, rfl, (fun hc => by cases hc), ?_⟩
        intro r hc
        cases hc
        refine ⟨fun _ => rfl, ?_⟩
        intro h0
        have h2 := hw.2
        unfold toUInt32 at hlt
        unfold isInt INT_MIN INT_MAX at h2
        unfold toInt32
        split <;> omega
  obtain ⟨s1, h1, hnodes⟩ : ∃ s1, s.onInterest interest pushDataName now = some s1 ∧
      s1.digestTree_.digestNode_ = s.digestTree_.digestNode_.map
        (applyRemote (parse_into_vec (unescape (Component.toUri c)))) := by
    by_cases h00 : Component.toUri c = "00".toList
    · have hlen : ¬(interest.name.length = s.applicationBroadcastPrefix_.length + 2) := by
        rw [hname, List.length_append, List.length_singleton]; omega
      have hget : Name.get interest.name s.applicationBroadcastPrefix_.length = some c := by
        unfold Name.get
        rw [hname, List.get?_eq_getElem?, List.getElem?_append_right (Nat.le_refl _)]
        simp
      have hnil : parse_into_vec (unescape "00".toList) = [] := by decide
      refine ⟨s.processNewcomerInterest interest (Component.toUri c), ?_, ?_⟩
      · unfold onInterest
        rw [if_neg (by rw [hen]; decide), if_neg hlen, hget]
        dsimp only
        rw [if_pos h00]
      · have ht : (s.processNewcomerInterest interest (Component.toUri c)).digestTree_ =
            s.digestTree_ := by
          unfold processNewcomerInterest
          repeat' (first | rfl | split | dsimp only)
        rw [ht, h00, hnil]
        have hid : applyRemote [] = id := by
          funext L
          rfl
        rw [hid, List.map_id]
    · rw [onInterest_sync s interest c pushDataName now hen hname h00 hroot]
      exact processSyncInterest_table s interest (Component.toUri c) pushDataName now hr hnd
  refine ⟨s1, h1, by rw [hnodes, List.length_map], ?_⟩
  intro i L hi
  have hL : L ∈ s.digestTree_.digestNode_ := List.get?_mem hi
  refine ⟨applyRemote (parse_into_vec (unescape (Component.toUri c))) L, ?_, hrow L hL⟩
  rw [hnodes, List.get?_eq_getElem?, List.getElem?_map, ← List.get?_eq_getElem?, hi]
  rfl

/-- Witness of C23 (amended): the engine `/a` with the row `(/a, 1, 0)`
processes the interest `/s/1,5;`; the row of session 1 then has a sequence of
at least 5. -/
theorem sync_interest_raises_witness :
    ∃ s1 L1,
      ((create ["a".toList] ["s".toList] 1 4000 (-1) false false 0 0).initialTimeout
        ⟨["s".toList, "00".toList], 1000⟩ 1000).onInterest
          ⟨["s".toList, "1,5;".toList], 4000⟩ false 1100 = some s1 ∧
      s1.digestTree_.digestNode_.get? 0 = some L1 ∧ L1.sessionNo_ = 1 ∧
      (5 : Int) ≤ L1.sequenceNo_ := by
  obtain ⟨s1, h1, _, hrows⟩ := sync_interest_raises
    ((create ["a".toList] ["s".toList] 1 4000 (-1) false false 0 0).initialTimeout
      ⟨["s".toList, "00".toList], 1000⟩ 1000)
    ⟨["s".toList, "1,5;".toList], 4000⟩ "1,5;".toList false 1100
    (ICTSync.Reachable.step _ _ (.initialTimeout ⟨["s".toList, "00".toList], 1000⟩ 1000)
      (ICTSync.Reachable.create ["a".toList] ["s".toList] 1 4000 (-1) false false 0 0
        (by decide) (by decide)) True.intro rfl)
    rfl rfl (by decide) (by decide)
  obtain ⟨L1, hg, _, hs, _, hr⟩ := hrows 0 (Node.new "/a".toList 1 0) (by decide)
  exact ⟨s1, L1, h1, hg, hs, (hr (1, 5) (by decide)).2 (by decide)⟩

end SyncInterestTable


/-! ## Discovery data -/

section DiscoveryData

open ICTSync ICTSync.Impl

/-- The flag `update` returns tells whether the table changed. -/
theorem update_flag (st : ICTVectorState) (p : Str) (s q : Int) :
    (st.update p s q).1 = true ↔ (st.update p s q).2 ≠ st := by
  rcases key_split p s st.digestNode_ with h | ⟨l1, n, l2, hl, h1, hp, hs⟩
  · rw [update_of_absent st p s q h]
    refine ⟨fun _ hc => ?_, fun _ => rfl⟩
    have hlen := congrArg (fun t : ICTVectorState => t.digestNode_.length) hc
    simp [recomputeVectorRoot, vector_insert] at hlen
    omega
  · rw [update_of_match st p s q l1 n l2 hl h1 hp hs]
    by_cases hlt : n.sequenceNo_ < q
    · rw [if_pos hlt]
      refine ⟨fun _ hc => ?_, fun _ => rfl⟩
      have hn := congrArg (fun t : ICTVectorState => t.digestNode_) hc
      simp only [recomputeVectorRoot] at hn
      rw [hl] at hn
      have h2 := List.append_cancel_left hn
      have h3 : (Node.new p s q).sequenceNo_ = n.sequenceNo_ := by rw [(List.cons.inj h2).1]
      have h4 : (Node.new p s q).sequenceNo_ = q := rfl
      omega
    · rw [if_neg hlt]
      exact ⟨(fun hc => by cases hc), fun hc => absurd rfl hc⟩

/-- C28, as the code has it: the engine `/a` in discovery mode has asked for
the sessions 7 and 8 and recorded the sequences 10 and 2 for them. The data
that answers the interest `/s/DISCOVERY/7` carries the entry `(/c, 8, 5)`: the
row `(/c, 8)` is inserted with the sequence 5, the maximum of 5 and the 2
recorded for the session 8 of the payload, not with the 10 recorded for the
session 7 of the interest. -/
theorem discovery_data_counterexample :
    ((create ["a".toList] ["s".toList] 1 4000 (-1) true false 0 0).run
      [.initialTimeout ⟨["s".toList, "00".toList], 1000⟩ 1000,
       .onInterest ⟨["s".toList, "1,0;7,10;8,2;".toList], 4000⟩ false 1100,
       .onData ⟨["s".toList, "DISCOVERY".toList, "7".toList], 4000⟩
         ⟨["s".toList, "DISCOVERY".toList, "7".toList],
           some [⟨"/c".toList, .UPDATE, 5, 8, none⟩], none⟩ 1200]).map
      (fun s => (s.digestTree_.digestNode_.map
          (fun n => (n.dataPrefix_, n.sessionNo_, n.sequenceNo_)),
        s.outgoingDiscoveryInterests_)) =
      some ([("/a".toList, 1, 0), ("/c".toList, 8, 5)], [(7, 10), (8, 2)]) := by
  decide

/-- C28 (amended): in discovery mode, on data answering a discovery interest
whose trailing name component is a session id, when the map of outgoing
discovery interests has an entry for the session of the first entry of the
payload, `onDiscoveryData` upserts the name and session of that entry with the
maximum of the sequence recorded for that session and the sequence of the
entry, and returns the flag of `update`, which tells whether the table
changed. -/
theorem onDiscoveryData_upsert (s : Impl) (interest : Interest) (c : Str) (sid : Int)
    (m : Sync.SyncState) (rest : List Sync.SyncState) (saved : Int)
    (hd : s.isDiscovery_ = true)
    (hc : Name.get interest.name (s.applicationBroadcastPrefix_.length + 1) = some c)
    (hsid : stoi (Component.toUri c) = some sid)
    (hmap : map_find s.outgoingDiscoveryInterests_ (toInt32 m.session) = some saved) :
    s.onDiscoveryData interest (m :: rest) =
      some ((s.digestTree_.update m.name (toInt32 m.session) (max saved (toInt32 m.seq))).1,
        { s with digestTree_ :=
            (s.digestTree_.update m.name (toInt32 m.session) (max saved (toInt32 m.seq))).2 }) ∧
    ((s.digestTree_.update m.name (toInt32 m.session) (max saved (toInt32 m.seq))).1 = true ↔
      (s.digestTree_.update m.name (toInt32 m.session) (max saved (toInt32 m.seq))).2 ≠
        s.digestTree_) := by
  refine ⟨?_, update_flag _ _ _ _⟩
  unfold onDiscoveryData
  rw [if_neg (by rw [hd]; decide), hc]
  dsimp only
  rw [hsid]
  dsimp only [List.head?]
  rw [hmap]
  dsimp only
  by_cases hgt : saved > toInt32 m.seq
  · rw [if_pos hgt, max_eq_left (by omega)]
  · rw [if_neg hgt, max_eq_right (by omega)]

/-- Witness of C28 (amended): the engine `/a` in discovery mode that has asked
for session 7 and recorded the sequence 2 receives the entry `(/c, 7, 5)` in
answer to `/s/DISCOVERY/7`. -/
theorem onDiscoveryData_upsert_witness :
    ∃ s, (create ["a".toList] ["s".toList] 1 4000 (-1) true false 0 0).run
        [.initialTimeout ⟨["s".toList, "00".toList], 1000⟩ 1000,
         .onInterest ⟨["s".toList, "1,0;7,2;".toList], 4000⟩ false 1100] = some s ∧
      s.onDiscoveryData ⟨["s".toList, "DISCOVERY".toList, "7".toList], 4000⟩
          [⟨"/c".toList, .UPDATE, 5, 7, none⟩] =
        some ((s.digestTree_.update "/c".toList (toInt32 7) (max 2 (toInt32 5))).1,
          { s with digestTree_ :=
              (s.digestTree_.update "/c".toList (toInt32 7) (max 2 (toInt32 5))).2 }) ∧
      ((s.digestTree_.update "/c".toList (toInt32 7) (max 2 (toInt32 5))).1 = true ↔
        (s.digestTree_.update "/c".toList (toInt32 7) (max 2 (toInt32 5))).2 ≠
          s.digestTree_) := by
  have hfacts : ((create ["a".toList] ["s".toList] 1 4000 (-1) true false 0 0).run
        [.initialTimeout ⟨["s".toList, "00".toList], 1000⟩ 1000,
         .onInterest ⟨["s".toList, "1,0;7,2;".toList], 4000⟩ false 1100]).map
      (fun s => (s.isDiscovery_,
        Name.get ["s".toList, "DISCOVERY".toList, "7".toList]
          (s.applicationBroadcastPrefix_.length + 1),
        map_find s.outgoingDiscoveryInterests_ (toInt32 7))) =
      some (true, some "7".toList, some 2) := by decide
  cases hrun : (create ["a".toList] ["s".toList] 1 4000 (-1) true false 0 0).run
        [.initialTimeout ⟨["s".toList, "00".toList], 1000⟩ 1000,
         .onInterest ⟨["s".toList, "1,0;7,2;".toList], 4000⟩ false 1100] with
  | none => exact absurd hrun (by decide)
  | some s =>
    rw [hrun] at hfacts
    have h1 : s.isDiscovery_ = true := congrArg Prod.fst (Option.some.inj hfacts)
    have h2 := congrArg (fun x => x.2.1) (Option.some.inj hfacts)
    have h3 := congrArg (fun x => x.2.2) (Option.some.inj hfacts)
    exact ⟨s, rfl, onDiscoveryData_upsert s ⟨["s".toList, "DISCOVERY".toList, "7".toList], 4000⟩
      "7".toList 7 ⟨"/c".toList, .UPDATE, 5, 7, none⟩ [] 2 h1 h2 (by decide) h3⟩

end DiscoveryData


/-! ## The updates reported for a data packet -/

section ReportedUpdates

open ICTSync ICTSync.Impl

theorem stored_isSome (st : ICTVectorState) (p : Str) (x : Int) :
    (st.stored p x).isSome = true ↔
      ∃ n ∈ st.digestNode_, n.dataPrefix_ = p ∧ n.sessionNo_ = x := by
  unfold ICTVectorState.stored
  cases hf : st.digestNode_.find? (fun n => decide (n.dataPrefix_ = p ∧ n.sessionNo_ = x)) with
  | none =>
    rw [List.find?_eq_none] at hf
    constructor
    · intro hc
      cases hc
    · rintro ⟨n, hn, hk⟩
      exact absurd (decide_eq_true hk) (hf n hn)
  | some n =>
    refine ⟨fun _ => ⟨n, List.mem_of_find?_eq_some hf, ?_⟩, fun _ => rfl⟩
    have hp := List.find?_some hf
    exact of_decide_eq_true hp

/-- `getProducerSequenceNo` returns the sequence the table stores for the key,
and -1 when there is no row for it. -/
theorem getProducerSequenceNo_eq (s : Impl) (p : Str) (x : Int) :
    s.getProducerSequenceNo p x = some ((s.digestTree_.stored p x).getD (-1)) := by
  unfold getProducerSequenceNo ICTVectorState.stored
  rcases key_split p x s.digestTree_.digestNode_ with h | ⟨l1, n, l2, hl, h1, hp, hs⟩
  · have hfind : s.digestTree_.find p x = -1 := findFrom_eq_neg_one _ _ h
    have hnone : s.digestTree_.digestNode_.find?
        (fun n => decide (n.dataPrefix_ = p ∧ n.sessionNo_ = x)) = none := by
      rw [List.find?_eq_none]
      intro n hn
      simpa using h n hn
    rw [hfind, hnone]
    rfl
  · have hfind : s.digestTree_.find p x = ((l1.length : Nat) : Int) := by
      unfold ICTVectorState.find
      rw [hl, findFrom_append_match l1 n l2 0 h1 hp hs]
      simp
    have hget : s.digestTree_.get l1.length = some n := by
      unfold ICTVectorState.get
      rw [hl, List.get?_eq_getElem?, List.getElem?_append_right (Nat.le_refl _)]
      simp
    have hsome : s.digestTree_.digestNode_.find?
        (fun n => decide (n.dataPrefix_ = p ∧ n.sessionNo_ = x)) = some n := by
      rw [hl, List.find?_append, List.find?_eq_none.mpr (by
        intro m hm
        simpa using h1 m hm)]
      simp [hp, hs]
    simp only [hfind, hsome]
    rw [if_neg (by omega), Int.toNat_ofNat, hget]
    rfl

/-- After `update`, the table has a row for the key of the call and for every
key it had a row for. -/
theorem update_rows (st : ICTVectorState) (p : Str) (x q : Int) :
    ((st.update p x q).2.stored p x).isSome = true ∧
    ∀ p1 x1, (st.stored p1 x1).isSome = true → ((st.update p x q).2.stored p1 x1).isSome = true := by
  simp only [stored_isSome]
  rcases key_split p x st.digestNode_ with h | ⟨l1, n, l2, hl, h1, hp, hs⟩
  · rw [update_of_absent st p x q h]
    simp only [recomputeVectorRoot, vector_insert]
    constructor
    · exact ⟨Node.new p x q, by simp, rfl, rfl⟩
    · rintro p1 x1 ⟨n, hn, hk⟩
      refine ⟨n, ?_, hk⟩
      rw [← List.take_append_drop (lower_bound Node.Compare st.digestNode_ (Node.new p x q))
        st.digestNode_] at hn
      rcases List.mem_append.mp hn with h2 | h2
      · exact List.mem_append_left _ h2
      · exact List.mem_append_right _ (List.mem_cons_of_mem _ h2)
  · rw [update_of_match st p x q l1 n l2 hl h1 hp hs]
    by_cases hlt : n.sequenceNo_ < q
    · rw [if_pos hlt]
      simp only [recomputeVectorRoot]
      constructor
      · exact ⟨Node.new p x q, by simp, rfl, rfl⟩
      · rintro p1 x1 ⟨m, hm, hk⟩
        rw [hl] at hm
        rcases List.mem_append.mp hm with h2 | h2
        · exact ⟨m, List.mem_append_left _ h2, hk⟩
        · rcases List.mem_cons.mp h2 with h3 | h3
          · refine ⟨Node.new p x q, by simp, ?_⟩
            rw [← hk.1, ← hk.2, h3, hp, hs]
            exact ⟨rfl, rfl⟩
          · exact ⟨m, List.mem_append_right _ (List.mem_cons_of_mem _ h3), hk⟩
    · rw [if_neg hlt]
      exact ⟨⟨n, by rw [hl]; simp, hp, hs⟩, fun _ _ h => h⟩

end ReportedUpdates


section ReportedUpdatesLoops

open ICTSync ICTSync.Impl

/-- The loop of `update(content)` records no call; afterwards the table has a
row for every key it had a row for and for the key of every `UPDATE` entry. -/
theorem updateLoop_rows : ∀ (content : List Sync.SyncState) (s : Impl) (k : Nat),
    (updateLoop content s k).1.calls_ = s.calls_ ∧
    (∀ p x, (s.digestTree_.stored p x).isSome = true →
      ((updateLoop content s k).1.digestTree_.stored p x).isSome = true) ∧
    ∀ m ∈ content, m.type = .UPDATE →
      ((updateLoop content s k).1.digestTree_.stored m.name (toInt32 m.session)).isSome = true
  | [], s, k => ⟨rfl, fun _ _ h => h, fun m hm => by cases hm⟩
  | m :: ms, s, k => by
    have key : ∀ (s2 : Impl) (k2 : Nat), s2.calls_ = s.calls_ →
        (∀ p x, (s.digestTree_.stored p x).isSome = true →
          (s2.digestTree_.stored p x).isSome = true) →
        (m.type = .UPDATE → (s2.digestTree_.stored m.name (toInt32 m.session)).isSome = true) →
        (updateLoop ms s2 k2).1.calls_ = s.calls_ ∧
        (∀ p x, (s.digestTree_.stored p x).isSome = true →
          ((updateLoop ms s2 k2).1.digestTree_.stored p x).isSome = true) ∧
        ∀ m1 ∈ m :: ms, m1.type = .UPDATE →
          ((updateLoop ms s2 k2).1.digestTree_.stored m1.name (toInt32 m1.session)).isSome =
            true := by
      intro s2 k2 hc hp hm
      obtain ⟨ih1, ih2, ih3⟩ := updateLoop_rows ms s2 k2
      refine ⟨ih1.trans hc, fun p x h => ih2 p x (hp p x h), ?_⟩
      intro m1 hm1 ht
      rcases List.mem_cons.mp hm1 with rfl | hm1
      · exact ih2 _ _ (hm ht)
      · exact ih3 m1 hm1 ht
    unfold updateLoop
    by_cases ht : m.type = .UPDATE
    · rw [if_pos ht]
      have hu := update_rows s.digestTree_ m.name (toInt32 m.session) (toInt32 m.seq)
      cases hupd : s.digestTree_.update m.name (toInt32 m.session) (toInt32 m.seq) with
      | mk flag tree =>
        rw [hupd] at hu
        cases flag with
        | true =>
          dsimp only
          split
          · exact key _ _ rfl hu.2 (fun _ => hu.1)
          · exact key _ _ rfl hu.2 (fun _ => hu.1)
        | false =>
          dsimp only
          exact key _ _ rfl hu.2 (fun _ => hu.1)
    · rw [if_neg ht]
      by_cases ht2 : m.type = .UPDATE_NO_NAME
      · rw [if_pos ht2]
        dsimp only
        split
        · have hu := update_rows s.digestTree_ (s.digestTree_.getSessionName (toInt32 m.session))
            (toInt32 m.session) (toInt32 m.seq)
          cases hupd : s.digestTree_.update (s.digestTree_.getSessionName (toInt32 m.session))
              (toInt32 m.session) (toInt32 m.seq) with
          | mk flag tree =>
            rw [hupd] at hu
            cases flag with
            | true =>
              dsimp only
              split
              · exact key _ _ rfl hu.2 (fun h => absurd h ht)
              · exact key _ _ rfl hu.2 (fun h => absurd h ht)
            | false =>
              dsimp only
              exact key _ _ rfl hu.2 (fun h => absurd h ht)
        · exact key _ _ rfl (fun _ _ h => h) (fun h => absurd h ht)
      · rw [if_neg ht2]
        exact key _ _ rfl (fun _ _ h => h) (fun h => absurd h ht)

theorem update_content_rows (s : Impl) (content : List Sync.SyncState) :
    (s.update content).2.calls_ = s.calls_ ∧
    (∀ p x, (s.digestTree_.stored p x).isSome = true →
      ((s.update content).2.digestTree_.stored p x).isSome = true) ∧
    ∀ m ∈ content, m.type = .UPDATE →
      ((s.update content).2.digestTree_.stored m.name (toInt32 m.session)).isSome = true :=
  updateLoop_rows content s 0

theorem update_false (st : ICTVectorState) (p : Str) (x q : Int)
    (h : (st.update p x q).1 = false) : (st.update p x q).2 = st := by
  by_contra hc
  rw [(update_flag st p x q).mpr hc] at h
  cases h

/-- The counter of the loop of `update(content)` does not decrease, and the
table is unchanged when the counter is. -/
theorem updateLoop_count : ∀ (content : List Sync.SyncState) (s : Impl) (k : Nat),
    k ≤ (updateLoop content s k).2 ∧
    ((updateLoop content s k).2 = k → (updateLoop content s k).1.digestTree_ = s.digestTree_)
  | [], s, k => ⟨Nat.le_refl _, fun _ => rfl⟩
  | m :: ms, s, k => by
    have kinc : ∀ s2 : Impl, k ≤ (updateLoop ms s2 (k + 1)).2 ∧
        ((updateLoop ms s2 (k + 1)).2 = k →
          (updateLoop ms s2 (k + 1)).1.digestTree_ = s.digestTree_) := by
      intro s2
      have h1 := (updateLoop_count ms s2 (k + 1)).1
      exact ⟨by omega, fun h => by omega⟩
    have ksame : ∀ s2 : Impl, s2.digestTree_ = s.digestTree_ →
        k ≤ (updateLoop ms s2 k).2 ∧
        ((updateLoop ms s2 k).2 = k → (updateLoop ms s2 k).1.digestTree_ = s.digestTree_) := by
      intro s2 h2
      obtain ⟨h1, h3⟩ := updateLoop_count ms s2 k
      exact ⟨h1, fun h => (h3 h).trans h2⟩
    unfold updateLoop
    by_cases ht : m.type = .UPDATE
    · rw [if_pos ht]
      have hf := update_false s.digestTree_ m.name (toInt32 m.session) (toInt32 m.seq)
      cases hupd : s.digestTree_.update m.name (toInt32 m.session) (toInt32 m.seq) with
      | mk flag tree =>
        rw [hupd] at hf
        cases flag with
        | true =>
          dsimp only
          split
          · exact kinc _
          · exact kinc _
        | false =>
          dsimp only
          exact ksame _ (hf rfl)
    · rw [if_neg ht]
      by_cases ht2 : m.type = .UPDATE_NO_NAME
      · rw [if_pos ht2]
        dsimp only
        split
        · have hf := update_false s.digestTree_
            (s.digestTree_.getSessionName (toInt32 m.session)) (toInt32 m.session)
            (toInt32 m.seq)
          cases hupd : s.digestTree_.update (s.digestTree_.getSessionName (toInt32 m.session))
              (toInt32 m.session) (toInt32 m.seq) with
          | mk flag tree =>
            rw [hupd] at hf
            cases flag with
            | true =>
              dsimp only
              split
              · exact kinc _
              · exact kinc _
            | false =>
              dsimp only
              exact ksame _ (hf rfl)
        · exact ksame _ rfl
      · rw [if_neg ht2]
        exact ksame _ rfl

/-- When `update(content)` returns false the table is unchanged. -/
theorem update_content_false (s : Impl) (content : List Sync.SyncState)
    (h : (s.update content).1 = false) : (s.update content).2.digestTree_ = s.digestTree_ := by
  unfold Impl.update at h ⊢
  cases hl : updateLoop content s 0 with
  | mk s1 n =>
    rw [hl] at h
    dsimp only at h ⊢
    have hc := (updateLoop_count content s 0).2
    rw [hl] at hc
    apply hc
    by_contra hne
    have : decide (n ≠ 0) = true := decide_eq_true hne
    rw [this] at h
    cases h

theorem getSessionName_row (st : ICTVectorState) (x : Int) (h : st.getSessionName x ≠ []) :
    (st.stored (st.getSessionName x) x).isSome = true := by
  rw [stored_isSome]
  unfold ICTVectorState.getSessionName at h ⊢
  cases hf : st.digestNode_.find? (fun n => decide (n.getSessionNo = x)) with
  | none =>
    rw [hf] at h
    exact absurd rfl h
  | some n =>
    have hp := List.find?_some hf
    exact ⟨n, List.mem_of_find?_eq_some hf, rfl, of_decide_eq_true hp⟩

/-- The loop of `onData` that prepares `appUpdates`: it returns, keeps the
table and records no `onReceivedSyncState` call; every entry it appends
carries the sequence the table stores for its key, -1 when there is no row; and
its key is that of an `UPDATE` entry of the content, or a session of the table
with the name of its first row. -/
theorem appUpdatesLoop_frame : ∀ (content : List Sync.SyncState) (s : Impl)
    (app : List SyncState),
    ∃ s2 app2 logs, appUpdatesLoop content s app = some (s2, app ++ app2) ∧
      s2.digestTree_ = s.digestTree_ ∧ s2.calls_ = s.calls_ ++ logs ∧
      s2.syncLifetime_ = s.syncLifetime_ ∧
      logs.filterMap Effect.received = [] ∧
      ∀ u ∈ app2,
        u.sequenceNo_ = (s.digestTree_.stored u.dataPrefixUri_ u.sessionNo_).getD (-1) ∧
        ((∃ m ∈ content, m.type = .UPDATE ∧ u.dataPrefixUri_ = m.name ∧
            u.sessionNo_ = toInt32 m.session) ∨
          (s.digestTree_.stored u.dataPrefixUri_ u.sessionNo_).isSome = true)
  | [], s, app => ⟨s, [], [], by simp [appUpdatesLoop], rfl, by simp, rfl, rfl,
      fun u hu => by cases hu⟩
  | m :: rest, s, app => by
    have lift : ∀ (app2 : List SyncState),
        (∀ u ∈ app2,
          u.sequenceNo_ = (s.digestTree_.stored u.dataPrefixUri_ u.sessionNo_).getD (-1) ∧
          ((∃ m1 ∈ rest, m1.type = .UPDATE ∧ u.dataPrefixUri_ = m1.name ∧
              u.sessionNo_ = toInt32 m1.session) ∨
            (s.digestTree_.stored u.dataPrefixUri_ u.sessionNo_).isSome = true)) →
        ∀ u ∈ app2,
          u.sequenceNo_ = (s.digestTree_.stored u.dataPrefixUri_ u.sessionNo_).getD (-1) ∧
          ((∃ m1 ∈ m :: rest, m1.type = .UPDATE ∧ u.dataPrefixUri_ = m1.name ∧
              u.sessionNo_ = toInt32 m1.session) ∨
            (s.digestTree_.stored u.dataPrefixUri_ u.sessionNo_).isSome = true) := by
      intro app2 h u hu
      obtain ⟨h1, h2⟩ := h u hu
      refine ⟨h1, ?_⟩
      rcases h2 with ⟨m1, hm1, h3⟩ | h2
      · exact Or.inl ⟨m1, List.mem_cons_of_mem _ hm1, h3⟩
      · exact Or.inr h2
    have key : ∀ X : SyncState,
        (X.sequenceNo_ = (s.digestTree_.stored X.dataPrefixUri_ X.sessionNo_).getD (-1) ∧
          ((∃ m1 ∈ m :: rest, m1.type = .UPDATE ∧ X.dataPrefixUri_ = m1.name ∧
              X.sessionNo_ = toInt32 m1.session) ∨
            (s.digestTree_.stored X.dataPrefixUri_ X.sessionNo_).isSome = true)) →
        ∃ s2 app2 logs, appUpdatesLoop rest s (app ++ [X]) = some (s2, app ++ app2) ∧
          s2.digestTree_ = s.digestTree_ ∧ s2.calls_ = s.calls_ ++ logs ∧
          s2.syncLifetime_ = s.syncLifetime_ ∧
          logs.filterMap Effect.received = [] ∧
          ∀ u ∈ app2,
            u.sequenceNo_ = (s.digestTree_.stored u.dataPrefixUri_ u.sessionNo_).getD (-1) ∧
            ((∃ m1 ∈ m :: rest, m1.type = .UPDATE ∧ u.dataPrefixUri_ = m1.name ∧
                u.sessionNo_ = toInt32 m1.session) ∨
              (s.digestTree_.stored u.dataPrefixUri_ u.sessionNo_).isSome = true) := by
      intro X hX
      obtain ⟨s2, app2, logs, h1, h2, h3, h4, h5, h6⟩ := appUpdatesLoop_frame rest s (app ++ [X])
      refine ⟨s2, X :: app2, logs, ?_, h2, h3, h4, h5, ?_⟩
      · rw [h1, List.append_assoc]
        rfl
      · intro u hu
        rcases List.mem_cons.mp hu with rfl | hu
        · exact hX
        · exact lift app2 h6 u hu
    unfold appUpdatesLoop
    by_cases ht : m.type = .UPDATE ∨ m.type = .UPDATE_NO_NAME
    · rw [if_pos ht]
      dsimp only
      by_cases hskip : m.type = .UPDATE_NO_NAME ∧
          (if m.type = .UPDATE_NO_NAME then s.digestTree_.getSessionName (toInt32 m.session)
            else m.name) = []
      · rw [if_pos hskip]
        obtain ⟨s2, app2, logs, h1, h2, h3, h4, h5, h6⟩ :=
          appUpdatesLoop_frame rest (s.log .logError) app
        exact ⟨s2, app2, [.logError] ++ logs, h1, h2, by rw [h3]; simp [Impl.log], h4,
          by rw [List.filterMap_append, h5]; rfl, lift app2 h6⟩
      · rw [if_neg hskip, getProducerSequenceNo_eq]
        dsimp only
        apply key
        refine ⟨rfl, ?_⟩
        dsimp only
        by_cases hnn : m.type = .UPDATE_NO_NAME
        · right
          rw [if_pos hnn]
          apply getSessionName_row
          intro hc
          apply hskip
          rw [if_pos hnn]
          exact ⟨hnn, hc⟩
        · left
          rw [if_neg hnn]
          rcases ht with ht | ht
          · exact ⟨m, List.mem_cons_self _ _, ht, rfl, rfl⟩
          · exact absurd ht hnn
    · rw [if_neg ht]
      obtain ⟨s2, app2, logs, h1, h2, h3, h4, h5, h6⟩ := appUpdatesLoop_frame rest s app
      exact ⟨s2, app2, logs, h1, h2, h3, h4, h5, lift app2 h6⟩

end ReportedUpdatesLoops


section OnDataReports

open ICTSync ICTSync.Impl

theorem sendSyncInterestName_received (s : Impl) (n : Name) (l now : Int) :
    ∃ calls, (s.sendSyncInterestName n l now).calls_ = s.calls_ ++ calls ∧
      calls.filterMap Effect.received = [] := by
  unfold sendSyncInterestName
  cases hlast : s.lastInterestId_ with
  | none =>
    dsimp only
    split
    · exact ⟨[.expressInterest ⟨n, l⟩ .sync, .schedule s.syncUpdateInterval_],
        by simp [Impl.log], rfl⟩
    · exact ⟨[.expressInterest ⟨n, l⟩ .sync], by simp [Impl.log], rfl⟩
  | some old =>
    dsimp only
    split
    · exact ⟨[.cancel old, .expressInterest ⟨n, l⟩ .sync, .schedule s.syncUpdateInterval_],
        by simp [Impl.log], rfl⟩
    · exact ⟨[.cancel old, .expressInterest ⟨n, l⟩ .sync], by simp [Impl.log], rfl⟩

theorem sendSyncInterest_received (s : Impl) (l now : Int) :
    (s.sendSyncInterest l now).digestTree_ = s.digestTree_ ∧
    ∃ calls, (s.sendSyncInterest l now).calls_ = s.calls_ ++ calls ∧
      calls.filterMap Effect.received = [] := by
  refine ⟨(sendSyncInterest_calls s l now).1, ?_⟩
  unfold sendSyncInterest
  dsimp only
  split
  · split
    · exact sendSyncInterestName_received _ _ _ _
    · exact ⟨[], by simp, rfl⟩
  · exact sendSyncInterestName_received _ _ _ _

theorem update_content_rows_eq (s : Impl) (content : List Sync.SyncState) (flag : Bool)
    (s4 : Impl) (h : s.update content = (flag, s4)) :
    s4.calls_ = s.calls_ ∧
    (∀ p x, (s.digestTree_.stored p x).isSome = true →
      (s4.digestTree_.stored p x).isSome = true) := by
  have hu := update_content_rows s content
  rw [h] at hu
  exact ⟨hu.1, hu.2.1⟩

/-- What `initialOnData` leaves: no `onReceivedSyncState` call, and a row for
the key of every `UPDATE` entry of the content. -/
theorem initialOnData_rows (s : Impl) (content : List Sync.SyncState) :
    (∃ calls, (s.initialOnData content).calls_ = s.calls_ ++ calls ∧
      calls.filterMap Effect.received = []) ∧
    ∀ m ∈ content, m.type = .UPDATE →
      ((s.initialOnData content).digestTree_.stored m.name (toInt32 m.session)).isSome = true := by
  obtain ⟨hc1, _, hr1⟩ := update_content_rows s content
  unfold initialOnData
  dsimp only
  split
  · split
    · rename_i s4 h4
      obtain ⟨hc2, hp2⟩ := update_content_rows_eq _ _ _ _ h4
      refine ⟨⟨[.onInitialized, .onInitialized], ?_, rfl⟩, ?_⟩
      · show s4.calls_ ++ [Effect.onInitialized] = _
        rw [hc2]
        show ((s.update content).2.calls_ ++ [Effect.onInitialized]) ++ [Effect.onInitialized] = _
        rw [hc1]
        simp
      · intro m hm ht
        exact hp2 _ _ (hr1 m hm ht)
    · rename_i s4 h4
      obtain ⟨hc2, hp2⟩ := update_content_rows_eq _ _ _ _ h4
      refine ⟨⟨[.onInitialized], ?_, rfl⟩, ?_⟩
      · rw [hc2]
        show (s.update content).2.calls_ ++ [Effect.onInitialized] = _
        rw [hc1]
      · intro m hm ht
        exact hp2 _ _ (hr1 m hm ht)
  · refine ⟨⟨[.onInitialized], ?_, rfl⟩, ?_⟩
    · show (s.update content).2.calls_ ++ [Effect.onInitialized] = _
      rw [hc1]
    · intro m hm ht
      exact hr1 m hm ht

theorem onDiscoveryData_calls (s : Impl) (interest : Interest) (content : List Sync.SyncState)
    (flag : Bool) (sa : Impl) (h : s.onDiscoveryData interest content = some (flag, sa)) :
    (∃ calls, sa.calls_ = s.calls_ ++ calls ∧ calls.filterMap Effect.received = []) ∧
    (flag = false → sa.digestTree_ = s.digestTree_) := by
  unfold onDiscoveryData at h
  split at h
  · cases h
    exact ⟨⟨[.logError], rfl, rfl⟩, fun _ => rfl⟩
  · split at h
    · cases h
    · split at h
      · cases h
      · split at h
        · cases h
        · split at h
          · cases h
          · dsimp only at h
            cases h
            refine ⟨⟨[], (List.append_nil _).symm, rfl⟩, ?_⟩
            intro hf
            dsimp only
            split at hf
            · rw [if_pos (by assumption)]
              exact update_false _ _ _ _ hf
            · rw [if_neg (by assumption)]
              exact update_false _ _ _ _ hf

end OnDataReports


section OnDataClaim

open ICTSync ICTSync.Impl

/-- C27, as the code has it: the engine `/a` in discovery mode has asked for
session 7; the data that answers `/s/DISCOVERY/7` carries the entries
`(/c, 7, 5)` and `(/d, 7, 9)`. Only the first one is applied, so the table has
no row for `(/d, 7)`, and the update reported for it carries the sequence
-1. -/
theorem onData_reports_counterexample :
    ((create ["a".toList] ["s".toList] 1 4000 (-1) true false 0 0).run
      [.initialTimeout ⟨["s".toList, "00".toList], 1000⟩ 1000,
       .onInterest ⟨["s".toList, "1,0;7,2;".toList], 4000⟩ false 1100,
       .onData ⟨["s".toList, "DISCOVERY".toList, "7".toList], 4000⟩
         ⟨["s".toList, "DISCOVERY".toList, "7".toList],
           some [⟨"/c".toList, .UPDATE, 5, 7, none⟩, ⟨"/d".toList, .UPDATE, 9, 7, none⟩],
           none⟩ 1200]).map
      (fun s => (s.digestTree_.digestNode_.map
          (fun n => (n.dataPrefix_, n.sessionNo_, n.sequenceNo_)),
        s.digestTree_.stored "/d".toList 7,
        s.calls_.filterMap Effect.received)) =
      some ([("/a".toList, 1, 0), ("/c".toList, 7, 5)], none,
        [([⟨"/c".toList, 7, 5, none⟩, ⟨"/d".toList, 7, -1, none⟩], false)]) := rfl

/-- C27 (amended): for an inbound data packet whose name has a component `c`
after the broadcast prefix, `onData` returns whenever `c` is not `DISCOVERY`;
and whenever it returns, every `onReceivedSyncState` call it makes has
`isRecovery = false` and every `SyncState` passed carries as its sequence the
value the table stores for its prefix and session after the payload was
applied, or -1 when the table has no row for that key, which does not happen
when `c` is not `DISCOVERY`; and when the table has changed there is exactly
one such call. -/
theorem onData_reports (s : Impl) (interest : Interest) (data : Data) (now : Int) (c : Str)
    (hget : Name.get data.name s.applicationBroadcastPrefix_.length = some c) :
    (Component.toUri c ≠ "DISCOVERY".toList → ∃ s1, s.onData interest data now = some s1) ∧
    ∀ s1, s.onData interest data now = some s1 →
      ∃ calls, s1.calls_ = s.calls_ ++ calls ∧
        (∀ l r, (l, r) ∈ calls.filterMap Effect.received → r = false ∧
          ∀ u ∈ l,
            u.sequenceNo_ =
              (s1.digestTree_.stored u.dataPrefixUri_ u.sessionNo_).getD (-1) ∧
            (Component.toUri c ≠ "DISCOVERY".toList →
              s1.digestTree_.stored u.dataPrefixUri_ u.sessionNo_ = some u.sequenceNo_)) ∧
        (s1.digestTree_ ≠ s.digestTree_ →
          ∃ l, calls.filterMap Effect.received = [(l, false)]) := by
  constructor
  · intro hnd
    unfold onData
    split
    · exact ⟨_, rfl⟩
    · rw [hget]
      dsimp only
      split
      · exact ⟨_, rfl⟩
      · split
        · exact ⟨_, rfl⟩
        · split
          · rename_i hr
            split at hr <;> cases hr
          · split
            · rename_i hr2
              split at hr2
              · obtain ⟨s2, app2, logs, hl, _⟩ :=
                  appUpdatesLoop_frame (data.content.getD []) (by assumption) []
                rw [hl] at hr2
                cases hr2
              · cases hr2
            · exact ⟨_, rfl⟩
  · intro s1 h
    unfold onData at h
    split at h
    · cases h
      exact ⟨[], (List.append_nil _).symm, (fun l r hm => by cases hm), fun hc => absurd rfl hc⟩
    · rw [hget] at h
      dsimp only at h
      split at h
      · cases h
        obtain ⟨ht, calls, hc, hr⟩ := sendSyncInterest_received s s.syncLifetime_ now
        refine ⟨calls, hc, ?_, fun hne => absurd ht hne⟩
        intro l r hm
        rw [hr] at hm
        cases hm
      · split at h
        · cases h
          exact ⟨[.logError], rfl, (fun l r hm => by cases hm), fun hc => absurd rfl hc⟩
        · split at h
          · cases h
          · rename_i isUpdated sa ha
            have hA : (∃ cA, sa.calls_ = s.calls_ ++ cA ∧ cA.filterMap Effect.received = []) ∧
                (isUpdated = false → sa.digestTree_ = s.digestTree_) ∧
                (Component.toUri c ≠ "DISCOVERY".toList →
                  ∀ m ∈ data.content.getD [], m.type = .UPDATE →
                    (sa.digestTree_.stored m.name (toInt32 m.session)).isSome = true) := by
              split at ha
              · rename_i hdisc
                obtain ⟨h1, h2⟩ := onDiscoveryData_calls _ _ _ _ _ ha
                exact ⟨h1, h2, fun hc => absurd hdisc hc⟩
              · split at ha
                · cases ha
                  obtain ⟨h1, h2⟩ := initialOnData_rows s (data.content.getD [])
                  exact ⟨h1, (fun hc => by cases hc), fun _ => h2⟩
                · have hu := update_content_rows s (data.content.getD [])
                  have hf := update_content_false s (data.content.getD [])
                  cases hup : s.update (data.content.getD []) with
                  | mk flag sx =>
                    rw [hup] at ha hu hf
                    cases ha
                    exact ⟨⟨[], by rw [hu.1]; simp, rfl⟩, hf, fun _ => hu.2.2⟩
            obtain ⟨⟨cA, hcA, hrA⟩, htA, hrowA⟩ := hA
            split at h
            · cases h
            · rename_i sb hb
              cases h
              obtain ⟨htS, cS, hcS, hrS⟩ := sendSyncInterest_received sb sb.syncLifetime_ now
              split at hb
              · split at hb
                · cases hb
                · rename_i sc app hc
                  cases hb
                  obtain ⟨s2, app2, logs, hl, ht2, hc2, _, hr2, hu2⟩ :=
                    appUpdatesLoop_frame (data.content.getD []) sa []
                  rw [hl] at hc
                  have hsc : s2 = sc := congrArg Prod.fst (Option.some.inj hc)
                  have happ : app2 = app := by
                    have := congrArg Prod.snd (Option.some.inj hc)
                    simpa using this
                  subst hsc
                  subst happ
                  have htree : ((s2.log (.onReceivedSyncState app2 false)).sendSyncInterest
                      (s2.log (.onReceivedSyncState app2 false)).syncLifetime_
                      now).digestTree_ = sa.digestTree_ := by
                    rw [htS]
                    exact ht2
                  have hrec : (cA ++ (logs ++ [Effect.onReceivedSyncState app2 false] ++ cS)).filterMap
                      Effect.received = [(app2, false)] := by
                    simp only [List.filterMap_append, hrA, hr2, hrS]
                    rfl
                  refine ⟨cA ++ (logs ++ [Effect.onReceivedSyncState app2 false] ++ cS), ?_, ?_,
                    fun _ => ⟨_, hrec⟩⟩
                  · rw [hcS]
                    show (s2.calls_ ++ [_]) ++ cS = _
                    rw [hc2, hcA]
                    simp
                  · intro l r hm
                    rw [hrec] at hm
                    cases List.mem_singleton.mp hm
                    refine ⟨rfl, ?_⟩
                    intro u hu
                    obtain ⟨h1, h2⟩ := hu2 u hu
                    rw [htree]
                    refine ⟨h1, ?_⟩
                    intro hnd
                    have hsome : (sa.digestTree_.stored u.dataPrefixUri_ u.sessionNo_).isSome =
                        true := by
                      rcases h2 with ⟨m, hm1, hm2, hm3, hm4⟩ | h2
                      · rw [hm3, hm4]
                        exact hrowA hnd m hm1 hm2
                      · exact h2
                    rw [h1]
                    cases hst : sa.digestTree_.stored u.dataPrefixUri_ u.sessionNo_ with
                    | none =>
                      rw [hst] at hsome
                      cases hsome
                    | some v => rfl
              · cases hb
                have hfalse : isUpdated = false := by
                  cases isUpdated
                  · rfl
                  · rename_i hn
                    exact absurd rfl hn
                refine ⟨cA ++ cS, ?_, ?_, ?_⟩
                · rw [hcS, hcA, List.append_assoc]
                · intro l r hm
                  rw [List.filterMap_append, hrA, hrS] at hm
                  cases hm
                · intro hne
                  exfalso
                  apply hne
                  rw [htS]
                  exact htA hfalse

/-- Witness of C27 (amended): the engine `/a` with the row `(/a, 1, 0)` handles
the data `/s/1,0;`; and after the entry `(/b, 2, 9)` has been learned, the data
with the entries `(/b, 2, 3)` and `(/c, 3, 1)` is reported with the sequence 9
of the table for `(/b, 2)`, not the 3 of the payload. -/
theorem onData_reports_witness :
    (∃ s1, ((create ["a".toList] ["s".toList] 1 4000 (-1) false false 0 0).initialTimeout
        ⟨["s".toList, "00".toList], 1000⟩ 1000).onData
          ⟨["s".toList, "1,0;".toList], 4000⟩
          ⟨["s".toList, "1,0;".toList], some [⟨"/b".toList, .UPDATE, 9, 2, none⟩], none⟩
          1100 = some s1) ∧
    ((create ["a".toList] ["s".toList] 1 4000 (-1) false false 0 0).run
      [.initialTimeout ⟨["s".toList, "00".toList], 1000⟩ 1000,
       .onData ⟨["s".toList, "1,0;".toList], 4000⟩
         ⟨["s".toList, "1,0;".toList], some [⟨"/b".toList, .UPDATE, 9, 2, none⟩], none⟩ 1100,
       .onData ⟨["s".toList, "1,0;2,9;".toList], 4000⟩
         ⟨["s".toList, "1,0;2,9;".toList],
           some [⟨"/b".toList, .UPDATE, 3, 2, none⟩, ⟨"/c".toList, .UPDATE, 1, 3, none⟩],
           none⟩ 1200]).map
      (fun s => s.calls_.filterMap Effect.received) =
      some [([⟨"/b".toList, 2, 9, none⟩], false),
        ([⟨"/b".toList, 2, 9, none⟩, ⟨"/c".toList, 3, 1, none⟩], false)] :=
  ⟨(onData_reports
      ((create ["a".toList] ["s".toList] 1 4000 (-1) false false 0 0).initialTimeout
        ⟨["s".toList, "00".toList], 1000⟩ 1000)
      ⟨["s".toList, "1,0;".toList], 4000⟩
      ⟨["s".toList, "1,0;".toList], some [⟨"/b".toList, .UPDATE, 9, 2, none⟩], none⟩
      1100 "1,0;".toList (by decide)).1 (by decide), rfl⟩

end OnDataClaim


/-! ## `sendSyncInterest` and the timer -/

section EngineTimer

open ICTSync ICTSync.Impl

theorem sendSyncInterestName_fields (s : Impl) (n : Name) (l now : Int) :
    (s.sendSyncInterestName n l now).lastSentDigest_ = s.lastSentDigest_ ∧
    (s.sendSyncInterestName n l now).nextInterestTs_ =
      (if s.syncUpdateInterval_ > 0 then toLong (now + s.syncUpdateInterval_)
       else s.nextInterestTs_) ∧
    (s.sendSyncInterestName n l now).syncUpdateInterval_ = s.syncUpdateInterval_ ∧
    ∃ calls, (s.sendSyncInterestName n l now).calls_ = s.calls_ ++ calls ∧
      calls.filterMap Effect.expressed = [(⟨n, l⟩, Callbacks.sync)] ∧
      calls.filterMap Effect.scheduled =
        (if s.syncUpdateInterval_ > 0 then [s.syncUpdateInterval_] else []) := by
  unfold sendSyncInterestName
  cases hlast : s.lastInterestId_ with
  | none =>
    dsimp only
    by_cases hi : s.syncUpdateInterval_ > 0
    · have hi2 : (s.log (.expressInterest ⟨n, l⟩ .sync)).syncUpdateInterval_ > 0 := hi
      rw [if_pos hi2, if_pos hi, if_pos hi]
      exact ⟨rfl, rfl, rfl, [.expressInterest ⟨n, l⟩ .sync, .schedule s.syncUpdateInterval_],
        by simp [Impl.log], rfl, rfl⟩
    · have hi2 : ¬(s.log (.expressInterest ⟨n, l⟩ .sync)).syncUpdateInterval_ > 0 := hi
      rw [if_neg hi2, if_neg hi, if_neg hi]
      exact ⟨rfl, rfl, rfl, [.expressInterest ⟨n, l⟩ .sync], by simp [Impl.log], rfl, rfl⟩
  | some old =>
    dsimp only
    by_cases hi : s.syncUpdateInterval_ > 0
    · have hi2 : ((s.log (.cancel old)).log (.expressInterest ⟨n, l⟩ .sync)).syncUpdateInterval_ > 0 :=
        hi
      rw [if_pos hi2, if_pos hi, if_pos hi]
      exact ⟨rfl, rfl, rfl,
        [.cancel old, .expressInterest ⟨n, l⟩ .sync, .schedule s.syncUpdateInterval_],
        by simp [Impl.log], rfl, rfl⟩
    · have hi2 :
          ¬((s.log (.cancel old)).log (.expressInterest ⟨n, l⟩ .sync)).syncUpdateInterval_ > 0 := hi
      rw [if_neg hi2, if_neg hi, if_neg hi]
      exact ⟨rfl, rfl, rfl, [.cancel old, .expressInterest ⟨n, l⟩ .sync],
        by simp [Impl.log], rfl, rfl⟩

theorem toLong_of_range (x : Int) (h : LONG_MIN ≤ x ∧ x ≤ LONG_MAX) : toLong x = x := by
  unfold LONG_MIN LONG_MAX at h
  unfold toLong
  omega

/-- What `sendSyncInterest(syncLifetime)` does when it sends. -/
theorem sendSyncInterest_sends (s : Impl) (l now : Int)
    (h : s.syncUpdateInterval_ ≤ 0 ∨ now ≥ s.nextInterestTs_) :
    s.sendSyncInterest l now =
      ({ s with lastSentDigest_ := s.digestTree_.getVectorRoot } : Impl).sendSyncInterestName
        (s.applicationBroadcastPrefix_ ++ [s.digestTree_.getVectorRoot]) l now := by
  unfold sendSyncInterest
  dsimp only
  by_cases hi : s.syncUpdateInterval_ > 0
  · rw [if_pos hi, if_pos (by omega)]
  · rw [if_neg hi]

/-- What `sendSyncInterest(syncLifetime)` does when it is throttled. -/
theorem sendSyncInterest_skips (s : Impl) (l now : Int)
    (h : ¬(s.syncUpdateInterval_ ≤ 0 ∨ now ≥ s.nextInterestTs_)) :
    s.sendSyncInterest l now = s := by
  unfold sendSyncInterest
  dsimp only
  rw [if_pos (by omega), if_neg (by omega)]

/-- C31, as the code has it. (1) An engine created at time 1000 with the update
interval -5 has `nextInterestTs_ = 1000`; `sendSyncInterest` at time 500, with
an interval other than 0 and `now < nextInterestTs_`, expresses the interest
`/s/00` and sets `lastSentDigest_`. (2) With the update interval 2^63 - 1 the
sum `now + interval` at `now = 1` does not fit the 64-bit type, and
`nextInterestTs_` becomes -2^63. -/
theorem sendSyncInterest_counterexample :
    ((create ["a".toList] ["s".toList] 1 4000 (-1) false false (-5) 1000).syncUpdateInterval_,
      (create ["a".toList] ["s".toList] 1 4000 (-1) false false (-5) 1000).nextInterestTs_,
      (create ["a".toList] ["s".toList] 1 4000 (-1) false false (-5) 1000).lastSentDigest_) =
      (-5, 1000, []) ∧
    ((((create ["a".toList] ["s".toList] 1 4000 (-1) false false (-5) 1000).sendSyncInterest
        4000 500).calls_.drop 3).filterMap Effect.expressed,
      ((create ["a".toList] ["s".toList] 1 4000 (-1) false false (-5) 1000).sendSyncInterest
        4000 500).lastSentDigest_) =
      ([(⟨["s".toList, "00".toList], 4000⟩, Callbacks.sync)], "00".toList) ∧
    ((create ["a".toList] ["s".toList] 1 4000 (-1) false false 9223372036854775807
        0).sendSyncInterest 4000 1).nextInterestTs_ = -9223372036854775808 := by
  refine ⟨by decide, by decide, by decide⟩

/-- C31 (amended): `sendSyncInterest(syncLifetime)` at time `now`. When the
update interval is not positive or `now ≥ nextInterestTs_` it expresses exactly
one interest, named `<broadcast prefix>/<current root>`, sets `lastSentDigest_`
to the current root and, when the update interval is positive, sets
`nextInterestTs_` to the 64-bit sum of `now` and the interval, which is
`now + interval` when that fits the type, and schedules one `checkForUpdate`;
with an interval that is not positive `nextInterestTs_` is unchanged and nothing
is scheduled. Otherwise it changes nothing: no interest, `lastSentDigest_` and
`nextInterestTs_` as before. -/
theorem sendSyncInterest_contract (s : Impl) (syncLifetime now : Int) :
    ((s.syncUpdateInterval_ ≤ 0 ∨ now ≥ s.nextInterestTs_) →
      (s.sendSyncInterest syncLifetime now).lastSentDigest_ = s.digestTree_.getVectorRoot ∧
      (s.sendSyncInterest syncLifetime now).digestTree_ = s.digestTree_ ∧
      (s.sendSyncInterest syncLifetime now).nextInterestTs_ =
        (if s.syncUpdateInterval_ > 0 then toLong (now + s.syncUpdateInterval_)
         else s.nextInterestTs_) ∧
      (LONG_MIN ≤ now + s.syncUpdateInterval_ ∧ now + s.syncUpdateInterval_ ≤ LONG_MAX →
        toLong (now + s.syncUpdateInterval_) = now + s.syncUpdateInterval_) ∧
      ∃ calls, (s.sendSyncInterest syncLifetime now).calls_ = s.calls_ ++ calls ∧
        calls.filterMap Effect.expressed =
          [(⟨s.applicationBroadcastPrefix_ ++ [s.digestTree_.getVectorRoot], syncLifetime⟩,
            Callbacks.sync)] ∧
        calls.filterMap Effect.scheduled =
          (if s.syncUpdateInterval_ > 0 then [s.syncUpdateInterval_] else [])) ∧
    (¬(s.syncUpdateInterval_ ≤ 0 ∨ now ≥ s.nextInterestTs_) →
      s.sendSyncInterest syncLifetime now = s) := by
  refine ⟨fun h => ?_, sendSyncInterest_skips s syncLifetime now⟩
  rw [sendSyncInterest_sends s syncLifetime now h]
  obtain ⟨h1, h2, _, calls, h4, h5, h6⟩ := sendSyncInterestName_fields
    ({ s with lastSentDigest_ := s.digestTree_.getVectorRoot } : Impl)
    (s.applicationBroadcastPrefix_ ++ [s.digestTree_.getVectorRoot]) syncLifetime now
  exact ⟨h1, (sendSyncInterestName_calls _ _ _ _).1, h2, toLong_of_range _, calls, h4, h5, h6⟩

/-- Witness of C31 (amended): the engine with the update interval 5000 created
at time 0 has `nextInterestTs_ = 6000` after its initial timeout at time 1000;
`sendSyncInterest` at time 6000 sends, at time 2000 it changes nothing. -/
theorem sendSyncInterest_contract_witness :
    (((create ["a".toList] ["s".toList] 1 4000 (-1) false false 5000 0).initialTimeout
        ⟨["s".toList, "00".toList], 1000⟩ 1000).sendSyncInterest 4000 6000).nextInterestTs_ =
      (if ((create ["a".toList] ["s".toList] 1 4000 (-1) false false 5000 0).initialTimeout
            ⟨["s".toList, "00".toList], 1000⟩ 1000).syncUpdateInterval_ > 0
       then toLong (6000 + ((create ["a".toList] ["s".toList] 1 4000 (-1) false false 5000
            0).initialTimeout ⟨["s".toList, "00".toList], 1000⟩ 1000).syncUpdateInterval_)
       else ((create ["a".toList] ["s".toList] 1 4000 (-1) false false 5000 0).initialTimeout
            ⟨["s".toList, "00".toList], 1000⟩ 1000).nextInterestTs_) ∧
    ((create ["a".toList] ["s".toList] 1 4000 (-1) false false 5000 0).initialTimeout
        ⟨["s".toList, "00".toList], 1000⟩ 1000).sendSyncInterest 4000 2000 =
      (create ["a".toList] ["s".toList] 1 4000 (-1) false false 5000 0).initialTimeout
        ⟨["s".toList, "00".toList], 1000⟩ 1000 :=
  ⟨((sendSyncInterest_contract _ 4000 6000).1 (Or.inr (by decide))).2.2.1,
   (sendSyncInterest_contract _ 4000 2000).2 (by decide)⟩

end EngineTimer


section EngineTimerTick

open ICTSync ICTSync.Impl

theorem sendSyncInterest_interval (s : Impl) (l now : Int) :
    (s.sendSyncInterest l now).syncUpdateInterval_ = s.syncUpdateInterval_ := by
  by_cases h : s.syncUpdateInterval_ ≤ 0 ∨ now ≥ s.nextInterestTs_
  · rw [sendSyncInterest_sends s l now h]
    exact (sendSyncInterestName_fields _ _ _ _).2.2.1
  · rw [sendSyncInterest_skips s l now h]

/-- C32, as the code has it. The engine of prefix `/a`, session 1, broadcast
prefix `/s` with an update interval of 5000 ms, created at time 0, has after its
initial timeout at time 1000 the root `"1,0;"`, `lastSentDigest_ = ""` and
`nextInterestTs_ = 6000`. At the timer tick at time 5000 the root differs from
`lastSentDigest_`, yet the tick expresses no interest: its only call is the
rescheduling of the timer, and `lastSentDigest_` stays `""`. -/
theorem checkForUpdate_counterexample :
    ((create ["a".toList] ["s".toList] 1 4000 (-1) false false 5000 0).run
        [.initialTimeout ⟨["s".toList, "00".toList], 1000⟩ 1000]).map
      (fun s => (s.digestTree_.getVectorRoot, s.lastSentDigest_, s.nextInterestTs_,
        s.calls_.length)) =
      some ("1,0;".toList, [], 6000, 6) ∧
    ((create ["a".toList] ["s".toList] 1 4000 (-1) false false 5000 0).run
        [.initialTimeout ⟨["s".toList, "00".toList], 1000⟩ 1000, .checkForUpdate 5000]).map
      (fun s => (s.digestTree_.getVectorRoot, s.lastSentDigest_, s.nextInterestTs_,
        s.calls_.drop 6)) =
      some ("1,0;".toList, [], 6000, [.schedule 5000]) := by
  refine ⟨by decide, by decide⟩

/-- C32 (amended): a `checkForUpdate` tick at time `now`. Its calls end with the
rescheduling of the timer after the update interval. Before that, when the root
differs from `lastSentDigest_` and the update interval is not positive or
`now ≥ nextInterestTs_`, exactly one interest is expressed, the sync interest
`<broadcast prefix>/<current root>` with the sync lifetime, and `lastSentDigest_`
becomes the root; in every other case (equal digests, or a positive interval
with `now < nextInterestTs_`) the tick makes no other call, expresses nothing
and leaves `lastSentDigest_` and `nextInterestTs_` as they were. -/
theorem checkForUpdate_contract (s : Impl) (now : Int) :
    ∃ calls,
      (s.checkForUpdate now).calls_ =
        s.calls_ ++ calls ++ [Effect.schedule s.syncUpdateInterval_] ∧
      calls.filterMap Effect.expressed =
        (if s.digestTree_.getVectorRoot ≠ s.lastSentDigest_ ∧
            (s.syncUpdateInterval_ ≤ 0 ∨ now ≥ s.nextInterestTs_)
         then [(⟨s.applicationBroadcastPrefix_ ++ [s.digestTree_.getVectorRoot],
                  s.syncLifetime_⟩, Callbacks.sync)]
         else []) ∧
      (s.digestTree_.getVectorRoot ≠ s.lastSentDigest_ ∧
          (s.syncUpdateInterval_ ≤ 0 ∨ now ≥ s.nextInterestTs_) →
        (s.checkForUpdate now).lastSentDigest_ = s.digestTree_.getVectorRoot) ∧
      (¬(s.digestTree_.getVectorRoot ≠ s.lastSentDigest_ ∧
          (s.syncUpdateInterval_ ≤ 0 ∨ now ≥ s.nextInterestTs_)) →
        calls = [] ∧ (s.checkForUpdate now).lastSentDigest_ = s.lastSentDigest_ ∧
        (s.checkForUpdate now).nextInterestTs_ = s.nextInterestTs_) := by
  unfold checkForUpdate
  dsimp only
  by_cases hd : s.digestTree_.getVectorRoot ≠ s.lastSentDigest_
  · rw [if_pos hd, sendSyncInterest_interval]
    by_cases h : s.syncUpdateInterval_ ≤ 0 ∨ now ≥ s.nextInterestTs_
    · rw [if_pos ⟨hd, h⟩, sendSyncInterest_sends s _ now h]
      obtain ⟨h1, _, _, calls, h4, h5, _⟩ := sendSyncInterestName_fields
        ({ s with lastSentDigest_ := s.digestTree_.getVectorRoot } : Impl)
        (s.applicationBroadcastPrefix_ ++ [s.digestTree_.getVectorRoot]) s.syncLifetime_ now
      refine ⟨calls, ?_, h5, fun _ => h1, fun hn => absurd ⟨hd, h⟩ hn⟩
      show _ ++ [_] = _
      rw [h4]
    · rw [if_neg (fun hc => h hc.2), sendSyncInterest_skips s _ now h]
      exact ⟨[], by simp [Impl.log], rfl, fun hc => absurd hc.2 h, fun _ => ⟨rfl, rfl, rfl⟩⟩
  · rw [if_neg hd, if_neg (fun hc => hd hc.1)]
    exact ⟨[], by simp [Impl.log], rfl, fun hc => absurd hc.1 hd, fun _ => ⟨rfl, rfl, rfl⟩⟩

/-- Witness of C32 (amended): the tick at time 5000 of the engine created at
time 0 with the update interval 5000, after its initial timeout at time 1000. -/
theorem checkForUpdate_contract_witness :
    ∃ calls,
      (((create ["a".toList] ["s".toList] 1 4000 (-1) false false 5000 0).initialTimeout
          ⟨["s".toList, "00".toList], 1000⟩ 1000).checkForUpdate 5000).calls_ =
        ((create ["a".toList] ["s".toList] 1 4000 (-1) false false 5000 0).initialTimeout
          ⟨["s".toList, "00".toList], 1000⟩ 1000).calls_ ++ calls ++
          [Effect.schedule ((create ["a".toList] ["s".toList] 1 4000 (-1) false false 5000
            0).initialTimeout ⟨["s".toList, "00".toList], 1000⟩ 1000).syncUpdateInterval_] ∧
      calls = [] :=
  (checkForUpdate_contract _ 5000).imp (fun _ h => ⟨h.1, (h.2.2.2 (by decide)).1⟩)

/-- C33, what the code does. With the default update interval 0, `initialize`
schedules `checkForUpdate` with the delay 0 (the third call of the constructed
engine); the tick at time 0 expresses the sync interest `/s/00` and schedules
the next tick with the delay 0, and so does every later tick: the second tick
adds nothing but `schedule 0`. Only the two-argument `sendSyncInterest` tests
the interval: on every state whose interval is not positive it schedules
nothing. -/
theorem zero_interval_schedules :
    (create ["a".toList] ["s".toList] 1 4000 (-1) false false 0 0).syncUpdateInterval_ = 0 ∧
    (create ["a".toList] ["s".toList] 1 4000 (-1) false false 0 0).calls_ =
      [.setInterestFilter ["s".toList],
       .expressInterest ⟨["s".toList, "00".toList], 1000⟩ .initial,
       .schedule 0] ∧
    ((create ["a".toList] ["s".toList] 1 4000 (-1) false false 0 0).run
        [.checkForUpdate 0]).map (fun s => s.calls_.drop 3) =
      some [.expressInterest ⟨["s".toList, "00".toList], 4000⟩ .sync, .schedule 0] ∧
    ((create ["a".toList] ["s".toList] 1 4000 (-1) false false 0 0).run
        [.checkForUpdate 0, .checkForUpdate 0]).map (fun s => s.calls_.drop 5) =
      some [.schedule 0] ∧
    (∀ (s : Impl) (now : Int), ∃ calls,
      (s.checkForUpdate now).calls_ = s.calls_ ++ calls ++ [.schedule s.syncUpdateInterval_]) ∧
    (∀ (s : Impl) (n : Name) (l now : Int), s.syncUpdateInterval_ ≤ 0 →
      ∃ calls, (s.sendSyncInterestName n l now).calls_ = s.calls_ ++ calls ∧
        calls.filterMap Effect.scheduled = []) := by
  refine ⟨rfl, rfl, rfl, rfl, ?_, ?_⟩
  · intro s now
    unfold checkForUpdate
    dsimp only
    by_cases hd : s.digestTree_.getVectorRoot ≠ s.lastSentDigest_
    · rw [if_pos hd, sendSyncInterest_interval]
      obtain ⟨_, calls, hc, _⟩ := sendSyncInterest_calls s s.syncLifetime_ now
      refine ⟨calls, ?_⟩
      show _ ++ [_] = _
      rw [hc]
    · rw [if_neg hd]
      exact ⟨[], by simp [Impl.log]⟩
  · intro s n l now hi
    obtain ⟨_, _, _, calls, h4, _, h6⟩ := sendSyncInterestName_fields s n l now
    refine ⟨calls, h4, ?_⟩
    rw [h6, if_neg (by omega)]

/-- The error path of `initialTimeout`: the sequence number is incremented
first, and when the result is not `initialPreviousSequenceNo_ + 1` the handler
logs the error and returns with the incremented value. -/
theorem initialTimeout_error (s : Impl) (interest : Interest) (now : Int)
    (hen : s.enabled_ = true)
    (hne : intAdd s.sequenceNo_ 1 ≠ intAdd s.initialPreviousSequenceNo_ 1) :
    s.initialTimeout interest now =
      ({ s with sequenceNo_ := intAdd s.sequenceNo_ 1 } : Impl).log .logError := by
  unfold initialTimeout
  simp only [hen, Bool.not_true, Bool.false_eq_true, if_false]
  rw [if_pos hne]

/-- C34, what the code does. The default engine of prefix `/a`, session 1 and
broadcast prefix `/s`, created at time 0, publishes at time 500 before its
initial interest timed out: own sequence number 0, table `{(/a, 1, 0)}`. The
initial timeout at time 1000 then reports the violation and inserts nothing,
invokes no `onInitialized` and expresses no interest (its only call is the
error report), but it returns with the own sequence number 1, not 0, while
the table still holds the sequence 0. The next publication takes the sequence
number 2, so that the sequence number 1 is never announced. -/
theorem initialTimeout_violation_increments :
    ((create ["a".toList] ["s".toList] 1 4000 (-1) false false 0 0).run
        [.publishNextSequenceNo (fun _ => false) 500]).map
      (fun s => (s.digestTree_.digestNode_.map
          (fun n => (n.dataPrefix_, n.sessionNo_, n.sequenceNo_)), s.sequenceNo_, s.initialPreviousSequenceNo_,
        s.calls_.length)) =
      some ([("/a".toList, 1, 0)], 0, -1, 4) ∧
    ((create ["a".toList] ["s".toList] 1 4000 (-1) false false 0 0).run
        [.publishNextSequenceNo (fun _ => false) 500,
         .initialTimeout ⟨["s".toList, "00".toList], 1000⟩ 1000]).map
      (fun s => (s.digestTree_.digestNode_.map
          (fun n => (n.dataPrefix_, n.sessionNo_, n.sequenceNo_)), s.sequenceNo_, s.calls_.drop 4)) =
      some ([("/a".toList, 1, 0)], 1, [.logError]) ∧
    ((create ["a".toList] ["s".toList] 1 4000 (-1) false false 0 0).run
        [.publishNextSequenceNo (fun _ => false) 500,
         .initialTimeout ⟨["s".toList, "00".toList], 1000⟩ 1000,
         .publishNextSequenceNo (fun _ => false) 1500]).map
      (fun s => (s.digestTree_.digestNode_.map
          (fun n => (n.dataPrefix_, n.sessionNo_, n.sequenceNo_)), s.sequenceNo_)) =
      some ([("/a".toList, 1, 2)], 2) ∧
    (∀ (s : Impl) (interest : Interest) (now : Int), s.enabled_ = true →
      intAdd s.sequenceNo_ 1 ≠ intAdd s.initialPreviousSequenceNo_ 1 →
      (s.initialTimeout interest now).sequenceNo_ = intAdd s.sequenceNo_ 1 ∧
      (s.initialTimeout interest now).digestTree_ = s.digestTree_ ∧
      (s.initialTimeout interest now).calls_ = s.calls_ ++ [.logError]) := by
  refine ⟨rfl, rfl, rfl, ?_⟩
  intro s interest now hen hne
  rw [initialTimeout_error s interest now hen hne]
  exact ⟨rfl, rfl, rfl⟩

end EngineTimerTick


/-! ## The order of `update` calls -/

section VectorOrder

theorem find?_skip {α : Type} (f : α → Bool) (x : α) (hx : f x = false) (l2 : List α) :
    ∀ l1 : List α, (l1 ++ x :: l2).find? f = (l1 ++ l2).find? f
  | [] => by simp [List.find?_cons, hx]
  | a :: l1 => by
    have ih := find?_skip f x hx l2 l1
    simp only [List.cons_append, List.find?_cons]
    rw [ih]

theorem find?_at {α : Type} (f : α → Bool) (x : α) (hx : f x = true) (l2 : List α) :
    ∀ l1 : List α, (∀ m ∈ l1, f m = false) → (l1 ++ x :: l2).find? f = some x
  | [], _ => by simp [List.find?_cons, hx]
  | a :: l1, h => by
    have ih := find?_at f x hx l2 l1 (fun m hm => h m (List.mem_cons_of_mem _ hm))
    simp only [List.cons_append, List.find?_cons]
    rw [h a (List.mem_cons_self _ _), ih]

/-- The sequence the table stores for a key after one `update`: for the key of
the call the larger of the stored and the given sequence (the given one when
there was no row), for every other key what was stored before. -/
theorem stored_update (st : ICTVectorState) (p : Str) (s q : Int) (p1 : Str) (s1 : Int) :
    (st.update p s q).2.stored p1 s1 =
      if p1 = p ∧ s1 = s then
        some (match st.stored p s with
          | some q0 => max q0 q
          | none => q)
      else st.stored p1 s1 := by
  have hnew : ∀ (p2 : Str) (s2 : Int),
      decide ((Node.new p s q).dataPrefix_ = p2 ∧ (Node.new p s q).sessionNo_ = s2) =
        decide (p = p2 ∧ s = s2) := fun _ _ => rfl
  rcases key_split p s st.digestNode_ with ha | ⟨l1, n, l2, hl, h1, hp, hs⟩
  · rw [update_of_absent st p s q ha]
    have hnone : st.stored p s = none := by
      unfold ICTVectorState.stored
      rw [List.find?_eq_none.mpr (fun m hm => by simpa using ha m hm)]
      rfl
    rw [hnone]
    unfold ICTVectorState.stored
    simp only [recomputeVectorRoot, vector_insert]
    by_cases hk : p1 = p ∧ s1 = s
    · rw [if_pos hk, hk.1, hk.2, find?_at _ (Node.new p s q) (by rw [hnew]; simp)]
      · rfl
      · intro m hm
        simpa using ha m (List.mem_of_mem_take hm)
    · rw [if_neg hk, find?_skip _ (Node.new p s q)
        (by rw [hnew]; simp; intro h1 h2; exact hk ⟨h1.symm, h2.symm⟩),
        List.take_append_drop]
  · have hst : st.stored p s = some n.sequenceNo_ := by
      unfold ICTVectorState.stored
      rw [hl, find?_at _ n (by simp [hp, hs]) l2 l1 (fun m hm => by simpa using h1 m hm)]
      rfl
    rw [update_of_match st p s q l1 n l2 hl h1 hp hs, hst]
    by_cases hk : p1 = p ∧ s1 = s
    · rw [if_pos hk, hk.1, hk.2]
      by_cases hq : n.sequenceNo_ < q
      · rw [if_pos hq]
        unfold ICTVectorState.stored
        simp only [recomputeVectorRoot]
        rw [find?_at _ (Node.new p s q) (by rw [hnew]; simp) l2 l1
          (fun m hm => by simpa using h1 m hm)]
        show some q = some (max n.sequenceNo_ q)
        rw [max_eq_right (Int.le_of_lt hq)]
      · rw [if_neg hq, hst]
        show some n.sequenceNo_ = some (max n.sequenceNo_ q)
        rw [max_eq_left (Int.not_lt.mp hq)]
    · rw [if_neg hk]
      by_cases hq : n.sequenceNo_ < q
      · rw [if_pos hq]
        unfold ICTVectorState.stored
        simp only [recomputeVectorRoot]
        rw [hl, find?_skip _ (Node.new p s q)
          (by rw [hnew]; simp; intro h1 h2; exact hk ⟨h1.symm, h2.symm⟩),
          find?_skip _ n (by simp [hp, hs]; intro h1 h2; exact hk ⟨h1.symm, h2.symm⟩)]
      · rw [if_neg hq]

theorem stored_cons (a : Node) (l : List Node) (p : Str) (s : Int) :
    (⟨a :: l, []⟩ : ICTVectorState).stored p s =
      if a.dataPrefix_ = p ∧ a.sessionNo_ = s then some a.sequenceNo_
      else (⟨l, []⟩ : ICTVectorState).stored p s := by
  unfold ICTVectorState.stored
  by_cases h : a.dataPrefix_ = p ∧ a.sessionNo_ = s
  · simp [List.find?_cons, h]
  · simp [List.find?_cons, h]

theorem stored_none_of_lt (k : Str × Int) :
    ∀ l : List Node, (∀ m ∈ l, keyLt k m.key) → (⟨l, []⟩ : ICTVectorState).stored k.1 k.2 = none
  | [], _ => rfl
  | a :: l, h => by
    rw [stored_cons, if_neg, stored_none_of_lt k l (fun m hm => h m (List.mem_cons_of_mem _ hm))]
    intro hk
    have hlt := h a (List.mem_cons_self _ _)
    have he : a.key = k := Prod.ext hk.1 hk.2
    rw [he] at hlt
    exact keyLt_irrefl k hlt

/-- Two strictly ascending node lists with right digests that store the same
sequence for every key are equal. -/
theorem stored_ext : ∀ (l l' : List Node), StrictlyAscending l → StrictlyAscending l' →
    DigestOk l → DigestOk l' →
    (∀ p s, (⟨l, []⟩ : ICTVectorState).stored p s = (⟨l', []⟩ : ICTVectorState).stored p s) →
    l = l'
  | [], [], _, _, _, _, _ => rfl
  | [], b :: bs, _, _, _, _, h => by
    have := h b.dataPrefix_ b.sessionNo_
    rw [stored_cons, if_pos ⟨rfl, rfl⟩] at this
    cases this
  | a :: as, [], _, _, _, _, h => by
    have := h a.dataPrefix_ a.sessionNo_
    rw [stored_cons, if_pos ⟨rfl, rfl⟩] at this
    cases this
  | a :: as, b :: bs, hs, hs', hd, hd', h => by
    have hA : (∀ m ∈ as, keyLt a.key m.key) ∧ StrictlyAscending as := List.pairwise_cons.mp hs
    have hB : (∀ m ∈ bs, keyLt b.key m.key) ∧ StrictlyAscending bs := List.pairwise_cons.mp hs'
    have hkey : a.key = b.key := by
      by_contra hne
      by_cases hlt : keyLt a.key b.key
      · have h1 := h a.dataPrefix_ a.sessionNo_
        rw [stored_cons, if_pos ⟨rfl, rfl⟩] at h1
        have h2 := stored_none_of_lt a.key (b :: bs) (by
          intro m hm
          rcases List.mem_cons.mp hm with rfl | hm
          · exact hlt
          · exact keyLt_trans hlt (hB.1 m hm))
        have h3 : (⟨b :: bs, []⟩ : ICTVectorState).stored a.dataPrefix_ a.sessionNo_ = none := h2
        rw [h3] at h1
        cases h1
      · have hgt := keyLt_total hlt hne
        have h1 := h b.dataPrefix_ b.sessionNo_
        rw [stored_cons b bs, if_pos ⟨rfl, rfl⟩] at h1
        have h2 := stored_none_of_lt b.key (a :: as) (by
          intro m hm
          rcases List.mem_cons.mp hm with rfl | hm
          · exact hgt
          · exact keyLt_trans hgt (hA.1 m hm))
        have h3 : (⟨a :: as, []⟩ : ICTVectorState).stored b.dataPrefix_ b.sessionNo_ = none := h2
        rw [h3] at h1
        cases h1
    have hp : a.dataPrefix_ = b.dataPrefix_ := congrArg Prod.fst hkey
    have hx : a.sessionNo_ = b.sessionNo_ := congrArg Prod.snd hkey
    have hq : a.sequenceNo_ = b.sequenceNo_ := by
      have h1 := h a.dataPrefix_ a.sessionNo_
      rw [stored_cons, if_pos ⟨rfl, rfl⟩, stored_cons, if_pos ⟨hp.symm, hx.symm⟩] at h1
      exact Option.some.inj h1
    have hab : a = b := by
      have h1 := hd a (List.mem_cons_self _ _)
      have h2 := hd' b (List.mem_cons_self _ _)
      cases a
      cases b
      simp only at hp hx hq h1 h2
      subst hp hx hq
      rw [← h2] at h1
      subst h1
      rfl
    subst hab
    congr 1
    apply stored_ext as bs hA.2 hB.2 (fun n hn => hd n (List.mem_cons_of_mem _ hn))
      (fun n hn => hd' n (List.mem_cons_of_mem _ hn))
    intro p s
    by_cases hk : a.dataPrefix_ = p ∧ a.sessionNo_ = s
    · have e : (p, s) = a.key := Prod.ext hk.1.symm hk.2.symm
      have h1 := stored_none_of_lt a.key as hA.1
      have h2 := stored_none_of_lt a.key bs hB.1
      rw [← e] at h1 h2
      exact h1.trans h2.symm
    · have h1 := h p s
      rw [stored_cons, if_neg hk, stored_cons, if_neg hk] at h1
      exact h1

/-- The invariant of the vector state that the order of `update` calls rests on:
the entries are strictly ascending by key, every stored digest is right, and
the root is the concatenation of the digests unless there is no entry. -/
theorem update_invariant (st : ICTVectorState) (p : Str) (s q : Int)
    (h : StrictlyAscending st.digestNode_ ∧ DigestOk st.digestNode_ ∧
      (st.digestNode_ ≠ [] → st.vectorRoot_ = encodeEntries st.digestNode_)) :
    StrictlyAscending (st.update p s q).2.digestNode_ ∧
    DigestOk (st.update p s q).2.digestNode_ ∧
    (st.update p s q).2.digestNode_ ≠ [] ∧
    (st.update p s q).2.vectorRoot_ = encodeEntries (st.update p s q).2.digestNode_ :=
  ⟨update_strictlyAscending st p s q h.1, update_digestOk st p s q h.2.1,
    update_root st p s q h.2.1 h.2.2⟩

/-- Two `update` calls on a state with the invariant commute. -/
theorem update_comm (st : ICTVectorState) (p1 : Str) (s1 q1 : Int) (p2 : Str) (s2 q2 : Int)
    (h : StrictlyAscending st.digestNode_ ∧ DigestOk st.digestNode_ ∧
      (st.digestNode_ ≠ [] → st.vectorRoot_ = encodeEntries st.digestNode_)) :
    ((st.update p1 s1 q1).2.update p2 s2 q2).2 = ((st.update p2 s2 q2).2.update p1 s1 q1).2 := by
  have ha := update_invariant st p1 s1 q1 h
  have hb := update_invariant st p2 s2 q2 h
  have hab := update_invariant _ p2 s2 q2 ⟨ha.1, ha.2.1, fun _ => ha.2.2.2⟩
  have hba := update_invariant _ p1 s1 q1 ⟨hb.1, hb.2.1, fun _ => hb.2.2.2⟩
  have hnodes : ((st.update p1 s1 q1).2.update p2 s2 q2).2.digestNode_ =
      ((st.update p2 s2 q2).2.update p1 s1 q1).2.digestNode_ := by
    apply stored_ext _ _ hab.1 hba.1 hab.2.1 hba.2.1
    intro p s
    show ((st.update p1 s1 q1).2.update p2 s2 q2).2.stored p s =
      ((st.update p2 s2 q2).2.update p1 s1 q1).2.stored p s
    rw [stored_update, stored_update, stored_update, stored_update, stored_update,
      stored_update]
    by_cases hk1 : p = p1 ∧ s = s1
    · by_cases hk2 : p = p2 ∧ s = s2
      · have e1 : p2 = p1 := hk2.1.symm.trans hk1.1
        have e2 : s2 = s1 := hk2.2.symm.trans hk1.2
        subst e1 e2
        simp only [and_self, if_true]
        rw [if_pos hk1, if_pos hk1]
        congr 1
        cases st.stored p2 s2 with
        | none => exact max_comm _ _
        | some q0 =>
          show max (max q0 q1) q2 = max (max q0 q2) q1
          rw [max_assoc, max_comm q1 q2, ← max_assoc]
      · have hk3 : ¬(p1 = p2 ∧ s1 = s2) := fun hc =>
          hk2 ⟨hk1.1.trans hc.1, hk1.2.trans hc.2⟩
        have hk4 : ¬(p2 = p1 ∧ s2 = s1) := fun hc => hk3 ⟨hc.1.symm, hc.2.symm⟩
        rw [if_neg hk2, if_pos hk1, if_pos hk1, if_neg hk3]
    · by_cases hk2 : p = p2 ∧ s = s2
      · have hk3 : ¬(p2 = p1 ∧ s2 = s1) := fun hc =>
          hk1 ⟨hk2.1.trans hc.1, hk2.2.trans hc.2⟩
        rw [if_pos hk2, if_neg hk1, if_neg hk3, if_pos hk2]
      · rw [if_neg hk2, if_neg hk1, if_neg hk1, if_neg hk2]
  have hroot : ((st.update p1 s1 q1).2.update p2 s2 q2).2.vectorRoot_ =
      ((st.update p2 s2 q2).2.update p1 s1 q1).2.vectorRoot_ := by
    rw [hab.2.2.2, hba.2.2.2, hnodes]
  cases hx : ((st.update p1 s1 q1).2.update p2 s2 q2).2 with
  | mk n1 r1 =>
    cases hy : ((st.update p2 s2 q2).2.update p1 s1 q1).2 with
    | mk n2 r2 =>
      rw [hx, hy] at hnodes hroot
      simp only at hnodes hroot
      rw [hnodes, hroot]

theorem applyUpdates_perm {cs ds : List (Str × Int × Int)} (hp : cs.Perm ds) :
    ∀ st : ICTVectorState,
      (StrictlyAscending st.digestNode_ ∧ DigestOk st.digestNode_ ∧
        (st.digestNode_ ≠ [] → st.vectorRoot_ = encodeEntries st.digestNode_)) →
      applyUpdates st cs = applyUpdates st ds := by
  induction hp with
  | nil => intro st _; rfl
  | cons c _ ih =>
    intro st h
    have hu := update_invariant st c.1 c.2.1 c.2.2 h
    exact ih _ ⟨hu.1, hu.2.1, fun _ => hu.2.2.2⟩
  | swap c d l =>
    intro st h
    show applyUpdates ((st.update d.1 d.2.1 d.2.2).2.update c.1 c.2.1 c.2.2).2 l =
      applyUpdates ((st.update c.1 c.2.1 c.2.2).2.update d.1 d.2.1 d.2.2).2 l
    rw [update_comm st d.1 d.2.1 d.2.2 c.1 c.2.1 c.2.2 h]
  | trans _ _ ih1 ih2 =>
    intro st h
    exact (ih1 st h).trans (ih2 st h)

/-- C35: in every reachable vector state the root is `"00"` if and only if the
state has no entry; the fresh state has the root `"00"`, and the state after an
`update` call has a root other than `"00"` (and so has every later state,
which is itself the state after an `update` call). -/
theorem root_00_iff_empty (st : ICTVectorState) (h : Reachable st) :
    (st.getVectorRoot = "00".toList ↔ st.digestNode_ = []) ∧
    ICTVectorState.new.getVectorRoot = "00".toList ∧
    ∀ (p : Str) (s q : Int), isInt s → isInt q →
      (st.update p s q).2.digestNode_ ≠ [] ∧
      (st.update p s q).2.getVectorRoot ≠ "00".toList := by
  refine ⟨reachable_root_00 h, rfl, ?_⟩
  intro p s q hs hq
  have hne := (update_root st p s q (reachable_digestOk h) (reachable_root h).2).1
  exact ⟨hne, fun h0 => hne ((reachable_root_00 (Reachable.update p s q h hs hq)).mp h0)⟩

/-- Witness of C35: the state after `update("/a", 1, 0)`, whose root is
`"1,0;"`, and the state after one more call. -/
theorem root_00_iff_empty_witness :
    Reachable (ICTVectorState.new.update "/a".toList 1 0).2 ∧
    (ICTVectorState.new.update "/a".toList 1 0).2.getVectorRoot = "1,0;".toList ∧
    ((ICTVectorState.new.update "/a".toList 1 0).2.getVectorRoot = "00".toList ↔
      (ICTVectorState.new.update "/a".toList 1 0).2.digestNode_ = []) ∧
    ((ICTVectorState.new.update "/a".toList 1 0).2.update "/b".toList 2 5).2.getVectorRoot ≠
      "00".toList :=
  ⟨Reachable.update _ _ _ Reachable.init (by decide) (by decide), by decide,
    (root_00_iff_empty _
      (Reachable.update _ _ _ Reachable.init (by decide) (by decide))).1,
    ((root_00_iff_empty _
      (Reachable.update _ _ _ Reachable.init (by decide) (by decide))).2.2
        "/b".toList 2 5 (by decide) (by decide)).2⟩

/-- C36: `update` is order-independent. On every reachable vector state two
`update` calls give the same state, entry list and root, in either order; and
two lists of `update` calls that are permutations of each other lead from the
same reachable state to the same state, so two participants that start fresh
and receive the same updates in different orders hold the same entries and the
same root. -/
theorem update_order_independent (st : ICTVectorState) (h : Reachable st)
    (p1 : Str) (s1 q1 : Int) (p2 : Str) (s2 q2 : Int) :
    ((st.update p1 s1 q1).2.update p2 s2 q2).2.digestNode_ =
      ((st.update p2 s2 q2).2.update p1 s1 q1).2.digestNode_ ∧
    ((st.update p1 s1 q1).2.update p2 s2 q2).2.getVectorRoot =
      ((st.update p2 s2 q2).2.update p1 s1 q1).2.getVectorRoot ∧
    ∀ cs ds : List (Str × Int × Int), cs.Perm ds →
      (applyUpdates st cs).digestNode_ = (applyUpdates st ds).digestNode_ ∧
      (applyUpdates st cs).getVectorRoot = (applyUpdates st ds).getVectorRoot := by
  have hinv := And.intro (reachable_strictlyAscending h)
    (And.intro (reachable_digestOk h) (reachable_root h).2)
  have hc := update_comm st p1 s1 q1 p2 s2 q2 hinv
  refine ⟨congrArg ICTVectorState.digestNode_ hc, congrArg ICTVectorState.getVectorRoot hc, ?_⟩
  intro cs ds hp
  have := applyUpdates_perm hp st hinv
  exact ⟨congrArg ICTVectorState.digestNode_ this, congrArg ICTVectorState.getVectorRoot this⟩

/-- Witness of C36: on the state `{(/a, 1, 0), (/b, 2, 5)}` the calls
`update("/a", 1, 7)` and `update("/c", 1, 3)` in either order. -/
theorem update_order_independent_witness :
    Reachable (applyUpdates ICTVectorState.new [("/a".toList, 1, 0), ("/b".toList, 2, 5)]) ∧
    (((applyUpdates ICTVectorState.new [("/a".toList, 1, 0), ("/b".toList, 2, 5)]).update
        "/a".toList 1 7).2.update "/c".toList 1 3).2.getVectorRoot =
      (((applyUpdates ICTVectorState.new [("/a".toList, 1, 0), ("/b".toList, 2, 5)]).update
        "/c".toList 1 3).2.update "/a".toList 1 7).2.getVectorRoot ∧
    (((applyUpdates ICTVectorState.new [("/a".toList, 1, 0), ("/b".toList, 2, 5)]).update
        "/a".toList 1 7).2.update "/c".toList 1 3).2.getVectorRoot = "1,7;2,5;1,3;".toList :=
  ⟨Reachable.update _ _ _ (Reachable.update _ _ _ Reachable.init (by decide) (by decide))
      (by decide) (by decide),
    (update_order_independent _
      (Reachable.update _ _ _ (Reachable.update _ _ _ Reachable.init (by decide) (by decide))
        (by decide) (by decide)) "/a".toList 1 7 "/c".toList 1 3).2.1,
    by decide⟩

end VectorOrder


/-! ## The two sides of a diff, the own row, and the signs of the sequences -/

section DiffDuality

open ICTSync ICTSync.Impl

theorem sessions257_reachable : Reachable (applyUpdates ICTVectorState.new (sessionCalls 257)) :=
  reachable_applyUpdates _ _ Reachable.init (sessionCalls_isInt 257 (by decide))

theorem sessions257_parse :
    parse_into_vec (unescape (applyUpdates ICTVectorState.new (sessionCalls 257)).vectorRoot_) =
      (sessionNodes 257).map entryPair := by
  rw [parse_own_root sessions257_reachable, applyUpdates_sessionCalls]

theorem sessions257_rows :
    (applyUpdates ICTVectorState.new (sessionCalls 257)).digestNode_.map
        (fun n => (n.sessionNo_, n.sequenceNo_)) =
      (List.range 257).map (fun (k : Nat) => (Int.ofNat k, 1)) := by
  rw [applyUpdates_sessionCalls]
  decide!

theorem sessions257_last :
    (applyUpdates ICTVectorState.new (sessionCalls 257)).digestNode_.get? 256 =
      some (Node.new "/a".toList 256 1) := by
  rw [applyUpdates_sessionCalls]
  decide!

theorem sessions257_positive :
    ((applyUpdates ICTVectorState.new (sessionCalls 257)).getDiff
        (ICTVectorState.new.update "/a".toList 0 1).2.vectorRoot_).positiveLocalIndexes =
      List.range' 1 255 ++ [0] := by
  rw [getDiff_positive_of_nodes, applyUpdates_sessionCalls]
  decide!

theorem sessions257_not_positive :
    256 ∉ ((applyUpdates ICTVectorState.new (sessionCalls 257)).getDiff
        (ICTVectorState.new.update "/a".toList 0 1).2.vectorRoot_).positiveLocalIndexes := by
  rw [sessions257_positive]
  decide!

theorem sessions257_negative :
    ((ICTVectorState.new.update "/a".toList 0 1).2.getDiff
        (applyUpdates ICTVectorState.new (sessionCalls 257)).vectorRoot_).negativeInLocal = [] := by
  rw [(getDiff_eq _ _).2.1, sessions257_parse]
  decide!

theorem sessions257_unknown :
    (256, 1) ∈ ((ICTVectorState.new.update "/a".toList 0 1).2.getDiff
        (applyUpdates ICTVectorState.new (sessionCalls 257)).vectorRoot_).unknownSessions := by
  rw [(getDiff_eq _ _).2.2.1, sessions257_parse]
  decide!

/-- C38, the code at a failing input. The engine of prefix `/a`, session 1 and
broadcast prefix `/s` with the defaults has after its initial timeout the own
row `(/a, 1) → 0` and `getSequenceNo() = 0`. The sync interest `/s/1,7;` makes
`processInterestUpdates` raise the own row to 7, while `getSequenceNo()` stays
0: the state is reachable, the table holds an entry for the own prefix and
session, and its sequence is not the own sequence number. -/
theorem own_row_differs_from_sequenceNo :
    (∀ s, (create ["a".toList] ["s".toList] 1 4000 (-1) false false 0 0).run
        [.initialTimeout ⟨["s".toList, "00".toList], 1000⟩ 1000,
         .onInterest ⟨["s".toList, "1,7;".toList], 4000⟩ false 1100] = some s →
      ICTSync.Reachable s) ∧
    ((create ["a".toList] ["s".toList] 1 4000 (-1) false false 0 0).run
        [.initialTimeout ⟨["s".toList, "00".toList], 1000⟩ 1000]).map
      (fun s => (s.digestTree_.stored s.applicationDataPrefixUri_ s.sessionNo_,
        s.getSequenceNo)) =
      some (some 0, 0) ∧
    ((create ["a".toList] ["s".toList] 1 4000 (-1) false false 0 0).run
        [.initialTimeout ⟨["s".toList, "00".toList], 1000⟩ 1000,
         .onInterest ⟨["s".toList, "1,7;".toList], 4000⟩ false 1100]).map
      (fun s => (s.applicationDataPrefixUri_, s.sessionNo_,
        s.digestTree_.stored s.applicationDataPrefixUri_ s.sessionNo_, s.getSequenceNo)) =
      some ("/a".toList, 1, some 7, 0) := by
  refine ⟨?_, by decide, by decide⟩
  intro s hs
  refine reachable_run _ _ _
    (ICTSync.Reachable.create ["a".toList] ["s".toList] 1 4000 (-1) false false 0 0
      (by decide) (by decide)) ?_ hs
  intro e he
  simp only [List.mem_cons, List.mem_singleton, List.not_mem_nil, or_false] at he
  rcases he with rfl | rfl <;> exact True.intro

/-- C39, the code at a failing input. The local state holds the row
`(/a, 1) → 0`; the remote digest `"1,-1;"` is the root of a state whose row of
session 1 has the sequence -1. `getDiff` parses the pair `(1, 4294967295)` and,
comparing unsigned values, puts it into the negative list; `update` with the
pair's values as `int`s, session 1 and sequence -1, compares signed values,
returns false and leaves the row at 0. On the engine `/a` (session 1) that
holds the row `(/b, 2) → 0`, the sync interest `/s/1,0;2,-1;` leaves the table
as it is and reports the sequence -1 for `(/b, 2)` to the application. -/
theorem negative_pair_rejected :
    Reachable (ICTVectorState.new.update "/a".toList 1 0).2 ∧
    (ICTVectorState.new.update "/a".toList 1 (-1)).2.getVectorRoot = "1,-1;".toList ∧
    parse_into_vec (unescape "1,-1;".toList) = [(1, 4294967295)] ∧
    ((ICTVectorState.new.update "/a".toList 1 0).2.getDiff "1,-1;".toList).negativeInLocal =
      [(1, 4294967295)] ∧
    (toInt32 1, toInt32 4294967295) = (1, -1) ∧
    (ICTVectorState.new.update "/a".toList 1 0).2.update "/a".toList (toInt32 1)
        (toInt32 4294967295) =
      (false, (ICTVectorState.new.update "/a".toList 1 0).2) ∧
    (ICTVectorState.new.update "/a".toList 1 0).2.stored "/a".toList 1 = some 0 ∧
    ((create ["a".toList] ["s".toList] 1 4000 (-1) false false 0 0).run
        [.initialTimeout ⟨["s".toList, "00".toList], 1000⟩ 1000,
         .onData ⟨["s".toList, "1,0;".toList], 4000⟩
           ⟨["s".toList, "1,0;".toList], some [⟨"/b".toList, .UPDATE, 0, 2, none⟩], none⟩
           1100]).map
      (fun s => (s.digestTree_.getVectorRoot, s.digestTree_.stored "/b".toList 2,
        s.calls_.length)) =
      some ("1,0;2,0;".toList, some 0, 8) ∧
    ((create ["a".toList] ["s".toList] 1 4000 (-1) false false 0 0).run
        [.initialTimeout ⟨["s".toList, "00".toList], 1000⟩ 1000,
         .onData ⟨["s".toList, "1,0;".toList], 4000⟩
           ⟨["s".toList, "1,0;".toList], some [⟨"/b".toList, .UPDATE, 0, 2, none⟩], none⟩
           1100,
         .onInterest ⟨["s".toList, "1,0;2,-1;".toList], 4000⟩ false 1200]).map
      (fun s => (s.digestTree_.getVectorRoot, s.digestTree_.stored "/b".toList 2,
        (s.calls_.drop 8).filterMap Effect.received)) =
      some ("1,0;2,0;".toList, some 0, [([⟨"/b".toList, 2, -1, none⟩], false)]) := by
  refine ⟨Reachable.update _ _ _ Reachable.init (by decide) (by decide), by decide, by decide,
    by decide, by decide, by decide, by decide, rfl, rfl⟩

end DiffDuality


/-! ## The positive list read back by `sendSyncData` -/

section PositiveReadBack

open ICTSync ICTSync.Impl

theorem sessions257_positive_1000 :
    ((applyUpdates ICTVectorState.new (sessionCalls 257)).getDiff
      "1000,1;".toList).positiveLocalIndexes = List.range 256 ++ [0] := by
  rw [getDiff_positive_of_nodes, applyUpdates_sessionCalls]
  decide!

theorem sessions257_read_back :
    ((List.range 256 ++ [0]).filterMap
      (fun i => ((sessionNodes 257).get? i).map Node.toUpdate)).map
        (fun (m : Sync.SyncState) => m.session) =
      List.range 256 ++ [0] := by
  decide!

theorem sessions257_indexes : ∀ i ∈ List.range 256 ++ [0], i < (sessionNodes 257).length := by
  decide!

/-- What `sendSyncData` puts for the positive list of the digest `"1000,1;"` on
an engine with the table of 257 sessions, not in discovery mode and with
`noData_` off: one packet whose entries carry the sessions `0, ..., 255, 0`. -/
theorem sendSyncData_sessions257 (s : Impl) (sendName : Bool)
    (hT : s.digestTree_ = applyUpdates ICTVectorState.new (sessionCalls 257))
    (hn : s.noData_ = false) (hd : s.isDiscovery_ = false) :
    ∃ content : List Sync.SyncState,
      s.sendSyncData "1000,1;".toList
          (s.digestTree_.getDiff "1000,1;".toList).positiveLocalIndexes sendName =
        some (true, s.log (.put ⟨s.applicationBroadcastPrefix_ ++ ["1000,1;".toList],
          some content, none⟩)) ∧
      content.length = 257 ∧
      content.map (fun m => m.session) = List.range 256 ++ [0] ∧
      256 ∉ content.map (fun m => m.session) := by
  have hnodes : s.digestTree_.digestNode_ = sessionNodes 257 := by
    rw [hT, applyUpdates_sessionCalls]
  have hpos : (s.digestTree_.getDiff "1000,1;".toList).positiveLocalIndexes =
      List.range 256 ++ [0] := by
    rw [hT]
    exact sessions257_positive_1000
  have hi : ∀ i ∈ List.range 256 ++ [0], i < s.digestTree_.digestNode_.length := by
    rw [hnodes]
    exact sessions257_indexes
  have hne : List.range 256 ++ [0] ≠ [] := by
    intro hc
    have := congrArg List.length hc
    simp at this
  have hu : unescape "1000,1;".toList = "1000,1;".toList := by decide
  rw [hpos, sendSyncData_eq s _ _ sendName hn hi, hnodes, hd, if_neg hne, hu]
  refine ⟨(List.range 256 ++ [0]).filterMap
    (fun i => ((sessionNodes 257).get? i).map Node.toUpdate), ?_, ?_, sessions257_read_back, ?_⟩
  · simp [hne, Impl.log, Impl.withCalls]
  · have := congrArg List.length sessions257_read_back
    rw [List.length_map] at this
    rw [this]
    decide!
  · rw [sessions257_read_back]
    decide!

end PositiveReadBack


section DataTable

open ICTSync ICTSync.Impl

theorem updateLoop_flags : ∀ (content : List Sync.SyncState) (s : Impl) (k : Nat),
    ((updateLoop content s k).1.isDiscovery_, (updateLoop content s k).1.noData_,
        (updateLoop content s k).1.enabled_,
        (updateLoop content s k).1.applicationBroadcastPrefix_) =
      (s.isDiscovery_, s.noData_, s.enabled_, s.applicationBroadcastPrefix_)
  | [], _, _ => rfl
  | m :: ms, s, k => by
    unfold updateLoop
    repeat' (first | rfl | rw [updateLoop_flags ms] | split | dsimp only)

theorem applyUpdates_cons (st : ICTVectorState) (c : Str × Int × Int)
    (cs : List (Str × Int × Int)) :
    applyUpdates st (c :: cs) = applyUpdates (st.update c.1 c.2.1 c.2.2).2 cs := rfl

/-- The table after the loop of `update(content)` over `UPDATE` entries is the
table after the `update` calls of the entries, in order. -/
theorem updateLoop_tree : ∀ (content : List Sync.SyncState) (s : Impl) (k : Nat),
    (∀ m ∈ content, m.type = .UPDATE) →
    (updateLoop content s k).1.digestTree_ =
      applyUpdates s.digestTree_
        (content.map (fun m => (m.name, toInt32 m.session, toInt32 m.seq)))
  | [], _, _, _ => rfl
  | m :: ms, s, k, h => by
    have hm : m.type = .UPDATE := h m (List.mem_cons_self _ _)
    have ih := fun s2 k2 => updateLoop_tree ms s2 k2 (fun x hx => h x (List.mem_cons_of_mem _ hx))
    rw [List.map_cons, applyUpdates_cons]
    unfold updateLoop
    rw [if_pos hm]
    split
    · rename_i tree hu
      dsimp only
      have ht : (s.digestTree_.update m.name (toInt32 m.session) (toInt32 m.seq)).2 = tree := by
        rw [hu]
      rw [ih, ht]
      split <;> rfl
    · rename_i tree hu
      have ht : (s.digestTree_.update m.name (toInt32 m.session) (toInt32 m.seq)).2 = tree := by
        rw [hu]
      rw [ih, ht]

theorem appUpdatesLoop_flags : ∀ (content : List Sync.SyncState) (s : Impl)
    (app : List SyncState) (s1 : Impl) (app1 : List SyncState),
    appUpdatesLoop content s app = some (s1, app1) →
    (s1.isDiscovery_, s1.noData_, s1.enabled_, s1.applicationBroadcastPrefix_) =
      (s.isDiscovery_, s.noData_, s.enabled_, s.applicationBroadcastPrefix_)
  | [], s, app, s1, app1, h => by
    unfold appUpdatesLoop at h
    cases h; rfl
  | m :: rest, s, app, s1, app1, h => by
    have ih := appUpdatesLoop_flags rest
    unfold appUpdatesLoop at h
    repeat' (first | exact ih _ _ _ _ h | exact (ih _ _ _ _ h).trans rfl | cases h | split at h | dsimp only at h)

/-- A sync data packet of `UPDATE` entries on an enabled engine that is
bootstrapped and not in discovery mode: `onData` returns, and the table is the
one after the `update` calls of the entries, in order. -/
theorem onData_sync_table (s : Impl) (interest : Interest) (data : Data) (now : Int) (c : Str)
    (hen : s.enabled_ = true) (hd : s.isDiscovery_ = false)
    (hget : Name.get data.name s.applicationBroadcastPrefix_.length = some c)
    (hc : Component.toUri c ≠ "DISCOVERY".toList)
    (hroot : s.digestTree_.getVectorRoot ≠ "00".toList)
    (hall : ∀ m ∈ data.content.getD [], m.type = .UPDATE) :
    ∃ s1, s.onData interest data now = some s1 ∧
      s1.digestTree_ = applyUpdates s.digestTree_
        ((data.content.getD []).map (fun m => (m.name, toInt32 m.session, toInt32 m.seq))) ∧
      s1.isDiscovery_ = false ∧ s1.noData_ = s.noData_ ∧ s1.enabled_ = true ∧
      s1.applicationBroadcastPrefix_ = s.applicationBroadcastPrefix_ := by
  have htree : (s.update (data.content.getD [])).2.digestTree_ =
      applyUpdates s.digestTree_
        ((data.content.getD []).map (fun m => (m.name, toInt32 m.session, toInt32 m.seq))) :=
    updateLoop_tree _ s 0 hall
  have hflags : ((s.update (data.content.getD [])).2.isDiscovery_,
      (s.update (data.content.getD [])).2.noData_, (s.update (data.content.getD [])).2.enabled_,
      (s.update (data.content.getD [])).2.applicationBroadcastPrefix_) =
      (s.isDiscovery_, s.noData_, s.enabled_, s.applicationBroadcastPrefix_) :=
    updateLoop_flags _ s 0
  have hsend : ∀ x : Impl,
      x.digestTree_ = applyUpdates s.digestTree_
        ((data.content.getD []).map (fun m => (m.name, toInt32 m.session, toInt32 m.seq))) →
      (x.isDiscovery_, x.noData_, x.enabled_, x.applicationBroadcastPrefix_) =
        (s.isDiscovery_, s.noData_, s.enabled_, s.applicationBroadcastPrefix_) →
      ∃ s1, some (x.sendSyncInterest x.syncLifetime_ now) = some s1 ∧
        s1.digestTree_ = applyUpdates s.digestTree_
          ((data.content.getD []).map (fun m => (m.name, toInt32 m.session, toInt32 m.seq))) ∧
        s1.isDiscovery_ = false ∧ s1.noData_ = s.noData_ ∧ s1.enabled_ = true ∧
        s1.applicationBroadcastPrefix_ = s.applicationBroadcastPrefix_ := by
    intro x hx hf
    obtain ⟨h1, _, calls, h3, _⟩ := sendSyncInterest_frame x x.syncLifetime_ now
    have hf1 : x.isDiscovery_ = s.isDiscovery_ := congrArg Prod.fst hf
    have hf2 : x.noData_ = s.noData_ := congrArg (fun p => p.2.1) hf
    have hf3 : x.enabled_ = s.enabled_ := congrArg (fun p => p.2.2.1) hf
    have hf4 : x.applicationBroadcastPrefix_ = s.applicationBroadcastPrefix_ :=
      congrArg (fun p => p.2.2.2) hf
    refine ⟨_, rfl, by rw [h1, hx], ?_, ?_, ?_, ?_⟩
    · rw [h3.2.2.2.1, hf1, hd]
    · rw [h3.2.2.2.2.1, hf2]
    · rw [h3.2.2.2.2.2, hf3, hen]
    · rw [h3.2.1, hf4]
  unfold onData
  rw [if_neg (by rw [hen]; decide), hget]
  dsimp only
  rw [if_neg (fun h => by rw [hd] at h; exact absurd h.1 (by decide)),
    if_neg (fun h => hc h.1), if_neg hc, if_neg hroot]
  dsimp only
  cases hu : s.update (data.content.getD []) with
  | mk b s2 =>
    rw [hu] at htree hflags
    dsimp only at htree hflags
    dsimp only
    cases b with
    | false =>
      simp only [Bool.false_eq_true, if_false]
      exact hsend s2 htree hflags
    | true =>
      simp only [if_true]
      obtain ⟨s3, app2, logs, h1, h2, _, _, _, _⟩ :=
        appUpdatesLoop_frame (data.content.getD []) s2 []
      have hf3 := appUpdatesLoop_flags _ _ _ _ _ h1
      rw [h1]
      dsimp only
      exact hsend _ (h2.trans htree) (hf3.trans hflags)

end DataTable

section PositiveReadBackEngine

open ICTSync ICTSync.Impl

theorem run_cons_of_step (s s0 : Impl) (e : Event) (es : List Event) (h : s.step e = some s0) :
    s.run (e :: es) = s0.run es := by
  rw [Impl.run, h]

theorem step_initialTimeout (s : Impl) (i : Interest) (now : Int) :
    s.step (.initialTimeout i now) = some (s.initialTimeout i now) := rfl

theorem step_onData (s : Impl) (i : Interest) (d : Data) (now : Int) :
    s.step (.onData i d now) = s.onData i d now := rfl

theorem applyUpdates_cons_triple (st : ICTVectorState) (p : Str) (x q : Int)
    (cs : List (Str × Int × Int)) :
    applyUpdates st ((p, x, q) :: cs) = applyUpdates (st.update p x q).2 cs := rfl

theorem sessionPayload_calls :
    ("/a".toList, (0 : Int), (1 : Int)) ::
        (sessionPayload 256).map (fun m => (m.name, toInt32 m.session, toInt32 m.seq)) =
      sessionCalls 257 := by
  decide!

theorem sessionPayload_updates : ∀ m ∈ sessionPayload 256, m.type = .UPDATE := by
  decide!

theorem sessionPayload_wellFormed :
    ∀ m ∈ sessionPayload 256, m.seq < 4294967296 ∧ m.session < 4294967296 := by
  decide!

theorem bootstrapped_facts :
    ((create ["a".toList] ["s".toList] 0 4000 0 false false 0 0).initialTimeout
      ⟨["s".toList, "00".toList], 1000⟩ 1000).enabled_ = true ∧
    ((create ["a".toList] ["s".toList] 0 4000 0 false false 0 0).initialTimeout
      ⟨["s".toList, "00".toList], 1000⟩ 1000).isDiscovery_ = false ∧
    ((create ["a".toList] ["s".toList] 0 4000 0 false false 0 0).initialTimeout
      ⟨["s".toList, "00".toList], 1000⟩ 1000).noData_ = false ∧
    ((create ["a".toList] ["s".toList] 0 4000 0 false false 0 0).initialTimeout
      ⟨["s".toList, "00".toList], 1000⟩ 1000).applicationBroadcastPrefix_ = ["s".toList] ∧
    ((create ["a".toList] ["s".toList] 0 4000 0 false false 0 0).initialTimeout
      ⟨["s".toList, "00".toList], 1000⟩ 1000).digestTree_ =
      (ICTVectorState.new.update "/a".toList 0 1).2 := by
  decide

theorem payload_onData :
    ∃ s1, ((create ["a".toList] ["s".toList] 0 4000 0 false false 0 0).initialTimeout
        ⟨["s".toList, "00".toList], 1000⟩ 1000).onData ⟨["s".toList, "0,1;".toList], 4000⟩
        ⟨["s".toList, "0,1;".toList], some (sessionPayload 256), none⟩ 1100 = some s1 ∧
      s1.digestTree_ = applyUpdates
        ((create ["a".toList] ["s".toList] 0 4000 0 false false 0 0).initialTimeout
          ⟨["s".toList, "00".toList], 1000⟩ 1000).digestTree_
        ((sessionPayload 256).map (fun m => (m.name, toInt32 m.session, toInt32 m.seq))) ∧
      s1.isDiscovery_ = false ∧ s1.noData_ = false ∧ s1.enabled_ = true ∧
      s1.applicationBroadcastPrefix_ = ["s".toList] := by
  obtain ⟨hen, hd, hn, hp, ht⟩ := bootstrapped_facts
  obtain ⟨s1, h1, htree, hd1, hn1, hen1, hp1⟩ := onData_sync_table
    ((create ["a".toList] ["s".toList] 0 4000 0 false false 0 0).initialTimeout
      ⟨["s".toList, "00".toList], 1000⟩ 1000)
    ⟨["s".toList, "0,1;".toList], 4000⟩
    ⟨["s".toList, "0,1;".toList], some (sessionPayload 256), none⟩ 1100 "0,1;".toList
    hen hd (by rw [hp]; decide) (by decide) (by rw [ht]; decide) sessionPayload_updates
  exact ⟨s1, h1, htree, hd1, hn1.trans hn, hen1, hp1.trans hp⟩

/-- An engine that holds the table of 257 sessions: the engine of prefix `/a`,
session 0, broadcast prefix `/s` and previous sequence number 0, after its
initial timeout (own row `(/a, 0) → 1`) and a sync data packet with the entries
`(/a, k, 1)` for `k = 1, ..., 256`. -/
theorem engine_sessions257 :
    ∃ s : Impl,
      (create ["a".toList] ["s".toList] 0 4000 0 false false 0 0).run
        [.initialTimeout ⟨["s".toList, "00".toList], 1000⟩ 1000,
         .onData ⟨["s".toList, "0,1;".toList], 4000⟩
           ⟨["s".toList, "0,1;".toList], some (sessionPayload 256), none⟩ 1100] = some s ∧
      ICTSync.Reachable s ∧
      s.digestTree_ = applyUpdates ICTVectorState.new (sessionCalls 257) ∧
      s.noData_ = false ∧ s.isDiscovery_ = false ∧ s.enabled_ = true ∧
      s.applicationBroadcastPrefix_ = ["s".toList] := by
  obtain ⟨s1, h1, htree, hd1, hn1, hen1, hp1⟩ := payload_onData
  have hrun : (create ["a".toList] ["s".toList] 0 4000 0 false false 0 0).run
      [.initialTimeout ⟨["s".toList, "00".toList], 1000⟩ 1000,
       .onData ⟨["s".toList, "0,1;".toList], 4000⟩
         ⟨["s".toList, "0,1;".toList], some (sessionPayload 256), none⟩ 1100] = some s1 := by
    rw [run_cons_of_step _ _ _ _ (step_initialTimeout _ _ _),
      run_cons_of_step _ _ _ _ ((step_onData _ _ _ _).trans h1)]
    rfl
  refine ⟨s1, hrun, ?_, ?_, hn1, hd1, hen1, hp1⟩
  · refine reachable_run _ _ _
      (ICTSync.Reachable.create ["a".toList] ["s".toList] 0 4000 0 false false 0 0
        (by decide) (by decide)) ?_ hrun
    intro e he
    simp only [List.mem_cons, List.mem_singleton, List.not_mem_nil, or_false] at he
    rcases he with rfl | rfl
    · exact True.intro
    · exact sessionPayload_wellFormed
  · rw [htree, bootstrapped_facts.2.2.2.2, ← applyUpdates_cons_triple, sessionPayload_calls]

theorem sessions257_root_ne :
    unescape "1000,1;".toList ≠
      (applyUpdates ICTVectorState.new (sessionCalls 257)).vectorRoot_ := by
  have hne : (applyUpdates ICTVectorState.new (sessionCalls 257)).digestNode_ ≠ [] := by
    rw [applyUpdates_sessionCalls]
    decide!
  rw [(reachable_root sessions257_reachable).2 hne, applyUpdates_sessionCalls]
  decide!

/-- What an engine with the table of 257 sessions, enabled, not in discovery
mode and with `noData_` off, sends for the sync interest `/s/1000,1;`: one
packet whose entries carry the sessions `0, ..., 255, 0`. -/
theorem onInterest_sessions257 (s : Impl) (pushDataName : Bool) (now : Int)
    (hT : s.digestTree_ = applyUpdates ICTVectorState.new (sessionCalls 257))
    (hn : s.noData_ = false) (hd : s.isDiscovery_ = false) (hen : s.enabled_ = true)
    (hp : s.applicationBroadcastPrefix_ = ["s".toList]) :
    ∃ (s1 : Impl) (calls : List Effect) (content : List Sync.SyncState),
      s.onInterest ⟨["s".toList, "1000,1;".toList], 4000⟩ pushDataName now = some s1 ∧
      s1.calls_ = s.calls_ ++ calls ∧
      calls.filterMap Effect.sent =
        [⟨["s".toList, "1000,1;".toList], some content, none⟩] ∧
      content.length = 257 ∧
      content.map (fun m => m.session) = List.range 256 ++ [0] ∧
      256 ∉ content.map (fun m => m.session) := by
  have hnodes : s.digestTree_.digestNode_ = sessionNodes 257 := by
    rw [hT, applyUpdates_sessionCalls]
  have hu : unescape (Component.toUri "1000,1;".toList) = "1000,1;".toList := by decide
  have hu2 : unescape "1000,1;".toList = "1000,1;".toList := by decide
  have hdiff : s.digestTree_.getDiff (Component.toUri "1000,1;".toList) =
      s.digestTree_.getDiff "1000,1;".toList :=
    getDiff_congr _ (by rw [hu, hu2])
  have hpos : (s.digestTree_.getDiff "1000,1;".toList).positiveLocalIndexes =
      List.range 256 ++ [0] := by
    rw [hT]
    exact sessions257_positive_1000
  have hne : List.range 256 ++ [0] ≠ [] := by
    intro hc
    have := congrArg List.length hc
    simp at this
  have hroot : unescape (Component.toUri "1000,1;".toList) ≠ s.digestTree_.getVectorRoot := by
    unfold ICTVectorState.getVectorRoot
    rw [hT, hu, ← hu2]
    exact sessions257_root_ne
  obtain ⟨s1, calls, _, _, h1, _, _, hst, hsent, _, _⟩ := processSyncInterest_frame s
    ⟨["s".toList, "1000,1;".toList], 4000⟩ (Component.toUri "1000,1;".toList) pushDataName now
    0 (by decide)
  have hsent1 := hsent hn
  rw [hdiff, hpos, if_neg hne, hnodes, hd, hp, hu] at hsent1
  refine ⟨s1, calls, (List.range 256 ++ [0]).filterMap
    (fun i => ((sessionNodes 257).get? i).map Node.toUpdate), ?_, hst.1, ?_,
    ?_, sessions257_read_back, ?_⟩
  · rw [onInterest_sync s _ "1000,1;".toList pushDataName now hen (by rw [hp]; rfl)
      (by decide) hroot]
    exact h1
  · rw [hsent1]
    simp
  · have := congrArg List.length sessions257_read_back
    rw [List.length_map] at this
    rw [this]
    decide!
  · rw [sessions257_read_back]
    decide!

end PositiveReadBackEngine

section PositiveReadBackClaim

open ICTSync ICTSync.Impl

/-- C40, the code at a failing input. The table T after `update("/a", k, 1)` for
`k = 0, ..., 256` is reachable and holds 257 entries, the entry of session `k`
at position `k`. Against the digest `"1000,1;"`, which carries none of these
sessions, every entry is positive; the positive list of `getDiff` is
`[0, ..., 255, 0]`, so its element at place 256, which stands for the entry at
position 256, is 0. The engine of prefix `/a`, session 0, broadcast prefix `/s`
and previous sequence number 0 holds this table after its initial timeout and a
sync data packet with the entries `(/a, k, 1)` for `k = 1, ..., 256`; the state
is reachable. For the sync interest `/s/1000,1;` it sends one packet of 257
entries whose sessions are `0, ..., 255, 0`: the entry of session 0 is
reported twice and the entry of session 256 not at all. So does `sendSyncData`
with the positive list on every engine that holds this table, not in discovery
mode and with `noData_` off. -/
theorem positive_index_lost_at_256 :
    Reachable (applyUpdates ICTVectorState.new (sessionCalls 257)) ∧
    (applyUpdates ICTVectorState.new (sessionCalls 257)).digestNode_.map
        (fun n => (n.sessionNo_, n.sequenceNo_)) =
      (List.range 257).map (fun (k : Nat) => (Int.ofNat k, 1)) ∧
    ((applyUpdates ICTVectorState.new (sessionCalls 257)).getDiff
      "1000,1;".toList).positiveLocalIndexes = List.range 256 ++ [0] ∧
    (List.range 256 ++ [0]).length = 257 ∧
    (List.range 256 ++ [0]).get? 256 = some 0 ∧
    (∃ s : Impl,
      (create ["a".toList] ["s".toList] 0 4000 0 false false 0 0).run
        [.initialTimeout ⟨["s".toList, "00".toList], 1000⟩ 1000,
         .onData ⟨["s".toList, "0,1;".toList], 4000⟩
           ⟨["s".toList, "0,1;".toList], some (sessionPayload 256), none⟩ 1100] = some s ∧
      ICTSync.Reachable s ∧
      s.digestTree_ = applyUpdates ICTVectorState.new (sessionCalls 257) ∧
      ∀ (pushDataName : Bool) (now : Int),
        ∃ (s1 : Impl) (calls : List Effect) (content : List Sync.SyncState),
          s.onInterest ⟨["s".toList, "1000,1;".toList], 4000⟩ pushDataName now = some s1 ∧
          s1.calls_ = s.calls_ ++ calls ∧
          calls.filterMap Effect.sent =
            [⟨["s".toList, "1000,1;".toList], some content, none⟩] ∧
          content.length = 257 ∧
          content.map (fun m => m.session) = List.range 256 ++ [0] ∧
          256 ∉ content.map (fun m => m.session)) ∧
    ∀ (s : Impl) (sendName : Bool),
      s.digestTree_ = applyUpdates ICTVectorState.new (sessionCalls 257) →
      s.noData_ = false → s.isDiscovery_ = false →
      ∃ content : List Sync.SyncState,
        s.sendSyncData "1000,1;".toList
            (s.digestTree_.getDiff "1000,1;".toList).positiveLocalIndexes sendName =
          some (true, s.log (.put ⟨s.applicationBroadcastPrefix_ ++ ["1000,1;".toList],
            some content, none⟩)) ∧
        content.length = 257 ∧
        content.map (fun m => m.session) = List.range 256 ++ [0] ∧
        256 ∉ content.map (fun m => m.session) :=
  ⟨sessions257_reachable, sessions257_rows, sessions257_positive_1000, by decide!, by decide!,
    engine_sessions257.imp (fun s h => ⟨h.1, h.2.1, h.2.2.1,
      fun pushDataName now => onInterest_sessions257 s pushDataName now h.2.2.1 h.2.2.2.1
        h.2.2.2.2.1 h.2.2.2.2.2.1 h.2.2.2.2.2.2⟩),
    sendSyncData_sessions257⟩

end PositiveReadBackClaim


/-! ## The two sides of a diff on tables of at most 256 entries -/

section DiffDualitySmall

theorem mem_positive_iff (remote : List (Nat × Nat)) (l : List Node) (i : Nat)
    (hlen : l.length ≤ 256) :
    i ∈ ((l.enumFrom 0).filter (fun x => isPositive remote x.2)).map (fun x => x.1 % 256) ↔
      ∃ n, l.get? i = some n ∧ isPositive remote n = true := by
  rw [List.mem_map]
  constructor
  · rintro ⟨⟨j, n⟩, hmem, hj⟩
    rw [List.mem_filter, List.mk_mem_enumFrom_iff_le_and_getElem?_sub] at hmem
    obtain ⟨⟨_, hget⟩, hp⟩ := hmem
    rw [Nat.sub_zero] at hget
    have hjl : j < l.length := by
      rcases Nat.lt_or_ge j l.length with h | h
      · exact h
      · rw [List.getElem?_eq_none h] at hget
        cases hget
    have hji : j = i := by
      simp only at hj
      omega
    subst hji
    exact ⟨n, by rw [List.get?_eq_getElem?]; exact hget, hp⟩
  · rintro ⟨n, hget, hp⟩
    rw [List.get?_eq_getElem?] at hget
    have hil : i < l.length := by
      rcases Nat.lt_or_ge i l.length with h | h
      · exact h
      · rw [List.getElem?_eq_none h] at hget
        cases hget
    refine ⟨(i, n), ?_, ?_⟩
    · rw [List.mem_filter, List.mk_mem_enumFrom_iff_le_and_getElem?_sub]
      exact ⟨⟨Nat.zero_le _, by rw [Nat.sub_zero]; exact hget⟩, hp⟩
    · simp only
      omega

/-- The pair the search of `getDiff` finds in the pairs of a table with unique
session ids for an entry whose session the row `x` of the table has. -/
theorem matchingPair_unique (l : List Node) (hw : ∀ m ∈ l, isInt m.sessionNo_)
    (hu : (l.map Node.sessionNo_).Nodup) (x : Node) (hx : x ∈ l) (L : Node)
    (hs : L.sessionNo_ = x.sessionNo_) :
    matchingPair (l.map entryPair) L = some (entryPair x) := by
  obtain ⟨m, hm, hms, hf⟩ := matchingPair_own x (hw x hx) l hw hx
  have hmx : m = x := List.inj_on_of_nodup_map hu hm hx hms
  rw [matchingPair_congr _ hs, hf, hmx]

/-- No pair is found for an entry whose session the table does not have. -/
theorem matchingPair_absent (l : List Node) (hw : ∀ m ∈ l, isInt m.sessionNo_) (L : Node)
    (hL : isInt L.sessionNo_) (habs : ∀ n ∈ l, n.sessionNo_ ≠ L.sessionNo_) :
    matchingPair (l.map entryPair) L = none := by
  unfold matchingPair
  rw [List.find?_eq_none]
  intro r hr
  obtain ⟨n, hn, rfl⟩ := List.mem_map.mp hr
  simp only [entryPair, decide_eq_true_eq]
  intro hc
  exact habs n hn (toUInt32_inj hL (hw n hn) hc).symm

/-- The duality of the two diffs of two reachable tables A and B with unique
session ids, B with at most 256 entries. For the entry `b` at index `i` of B:
when A has an entry `a` of the same session, the pair of `b` is in the negative
list of `A.getDiff(root of B)` exactly when `i` is in the positive list of
`B.getDiff(root of A)`, which is when the sequence of `a` is below that of `b`
as unsigned values; the pair of `b` is in the unknown list of
`A.getDiff(root of B)` exactly when A has no entry of that session, and then
`i` is in the positive list of `B.getDiff(root of A)`. -/
theorem diff_duality_small (A B : ICTVectorState) (hA : Reachable A) (hB : Reachable B)
    (huA : (A.digestNode_.map Node.sessionNo_).Nodup)
    (huB : (B.digestNode_.map Node.sessionNo_).Nodup)
    (hlen : B.digestNode_.length ≤ 256) (i : Nat) (b : Node)
    (hb : B.digestNode_.get? i = some b) :
    (∀ a ∈ A.digestNode_, a.sessionNo_ = b.sessionNo_ →
      (entryPair b ∈ (A.getDiff B.vectorRoot_).negativeInLocal ↔
        i ∈ (B.getDiff A.vectorRoot_).positiveLocalIndexes) ∧
      (i ∈ (B.getDiff A.vectorRoot_).positiveLocalIndexes ↔
        toUInt32 a.sequenceNo_ < toUInt32 b.sequenceNo_)) ∧
    (entryPair b ∈ (A.getDiff B.vectorRoot_).unknownSessions ↔
      ∀ n ∈ A.digestNode_, n.sessionNo_ ≠ b.sessionNo_) ∧
    ((∀ n ∈ A.digestNode_, n.sessionNo_ ≠ b.sessionNo_) →
      i ∈ (B.getDiff A.vectorRoot_).positiveLocalIndexes) := by
  have hwA : ∀ m ∈ A.digestNode_, isInt m.sessionNo_ := fun m hm => (reachable_wellTyped hA m hm).1
  have hwB : ∀ m ∈ B.digestNode_, isInt m.sessionNo_ := fun m hm => (reachable_wellTyped hB m hm).1
  have hbm : b ∈ B.digestNode_ := List.get?_mem hb
  have hpos : i ∈ (B.getDiff A.vectorRoot_).positiveLocalIndexes ↔
      isPositive (A.digestNode_.map entryPair) b = true := by
    rw [(getDiff_eq B _).1, parse_own_root hA, mem_positive_iff _ _ _ hlen]
    constructor
    · rintro ⟨n, hn, hp⟩
      rw [hb] at hn
      cases hn
      exact hp
    · intro hp
      exact ⟨b, hb, hp⟩
  refine ⟨?_, ?_, ?_⟩
  · intro a ha hab
    have hposQ : i ∈ (B.getDiff A.vectorRoot_).positiveLocalIndexes ↔
        toUInt32 a.sequenceNo_ < toUInt32 b.sequenceNo_ := by
      rw [hpos]
      unfold isPositive
      rw [matchingPair_unique _ hwA huA a ha b hab.symm]
      simp [entryPair]
    refine ⟨?_, hposQ⟩
    rw [hposQ, (getDiff_eq A _).2.1, parse_own_root hB, mem_negative_iff]
    constructor
    · rintro ⟨L, hL, hm, hlt⟩
      have hfst := (matchingPair_fst hm).2
      have hLb : L.sessionNo_ = b.sessionNo_ :=
        (toUInt32_inj (hwB b hbm) (hwA L hL) hfst).symm
      have hLa : L = a := List.inj_on_of_nodup_map huA hL ha (hLb.trans hab.symm)
      rw [hLa] at hlt
      exact hlt
    · intro hQ
      exact ⟨a, ha, matchingPair_unique _ hwB huB b hbm a hab, hQ⟩
  · rw [(getDiff_eq A _).2.2.1, parse_own_root hB, List.mem_filter]
    simp only [decide_eq_true_eq, findSession_eq_neg_one]
    have e : toInt32 (entryPair b).1 = b.sessionNo_ := toInt32_toUInt32 (hwB b hbm)
    rw [e]
    exact ⟨fun h => h.2, fun h => ⟨List.mem_map_of_mem _ hbm, h⟩⟩
  · intro habs
    rw [hpos]
    unfold isPositive
    rw [matchingPair_absent _ hwA b (hwB b hbm) habs]

end DiffDualitySmall

section DiffDualityClaim

/-- C37, the code in general and at a failing input. For reachable tables A and
B with unique session ids, B with at most 256 entries, the duality holds: for
the entry `b` at index `i` of B and an entry `a` of A of the same session, the
pair of `b` is in the negative list of `A.getDiff(root of B)` exactly when `i`
is in the positive list of `B.getDiff(root of A)`; the pair of `b` is in the
unknown list of `A.getDiff(root of B)` exactly when A has no entry of that
session, and then `i` is in that positive list. With 257 entries it fails: A is
the state after `update("/a", 0, 1)`, B the state after `update("/a", k, 1)`
for `k = 0, ..., 256`; both are reachable, with unique session ids and
sequence numbers 1. Both hold session 0 with the same sequence, so the negative
list of `A.getDiff(root of B)` is empty; yet the positive list of
`B.getDiff(root of A)` is `[1, ..., 255, 0]` and holds 0, the index of the entry
of session 0 in B: it is what is recorded for the entry at index 256. The pair
`(256, 1)` of B is in the unknown list of `A.getDiff(root of B)`, A holding no
entry of session 256, but 256, the index of that entry in B, is not in the
positive list of `B.getDiff(root of A)`. -/
theorem diff_duality_fails_at_256 :
    (∀ (A B : ICTVectorState), Reachable A → Reachable B →
      (A.digestNode_.map Node.sessionNo_).Nodup → (B.digestNode_.map Node.sessionNo_).Nodup →
      B.digestNode_.length ≤ 256 →
      ∀ (i : Nat) (b : Node), B.digestNode_.get? i = some b →
        (∀ a ∈ A.digestNode_, a.sessionNo_ = b.sessionNo_ →
          (entryPair b ∈ (A.getDiff B.vectorRoot_).negativeInLocal ↔
            i ∈ (B.getDiff A.vectorRoot_).positiveLocalIndexes)) ∧
        (entryPair b ∈ (A.getDiff B.vectorRoot_).unknownSessions ↔
          ∀ n ∈ A.digestNode_, n.sessionNo_ ≠ b.sessionNo_) ∧
        ((∀ n ∈ A.digestNode_, n.sessionNo_ ≠ b.sessionNo_) →
          i ∈ (B.getDiff A.vectorRoot_).positiveLocalIndexes)) ∧
    Reachable (ICTVectorState.new.update "/a".toList 0 1).2 ∧
    Reachable (applyUpdates ICTVectorState.new (sessionCalls 257)) ∧
    (ICTVectorState.new.update "/a".toList 0 1).2.digestNode_.map
        (fun n => (n.sessionNo_, n.sequenceNo_)) = [(0, 1)] ∧
    (applyUpdates ICTVectorState.new (sessionCalls 257)).digestNode_.map
        (fun n => (n.sessionNo_, n.sequenceNo_)) =
      (List.range 257).map (fun (k : Nat) => (Int.ofNat k, 1)) ∧
    ((ICTVectorState.new.update "/a".toList 0 1).2.getDiff
        (applyUpdates ICTVectorState.new (sessionCalls 257)).vectorRoot_).negativeInLocal = [] ∧
    ((applyUpdates ICTVectorState.new (sessionCalls 257)).getDiff
        (ICTVectorState.new.update "/a".toList 0 1).2.vectorRoot_).positiveLocalIndexes =
      List.range' 1 255 ++ [0] ∧
    (256, 1) ∈ ((ICTVectorState.new.update "/a".toList 0 1).2.getDiff
        (applyUpdates ICTVectorState.new (sessionCalls 257)).vectorRoot_).unknownSessions ∧
    (∀ n ∈ (ICTVectorState.new.update "/a".toList 0 1).2.digestNode_, n.sessionNo_ ≠ 256) ∧
    (applyUpdates ICTVectorState.new (sessionCalls 257)).digestNode_.get? 256 =
      some (Node.new "/a".toList 256 1) ∧
    256 ∉ ((applyUpdates ICTVectorState.new (sessionCalls 257)).getDiff
        (ICTVectorState.new.update "/a".toList 0 1).2.vectorRoot_).positiveLocalIndexes :=
  ⟨fun A B hA hB huA huB hlen i b hb =>
      ⟨fun a ha hab => ((diff_duality_small A B hA hB huA huB hlen i b hb).1 a ha hab).1,
        (diff_duality_small A B hA hB huA huB hlen i b hb).2⟩,
    Reachable.update _ _ _ Reachable.init (by decide) (by decide), sessions257_reachable,
    by decide, sessions257_rows, sessions257_negative, sessions257_positive,
    sessions257_unknown, by decide, sessions257_last, sessions257_not_positive⟩

end DiffDualityClaim

end ict
